import Mathlib

/-! Flat binomial heap (`origin/heaps/flat_binomial_heap.hpp`)

A shallow embedding of `origin::binomial_heap` and of `origin::mutable_binomial_heap`.

* `std::vector` is a `List`; an access `v[i]` outside the bounds of the vector is undefined
  behaviour in C++ and is the fault `Fault.outOfBounds` here.
* `size_type` is a 64 bit unsigned integer; it is a `Nat` here, and `size_type(-1)` is `npos`.
  No arithmetic of the source can wrap for a vector that fits the address space: the only
  additions are `degree + 1` (a degree is at most the number of nodes) and `size() - 1` on a
  vector that has just been pushed to.
* every `while` loop is a function that recurses on a fuel argument; a loop that has not
  finished when the fuel is used up is the fault `Fault.fuel`. The callers hand over more fuel
  than there are nodes.
* the comparator `compare_` is a parameter of the operations.
-/

namespace origin

/-- The value `size_type(-1)`, the sentinel for "no node" (`std::size_t` has 64 bits). -/
def npos : Nat := 2 ^ 64 - 1

/-- Ways in which a call does not produce a result. `EmptyHeap` and `UnknownIdentity` are the
checked errors of the specification (no code of the source raises them); `outOfBounds` is an
unchecked access outside the bounds of a vector, `fuel` is a loop that did not finish. -/
inductive Fault where
  | EmptyHeap
  | UnknownIdentity
  | outOfBounds
  | fuel
  deriving DecidableEq, Repr

/-- The link structure of a node, `struct binomial_heap_node`. -/
structure binomial_heap_node where
  index : Nat
  parent : Nat
  child : Nat
  right_sibling : Nat
  degree : Nat
  deriving DecidableEq, Repr

/-- The node built by `binomial_heap_node()`: the constructor leaves `index` without a value
(it is `0` here, and never read before it is written). -/
def binomial_heap_node.fresh : binomial_heap_node :=
  { index := 0, parent := npos, child := npos, right_sibling := npos, degree := 0 }

/-- The vector access `v[i]`. -/
def at_ {β : Type} (v : List β) (i : Nat) : Except Fault β :=
  match v[i]? with
  | some x => .ok x
  | none => .error .outOfBounds

/-- The assignment `v[i] = x`. -/
def put_ {β : Type} (v : List β) (i : Nat) (x : β) : Except Fault (List β) :=
  if i < v.length then .ok (v.set i x) else .error .outOfBounds

/-- An assignment to fields of `nodes_[i]`. -/
def upd_ (v : List binomial_heap_node) (i : Nat)
    (f : binomial_heap_node → binomial_heap_node) : Except Fault (List binomial_heap_node) :=
  match v[i]? with
  | some x => .ok (v.set i (f x))
  | none => .error .outOfBounds

/-- The function `binomial_link(nodes_[m], nodes_[n], m, n)`: link the node `m` as the child
of `n`. The four assignments are made in the order of the source. -/
def binomial_link (nodes_ : List binomial_heap_node) (m n : Nat) :
    Except Fault (List binomial_heap_node) := do
  let nodes_ ← upd_ nodes_ m (fun x => { x with parent := n })
  let y ← at_ nodes_ n
  let nodes_ ← upd_ nodes_ m (fun x => { x with right_sibling := y.child })
  let nodes_ ← upd_ nodes_ n (fun y => { y with child := m })
  upd_ nodes_ n (fun y => { y with degree := y.degree + 1 })

/-- The state of a `binomial_heap<T, Comp, Alloc>` (the comparator is passed to the
operations). -/
structure binomial_heap (α : Type) where
  data_ : List α
  nodes_ : List binomial_heap_node
  reversemap_ : List Nat
  top_ : Nat
  head_ : Nat
  deriving DecidableEq, Repr

namespace binomial_heap

variable {α : Type}

/-- The default constructor: `top_{-1}, head_{-1}` and empty vectors. -/
def new : binomial_heap α :=
  { data_ := [], nodes_ := [], reversemap_ := [], top_ := npos, head_ := npos }

/-- The member `empty()`. -/
def empty (s : binomial_heap α) : Bool := s.data_.length == 0

/-- The member `size()`. -/
def size (s : binomial_heap α) : Nat := s.data_.length

/-- The member `top()`: `data_[nodes_[top_].index]`, without any test. -/
def top (s : binomial_heap α) : Except Fault α := do
  let n ← at_ s.nodes_ s.top_
  at_ s.data_ n.index

/-- The loop of `get_new_top`. -/
def get_new_top_loop (compare_ : α → α → Bool) (data_ : List α)
    (nodes_ : List binomial_heap_node) : Nat → Nat → Nat → Except Fault Nat
  | 0, _, _ => .error .fuel
  | fuel + 1, top_index, tmp =>
    if tmp = npos then .ok top_index
    else do
      let nt ← at_ nodes_ tmp
      let a ← at_ data_ nt.index
      let ntop ← at_ nodes_ top_index
      let b ← at_ data_ ntop.index
      let top_index := if !compare_ a b then tmp else top_index
      get_new_top_loop compare_ data_ nodes_ fuel top_index nt.right_sibling

/-- The member `get_new_top()`. -/
def get_new_top (compare_ : α → α → Bool) (s : binomial_heap α) : Except Fault Nat :=
  if s.head_ = npos then .ok npos
  else do
    let nh ← at_ s.nodes_ s.head_
    get_new_top_loop compare_ s.data_ s.nodes_ (s.nodes_.length + 1) s.head_ nh.right_sibling

/-- The loop of `merge`; the arguments are `nodes_`, `current`, `p` and `q`. -/
def merge_loop : Nat → List binomial_heap_node → Nat → Nat → Nat →
    Except Fault (List binomial_heap_node)
  | 0, _, _, _, _ => .error .fuel
  | fuel + 1, nodes_, current, p, q =>
    if p = npos ∧ q = npos then .ok nodes_
    else do
      let takes_p ←
        if q = npos then pure true
        else if p = npos then pure false
        else do
          let np ← at_ nodes_ p
          let nq ← at_ nodes_ q
          pure (decide (np.degree < nq.degree))
      if takes_p then do
        let nodes_ ← upd_ nodes_ current (fun x => { x with right_sibling := p })
        let np ← at_ nodes_ p
        merge_loop fuel nodes_ p np.right_sibling q
      else do
        let nodes_ ← upd_ nodes_ current (fun x => { x with right_sibling := q })
        let nq ← at_ nodes_ q
        merge_loop fuel nodes_ q p nq.right_sibling

/-- The member `merge(index)`. -/
def merge (s : binomial_heap α) (index : Nat) : Except Fault (binomial_heap α) := do
  let current := s.nodes_.length
  let nodes_ := s.nodes_ ++ [binomial_heap_node.fresh]
  let nodes_ ← merge_loop (nodes_.length + 1) nodes_ current s.head_ index
  let back ← at_ nodes_ (nodes_.length - 1)
  pure { s with head_ := back.right_sibling, nodes_ := nodes_.dropLast }

/-- The test of the loop of `unite`: the degrees of `x` and `next_x` differ, or there is a
root after `next_x` and it has the degree of `x`. -/
def unite_skips (nodes_ : List binomial_heap_node) (x next_x : Nat) : Except Fault Bool := do
  let nx ← at_ nodes_ x
  let nn ← at_ nodes_ next_x
  if nx.degree ≠ nn.degree then pure true
  else if nn.right_sibling = npos then pure false
  else do
    let nnn ← at_ nodes_ nn.right_sibling
    pure (decide (nnn.degree = nx.degree))

/-- The loop of `unite`; the arguments are `nodes_`, `head_`, `prev_x`, `x` and `next_x`, the
result is `nodes_` and `head_`. -/
def unite_loop (compare_ : α → α → Bool) (data_ : List α) :
    Nat → List binomial_heap_node → Nat → Nat → Nat → Nat →
    Except Fault (List binomial_heap_node × Nat)
  | 0, _, _, _, _, _ => .error .fuel
  | fuel + 1, nodes_, head_, prev_x, x, next_x =>
    if next_x = npos then .ok (nodes_, head_)
    else do
      let skips ← unite_skips nodes_ x next_x
      if skips then do
        let nn ← at_ nodes_ next_x
        unite_loop compare_ data_ fuel nodes_ head_ x next_x nn.right_sibling
      else do
        let nx ← at_ nodes_ x
        let nn ← at_ nodes_ next_x
        let a ← at_ data_ nx.index
        let b ← at_ data_ nn.index
        if !compare_ a b then do
          let nodes_ ← upd_ nodes_ x (fun n => { n with right_sibling := nn.right_sibling })
          let nodes_ ← binomial_link nodes_ next_x x
          let nx ← at_ nodes_ x
          unite_loop compare_ data_ fuel nodes_ head_ prev_x x nx.right_sibling
        else do
          let (nodes_, head_) ←
            if prev_x = npos then pure (nodes_, next_x)
            else do
              let nodes_ ← upd_ nodes_ prev_x (fun n => { n with right_sibling := next_x })
              pure (nodes_, head_)
          let nodes_ ← binomial_link nodes_ x next_x
          let nx ← at_ nodes_ next_x
          unite_loop compare_ data_ fuel nodes_ head_ prev_x next_x nx.right_sibling

/-- The member `unite(index)` (the source calls it by the name `binomial_heap_union` in
`push` and `pop`). -/
def unite (compare_ : α → α → Bool) (s : binomial_heap α) (index : Nat) :
    Except Fault (binomial_heap α) := do
  let s ← merge s index
  let nh ← at_ s.nodes_ s.head_
  if nh.right_sibling = npos then pure s
  else do
    let (nodes_, head_) ←
      unite_loop compare_ s.data_ (s.nodes_.length + 1) s.nodes_ s.head_ npos s.head_
        nh.right_sibling
    pure { s with nodes_ := nodes_, head_ := head_ }

/-- The member `push(d)`. -/
def push (compare_ : α → α → Bool) (s : binomial_heap α) (d : α) :
    Except Fault (binomial_heap α) := do
  let data_ := s.data_ ++ [d]
  let obj : binomial_heap_node :=
    { index := data_.length - 1, parent := npos, right_sibling := npos, child := npos,
      degree := 0 }
  let nodes_ := s.nodes_ ++ [obj]
  let index := nodes_.length - 1
  let reversemap_ := s.reversemap_ ++ [index]
  let s := { s with data_ := data_, nodes_ := nodes_, reversemap_ := reversemap_ }
  if s.head_ = npos then
    pure { s with head_ := index, top_ := index }
  else do
    let s ← unite compare_ s index
    let ni ← at_ s.nodes_ index
    let a ← at_ s.data_ ni.index
    let nt ← at_ s.nodes_ s.top_
    let b ← at_ s.data_ nt.index
    if !compare_ a b then pure { s with top_ := index } else pure s

/-- The loop of `pop` that reverses the child list of the old top; the arguments are
`nodes_`, `new_head` and `tmp_head`, the result is `nodes_` and `new_head`. -/
def reverse_loop : Nat → List binomial_heap_node → Nat → Nat →
    Except Fault (List binomial_heap_node × Nat)
  | 0, _, _, _ => .error .fuel
  | fuel + 1, nodes_, new_head, tmp_head =>
    if tmp_head = npos then .ok (nodes_, new_head)
    else do
      let nt ← at_ nodes_ tmp_head
      let tmp_sibling := nt.right_sibling
      let nodes_ ← upd_ nodes_ tmp_head (fun n => { n with parent := npos })
      let nodes_ ← upd_ nodes_ tmp_head (fun n => { n with right_sibling := new_head })
      reverse_loop fuel nodes_ tmp_head tmp_sibling

/-- The loop of `pop` that looks for the root in front of `top_`. -/
def find_prev_loop (nodes_ : List binomial_heap_node) (top_ : Nat) : Nat → Nat →
    Except Fault Nat
  | 0, _ => .error .fuel
  | fuel + 1, tmp => do
    let nt ← at_ nodes_ tmp
    if nt.right_sibling ≠ top_ then find_prev_loop nodes_ top_ fuel nt.right_sibling
    else pure tmp

/-- The first block of `pop`, under the comment "Reverse the list": the child list of the node
`top_` is reversed and its nodes lose their parent. The result is `nodes_` and `new_head`. -/
def pop_reverse (s : binomial_heap α) : Except Fault (List binomial_heap_node × Nat) := do
  let ntop ← at_ s.nodes_ s.top_
  if ntop.child ≠ npos then
    reverse_loop (s.nodes_.length + 1) s.nodes_ npos ntop.child
  else pure (s.nodes_, npos)

/-- The second block of `pop`: the node `top_` is taken off the root list, and the reversed
child list `new_head` is united with what is left. -/
def pop_unlink (compare_ : α → α → Bool) (s : binomial_heap α) (new_head : Nat) :
    Except Fault (binomial_heap α) := do
  let nh ← at_ s.nodes_ s.head_
  if nh.right_sibling = npos then pure { s with head_ := new_head }
  else if s.head_ = s.top_ then
    unite compare_ { s with head_ := nh.right_sibling } new_head
  else do
    let tmp ← find_prev_loop s.nodes_ s.top_ (s.nodes_.length + 1) s.head_
    let nt ← at_ s.nodes_ s.top_
    let nodes_ ← upd_ s.nodes_ tmp (fun n => { n with right_sibling := nt.right_sibling })
    unite compare_ { s with nodes_ := nodes_ } new_head

/-- The third block of `pop`: the last value is copied to the slot of the node `temp`, the
node of the last value gets this slot, the node `temp` is invalidated and the last entries of
`data_` and `reversemap_` are dropped. -/
def pop_compact (s : binomial_heap α) (temp : Nat) : Except Fault (binomial_heap α) := do
  let index ← at_ s.reversemap_ (s.reversemap_.length - 1)
  let ntemp ← at_ s.nodes_ temp
  let last ← at_ s.data_ (s.data_.length - 1)
  let data_ ← put_ s.data_ ntemp.index last
  let reversemap_ ← put_ s.reversemap_ ntemp.index index
  let nodes_ ← upd_ s.nodes_ index (fun n => { n with index := ntemp.index })
  let nodes_ ← upd_ nodes_ temp (fun n =>
    { n with parent := npos, child := npos, right_sibling := npos, degree := 0,
             index := npos })
  pure { s with data_ := data_.dropLast, reversemap_ := reversemap_.dropLast,
                nodes_ := nodes_ }

/-- The member `pop()`. -/
def pop (compare_ : α → α → Bool) (s : binomial_heap α) : Except Fault (binomial_heap α) :=
  if s.head_ = npos then pure s
  else do
    let temp := s.top_
    let (nodes_, new_head) ← pop_reverse s
    let s ← pop_unlink compare_ { s with nodes_ := nodes_ } new_head
    let s ← pop_compact s temp
    let top_ ← get_new_top compare_ s
    pure { s with top_ := top_ }

end binomial_heap

/-- An operation of the public interface of the heap. -/
inductive Op (α : Type) where
  | push (d : α)
  | pop
  deriving DecidableEq, Repr

/-- One operation applied to a state. -/
def step {α : Type} (compare_ : α → α → Bool) (s : binomial_heap α) : Op α →
    Except Fault (binomial_heap α)
  | .push d => s.push compare_ d
  | .pop => s.pop compare_

/-- The operations of a list applied in order, from the state `s`. -/
def runFrom {α : Type} (compare_ : α → α → Bool) (s : binomial_heap α) : List (Op α) →
    Except Fault (binomial_heap α)
  | [] => pure s
  | o :: os => do
    let s ← step compare_ s o
    runFrom compare_ s os

/-- The operations of a list applied in order to the heap built by the default constructor. -/
def run {α : Type} (compare_ : α → α → Bool) (ops : List (Op α)) :
    Except Fault (binomial_heap α) :=
  runFrom compare_ binomial_heap.new ops

/-! ## The mutable heap

`origin::mutable_binomial_heap` repeats `get_new_top`, `merge`, the union and the first two
blocks of `pop` of `binomial_heap` word for word; the loops of the flat heap are used for them.
The index map `id_` is a `std::unordered_map<T, size_type>`; it is a list of entries here, and
the function `key` stands for `std::hash<T>` and `std::equal_to<T>`: two values are the same
key of the map when `key` gives the same for them. -/

/-- The state of a `mutable_binomial_heap<T, Comp, Map, Alloc>`. -/
structure mutable_binomial_heap (α κ : Type) where
  data_ : List α
  nodes_ : List binomial_heap_node
  id_ : List (κ × Nat)
  top_ : Nat
  head_ : Nat
  deriving DecidableEq, Repr

/-- The entry of the map for the key `k`, if there is one. -/
def id_find {κ : Type} [DecidableEq κ] (m : List (κ × Nat)) (k : κ) : Option Nat :=
  match m with
  | [] => none
  | (k', v) :: m => if k' = k then some v else id_find m k

/-- The assignment `id_[k] = v`: the entry of `k` is overwritten, or added. -/
def id_assign {κ : Type} [DecidableEq κ] (m : List (κ × Nat)) (k : κ) (v : Nat) :
    List (κ × Nat) :=
  match m with
  | [] => [(k, v)]
  | (k', v') :: m => if k' = k then (k, v) :: m else (k', v') :: id_assign m k v

/-- The read `id_[k]`: `operator[]` of `std::unordered_map` adds the entry `(k, 0)` when the
key has none. The result is the value and the map. -/
def id_index {κ : Type} [DecidableEq κ] (m : List (κ × Nat)) (k : κ) : Nat × List (κ × Nat) :=
  match id_find m k with
  | some v => (v, m)
  | none => (0, id_assign m k 0)

/-- What the parameter `d` of `update(const value_type& d)` refers to during the call: an
object outside of the vector `data_`, which holds the value `v`, or the element `data_[k]` of
the heap (the member `top()` returns a reference to an element of `data_`). -/
inductive ValueRef (α : Type) where
  | outside (v : α)
  | stored (k : Nat)
  deriving DecidableEq, Repr

namespace mutable_binomial_heap

variable {α κ : Type} [DecidableEq κ]

/-- The default constructor: `top_{-1}, head_{-1}` and empty containers. -/
def new : mutable_binomial_heap α κ :=
  { data_ := [], nodes_ := [], id_ := [], top_ := npos, head_ := npos }

/-- The member `empty()`: `head_ == -1u`. The literal `-1u` is an `unsigned int` of 32 bits;
the comparison converts it to `std::size_t`, which keeps its value `2 ^ 32 - 1`. -/
def empty (s : mutable_binomial_heap α κ) : Bool := s.head_ == 2 ^ 32 - 1

/-- The member `size()`. -/
def size (s : mutable_binomial_heap α κ) : Nat := s.data_.length

/-- The member `top()`: `data_[nodes_[top_].index]`, without any test. -/
def top (s : mutable_binomial_heap α κ) : Except Fault α := do
  let n ← at_ s.nodes_ s.top_
  at_ s.data_ n.index

/-- The state of the flat heap with the vectors of the mutable heap (and no reverse map),
for the members that both classes define in the same words. -/
def flat (s : mutable_binomial_heap α κ) : binomial_heap α :=
  { data_ := s.data_, nodes_ := s.nodes_, reversemap_ := [], top_ := s.top_, head_ := s.head_ }

/-- The member `get_new_top()`. -/
def get_new_top (compare_ : α → α → Bool) (s : mutable_binomial_heap α κ) : Except Fault Nat :=
  binomial_heap.get_new_top compare_ s.flat

/-- The member `mutable_binomial_heap_union(index)`, with the call of `merge(index)`. -/
def mutable_binomial_heap_union (compare_ : α → α → Bool) (s : mutable_binomial_heap α κ)
    (index : Nat) : Except Fault (mutable_binomial_heap α κ) := do
  let f ← binomial_heap.unite compare_ s.flat index
  pure { s with nodes_ := f.nodes_, head_ := f.head_ }

/-- The member `push(d)`. -/
def push (compare_ : α → α → Bool) (key : α → κ) (s : mutable_binomial_heap α κ) (d : α) :
    Except Fault (mutable_binomial_heap α κ) := do
  let data_ := s.data_ ++ [d]
  let obj : binomial_heap_node :=
    { index := data_.length - 1, parent := npos, right_sibling := npos, child := npos,
      degree := 0 }
  let nodes_ := s.nodes_ ++ [obj]
  let index := nodes_.length - 1
  let id_ := id_assign s.id_ (key d) index
  let s := { s with data_ := data_, nodes_ := nodes_, id_ := id_ }
  if s.empty then
    pure { s with head_ := index, top_ := index }
  else do
    let s ← mutable_binomial_heap_union compare_ s index
    let ni ← at_ s.nodes_ index
    let a ← at_ s.data_ ni.index
    let nt ← at_ s.nodes_ s.top_
    let b ← at_ s.data_ nt.index
    if !compare_ a b then pure { s with top_ := index } else pure s

/-- A read of the parameter `d` of `update(const value_type& d)`: the parameter is a reference,
and every use of `d` in the body reads the object it refers to at that time, from `data_` when
the reference is to an element of `data_`. -/
def read_ref (data_ : List α) : ValueRef α → Except Fault α
  | .outside v => .ok v
  | .stored k => at_ data_ k

/-- The loop of `update`; the arguments are `data_`, `id_`, `index` and `parent`, the result
is `data_`, `id_` and `index`. The condition reads `d`, and the second assignment of the swap
reads `d` after the first assignment has written to `data_`. -/
def update_loop (compare_ : α → α → Bool) (key : α → κ) (nodes_ : List binomial_heap_node)
    (d : ValueRef α) : Nat → List α → List (κ × Nat) → Nat → Nat →
    Except Fault (List α × List (κ × Nat) × Nat)
  | 0, _, _, _, _ => .error .fuel
  | fuel + 1, data_, id_, index, parent =>
    if parent = npos then .ok (data_, id_, index)
    else do
      let dv ← read_ref data_ d
      let np ← at_ nodes_ parent
      let pv ← at_ data_ np.index
      if !compare_ dv pv then do
        let ni ← at_ nodes_ index
        let data_ ← put_ data_ ni.index pv
        let dv ← read_ref data_ d
        let data_ ← put_ data_ np.index dv
        let moved ← at_ data_ ni.index
        let id_ := id_assign id_ (key moved) index
        update_loop compare_ key nodes_ d fuel data_ id_ parent np.parent
      else .ok (data_, id_, index)

/-- The member `update(d)`. The parameter is read for `id_[d]` and the first assignment, in
the loop, and after the loop for `id_[d] = index` and the test of the cached top. -/
def update (compare_ : α → α → Bool) (key : α → κ) (s : mutable_binomial_heap α κ)
    (d : ValueRef α) : Except Fault (mutable_binomial_heap α κ) := do
  let dv ← read_ref s.data_ d
  let (index, id_) := id_index s.id_ (key dv)
  let ni ← at_ s.nodes_ index
  let parent := ni.parent
  let data_ ← put_ s.data_ ni.index dv
  let (data_, id_, index) ←
    update_loop compare_ key s.nodes_ d (s.nodes_.length + 1) data_ id_ index parent
  let dv ← read_ref data_ d
  let id_ := id_assign id_ (key dv) index
  let nt ← at_ s.nodes_ s.top_
  let tv ← at_ data_ nt.index
  if !compare_ dv tv then pure { s with data_ := data_, id_ := id_, top_ := index }
  else pure { s with data_ := data_, id_ := id_ }

/-- The third block of `pop` of the mutable heap: the node of the last value is looked up in
`id_`, the last value is copied to the slot of the node `temp`, the node of the last value
gets this slot, the node `temp` is invalidated and the last value is dropped. -/
def pop_compact (key : α → κ) (s : mutable_binomial_heap α κ) (temp : Nat) :
    Except Fault (mutable_binomial_heap α κ) := do
  let last ← at_ s.data_ (s.data_.length - 1)
  let (index, id_) := id_index s.id_ (key last)
  let ntemp ← at_ s.nodes_ temp
  let data_ ← put_ s.data_ ntemp.index last
  let nodes_ ← upd_ s.nodes_ index (fun n => { n with index := ntemp.index })
  let nodes_ ← upd_ nodes_ temp (fun n =>
    { n with parent := npos, child := npos, right_sibling := npos, degree := 0,
             index := npos })
  pure { s with data_ := data_.dropLast, id_ := id_, nodes_ := nodes_ }

/-- The member `pop()`. -/
def pop (compare_ : α → α → Bool) (key : α → κ) (s : mutable_binomial_heap α κ) :
    Except Fault (mutable_binomial_heap α κ) :=
  if s.head_ = npos then pure s
  else do
    let temp := s.top_
    let (nodes_, new_head) ← binomial_heap.pop_reverse s.flat
    let f ← binomial_heap.pop_unlink compare_ { s.flat with nodes_ := nodes_ } new_head
    let s ← pop_compact key { s with nodes_ := f.nodes_, head_ := f.head_ } temp
    let top_ ← get_new_top compare_ s
    pure { s with top_ := top_ }

end mutable_binomial_heap

/-- An operation of the public interface of the mutable heap. -/
inductive MOp (α : Type) where
  | push (d : α)
  | pop
  | update (d : ValueRef α)
  deriving DecidableEq, Repr

/-- One operation applied to a state of the mutable heap. -/
def mstep {α κ : Type} [DecidableEq κ] (compare_ : α → α → Bool) (key : α → κ)
    (s : mutable_binomial_heap α κ) : MOp α → Except Fault (mutable_binomial_heap α κ)
  | .push d => s.push compare_ key d
  | .pop => s.pop compare_ key
  | .update d => s.update compare_ key d

/-- The operations of a list applied in order, from the state `s`. -/
def mrunFrom {α κ : Type} [DecidableEq κ] (compare_ : α → α → Bool) (key : α → κ)
    (s : mutable_binomial_heap α κ) : List (MOp α) → Except Fault (mutable_binomial_heap α κ)
  | [] => pure s
  | o :: os => do
    let s ← mstep compare_ key s o
    mrunFrom compare_ key s os

/-! ## The forest a state stands for

The proofs read the node array as a forest in left child, right sibling form: `node i a c s`
is the node with index `i` in `nodes_` that holds the value `a`, `c` is the list of its
children and `s` the rest of the list the node is on. -/

/-- A list of trees: the nodes on a sibling list, each with the list of its children. -/
inductive Forest (α : Type) where
  | nil : Forest α
  | node (i : Nat) (a : α) (c s : Forest α) : Forest α

namespace Forest

variable {α : Type}

/-- The number of nodes on the sibling list. -/
def len : Forest α → Nat
  | nil => 0
  | node _ _ _ s => len s + 1

/-- The index of every node of the forest. -/
def idxs : Forest α → List Nat
  | nil => []
  | node i _ c s => i :: (idxs c ++ idxs s)

/-- The value of every node of the forest, in the order of `idxs`. -/
def vals : Forest α → List α
  | nil => []
  | node _ a c s => a :: (vals c ++ vals s)

/-- The nodes on the sibling list itself, with their values. -/
def roots : Forest α → List (Nat × α)
  | nil => []
  | node i a _ s => (i, a) :: roots s

/-- The number of children of each node on the sibling list. -/
def ranks : Forest α → List Nat
  | nil => []
  | node _ _ c s => len c :: ranks s

/-- The index of the first node of the list, `e` for the empty list. -/
def start (e : Nat) : Forest α → Nat
  | nil => e
  | node i _ _ _ => i

/-- One sibling list followed by another. -/
def app : Forest α → Forest α → Forest α
  | nil, G => G
  | node i a c s, G => node i a c (app s G)

/-- The child list of a binomial tree of rank `k`: binomial trees of the ranks
`k-1, k-2, ..., 0`, in this order. -/
def desc : Nat → Forest α → Prop
  | 0, nil => True
  | k + 1, node _ _ c s => desc k c ∧ desc k s
  | _, _ => False

/-- Every tree of the list is a binomial tree (of the rank that is the number of its
children). -/
def bin : Forest α → Prop
  | nil => True
  | node _ _ c s => desc (len c) c ∧ bin s

/-- Heap order in the direction of the source: no node holds a value that compares less
than a value below it. -/
def hord (compare_ : α → α → Bool) : Forest α → Prop
  | nil => True
  | node _ a c s => (∀ b ∈ vals c, compare_ a b = false) ∧ hord compare_ c ∧ hord compare_ s

/-- The list reversed onto `acc`, as the loop of `pop` does. -/
def rev : Forest α → Forest α → Forest α
  | acc, nil => acc
  | acc, node i a c s => rev (node i a c acc) s

/-- The result of `merge` on two lists. -/
def mergeF : Forest α → Forest α → Forest α
  | nil, Q => Q
  | node i a c s, nil => node i a c s
  | node i a c s, node j b c' s' =>
    if len c < len c' then node i a c (mergeF s (node j b c' s'))
    else node j b c' (mergeF (node i a c s) s')
termination_by P Q => len P + len Q
decreasing_by
  all_goals simp_wf
  all_goals simp only [len]
  all_goals omega

/-- The test of `unite` for a third root of the degree `k` after the next one. -/
def third_same (k : Nat) : Forest α → Bool
  | nil => false
  | node _ _ c _ => len c == k

/-- The result of the loop of `unite` on the list that starts at `x`. -/
def uniteF (compare_ : α → α → Bool) : Forest α → Forest α
  | node i a c (node j b c' s') =>
    if len c ≠ len c' ∨ third_same (len c) s' = true then
      node i a c (uniteF compare_ (node j b c' s'))
    else if !compare_ a b then uniteF compare_ (node i a (node j b c' c) s')
    else uniteF compare_ (node j b (node i a c c') s')
  | node i a c nil => node i a c nil
  | nil => nil
termination_by F => len F
decreasing_by
  all_goals simp_wf
  all_goals simp only [len]
  all_goals omega

/-- The result of the scan of `get_new_top` over the roots `rs`, from the candidate `best`. -/
def topL (compare_ : α → α → Bool) : Nat × α → List (Nat × α) → Nat × α
  | best, [] => best
  | best, r :: rs => topL compare_ (if !compare_ r.2 best.2 then r else best) rs

/-- The index `get_new_top` returns for the forest. -/
def topF (compare_ : α → α → Bool) : Forest α → Nat
  | nil => npos
  | node i a _ s => (topL compare_ (i, a) (roots s)).1

/-- The child list of the node with index `t`. -/
def childrenOf (t : Nat) : Forest α → Forest α
  | nil => nil
  | node i _ c s =>
    if i = t then c else if t ∈ idxs c then childrenOf t c else childrenOf t s

/-- The value of the node with index `t`. -/
def valueOf (t : Nat) : Forest α → Option α
  | nil => none
  | node i a c s =>
    if i = t then some a else if t ∈ idxs c then valueOf t c else valueOf t s

/-- The sibling list without the node with index `t`. -/
def removeRoot (t : Nat) : Forest α → Forest α
  | nil => nil
  | node i a c s => if i = t then s else node i a c (removeRoot t s)

/-- The part of the sibling list in front of the node with index `t`. -/
def before (t : Nat) : Forest α → Forest α
  | nil => nil
  | node i a c s => if i = t then nil else node i a c (before t s)

/-- The part of the sibling list behind the node with index `t`. -/
def after (t : Nat) : Forest α → Forest α
  | nil => nil
  | node i _ _ s => if i = t then s else after t s

/-- The indices of the nodes on the sibling list itself. -/
def heads : Forest α → List Nat
  | nil => []
  | node i _ _ s => i :: heads s

/-- Every node of the forest with its value, in the order of `idxs`. -/
def items : Forest α → List (Nat × α)
  | nil => []
  | node i a c s => (i, a) :: (items c ++ items s)

/-- The forest after `push` of the value `d`, stored in the new node `i`. -/
def pushF (compare_ : α → α → Bool) (i : Nat) (d : α) (F : Forest α) : Forest α :=
  match F with
  | nil => node i d nil nil
  | F => uniteF compare_ (mergeF F (node i d nil nil))

/-- The forest after `pop` when the cached top is the node `t`. -/
def popF (compare_ : α → α → Bool) (t : Nat) (F : Forest α) : Forest α :=
  match F with
  | nil => nil
  | node i a c nil => rev nil (childrenOf t (node i a c nil))
  | F => uniteF compare_ (mergeF (removeRoot t F) (rev nil (childrenOf t F)))

end Forest

/-- The node array `ns` (with the values `d` and the reverse map `rm`) holds the sibling list
`F` from the index `x` on: the nodes have the parent `p`, the list ends with the link `e`, and
every node has its value and its entry of the reverse map at its slot. -/
def rep {α : Type} (d : List α) (rm : List Nat) (ns : List binomial_heap_node) :
    Nat → Nat → Forest α → Nat → Prop
  | _, e, .nil, x => x = e
  | p, e, .node i a c s, x => x = i ∧ ∃ n, ns[i]? = some n ∧ n.parent = p ∧
      n.degree = c.len ∧ d[n.index]? = some a ∧ rm[n.index]? = some i ∧
      rep d rm ns i npos c n.child ∧ rep d rm ns p e s n.right_sibling

/-- The node array `ns'` has the length of `ns`, the same nodes outside of the indices `S`,
and the same `index` field in every node. -/
def Frame (S : List Nat) (ns ns' : List binomial_heap_node) : Prop :=
  ns'.length = ns.length ∧ (∀ j : Nat, j ∉ S → ns'[j]? = ns[j]?) ∧
    ∀ (j : Nat) (n : binomial_heap_node), ns[j]? = some n →
      ∃ n' : binomial_heap_node, ns'[j]? = some n' ∧ n'.index = n.index

/-- The state `s` holds the forest `F`: the structure that every reachable state has. -/
structure Rep {α : Type} (s : binomial_heap α) (F : Forest α) : Prop where
  nodes_lt : s.nodes_.length < npos
  rm_len : s.reversemap_.length = s.data_.length
  slots : ∀ k, k < s.data_.length →
    ∃ i n, s.reversemap_[k]? = some i ∧ s.nodes_[i]? = some n ∧ n.index = k
  forest : rep s.data_ s.reversemap_ s.nodes_ npos npos F s.head_
  nodup : F.idxs.Nodup
  bin : F.bin
  sorted : F.ranks.Sorted (· < ·)

/-- What every state has that `push` and `pop` reach from the empty heap, for every
comparator: it holds a binomial forest, and the cached top is a node of this forest (the none
sentinel when the forest is empty). -/
def Inv {α : Type} (s : binomial_heap α) : Prop :=
  ∃ F : Forest α, Rep s F ∧ (F ≠ .nil → s.top_ ∈ F.idxs) ∧ (F = .nil → s.top_ = npos)

/-- What every state has that `push` and `pop` reach from the empty heap when the comparator
is a strict weak order and no two values held are equivalent: the forest holds all values and
is in heap order, and the cached top is the root with the greatest value. -/
def VInv {α : Type} (compare_ : α → α → Bool) (s : binomial_heap α) : Prop :=
  ∃ F : Forest α, Rep s F ∧ F.hord compare_ ∧ F.vals.Perm s.data_ ∧
    (F = .nil → s.top_ = npos) ∧
    (F ≠ .nil → ∃ tv, (s.top_, tv) ∈ F.roots ∧ ∀ b ∈ F.vals, compare_ tv b = false)

/-- The values pushed by a list of operations, in order. -/
def pushed {α : Type} : List (Op α) → List α
  | [] => []
  | .push d :: os => d :: pushed os
  | .pop :: os => pushed os

/-- The nodes on the list that starts at the index `x` and is linked by `right_sibling`, up
to the none sentinel. -/
def root_chain (ns : List binomial_heap_node) : Nat → List binomial_heap_node → Prop
  | x, [] => x = npos
  | x, n :: l => ns[x]? = some n ∧ root_chain ns n.right_sibling l

/-- The default comparator `std::less<T>`, on integers. -/
def less (a b : Nat) : Bool := decide (a < b)

/-- The value of `top()` after the operations of a list on the empty heap. -/
def top_after {α : Type} (compare_ : α → α → Bool) (ops : List (Op α)) : Except Fault α := do
  let s ← run compare_ ops
  s.top

/-- The value of `size()` after the operations of a list on the empty heap. -/
def size_after {α : Type} (compare_ : α → α → Bool) (ops : List (Op α)) : Except Fault Nat := do
  let s ← run compare_ ops
  pure s.size

/-- The values that `k` calls of `pop` in a row remove, in order: each one is what `top()`
returns just before the call. -/
def extracted {α : Type} (compare_ : α → α → Bool) : Nat → binomial_heap α →
    Except Fault (List α)
  | 0, _ => pure []
  | k + 1, s => do
    let t ← s.top
    let s ← s.pop compare_
    let l ← extracted compare_ k s
    pure (t :: l)

/-- The value of `top()` of the mutable heap after the operations of a list on the state
`s`. -/
def mtop_after {α κ : Type} [DecidableEq κ] (compare_ : α → α → Bool) (key : α → κ)
    (s : mutable_binomial_heap α κ) (ops : List (MOp α)) : Except Fault α := do
  let s ← mrunFrom compare_ key s ops
  s.top

/-- A comparator on values that are a pair of an identity and a priority: `std::less` on the
priority. -/
def less_priority (a b : Nat × Nat) : Bool := decide (a.2 < b.2)

/-- The state of the mutable heap that holds the values `(1, 10)`, `(2, 20)` and `(3, 30)`
(identity and priority), with the vectors that three calls of `push` build in the flat heap
and with the index map of the three identities. -/
def held3 : mutable_binomial_heap (Nat × Nat) Nat :=
  { data_ := [(1, 10), (2, 20), (3, 30)],
    nodes_ := [{ index := 0, parent := 1, child := npos, right_sibling := npos, degree := 0 },
               { index := 1, parent := npos, child := 0, right_sibling := npos, degree := 1 },
               { index := 2, parent := npos, child := npos, right_sibling := 1, degree := 0 }],
    id_ := [(1, 0), (2, 1), (3, 2)],
    top_ := 2,
    head_ := 2 }

/-- The forest of `held3`. -/
def held3_forest : Forest (Nat × Nat) :=
  .node 2 (3, 30) .nil (.node 1 (2, 20) (.node 0 (1, 10) .nil .nil) .nil)

/-- A comparator that is a strict weak order. -/
structure StrictWeak {α : Type} (compare_ : α → α → Bool) : Prop where
  irrefl : ∀ a, compare_ a a = false
  trans : ∀ a b c, compare_ a b = true → compare_ b c = true → compare_ a c = true
  incomp : ∀ a b c, compare_ a b = false → compare_ b a = false → compare_ b c = false →
    compare_ c b = false → compare_ a c = false ∧ compare_ c a = false

end origin

namespace origin

/-! ## Invariants of the slots and of the index map -/

/-- The node array `ns'` has the length of `ns` and the same `index` field in every node. -/
def SameSlots (ns ns' : List binomial_heap_node) : Prop :=
  ns'.length = ns.length ∧ ∀ (j : Nat) (n : binomial_heap_node), ns[j]? = some n →
    ∃ n' : binomial_heap_node, ns'[j]? = some n' ∧ n'.index = n.index

/-- The node array `ns'` has the length of `ns`, and its nodes differ from the nodes of `ns`
in the field `right_sibling` at most. -/
def OnlySiblings (ns ns' : List binomial_heap_node) : Prop :=
  ns'.length = ns.length ∧ ∀ (j : Nat) (n : binomial_heap_node), ns[j]? = some n →
    ∃ n' : binomial_heap_node, ns'[j]? = some n' ∧ n'.index = n.index ∧
      n'.parent = n.parent ∧ n'.child = n.child ∧ n'.degree = n.degree

/-- The slots of a state of the flat heap: a node is live when its `index` field is a position
of `data_`; the `index` field of a node that is not live is the none sentinel; every position
has a node, and `reversemap_` is the inverse of the `index` field on the live nodes. -/
structure Slots {α : Type} (s : binomial_heap α) : Prop where
  rm_len : s.reversemap_.length = s.data_.length
  le_nodes : s.data_.length ≤ s.nodes_.length
  valid : ∀ (i : Nat) (n : binomial_heap_node), s.nodes_[i]? = some n →
    n.index = npos ∨ n.index < s.data_.length
  owner : ∀ k : Nat, k < s.data_.length →
    ∃ (i : Nat) (n : binomial_heap_node),
      s.reversemap_[k]? = some i ∧ s.nodes_[i]? = some n ∧ n.index = k
  back : ∀ (i : Nat) (n : binomial_heap_node), s.nodes_[i]? = some n →
    n.index < s.data_.length → s.reversemap_[n.index]? = some i

/-- The index map of a state of the mutable heap: the values held have different keys, every
position of `data_` is the slot of a node, and the map gives, for the value in the slot of a
live node, this node. -/
structure Ids {α κ : Type} [DecidableEq κ] (key : α → κ) (s : mutable_binomial_heap α κ) :
    Prop where
  le_nodes : s.data_.length ≤ s.nodes_.length
  valid : ∀ (i : Nat) (n : binomial_heap_node), s.nodes_[i]? = some n →
    n.index = npos ∨ n.index < s.data_.length
  owner : ∀ k : Nat, k < s.data_.length →
    ∃ (i : Nat) (n : binomial_heap_node), s.nodes_[i]? = some n ∧ n.index = k
  keys : ∀ (k1 k2 : Nat) (v1 v2 : α), s.data_[k1]? = some v1 → s.data_[k2]? = some v2 →
    key v1 = key v2 → k1 = k2
  ident : ∀ (i : Nat) (n : binomial_heap_node) (v : α), s.nodes_[i]? = some n →
    s.data_[n.index]? = some v → id_find s.id_ (key v) = some i

/-- The operation does not push a value whose key a value of the heap has. -/
def fresh_key {α κ : Type} [DecidableEq κ] (key : α → κ) (s : mutable_binomial_heap α κ) :
    MOp α → Bool
  | .push d => s.data_.all (fun v => decide (key v ≠ key d))
  | _ => true

/-- No operation of the list, applied in order from the state `s`, pushes a value whose key a
value of the heap has at that time. -/
def fresh_keys {α κ : Type} [DecidableEq κ] (compare_ : α → α → Bool) (key : α → κ) :
    mutable_binomial_heap α κ → List (MOp α) → Bool
  | _, [] => true
  | s, o :: os =>
    fresh_key key s o &&
      match mstep compare_ key s o with
      | .ok s' => fresh_keys compare_ key s' os
      | .error _ => true

namespace Forest

variable {α : Type}

/-- The nodes on the sibling list itself, each with the number of its children. -/
def hranks : Forest α → List (Nat × Nat)
  | nil => []
  | node i _ c s => (i, len c) :: hranks s

end Forest

/-- The scan of the root list in the words of the specification, for comparison with
`get_new_top`: the first root met stays the candidate unless a later root strictly exceeds
it, that is, unless the candidate compares less than the later root. -/
def first_best {α : Type} (compare_ : α → α → Bool) : Nat × α → List (Nat × α) → Nat × α
  | best, [] => best
  | best, r :: rs => first_best compare_ (if compare_ best.2 r.2 then r else best) rs

/-- The operations with equivalent values after which the cached top is not a root:
`push 0, push 1, push 1, push 1, pop, push 0`. -/
def tied_ops : List (Op Nat) := [.push 0, .push 1, .push 1, .push 1, .pop, .push 0]

/-- The state in the call `push(3)` on the heap that holds 5, after the new node is appended
and before `merge(1)`: two roots without children, the list at `head_` and the list at 1. -/
def two_roots : binomial_heap Nat :=
  { data_ := [5, 3],
    nodes_ := [{ index := 0, parent := npos, child := npos, right_sibling := npos, degree := 0 },
               { index := 1, parent := npos, child := npos, right_sibling := npos, degree := 0 }],
    reversemap_ := [0, 1],
    top_ := 0,
    head_ := 0 }

/-- The nodes of `two_roots` after `merge(1)`: the list is the node 1 and then the node 0. -/
def two_roots_merged : List binomial_heap_node :=
  [{ index := 0, parent := npos, child := npos, right_sibling := npos, degree := 0 },
   { index := 1, parent := npos, child := npos, right_sibling := 0, degree := 0 }]

/-- The state of the mutable heap that holds the values `(1, 20)` and `(2, 20)` (identity and
priority; the priorities are equal), with the vectors that the pushes of these two values
build in the flat heap, where the node 0 is the child of the node 1, and with the index map of
the two identities. -/
def held2 : mutable_binomial_heap (Nat × Nat) Nat :=
  { data_ := [(1, 20), (2, 20)],
    nodes_ := [{ index := 0, parent := 1, child := npos, right_sibling := npos, degree := 0 },
               { index := 1, parent := npos, child := 0, right_sibling := npos, degree := 1 }],
    id_ := [(1, 0), (2, 1)],
    top_ := 1,
    head_ := 1 }

end origin

namespace origin

/-! ## Heap order on the node array -/

/-- Heap order between every live node and its parent, in the direction of the links: a live
node (its `index` field is a position of `data_`) whose `parent` field is a node has a live
parent, and the value of the parent does not compare less than the value of the node. -/
def HeapOrder {α : Type} (compare_ : α → α → Bool) (s : binomial_heap α) : Prop :=
  ∀ (c : Nat) (nc : binomial_heap_node), s.nodes_[c]? = some nc →
    nc.index < s.data_.length → nc.parent ≠ npos →
    ∃ (np : binomial_heap_node) (vp vc : α), s.nodes_[nc.parent]? = some np ∧
      s.data_[np.index]? = some vp ∧ s.data_[nc.index]? = some vc ∧ compare_ vp vc = false

/-- The live nodes outside of the forest `F` (nodes that a `pop` with a cached top below the
root list has cut off): the parent of such a node is outside of the forest too, it is live,
and its value does not compare less than the value of the node. -/
def Orphans {α : Type} (compare_ : α → α → Bool) (s : binomial_heap α) (F : Forest α) : Prop :=
  ∀ (c : Nat) (nc : binomial_heap_node), s.nodes_[c]? = some nc → c ∉ F.idxs →
    nc.index < s.data_.length → nc.parent ≠ npos →
    nc.parent ∉ F.idxs ∧
    ∃ (np : binomial_heap_node) (vp vc : α), s.nodes_[nc.parent]? = some np ∧
      s.data_[np.index]? = some vp ∧ s.data_[nc.index]? = some vc ∧ compare_ vp vc = false

/-- What every state has that `push` and `pop` reach from the empty heap when the comparator
is a strict weak order, whatever the values are: the forest at `head_` is in heap order, the
cached top is one of its nodes, the slots are right, and the nodes outside of the forest are
in heap order among themselves. -/
def OInv {α : Type} (compare_ : α → α → Bool) (s : binomial_heap α) : Prop :=
  ∃ F : Forest α, Rep s F ∧ (F ≠ .nil → s.top_ ∈ F.idxs) ∧ (F = .nil → s.top_ = npos) ∧
    F.hord compare_ ∧ Slots s ∧ Orphans compare_ s F

/-! ## The row of CSV data (`origin/csv.hpp`)

A shallow embedding of `origin::csv_row<std::string>`. A string is the list of its characters.
The member functions of `std::string` that `read` calls are the functions `find_first_of` and
`substr` below; `boost::trim` is `trim`, with the white space of the classic locale. Positions
are `std::size_t`; they are `Nat` here, the result `npos` of a search without success is `none`,
and no arithmetic of `read` can wrap: every difference `p - n` has `n < p`. -/

/-- Ways in which a call of `read` does not produce a result: the exception `csv_error` with
the arguments of its constructor, the `assert` at the start of the field reader, the
exception `std::out_of_range` of `substr`, and a loop that has not finished when its fuel is
used up. -/
inductive CsvFault where
  | csv_error (row col : Nat) (what : String)
  | assertion
  | out_of_range
  | fuel
  deriving DecidableEq, Repr

/-- The quotation mark, the character with the code 34. -/
def quote : Char := Char.ofNat 34

/-- The separator of `operator>>`, the comma: the character with the code 44. -/
def comma : Char := Char.ofNat 44

/-- The member `line.find_first_of(c, pos)`: the first position from `pos` on that holds the
character `c`; `none` is `npos`. -/
def find_first_of (line : List Char) (c : Char) (pos : Nat) : Option Nat :=
  let rest := line.drop pos
  let i := rest.indexOf c
  if i < rest.length then some (pos + i) else none

/-- The member `line.substr(pos, len)`: the characters from `pos` on, `len` of them at most;
the exception `std::out_of_range` when `pos` is behind the end. -/
def substr (line : List Char) (pos len : Nat) : Except CsvFault (List Char) :=
  if pos ≤ line.length then .ok ((line.drop pos).take len) else .error .out_of_range

/-- White space of the classic locale: the space and the characters with the codes 9 to 13. -/
def is_space (c : Char) : Bool := c.toNat == 32 || (9 ≤ c.toNat && c.toNat ≤ 13)

/-- The function `boost::trim`: the string without the white space at its start and at its
end. -/
def trim (s : List Char) : List Char :=
  ((s.dropWhile is_space).reverse.dropWhile is_space).reverse

/-- The state of a `csv_row<std::string>`: the parsed elements and the row index. -/
structure csv_row where
  data : List (List Char)
  row : Nat
  deriving DecidableEq, Repr

namespace csv_row

/-- The member `empty()`: `return data.size();`, the size converted to `bool`. -/
def empty (r : csv_row) : Bool := r.data.length != 0

/-- The member `size()`. -/
def size (r : csv_row) : Nat := r.data.length

/-- The field reader `read(line, n, sep)`; the result is the row and the new value of `n`. -/
def read_field (r : csv_row) (line : List Char) (n : Nat) (sep : Char) :
    Except CsvFault (csv_row × Nat) :=
  match (line)[n]? with
  | none => .error .assertion
  | some c =>
    if c = quote then
      match find_first_of line quote (n + 1) with
      | none => .error (.csv_error r.row n "unmatched quotation mark")
      | some p => do
        let field ← substr line (n + 1) (p - n - 1)
        let r := { r with data := r.data ++ [trim field] }
        let p :=
          match find_first_of line sep (p + 1) with
          | none => line.length
          | some p => p
        pure (r, p + 1)
    else do
      let p :=
        match find_first_of line sep (n + 1) with
        | none => line.length
        | some p => p
      let field ← substr line n (p - n)
      let r := { r with data := r.data ++ [trim field] }
      pure (r, p + 1)

/-- The loop of `read(is, sep)` on the line that `std::getline` has read. -/
def read_loop (line : List Char) (sep : Char) : Nat → csv_row → Nat →
    Except CsvFault csv_row
  | 0, r, n => if n < line.length then .error .fuel else .ok r
  | fuel + 1, r, n =>
    if n < line.length then do
      let (r, n) ← read_field r line n sep
      read_loop line sep fuel r n
    else .ok r

/-- The member `read(is, sep)`, for the line that `std::getline` gives. Every call of the
field reader moves `n` forward, so the loop ends within `line.size()` calls. -/
def read (r : csv_row) (line : List Char) (sep : Char) : Except CsvFault csv_row :=
  read_loop line sep line.length { r with row := r.row + 1 } 0

end csv_row

/-- The field reader in the words of the specification, for a position whose character is
not a quotation mark: the field is the trimmed text from `n` up to the next separator at or
after `n` (the end of the line if there is none), and `n` moves one past this separator. -/
def read_field_spec (r : csv_row) (line : List Char) (n : Nat) (sep : Char) : csv_row × Nat :=
  let p :=
    match find_first_of line sep n with
    | none => line.length
    | some p => p
  ({ r with data := r.data ++ [trim ((line.drop n).take (p - n))] }, p + 1)

/-- The fields of a line without quotation marks in the words of the specification: the
trimmed texts between the separators, in order. -/
def split_fields (sep : Char) : List Char → List Char → List (List Char)
  | acc, [] => [trim acc.reverse]
  | acc, c :: cs =>
    if c = sep then trim acc.reverse :: split_fields sep [] cs
    else split_fields sep (c :: acc) cs

end origin

namespace origin

variable {α : Type}

/-! ## Vector accesses -/

theorem at_ok {β : Type} {v : List β} {i : Nat} {x : β} (h : v[i]? = some x) :
    at_ v i = .ok x := by
  simp [at_, h]

theorem at_ok_iff {β : Type} {v : List β} {i : Nat} {x : β} :
    at_ v i = .ok x ↔ v[i]? = some x := by
  unfold at_
  cases h : v[i]? <;> simp

theorem at_none {β : Type} {v : List β} {i : Nat} (h : v[i]? = none) :
    at_ v i = .error .outOfBounds := by
  simp [at_, h]

theorem upd_ok {v : List binomial_heap_node} {i : Nat} {x : binomial_heap_node}
    (f : binomial_heap_node → binomial_heap_node) (h : v[i]? = some x) :
    upd_ v i f = .ok (v.set i (f x)) := by
  simp [upd_, h]

theorem put_ok {β : Type} {v : List β} {i : Nat} (x : β) (h : i < v.length) :
    put_ v i x = .ok (v.set i x) := by
  simp [put_, h]

theorem lt_of_get {β : Type} {v : List β} {i : Nat} {x : β} (h : v[i]? = some x) :
    i < v.length := by
  rcases List.getElem?_eq_some.1 h with ⟨h', _⟩
  exact h'

theorem get_set_self {β : Type} {v : List β} {i : Nat} {x : β} (y : β) (h : v[i]? = some x) :
    (v.set i y)[i]? = some y :=
  List.getElem?_set_self (lt_of_get h)

theorem get_set_other {β : Type} {v : List β} {i j : Nat} (y : β) (h : i ≠ j) :
    (v.set i y)[j]? = v[j]? :=
  List.getElem?_set_ne h

theorem ne_npos_of_get {ns : List binomial_heap_node} {i : Nat} {n : binomial_heap_node}
    (hle : ns.length ≤ npos) (h : ns[i]? = some n) : i ≠ npos := by
  have := lt_of_get h
  omega

theorem ok_bind {ε β γ : Type} (x : β) (f : β → Except ε γ) :
    (Except.ok x >>= f) = f x := rfl

/-! ## Frames: what a write leaves alone -/

theorem Frame.refl (S : List Nat) (ns : List binomial_heap_node) : Frame S ns ns :=
  ⟨rfl, fun _ _ => rfl, fun _ n h => ⟨n, h, rfl⟩⟩

theorem Frame.trans {S S' T : List Nat} {a b c : List binomial_heap_node}
    (h1 : Frame S a b) (h2 : Frame S' b c) (hS : ∀ j, j ∈ S → j ∈ T)
    (hS' : ∀ j, j ∈ S' → j ∈ T) : Frame T a c := by
  refine ⟨h2.1.trans h1.1, fun j hj => ?_, fun j n hn => ?_⟩
  · rw [h2.2.1 j (fun h => hj (hS' j h)), h1.2.1 j (fun h => hj (hS j h))]
  · obtain ⟨n', hn', e'⟩ := h1.2.2 j n hn
    obtain ⟨n'', hn'', e''⟩ := h2.2.2 j n' hn'
    exact ⟨n'', hn'', e''.trans e'⟩

theorem Frame.mono {S T : List Nat} {a b : List binomial_heap_node}
    (h : Frame S a b) (hS : ∀ j, j ∈ S → j ∈ T) : Frame T a b :=
  ⟨h.1, fun j hj => h.2.1 j (fun h' => hj (hS j h')), h.2.2⟩

theorem Frame.set {ns : List binomial_heap_node} {i : Nat} {n n' : binomial_heap_node}
    (h : ns[i]? = some n) (hi : n'.index = n.index) : Frame [i] ns (ns.set i n') := by
  refine ⟨List.length_set _ _ _, fun j hj => ?_, fun j m hm => ?_⟩
  · have : i ≠ j := fun e => hj (by simp [e])
    exact get_set_other _ this
  · by_cases e : i = j
    · subst e
      rw [h] at hm
      cases hm
      exact ⟨n', get_set_self _ h, hi⟩
    · exact ⟨m, by rw [get_set_other _ e]; exact hm, rfl⟩

theorem Frame.get {S : List Nat} {a b : List binomial_heap_node} (h : Frame S a b)
    {j : Nat} (hj : j ∉ S) {n : binomial_heap_node} (hn : a[j]? = some n) : b[j]? = some n := by
  rw [h.2.1 j hj]; exact hn

/-! ## Forests -/

namespace Forest

@[simp]
theorem len_nil : len (nil : Forest α) = 0 := rfl
@[simp]
theorem len_node (i : Nat) (a : α) (c s : Forest α) :
    len (node i a c s) = len s + 1 := rfl
@[simp]
theorem idxs_nil : idxs (nil : Forest α) = [] := rfl
@[simp]
theorem idxs_node (i : Nat) (a : α) (c s : Forest α) :
    idxs (node i a c s) = i :: (idxs c ++ idxs s) := rfl
@[simp]
theorem vals_nil : vals (nil : Forest α) = [] := rfl
@[simp]
theorem vals_node (i : Nat) (a : α) (c s : Forest α) :
    vals (node i a c s) = a :: (vals c ++ vals s) := rfl
@[simp]
theorem roots_nil : roots (nil : Forest α) = [] := rfl
@[simp]
theorem roots_node (i : Nat) (a : α) (c s : Forest α) :
    roots (node i a c s) = (i, a) :: roots s := rfl
@[simp]
theorem ranks_nil : ranks (nil : Forest α) = [] := rfl
@[simp]
theorem ranks_node (i : Nat) (a : α) (c s : Forest α) :
    ranks (node i a c s) = len c :: ranks s := rfl
@[simp]
theorem start_nil (e : Nat) : start e (nil : Forest α) = e := rfl
@[simp]
theorem start_node (e i : Nat) (a : α) (c s : Forest α) :
    start e (node i a c s) = i := rfl
@[simp]
theorem app_nil_left (G : Forest α) : app nil G = G := rfl
@[simp]
theorem app_node (i : Nat) (a : α) (c s G : Forest α) :
    app (node i a c s) G = node i a c (app s G) := rfl
@[simp]
theorem bin_nil : bin (nil : Forest α) = True := rfl
@[simp]
theorem bin_node (i : Nat) (a : α) (c s : Forest α) :
    bin (node i a c s) = (desc (len c) c ∧ bin s) := rfl
@[simp]
theorem hord_nil (lt : α → α → Bool) : hord lt (nil : Forest α) = True := rfl
@[simp]
theorem hord_node (lt : α → α → Bool) (i : Nat) (a : α) (c s : Forest α) :
    hord lt (node i a c s) = ((∀ b ∈ vals c, lt a b = false) ∧ hord lt c ∧ hord lt s) := rfl
@[simp]
theorem desc_zero_nil : desc 0 (nil : Forest α) = True := rfl
@[simp]
theorem desc_succ_node (k i : Nat) (a : α) (c s : Forest α) :
    desc (k + 1) (node i a c s) = (desc k c ∧ desc k s) := rfl
@[simp]
theorem desc_succ_nil (k : Nat) : desc (k + 1) (nil : Forest α) = False := rfl
@[simp]
theorem desc_zero_node (i : Nat) (a : α) (c s : Forest α) :
    desc 0 (node i a c s) = False := rfl

theorem len_eq_zero {F : Forest α} : len F = 0 ↔ F = nil := by
  cases F <;> simp

theorem desc_len : ∀ (k : Nat) (F : Forest α), desc k F → len F = k
  | 0, nil, _ => rfl
  | 0, node _ _ _ _, h => by simp at h
  | k + 1, nil, h => by simp at h
  | k + 1, node _ _ c s, h => by
    simp only [desc_succ_node] at h
    simp [desc_len k s h.2]

theorem roots_idxs (F : Forest α) : ∀ r ∈ roots F, r.1 ∈ idxs F := by
  induction F with
  | nil => simp
  | node i a c s _ ihs =>
    intro r hr
    simp only [roots_node, List.mem_cons] at hr
    rcases hr with rfl | hr
    · simp
    · have := ihs r hr
      simp [this]

theorem length_roots (F : Forest α) : (roots F).length = len F := by
  induction F with
  | nil => rfl
  | node i a c s _ ihs => simp [ihs]

theorem length_ranks (F : Forest α) : (ranks F).length = len F := by
  induction F with
  | nil => rfl
  | node i a c s _ ihs => simp [ihs]

theorem length_vals (F : Forest α) : (vals F).length = (idxs F).length := by
  induction F with
  | nil => rfl
  | node i a c s ihc ihs => simp [ihc, ihs]

end Forest

/-! ## The representation relation -/

open Forest

@[simp]
theorem rep_nil (d : List α) (rm : List Nat) (ns : List binomial_heap_node)
    (p e x : Nat) : rep d rm ns p e (Forest.nil : Forest α) x = (x = e) := rfl

theorem rep_node (d : List α) (rm : List Nat) (ns : List binomial_heap_node)
    (p e x i : Nat) (a : α) (c s : Forest α) :
    rep d rm ns p e (Forest.node i a c s) x = (x = i ∧ ∃ n, ns[i]? = some n ∧ n.parent = p ∧
      n.degree = c.len ∧ d[n.index]? = some a ∧ rm[n.index]? = some i ∧
      rep d rm ns i npos c n.child ∧ rep d rm ns p e s n.right_sibling) := rfl

theorem rep_start {d : List α} {rm : List Nat} {ns : List binomial_heap_node}
    {p e x : Nat} {F : Forest α} (h : rep d rm ns p e F x) : x = start e F := by
  cases F with
  | nil => simpa using h
  | node i a c s => rw [rep_node] at h; simpa using h.1

/-- Every node of a forest the array holds is inside the array. -/
theorem rep_get {d : List α} {rm : List Nat} {ns : List binomial_heap_node} (F : Forest α) :
    ∀ {p e x : Nat}, rep d rm ns p e F x → ∀ i ∈ idxs F, ∃ n, ns[i]? = some n ∧
      n.index < d.length ∧ rm[n.index]? = some i := by
  induction F with
  | nil => intro p e x _ i hi; simp at hi
  | node j a c s ihc ihs =>
    intro p e x h i hi
    rw [rep_node] at h
    obtain ⟨_, n, hn, _, _, hd, hr, hc, hs⟩ := h
    simp only [idxs_node, List.mem_cons, List.mem_append] at hi
    rcases hi with rfl | hi | hi
    · exact ⟨n, hn, lt_of_get hd, hr⟩
    · exact ihc hc i hi
    · exact ihs hs i hi

/-- The relation only looks at the nodes of the forest and at their slots. -/
theorem rep_congr {d d' : List α} {rm rm' : List Nat} {ns ns' : List binomial_heap_node}
    (F : Forest α) : ∀ {p e x : Nat}, rep d rm ns p e F x →
    (∀ i ∈ idxs F, ∀ n, ns[i]? = some n → ∃ n', ns'[i]? = some n' ∧ n'.parent = n.parent ∧
      n'.child = n.child ∧ n'.right_sibling = n.right_sibling ∧ n'.degree = n.degree ∧
      ∀ a, d[n.index]? = some a → rm[n.index]? = some i →
        d'[n'.index]? = some a ∧ rm'[n'.index]? = some i) →
    rep d' rm' ns' p e F x := by
  induction F with
  | nil => intro p e x h _; simpa using h
  | node j a c s ihc ihs =>
    intro p e x h hf
    rw [rep_node] at h ⊢
    obtain ⟨hx, n, hn, hp, hdeg, hd, hr, hc, hs⟩ := h
    obtain ⟨n', hn', e1, e2, e3, e4, e5⟩ := hf j (by simp) n hn
    obtain ⟨hd', hr'⟩ := e5 a hd hr
    refine ⟨hx, n', hn', e1.trans hp, e4.trans hdeg, hd', hr', ?_, ?_⟩
    · rw [e2]
      exact ihc hc (fun i hi => hf i (by simp [hi]))
    · rw [e3]
      exact ihs hs (fun i hi => hf i (by simp [hi]))

/-- Writes outside of the forest do not change what the array holds. -/
theorem rep_frame {d : List α} {rm : List Nat} {ns ns' : List binomial_heap_node}
    {F : Forest α} {p e x : Nat} (h : rep d rm ns p e F x)
    (hf : ∀ i ∈ idxs F, ns'[i]? = ns[i]?) : rep d rm ns' p e F x := by
  refine rep_congr F h (fun i hi n hn => ⟨n, ?_, rfl, rfl, rfl, rfl, fun a h1 h2 => ⟨h1, h2⟩⟩)
  rw [hf i hi]; exact hn

theorem rep_of_Frame {d : List α} {rm : List Nat} {ns ns' : List binomial_heap_node}
    {S : List Nat} {F : Forest α} {p e x : Nat} (h : rep d rm ns p e F x)
    (hF : Frame S ns ns') (hS : ∀ i ∈ idxs F, i ∉ S) : rep d rm ns' p e F x :=
  rep_frame h (fun i hi => hF.2.1 i (hS i hi))

/-- A list is held in two parts: the first ends where the second starts. -/
theorem rep_app {d : List α} {rm : List Nat} {ns : List binomial_heap_node} (F G : Forest α) :
    ∀ {p e x : Nat}, rep d rm ns p e (app F G) x ↔
      rep d rm ns p (start e G) F x ∧ rep d rm ns p e G (start e G) := by
  induction F with
  | nil =>
    intro p e x
    simp only [app_nil_left, rep_nil]
    constructor
    · intro h
      have := rep_start h
      exact ⟨this, this ▸ h⟩
    · rintro ⟨rfl, h⟩
      exact h
  | node j a c s _ ihs =>
    intro p e x
    simp only [app_node, rep_node]
    constructor
    · rintro ⟨hx, n, hn, hp, hdeg, hd, hr, hc, hs⟩
      exact ⟨⟨hx, n, hn, hp, hdeg, hd, hr, hc, (ihs.1 hs).1⟩, (ihs.1 hs).2⟩
    · rintro ⟨⟨hx, n, hn, hp, hdeg, hd, hr, hc, hs⟩, hG⟩
      exact ⟨hx, n, hn, hp, hdeg, hd, hr, hc, ihs.2 ⟨hs, hG⟩⟩

/-- The end link of a list can be any link when the list is looked at alone. -/
theorem rep_end_unique {d : List α} {rm : List Nat} {ns : List binomial_heap_node}
    (F : Forest α) : ∀ {p e e' x : Nat}, rep d rm ns p e F x → rep d rm ns p e' F x →
    F ≠ nil → e = e' := by
  induction F with
  | nil => intro p e e' x _ _ h; exact absurd rfl h
  | node j a c s _ ihs =>
    intro p e e' x h h' _
    rw [rep_node] at h h'
    obtain ⟨_, n, hn, _, _, _, _, _, hs⟩ := h
    obtain ⟨_, n', hn', _, _, _, _, _, hs'⟩ := h'
    rw [hn] at hn'
    cases hn'
    cases s with
    | nil => simp only [rep_nil] at hs hs'; exact hs.symm.trans hs'
    | node k b c' s' => exact ihs hs hs' (by simp)

end origin

namespace origin

variable {α : Type}

open Forest binomial_heap

namespace Forest

@[simp]
theorem mergeF_nil_left (Q : Forest α) : mergeF nil Q = Q := by
  rw [mergeF]

@[simp]
theorem mergeF_nil_right (P : Forest α) : mergeF P nil = P := by
  cases P <;> rw [mergeF]

theorem mergeF_node_node (i : Nat) (a : α) (c s : Forest α) (j : Nat) (b : α)
    (c' s' : Forest α) : mergeF (node i a c s) (node j b c' s') =
      if len c < len c' then node i a c (mergeF s (node j b c' s'))
      else node j b c' (mergeF (node i a c s) s') := by
  rw [mergeF]

theorem idxs_mergeF (P Q : Forest α) : (idxs (mergeF P Q)).Perm (idxs P ++ idxs Q) := by
  induction P, Q using mergeF.induct with
  | case1 Q => simp
  | case2 i a c s => simp
  | case3 i a c s j b c' s' h ih =>
    rw [mergeF_node_node, if_pos h]
    simp only [idxs_node, List.cons_append, List.append_assoc]
    exact List.Perm.cons _ (List.Perm.append_left _ (by simpa using ih))
  | case4 i a c s j b c' s' h ih =>
    rw [mergeF_node_node, if_neg h]
    simp only [idxs_node] at ih ⊢
    refine (List.Perm.cons j (List.Perm.append_left (idxs c') ih)).trans ?_
    refine List.Perm.trans ?_ (List.perm_middle).symm
    refine List.Perm.cons j ?_
    rw [← List.append_assoc, ← List.append_assoc]
    exact List.Perm.append_right _ List.perm_append_comm

theorem vals_mergeF (P Q : Forest α) : (vals (mergeF P Q)).Perm (vals P ++ vals Q) := by
  induction P, Q using mergeF.induct with
  | case1 Q => simp
  | case2 i a c s => simp
  | case3 i a c s j b c' s' h ih =>
    rw [mergeF_node_node, if_pos h]
    simp only [vals_node, List.cons_append, List.append_assoc]
    exact List.Perm.cons _ (List.Perm.append_left _ (by simpa using ih))
  | case4 i a c s j b c' s' h ih =>
    rw [mergeF_node_node, if_neg h]
    simp only [vals_node] at ih ⊢
    refine (List.Perm.cons b (List.Perm.append_left (vals c') ih)).trans ?_
    refine List.Perm.trans ?_ (List.perm_middle).symm
    refine List.Perm.cons b ?_
    rw [← List.append_assoc, ← List.append_assoc]
    exact List.Perm.append_right _ List.perm_append_comm

theorem roots_mergeF (P Q : Forest α) : (roots (mergeF P Q)).Perm (roots P ++ roots Q) := by
  induction P, Q using mergeF.induct with
  | case1 Q => simp
  | case2 i a c s => simp
  | case3 i a c s j b c' s' h ih =>
    rw [mergeF_node_node, if_pos h]
    simp only [roots_node, List.cons_append]
    exact List.Perm.cons _ (by simpa using ih)
  | case4 i a c s j b c' s' h ih =>
    rw [mergeF_node_node, if_neg h]
    simp only [roots_node] at ih ⊢
    exact (List.Perm.cons (j, b) ih).trans (List.perm_middle).symm

theorem ranks_mergeF (P Q : Forest α) : (ranks (mergeF P Q)).Perm (ranks P ++ ranks Q) := by
  induction P, Q using mergeF.induct with
  | case1 Q => simp
  | case2 i a c s => simp
  | case3 i a c s j b c' s' h ih =>
    rw [mergeF_node_node, if_pos h]
    simp only [ranks_node, List.cons_append]
    exact List.Perm.cons _ (by simpa using ih)
  | case4 i a c s j b c' s' h ih =>
    rw [mergeF_node_node, if_neg h]
    simp only [ranks_node] at ih ⊢
    exact (List.Perm.cons _ ih).trans (List.perm_middle).symm

theorem bin_mergeF (P Q : Forest α) : bin (mergeF P Q) ↔ bin P ∧ bin Q := by
  induction P, Q using mergeF.induct with
  | case1 Q => simp
  | case2 i a c s => simp
  | case3 i a c s j b c' s' h ih =>
    rw [mergeF_node_node, if_pos h]
    simp only [bin_node] at ih ⊢
    rw [ih]; tauto
  | case4 i a c s j b c' s' h ih =>
    rw [mergeF_node_node, if_neg h]
    simp only [bin_node] at ih ⊢
    rw [ih]; tauto

theorem hord_mergeF (lt : α → α → Bool) (P Q : Forest α) :
    hord lt (mergeF P Q) ↔ hord lt P ∧ hord lt Q := by
  induction P, Q using mergeF.induct with
  | case1 Q => simp
  | case2 i a c s => simp
  | case3 i a c s j b c' s' h ih =>
    rw [mergeF_node_node, if_pos h]
    simp only [hord_node] at ih ⊢
    rw [ih]; tauto
  | case4 i a c s j b c' s' h ih =>
    rw [mergeF_node_node, if_neg h]
    simp only [hord_node] at ih ⊢
    rw [ih]; tauto

theorem sorted_mergeF (P Q : Forest α) (hP : (ranks P).Sorted (· ≤ ·))
    (hQ : (ranks Q).Sorted (· ≤ ·)) : (ranks (mergeF P Q)).Sorted (· ≤ ·) := by
  induction P, Q using mergeF.induct with
  | case1 Q => simpa using hQ
  | case2 i a c s => simpa using hP
  | case3 i a c s j b c' s' h ih =>
    rw [mergeF_node_node, if_pos h]
    simp only [ranks_node, List.sorted_cons] at hP hQ ⊢
    refine ⟨?_, ih hP.2 (by simpa using hQ)⟩
    intro r hr
    have := (ranks_mergeF s (node j b c' s')).subset hr
    simp only [ranks_node, List.mem_append, List.mem_cons] at this
    rcases this with h1 | rfl | h1
    · exact hP.1 r h1
    · omega
    · have := hQ.1 r h1; omega
  | case4 i a c s j b c' s' h ih =>
    rw [mergeF_node_node, if_neg h]
    simp only [ranks_node, List.sorted_cons] at hP hQ ⊢
    refine ⟨?_, ih (by simpa using hP) hQ.2⟩
    intro r hr
    have := (ranks_mergeF (node i a c s) s').subset hr
    simp only [ranks_node, List.mem_append, List.mem_cons] at this
    rcases this with (rfl | h1) | h1
    · omega
    · have := hP.1 r h1; omega
    · exact hQ.1 r h1

theorem len_le_idxs (F : Forest α) : len F ≤ (idxs F).length := by
  induction F with
  | nil => simp
  | node i a c s _ ihs => simp; omega

end Forest

theorem nodup_bound {l : List Nat} {n : Nat} (h : l.Nodup) (hb : ∀ i ∈ l, i < n) :
    l.length ≤ n := by
  have hs : l ⊆ List.range n := fun i hi => List.mem_range.2 (hb i hi)
  simpa using (List.subperm_of_subset h hs).length_le

theorem merge_loop_spec (d : List α) (rm : List Nat) : ∀ (n : Nat) (P Q : Forest α)
    (fuel : Nat) (ns : List binomial_heap_node) (cur p q : Nat) (nc : binomial_heap_node),
    len P + len Q ≤ n → n < fuel → ns.length ≤ npos →
    rep d rm ns npos npos P p → rep d rm ns npos npos Q q →
    (idxs P ++ idxs Q).Nodup → cur ∉ idxs P ++ idxs Q → ns[cur]? = some nc →
    (P = nil → Q = nil → nc.right_sibling = npos) →
    ∃ ns', merge_loop fuel ns cur p q = .ok ns' ∧
      Frame (cur :: (idxs P ++ idxs Q)) ns ns' ∧
      ns'[cur]? = some { nc with right_sibling := start npos (mergeF P Q) } ∧
      rep d rm ns' npos npos (mergeF P Q) (start npos (mergeF P Q)) := by
  intro n
  induction n with
  | zero =>
    intro P Q fuel ns cur p q nc hlen hfuel hle hP hQ hnd hcur hnc hrs
    have hP0 : P = nil := len_eq_zero.1 (by omega)
    have hQ0 : Q = nil := len_eq_zero.1 (by omega)
    subst hP0; subst hQ0
    simp only [rep_nil] at hP hQ
    subst hP; subst hQ
    obtain ⟨fuel, rfl⟩ : ∃ k, fuel = k + 1 := ⟨fuel - 1, by omega⟩
    refine ⟨ns, by simp [merge_loop], Frame.refl _ _, ?_, by simp⟩
    have := hrs rfl rfl
    cases nc
    simp_all
  | succ n ih =>
    intro P Q fuel ns cur p q nc hlen hfuel hle hP hQ hnd hcur hnc hrs
    obtain ⟨fuel, rfl⟩ : ∃ k, fuel = k + 1 := ⟨fuel - 1, by omega⟩
    -- the step that takes the first node of `P`
    have takeP : ∀ (i : Nat) (a : α) (c s : Forest α), P = node i a c s →
        mergeF P Q = node i a c (mergeF s Q) →
        merge_loop (fuel + 1) ns cur p q =
          (do let nodes_ ← upd_ ns cur (fun x => { x with right_sibling := p })
              let np ← at_ nodes_ p
              merge_loop fuel nodes_ p np.right_sibling q) →
        ∃ ns', merge_loop (fuel + 1) ns cur p q = .ok ns' ∧
          Frame (cur :: (idxs P ++ idxs Q)) ns ns' ∧
          ns'[cur]? = some { nc with right_sibling := start npos (mergeF P Q) } ∧
          rep d rm ns' npos npos (mergeF P Q) (start npos (mergeF P Q)) := by
      intro i a c s hPe hM hstep
      subst hPe
      rw [rep_node] at hP
      obtain ⟨hp, m, hm, hmp, hmd, hmv, hmr, hc, hs⟩ := hP
      subst hp
      simp only [idxs_node, List.cons_append, List.nodup_cons, List.mem_append,
        List.mem_cons, not_or, List.append_assoc, List.nodup_append,
        List.disjoint_left] at hnd hcur
      obtain ⟨⟨hic, his, hiQ⟩, hcn, ⟨hsn, hQn, hsQ⟩, hcsQ⟩ := hnd
      obtain ⟨hcp, hcc, hcs, hcQ⟩ := hcur
      set ns1 := ns.set cur { nc with right_sibling := p } with hns1
      have h1 : upd_ ns cur (fun x => { x with right_sibling := p }) = .ok ns1 :=
        upd_ok _ hnc
      have hF1 : Frame [cur] ns ns1 := Frame.set hnc rfl
      have hm1 : ns1[p]? = some m := by rw [get_set_other _ hcp]; exact hm
      have hs1 : rep d rm ns1 npos npos s m.right_sibling :=
        rep_of_Frame hs hF1 (by
          intro k hk; simp only [List.mem_singleton]; rintro rfl; exact hcs hk)
      have hQ1 : rep d rm ns1 npos npos Q q :=
        rep_of_Frame hQ hF1 (by
          intro k hk; simp only [List.mem_singleton]; rintro rfl; exact hcQ hk)
      obtain ⟨ns', hrun, hF', hcur', hrep'⟩ := ih s Q fuel ns1 p m.right_sibling q m
        (by simp only [len_node] at hlen; omega) (by omega)
        (by rw [hF1.1]; exact hle) hs1 hQ1
        (by
          simp only [List.nodup_append, List.disjoint_left]
          exact ⟨hsn, hQn, hsQ⟩)
        (by simp only [List.mem_append, not_or]; exact ⟨his, hiQ⟩) hm1
        (by
          intro e1 _
          subst e1
          simpa using hs)
      refine ⟨ns', ?_, ?_, ?_, ?_⟩
      · rw [hstep, h1]
        simp only [bind, Except.bind, at_ok hm1]
        exact hrun
      · refine Frame.trans hF1 hF' ?_ ?_
        · intro j hj; simp only [List.mem_singleton] at hj; simp [hj]
        · intro j hj
          simp only [List.mem_cons, List.mem_append] at hj
          simp only [idxs_node, List.mem_cons, List.mem_append]
          tauto
      · rw [hM]
        simp only [start_node]
        rw [hF'.2.1 cur (by
          simp only [List.mem_cons, List.mem_append, not_or]
          exact ⟨hcp, hcs, hcQ⟩)]
        exact get_set_self _ hnc
      · rw [hM]
        simp only [start_node]
        rw [rep_node]
        refine ⟨rfl, _, hcur', hmp, hmd, hmv, hmr, ?_, hrep'⟩
        have hc1 : rep d rm ns1 p npos c m.child :=
          rep_of_Frame hc hF1 (by
            intro k hk; simp only [List.mem_singleton]; rintro rfl; exact hcc hk)
        refine rep_of_Frame hc1 hF' ?_
        intro k hk
        simp only [List.mem_cons, List.mem_append, not_or]
        exact ⟨fun e => hic (e ▸ hk), (hcsQ hk).1, (hcsQ hk).2⟩
    -- the step that takes the first node of `Q`
    have takeQ : ∀ (j : Nat) (b : α) (c' s' : Forest α), Q = node j b c' s' →
        mergeF P Q = node j b c' (mergeF P s') →
        merge_loop (fuel + 1) ns cur p q =
          (do let nodes_ ← upd_ ns cur (fun x => { x with right_sibling := q })
              let nq ← at_ nodes_ q
              merge_loop fuel nodes_ q p nq.right_sibling) →
        ∃ ns', merge_loop (fuel + 1) ns cur p q = .ok ns' ∧
          Frame (cur :: (idxs P ++ idxs Q)) ns ns' ∧
          ns'[cur]? = some { nc with right_sibling := start npos (mergeF P Q) } ∧
          rep d rm ns' npos npos (mergeF P Q) (start npos (mergeF P Q)) := by
      intro j b c' s' hQe hM hstep
      subst hQe
      rw [rep_node] at hQ
      obtain ⟨hq, m, hm, hmp, hmd, hmv, hmr, hc, hs⟩ := hQ
      subst hq
      simp only [idxs_node, List.nodup_cons, List.mem_append,
        List.mem_cons, not_or, List.nodup_append, List.disjoint_left] at hnd hcur
      obtain ⟨hPn, ⟨⟨hic, his⟩, hcn, hsn, hcs'⟩, hPQ⟩ := hnd
      obtain ⟨hcP, hcq, hcc, hcs⟩ := hcur
      set ns1 := ns.set cur { nc with right_sibling := q } with hns1
      have h1 : upd_ ns cur (fun x => { x with right_sibling := q }) = .ok ns1 :=
        upd_ok _ hnc
      have hF1 : Frame [cur] ns ns1 := Frame.set hnc rfl
      have hm1 : ns1[q]? = some m := by rw [get_set_other _ hcq]; exact hm
      have hs1 : rep d rm ns1 npos npos s' m.right_sibling :=
        rep_of_Frame hs hF1 (by
          intro k hk; simp only [List.mem_singleton]; rintro rfl; exact hcs hk)
      have hP1 : rep d rm ns1 npos npos P p :=
        rep_of_Frame hP hF1 (by
          intro k hk; simp only [List.mem_singleton]; rintro rfl; exact hcP hk)
      obtain ⟨ns', hrun, hF', hcur', hrep'⟩ := ih P s' fuel ns1 q p m.right_sibling m
        (by simp only [len_node] at hlen; omega) (by omega)
        (by rw [hF1.1]; exact hle) hP1 hs1
        (by
          simp only [List.nodup_append, List.disjoint_left]
          exact ⟨hPn, hsn, fun k hk => (hPQ hk).2.2⟩)
        (by
          simp only [List.mem_append, not_or]
          exact ⟨fun h => (hPQ h).1 rfl, his⟩) hm1
        (by
          intro _ e1
          subst e1
          simpa using hs)
      refine ⟨ns', ?_, ?_, ?_, ?_⟩
      · rw [hstep, h1]
        simp only [bind, Except.bind, at_ok hm1]
        exact hrun
      · refine Frame.trans hF1 hF' ?_ ?_
        · intro k hk; simp only [List.mem_singleton] at hk; simp [hk]
        · intro k hk
          simp only [List.mem_cons, List.mem_append] at hk
          simp only [idxs_node, List.mem_cons, List.mem_append]
          tauto
      · rw [hM]
        simp only [start_node]
        rw [hF'.2.1 cur (by
          simp only [List.mem_cons, List.mem_append, not_or]
          exact ⟨hcq, hcP, hcs⟩)]
        exact get_set_self _ hnc
      · rw [hM]
        simp only [start_node]
        rw [rep_node]
        refine ⟨rfl, _, hcur', hmp, hmd, hmv, hmr, ?_, hrep'⟩
        have hc1 : rep d rm ns1 q npos c' m.child :=
          rep_of_Frame hc hF1 (by
            intro k hk; simp only [List.mem_singleton]; rintro rfl; exact hcc hk)
        refine rep_of_Frame hc1 hF' ?_
        intro k hk
        simp only [List.mem_cons, List.mem_append, not_or]
        exact ⟨fun e => hic (e ▸ hk), fun h => (hPQ h).2.1 hk, hcs' hk⟩
    cases P with
    | nil =>
      cases Q with
      | nil =>
        simp only [rep_nil] at hP hQ
        subst hP; subst hQ
        refine ⟨ns, by simp [merge_loop], Frame.refl _ _, ?_, by simp⟩
        have := hrs rfl rfl
        cases nc
        simp_all
      | node j b c' s' =>
        refine takeQ j b c' s' rfl (by simp) ?_
        have hq : q ≠ npos := by
          rw [rep_node] at hQ
          obtain ⟨hq, m, hm, _⟩ := hQ
          subst hq
          exact ne_npos_of_get hle hm
        simp only [rep_nil] at hP
        subst hP
        rw [merge_loop]
        simp [hq, bind, Except.bind, pure, Except.pure]
    | node i a c s =>
      have hp : p ≠ npos := by
        rw [rep_node] at hP
        obtain ⟨hp, m, hm, _⟩ := hP
        subst hp
        exact ne_npos_of_get hle hm
      cases Q with
      | nil =>
        refine takeP i a c s rfl (by simp) ?_
        simp only [rep_nil] at hQ
        subst hQ
        rw [merge_loop]
        simp [hp, bind, Except.bind, pure, Except.pure]
      | node j b c' s' =>
        have hq : q ≠ npos := by
          rw [rep_node] at hQ
          obtain ⟨hq, m, hm, _⟩ := hQ
          subst hq
          exact ne_npos_of_get hle hm
        have hP' := hP
        have hQ' := hQ
        rw [rep_node] at hP' hQ'
        obtain ⟨hpi, m, hm, _, hmd, _⟩ := hP'
        obtain ⟨hqj, m', hm', _, hmd', _⟩ := hQ'
        subst hpi; subst hqj
        by_cases hlt : len c < len c'
        · refine takeP p a c s rfl (by rw [mergeF_node_node, if_pos hlt]) ?_
          rw [merge_loop]
          simp [hp, hq, bind, Except.bind, pure, Except.pure, at_ok hm, at_ok hm', hmd, hmd',
            hlt]
        · refine takeQ q b c' s' rfl (by rw [mergeF_node_node, if_neg hlt]) ?_
          rw [merge_loop]
          simp [hp, hq, bind, Except.bind, pure, Except.pure, at_ok hm, at_ok hm', hmd, hmd',
            hlt]

/-- What `merge` does to a state whose root list is `P`, for a second list `Q` at `q`. -/
theorem merge_spec {s : binomial_heap α} {P Q : Forest α} {q : Nat}
    (hlt : s.nodes_.length < npos)
    (hP : rep s.data_ s.reversemap_ s.nodes_ npos npos P s.head_)
    (hQ : rep s.data_ s.reversemap_ s.nodes_ npos npos Q q)
    (hnd : (idxs P ++ idxs Q).Nodup) :
    ∃ s', merge s q = .ok s' ∧ s'.data_ = s.data_ ∧ s'.reversemap_ = s.reversemap_ ∧
      s'.top_ = s.top_ ∧ Frame (idxs P ++ idxs Q) s.nodes_ s'.nodes_ ∧
      s'.head_ = start npos (mergeF P Q) ∧
      rep s.data_ s.reversemap_ s'.nodes_ npos npos (mergeF P Q) s'.head_ := by
  set ns0 := s.nodes_ ++ [binomial_heap_node.fresh] with hns0
  have hin : ∀ {F : Forest α} {x : Nat}, rep s.data_ s.reversemap_ s.nodes_ npos npos F x →
      ∀ i ∈ idxs F, i < s.nodes_.length := by
    intro F x h i hi
    obtain ⟨n, hn, _⟩ := rep_get F h i hi
    exact lt_of_get hn
  have hf0 : ∀ {F : Forest α} {x : Nat}, rep s.data_ s.reversemap_ s.nodes_ npos npos F x →
      rep s.data_ s.reversemap_ ns0 npos npos F x := by
    intro F x h
    refine rep_frame h (fun i hi => ?_)
    exact List.getElem?_append_left (hin h i hi)
  have hcur : s.nodes_.length ∉ idxs P ++ idxs Q := by
    simp only [List.mem_append, not_or]
    exact ⟨fun h => Nat.lt_irrefl _ (hin hP _ h), fun h => Nat.lt_irrefl _ (hin hQ _ h)⟩
  have hc0 : ns0[s.nodes_.length]? = some binomial_heap_node.fresh := by
    simp [hns0]
  obtain ⟨ns', hrun, hF, hc', hrep⟩ := merge_loop_spec s.data_ s.reversemap_
    (len P + len Q) P Q (ns0.length + 1) ns0 s.nodes_.length s.head_ q
    binomial_heap_node.fresh (le_refl _)
    (by
      have h1 := len_le_idxs P
      have h2 := len_le_idxs Q
      have h3 : (idxs P ++ idxs Q).length ≤ s.nodes_.length := by
        refine nodup_bound hnd (fun i hi => ?_)
        rcases List.mem_append.1 hi with h | h
        · exact hin hP i h
        · exact hin hQ i h
      simp only [List.length_append] at h3
      simp only [hns0, List.length_append, List.length_singleton]
      omega)
    (by simp [hns0]; omega) (hf0 hP) (hf0 hQ) hnd hcur hc0 (fun _ _ => rfl)
  have hlen' : ns'.length = s.nodes_.length + 1 := by rw [hF.1]; simp [hns0]
  refine ⟨{ s with head_ := start npos (mergeF P Q), nodes_ := ns'.dropLast }, ?_, rfl, rfl,
    rfl, ?_, rfl, ?_⟩
  · unfold merge
    simp only [← hns0, hrun, bind, Except.bind]
    have : ns'.length - 1 = s.nodes_.length := by omega
    rw [this, at_ok hc']
    rfl
  · refine ⟨by simp [hlen'], fun j hj => ?_, fun j n hn => ?_⟩
    · show ns'.dropLast[j]? = s.nodes_[j]?
      rw [List.getElem?_dropLast]
      by_cases hjl : j < s.nodes_.length
      · rw [if_pos (by omega), hF.2.1 j (by
          simp only [List.mem_cons, not_or]
          exact ⟨by omega, hj⟩)]
        exact List.getElem?_append_left hjl
      · rw [if_neg (by omega)]
        exact (List.getElem?_eq_none (by omega)).symm
    · have hjl := lt_of_get hn
      obtain ⟨n', hn', e⟩ := hF.2.2 j n (by
        rw [hns0, List.getElem?_append_left hjl]; exact hn)
      refine ⟨n', ?_, e⟩
      show ns'.dropLast[j]? = some n'
      rw [List.getElem?_dropLast, if_pos (by omega)]
      exact hn'
  · refine rep_frame hrep (fun i hi => ?_)
    show ns'.dropLast[i]? = ns'[i]?
    obtain ⟨n, hn, _⟩ := rep_get _ hrep i hi
    have := lt_of_get hn
    rw [List.getElem?_dropLast]
    have hi' := (idxs_mergeF P Q).subset hi
    have : i < s.nodes_.length := by
      rcases List.mem_append.1 hi' with h | h
      · exact hin hP i h
      · exact hin hQ i h
    rw [if_pos (by omega)]

end origin

namespace origin

variable {α : Type}

open Forest binomial_heap

namespace Forest

theorem uniteF_single (lt : α → α → Bool) (i : Nat) (a : α) (c : Forest α) :
    uniteF lt (node i a c nil) = node i a c nil := by
  rw [uniteF]

theorem uniteF_skip (lt : α → α → Bool) (i : Nat) (a : α) (c : Forest α) (j : Nat) (b : α)
    (c' s' : Forest α) (h : len c ≠ len c' ∨ third_same (len c) s' = true) :
    uniteF lt (node i a c (node j b c' s')) = node i a c (uniteF lt (node j b c' s')) := by
  rw [uniteF, if_pos h]

theorem uniteF_linkA (lt : α → α → Bool) (i : Nat) (a : α) (c : Forest α) (j : Nat) (b : α)
    (c' s' : Forest α) (h : ¬ (len c ≠ len c' ∨ third_same (len c) s' = true))
    (hc : lt a b = false) :
    uniteF lt (node i a c (node j b c' s')) = uniteF lt (node i a (node j b c' c) s') := by
  rw [uniteF, if_neg h, if_pos (by simp [hc])]

theorem uniteF_linkB (lt : α → α → Bool) (i : Nat) (a : α) (c : Forest α) (j : Nat) (b : α)
    (c' s' : Forest α) (h : ¬ (len c ≠ len c' ∨ third_same (len c) s' = true))
    (hc : lt a b = true) :
    uniteF lt (node i a c (node j b c' s')) = uniteF lt (node j b (node i a c c') s') := by
  rw [uniteF, if_neg h, if_neg (by simp [hc])]

theorem perm_linkA {β : Type} (i j : β) (c c' s' : List β) :
    (i :: ((j :: (c' ++ c)) ++ s')).Perm (i :: (c ++ j :: (c' ++ s'))) := by
  refine List.Perm.cons i ?_
  simp only [List.cons_append, List.append_assoc]
  refine List.Perm.trans ?_ (List.perm_middle).symm
  refine List.Perm.cons j ?_
  rw [← List.append_assoc, ← List.append_assoc]
  exact List.Perm.append_right _ List.perm_append_comm

theorem perm_linkB {β : Type} (i j : β) (c c' s' : List β) :
    (j :: ((i :: (c ++ c')) ++ s')).Perm (i :: (c ++ j :: (c' ++ s'))) := by
  simp only [List.cons_append, List.append_assoc]
  refine (List.Perm.swap i j _).trans ?_
  refine List.Perm.cons i ?_
  exact (List.perm_middle).symm

end Forest

/-- The four assignments of `binomial_link`, on two different nodes. -/
theorem binomial_link_spec {ns : List binomial_heap_node} {m n : Nat}
    {nm nn : binomial_heap_node} (hm : ns[m]? = some nm) (hn : ns[n]? = some nn)
    (hne : m ≠ n) :
    ∃ ns', binomial_link ns m n = .ok ns' ∧
      ns'[m]? = some { nm with parent := n, right_sibling := nn.child } ∧
      ns'[n]? = some { nn with child := m, degree := nn.degree + 1 } ∧
      Frame [m, n] ns ns' := by
  set ns1 := ns.set m { nm with parent := n } with h1
  have hm1 : ns1[m]? = some { nm with parent := n } := get_set_self _ hm
  have hn1 : ns1[n]? = some nn := by rw [get_set_other _ hne]; exact hn
  set ns2 := ns1.set m { nm with parent := n, right_sibling := nn.child } with h2
  have hm2 : ns2[m]? = some { nm with parent := n, right_sibling := nn.child } :=
    get_set_self _ hm1
  have hn2 : ns2[n]? = some nn := by rw [get_set_other _ hne]; exact hn1
  set ns3 := ns2.set n { nn with child := m } with h3
  have hn3 : ns3[n]? = some { nn with child := m } := get_set_self _ hn2
  have hm3 : ns3[m]? = some { nm with parent := n, right_sibling := nn.child } := by
    rw [get_set_other _ (Ne.symm hne)]; exact hm2
  set ns4 := ns3.set n { nn with child := m, degree := nn.degree + 1 } with h4
  have hn4 : ns4[n]? = some { nn with child := m, degree := nn.degree + 1 } :=
    get_set_self _ hn3
  have hm4 : ns4[m]? = some { nm with parent := n, right_sibling := nn.child } := by
    rw [get_set_other _ (Ne.symm hne)]; exact hm3
  refine ⟨ns4, ?_, hm4, hn4, ?_⟩
  · unfold binomial_link
    simp only [bind, Except.bind, upd_ok _ hm, ← h1, at_ok hn1, upd_ok _ hm1, ← h2,
      upd_ok _ hn2, ← h3, upd_ok _ hn3, ← h4]
  · have f1 : Frame [m] ns ns1 := Frame.set hm rfl
    have f2 : Frame [m] ns1 ns2 := Frame.set hm1 rfl
    have f3 : Frame [n] ns2 ns3 := Frame.set hn2 rfl
    have f4 : Frame [n] ns3 ns4 := Frame.set hn3 rfl
    have f12 : Frame [m, n] ns ns2 := Frame.trans f1 f2 (by simp) (by simp)
    have f34 : Frame [m, n] ns2 ns4 := Frame.trans f3 f4 (by simp) (by simp)
    exact Frame.trans f12 f34 (by simp) (by simp)

/-- The test of the loop of `unite`, on two neighbours of a list the array holds. -/
theorem unite_skips_spec {d : List α} {rm : List Nat} {ns : List binomial_heap_node}
    {i j : Nat} {nx nn : binomial_heap_node} {c c' s' : Forest α}
    (hle : ns.length ≤ npos) (hnx : ns[i]? = some nx) (hnn : ns[j]? = some nn)
    (hxd : nx.degree = len c) (hnd : nn.degree = len c')
    (hs' : rep d rm ns npos npos s' nn.right_sibling) :
    unite_skips ns i j = .ok (decide (len c ≠ len c' ∨ third_same (len c) s' = true)) := by
  unfold unite_skips
  simp only [bind, Except.bind, at_ok hnx, at_ok hnn, hxd, hnd]
  by_cases h : len c = len c'
  · cases s' with
    | nil =>
      simp only [rep_nil] at hs'
      simp [h, hs', third_same, pure, Except.pure]
    | node k e c'' s'' =>
      rw [rep_node] at hs'
      obtain ⟨hk, nk, hnk, _, hkd, _⟩ := hs'
      have hkne : nn.right_sibling ≠ npos := by rw [hk]; exact ne_npos_of_get hle hnk
      rw [← hk] at hnk
      simp [h, hkne, at_ok hnk, third_same, pure, Except.pure, hkd, bind, Except.bind]
  · simp [h, pure, Except.pure]

/-- The writes of `unite` that make the second of two neighbours the first child of the
first one. -/
theorem linkA_step {d : List α} {rm : List Nat} {ns : List binomial_heap_node}
    {i j : Nat} {a b : α} {c c' s' : Forest α} {nn : binomial_heap_node}
    (hF : rep d rm ns npos npos (node i a c (node j b c' s')) i)
    (hnd : (idxs (node i a c (node j b c' s'))).Nodup) (hnn : ns[j]? = some nn) :
    ∃ ns1 ns5,
      upd_ ns i (fun n => { n with right_sibling := nn.right_sibling }) = .ok ns1 ∧
      binomial_link ns1 j i = .ok ns5 ∧
      Frame [i, j] ns ns5 ∧
      rep d rm ns5 npos npos (node i a (node j b c' c) s') i ∧
      ∃ ni, ns5[i]? = some ni ∧ ni.right_sibling = start npos s' := by
  rw [rep_node] at hF
  obtain ⟨-, nx, hnx, hxp, hxd, hxv, hxr, hc, hs⟩ := hF
  have hrj : nx.right_sibling = j := by rw [rep_node] at hs; exact hs.1
  rw [hrj, rep_node] at hs
  obtain ⟨-, nn', hnn', hnp', hnd', hnv, hnr, hc', hs'⟩ := hs
  rw [hnn] at hnn'
  cases hnn'
  simp only [idxs_node, List.nodup_cons, List.mem_append, List.mem_cons, not_or,
    List.nodup_append, List.disjoint_left] at hnd
  obtain ⟨⟨hic, hij, hic', his'⟩, hcn, ⟨⟨hjc', hjs'⟩, hc'n, hs'n, hc's'⟩, hcx⟩ := hnd
  set ns1 := ns.set i { nx with right_sibling := nn.right_sibling } with h1
  have hi1 : ns1[i]? = some { nx with right_sibling := nn.right_sibling } :=
    get_set_self _ hnx
  have hj1 : ns1[j]? = some nn := by rw [get_set_other _ hij]; exact hnn
  have f1 : Frame [i] ns ns1 := Frame.set hnx rfl
  obtain ⟨ns5, hl, hj5, hi5, f5⟩ := binomial_link_spec hj1 hi1 (Ne.symm hij)
  have fr : Frame [i, j] ns ns5 := Frame.trans f1 f5 (by simp) (by
    intro k hk; simp only [List.mem_cons, List.mem_singleton, List.not_mem_nil, or_false] at hk ⊢
    tauto)
  have hfr : ∀ {F : Forest α} {p e x : Nat}, rep d rm ns p e F x → i ∉ idxs F →
      j ∉ idxs F → rep d rm ns5 p e F x := by
    intro F p e x h h1 h2
    refine rep_of_Frame h fr ?_
    intro k hk
    simp only [List.mem_cons, List.mem_singleton, List.not_mem_nil, or_false, not_or]
    exact ⟨fun e => h1 (e ▸ hk), fun e => h2 (e ▸ hk)⟩
  refine ⟨ns1, ns5, upd_ok _ hnx, hl, fr, ?_, _, hi5, rep_start hs'⟩
  · rw [rep_node]
    refine ⟨rfl, _, hi5, hxp, by simp [hxd], hxv, hxr, ?_, hfr hs' his' hjs'⟩
    rw [rep_node]
    refine ⟨rfl, _, hj5, rfl, hnd', hnv, hnr, hfr hc' hic' hjc', ?_⟩
    exact hfr hc hic (fun h => (hcx h).1 rfl)

/-- The writes of `unite` that make the first of two neighbours the first child of the
second one. -/
theorem linkB_step {d : List α} {rm : List Nat} {ns : List binomial_heap_node}
    {i j : Nat} {a b : α} {c c' s' : Forest α}
    (hF : rep d rm ns npos npos (node i a c (node j b c' s')) i)
    (hnd : (idxs (node i a c (node j b c' s'))).Nodup) :
    ∃ ns5, binomial_link ns i j = .ok ns5 ∧
      Frame [i, j] ns ns5 ∧
      rep d rm ns5 npos npos (node j b (node i a c c') s') j ∧
      ∃ nj, ns5[j]? = some nj ∧ nj.right_sibling = start npos s' := by
  rw [rep_node] at hF
  obtain ⟨-, nx, hnx, hxp, hxd, hxv, hxr, hc, hs⟩ := hF
  have hrj : nx.right_sibling = j := by rw [rep_node] at hs; exact hs.1
  rw [hrj, rep_node] at hs
  obtain ⟨-, nn, hnn, hnp', hnd', hnv, hnr, hc', hs'⟩ := hs
  simp only [idxs_node, List.nodup_cons, List.mem_append, List.mem_cons, not_or,
    List.nodup_append, List.disjoint_left] at hnd
  obtain ⟨⟨hic, hij, hic', his'⟩, hcn, ⟨⟨hjc', hjs'⟩, hc'n, hs'n, hc's'⟩, hcx⟩ := hnd
  obtain ⟨ns5, hl, hi5, hj5, fr⟩ := binomial_link_spec hnx hnn hij
  have hfr : ∀ {F : Forest α} {p e x : Nat}, rep d rm ns p e F x → i ∉ idxs F →
      j ∉ idxs F → rep d rm ns5 p e F x := by
    intro F p e x h h1 h2
    refine rep_of_Frame h fr ?_
    intro k hk
    simp only [List.mem_cons, List.mem_singleton, List.not_mem_nil, or_false, not_or]
    exact ⟨fun e => h1 (e ▸ hk), fun e => h2 (e ▸ hk)⟩
  refine ⟨ns5, hl, fr, ?_, _, hj5, rep_start hs'⟩
  rw [rep_node]
  refine ⟨rfl, _, hj5, hnp', by simp [hnd'], hnv, hnr, ?_, hfr hs' his' hjs'⟩
  rw [rep_node]
  refine ⟨rfl, _, hi5, rfl, hxd, hxv, hxr, hfr hc hic (fun h => (hcx h).1 rfl), ?_⟩
  exact hfr hc' hic' hjc'

set_option maxHeartbeats 1000000 in
theorem unite_loop_spec (lt : α → α → Bool) (d : List α) (rm : List Nat) :
    ∀ (n : Nat) (i : Nat) (a : α) (c s : Forest α) (fuel : Nat)
      (ns : List binomial_heap_node) (head prev : Nat),
    len (node i a c s) ≤ n → n < fuel → ns.length ≤ npos →
    rep d rm ns npos npos (node i a c s) i → (idxs (node i a c s)).Nodup →
    prev ∉ idxs (node i a c s) → (prev = npos → head = i) →
    (prev ≠ npos → ∃ np, ns[prev]? = some np ∧ np.right_sibling = i) →
    ∃ ns' head', unite_loop lt d fuel ns head prev i (start npos s) = .ok (ns', head') ∧
      Frame (prev :: idxs (node i a c s)) ns ns' ∧
      rep d rm ns' npos npos (uniteF lt (node i a c s))
        (start npos (uniteF lt (node i a c s))) ∧
      (prev = npos → head' = start npos (uniteF lt (node i a c s))) ∧
      (prev ≠ npos → head' = head ∧ ∀ np, ns[prev]? = some np →
        ns'[prev]? = some { np with right_sibling := start npos (uniteF lt (node i a c s)) }) := by
  intro n
  induction n with
  | zero =>
    intro i a c s fuel ns head prev hlen
    simp at hlen
  | succ n ih =>
    intro i a c s fuel ns head prev hlen hfuel hle hF hnd hprev hhead hpn
    obtain ⟨fuel, rfl⟩ : ∃ k, fuel = k + 1 := ⟨fuel - 1, by omega⟩
    have hF0 := hF
    rw [rep_node] at hF
    obtain ⟨-, nx, hnx, hxp, hxd, hxv, hxr, hc, hs⟩ := hF
    cases s with
    | nil =>
      refine ⟨ns, head, by simp [unite_loop], Frame.refl _ _, ?_, ?_, ?_⟩
      · rw [uniteF_single]; exact hF0
      · intro h; rw [uniteF_single]; exact hhead h
      · intro h
        refine ⟨rfl, fun np hnp => ?_⟩
        obtain ⟨np', hnp', e⟩ := hpn h
        rw [hnp] at hnp'
        cases hnp'
        rw [uniteF_single, hnp]
        cases np
        simp_all
    | node j b c' s' =>
      have hrj : nx.right_sibling = j := by rw [rep_node] at hs; exact hs.1
      rw [hrj] at hs
      have hs0 := hs
      rw [rep_node] at hs
      obtain ⟨-, nn, hnn, hnp', hnd', hnv, hnr, hc', hs'⟩ := hs
      have hnrs : nn.right_sibling = start npos s' := rep_start hs'
      have hjne : j ≠ npos := ne_npos_of_get hle hnn
      have hine : i ≠ npos := ne_npos_of_get hle hnx
      have hnd0 := hnd
      simp only [idxs_node, List.nodup_cons, List.mem_append, List.mem_cons, not_or,
        List.nodup_append, List.disjoint_left] at hnd hprev
      obtain ⟨⟨hic, hij, hic', his'⟩, hcn, ⟨⟨hjc', hjs'⟩, hc'n, hs'n, hc's'⟩, hcx⟩ := hnd
      obtain ⟨hpi, hpc, hpj, hpc', hps'⟩ := hprev
      simp only [start_node]
      have hsk := unite_skips_spec (c := c) hle hnx hnn hxd hnd' hs'
      by_cases hskip : len c ≠ len c' ∨ third_same (len c) s' = true
      · -- the scan moves on
        obtain ⟨ns', head', hrun, hFr, hrep, -, hp2⟩ := ih j b c' s' fuel ns head i
          (by simp only [len_node] at hlen ⊢; omega) (by omega) hle hs0
          (by
            simp only [idxs_node, List.nodup_cons, List.mem_append, not_or,
              List.nodup_append, List.disjoint_left]
            exact ⟨⟨hjc', hjs'⟩, hc'n, hs'n, hc's'⟩)
          (by
            simp only [idxs_node, List.mem_cons, List.mem_append, not_or]
            exact ⟨hij, hic', his'⟩)
          (fun h => absurd h hine) (fun _ => ⟨nx, hnx, hrj⟩)
        obtain ⟨hh, hp3⟩ := hp2 hine
        refine ⟨ns', head', ?_, ?_, ?_, ?_, ?_⟩
        · rw [unite_loop]
          simp only [if_neg hjne, bind, Except.bind, hsk, decide_eq_true hskip, if_true,
            at_ok hnn]
          rw [hnrs]
          exact hrun
        · refine hFr.mono ?_
          intro k hk
          simp only [idxs_node, List.mem_cons, List.mem_append] at hk ⊢
          rcases hk with h | h | h | h <;> simp [h]
        · rw [uniteF_skip _ _ _ _ _ _ _ _ hskip]
          simp only [start_node]
          rw [rep_node]
          refine ⟨rfl, _, hp3 nx hnx, hxp, hxd, hxv, hxr, ?_, hrep⟩
          refine rep_of_Frame hc hFr ?_
          intro k hk
          simp only [idxs_node, List.mem_cons, List.mem_append, not_or]
          have := hcx hk
          exact ⟨fun e => hic (e ▸ hk), this.1, this.2.1, this.2.2⟩
        · intro h
          rw [uniteF_skip _ _ _ _ _ _ _ _ hskip, hh]
          exact hhead h
        · intro h
          refine ⟨hh, fun np hnp => ?_⟩
          rw [uniteF_skip _ _ _ _ _ _ _ _ hskip]
          simp only [start_node]
          obtain ⟨np', hnp', e⟩ := hpn h
          rw [hnp] at hnp'
          cases hnp'
          rw [hFr.2.1 prev (by
            simp only [idxs_node, List.mem_cons, List.mem_append, not_or]
            exact ⟨hpi, hpj, hpc', hps'⟩), hnp]
          cases np
          simp_all
      · by_cases hcmp : lt a b = true
        · -- the first root becomes a child of the second one
          have hFp : ∃ ns1 head1,
              (∀ ns5 nj r, binomial_link ns1 i j = .ok ns5 → ns5[j]? = some nj →
                unite_loop lt d fuel ns5 head1 prev j nj.right_sibling = .ok r →
                unite_loop lt d (fuel + 1) ns head prev i j = .ok r) ∧ Frame [prev] ns ns1 ∧
              (prev = npos → head1 = j) ∧
              (prev ≠ npos → head1 = head ∧ ∀ np, ns[prev]? = some np →
                ns1[prev]? = some { np with right_sibling := j }) := by
            by_cases hp : prev = npos
            · refine ⟨ns, j, ?_, Frame.refl _ _, fun _ => rfl, fun h => absurd hp h⟩
              intro ns5 nj r hl hnj hrun
              rw [unite_loop]
              simp only [if_neg hjne, hsk, ok_bind, decide_eq_false hskip,
                at_ok hnx, at_ok hnn, at_ok hxv, at_ok hnv, hcmp, Bool.not_true,
                Bool.false_eq_true, if_false, if_pos hp, pure, Except.pure, hl, at_ok hnj]
              exact hrun
            · obtain ⟨np, hnp, -⟩ := hpn hp
              refine ⟨ns.set prev { np with right_sibling := j }, head, ?_,
                Frame.set hnp rfl, fun h => absurd h hp, fun _ => ⟨rfl, fun np' hnp' => ?_⟩⟩
              · intro ns5 nj r hl hnj hrun
                rw [unite_loop]
                simp only [if_neg hjne, hsk, ok_bind, decide_eq_false hskip,
                  at_ok hnx, at_ok hnn, at_ok hxv, at_ok hnv, hcmp, Bool.not_true,
                  Bool.false_eq_true, if_false, if_neg hp, pure, Except.pure, upd_ok _ hnp, hl,
                  at_ok hnj]
                exact hrun
              · rw [hnp] at hnp'; cases hnp'
                exact get_set_self _ hnp
          obtain ⟨ns1, head1, hpatch, f1, hh1, hp1⟩ := hFp
          have hF1 : rep d rm ns1 npos npos (node i a c (node j b c' s')) i := by
            refine rep_of_Frame hF0 f1 ?_
            intro k hk
            simp only [List.mem_singleton]
            rintro rfl
            simp only [idxs_node, List.mem_cons, List.mem_append] at hk
            rcases hk with h | h | h | h | h
            · exact hpi h
            · exact hpc h
            · exact hpj h
            · exact hpc' h
            · exact hps' h
          obtain ⟨ns5, hl, f5, hrep5, nj, hnj, hnjr⟩ := linkB_step hF1 hnd0
          have f15 : Frame (prev :: idxs (node i a c (node j b c' s'))) ns ns5 := by
            refine Frame.trans f1 f5 (by simp) ?_
            intro k hk
            simp only [List.mem_cons, List.mem_singleton, List.not_mem_nil, or_false] at hk
            simp only [idxs_node, List.mem_cons, List.mem_append]
            rcases hk with h | h <;> simp [h]
          obtain ⟨ns', head', hrun, hFr, hrep, hq1, hq2⟩ := ih j b (node i a c c') s' fuel ns5
            head1 prev (by simp only [len_node] at hlen ⊢; omega) (by omega)
            (by rw [f15.1]; exact hle) hrep5
            ((perm_linkB i j (idxs c) (idxs c') (idxs s')).nodup_iff.2 hnd0)
            (by
              simp only [idxs_node, List.mem_cons, List.mem_append, not_or]
              exact ⟨hpj, ⟨hpi, hpc, hpc'⟩, hps'⟩)
            hh1
            (fun h => by
              obtain ⟨np, hnp, -⟩ := hpn h
              refine ⟨{ np with right_sibling := j }, ?_, rfl⟩
              rw [f5.2.1 prev (by
                simp only [List.mem_cons, List.mem_singleton, List.not_mem_nil, or_false,
                  not_or]
                exact ⟨hpi, hpj⟩)]
              exact (hp1 h).2 np hnp)
          have hU := uniteF_linkB lt i a c j b c' s' hskip hcmp
          refine ⟨ns', head', ?_, ?_, ?_, ?_, ?_⟩
          · refine hpatch ns5 nj _ hl hnj ?_
            rw [hnjr]
            exact hrun
          · refine Frame.trans f15 hFr (fun _ h => h) ?_
            intro k hk
            simp only [idxs_node, List.mem_cons, List.mem_append] at hk ⊢
            rcases hk with h | h | (h | h | h) | h <;> simp [h]
          · rw [hU]; exact hrep
          · intro h; rw [hU]; exact hq1 h
          · intro h
            obtain ⟨e1, e2⟩ := hq2 h
            refine ⟨e1.trans (hp1 h).1, fun np hnp => ?_⟩
            rw [hU]
            have := e2 _ (by
              rw [f5.2.1 prev (by
                simp only [List.mem_cons, List.mem_singleton, List.not_mem_nil, or_false,
                  not_or]
                exact ⟨hpi, hpj⟩)]
              exact (hp1 h).2 np hnp)
            exact this
        · -- the second root becomes a child of the first one
          have hcmp' : lt a b = false := by simpa using hcmp
          obtain ⟨ns1, ns5, hu, hl, f5, hrep5, ni, hni, hnir⟩ := linkA_step hF0 hnd0 hnn
          obtain ⟨ns', head', hrun, hFr, hrep, hq1, hq2⟩ := ih i a (node j b c' c) s' fuel ns5
            head prev (by simp only [len_node] at hlen ⊢; omega) (by omega)
            (by rw [f5.1]; exact hle) hrep5
            ((perm_linkA i j (idxs c) (idxs c') (idxs s')).nodup_iff.2 hnd0)
            (by
              simp only [idxs_node, List.mem_cons, List.mem_append, not_or]
              exact ⟨hpi, ⟨hpj, hpc', hpc⟩, hps'⟩)
            hhead
            (fun h => by
              obtain ⟨np, hnp, e⟩ := hpn h
              refine ⟨np, ?_, e⟩
              rw [f5.2.1 prev (by
                simp only [List.mem_cons, List.mem_singleton, List.not_mem_nil, or_false,
                  not_or]
                exact ⟨hpi, hpj⟩)]
              exact hnp)
          have hU := uniteF_linkA lt i a c j b c' s' hskip hcmp'
          refine ⟨ns', head', ?_, ?_, ?_, ?_, ?_⟩
          · rw [unite_loop]
            simp only [if_neg hjne, bind, Except.bind, hsk, decide_eq_false hskip,
              at_ok hnx, at_ok hnn, at_ok hxv, at_ok hnv, hcmp']
            simp only [Bool.not_false, if_true, Bool.false_eq_true, if_false]
            simp only [hu, hl, at_ok hni, hnir]
            exact hrun
          · refine Frame.trans (f5.mono (S := [i, j])
              (T := prev :: idxs (node i a c (node j b c' s'))) ?_) hFr (fun _ h => h) ?_
            · intro k hk
              simp only [List.mem_cons, List.mem_singleton, List.not_mem_nil, or_false] at hk
              simp only [idxs_node, List.mem_cons, List.mem_append]
              rcases hk with h | h <;> simp [h]
            · intro k hk
              simp only [idxs_node, List.mem_cons, List.mem_append] at hk ⊢
              rcases hk with h | h | (h | h | h) | h <;> simp [h]
          · rw [hU]; exact hrep
          · intro h; rw [hU]; exact hq1 h
          · intro h
            obtain ⟨e1, e2⟩ := hq2 h
            refine ⟨e1, fun np hnp => ?_⟩
            rw [hU]
            exact e2 np (by
              rw [f5.2.1 prev (by
                simp only [List.mem_cons, List.mem_singleton, List.not_mem_nil, or_false,
                  not_or]
                exact ⟨hpi, hpj⟩)]
              exact hnp)

end origin

namespace origin

variable {α : Type}

open Forest binomial_heap

theorem Frame.drop_npos {S : List Nat} {a b : List binomial_heap_node}
    (h : Frame (npos :: S) a b) (hle : a.length ≤ npos) : Frame S a b := by
  refine ⟨h.1, fun j hj => ?_, h.2.2⟩
  by_cases e : j = npos
  · subst e
    rw [List.getElem?_eq_none (by rw [h.1]; exact hle), List.getElem?_eq_none hle]
  · exact h.2.1 j (by simp only [List.mem_cons, not_or]; exact ⟨e, hj⟩)

theorem rep_lt {d : List α} {rm : List Nat} {ns : List binomial_heap_node} {F : Forest α}
    {p e x : Nat} (h : rep d rm ns p e F x) : ∀ i ∈ idxs F, i < ns.length := by
  intro i hi
  obtain ⟨n, hn, _⟩ := rep_get F h i hi
  exact lt_of_get hn

theorem len_le_of_rep {d : List α} {rm : List Nat} {ns : List binomial_heap_node}
    {F : Forest α} {p e x : Nat} (h : rep d rm ns p e F x) (hnd : (idxs F).Nodup) :
    len F ≤ ns.length :=
  le_trans (len_le_idxs F) (nodup_bound hnd (rep_lt h))

/-- What `unite` does to a state whose root list is `P`, for a second list `Q` at `q`. -/
theorem unite_spec (lt : α → α → Bool) {s : binomial_heap α} {P Q : Forest α} {q : Nat}
    (hlt : s.nodes_.length < npos)
    (hP : rep s.data_ s.reversemap_ s.nodes_ npos npos P s.head_)
    (hQ : rep s.data_ s.reversemap_ s.nodes_ npos npos Q q)
    (hnd : (idxs P ++ idxs Q).Nodup) (hne : mergeF P Q ≠ nil) :
    ∃ s', unite lt s q = .ok s' ∧ s'.data_ = s.data_ ∧ s'.reversemap_ = s.reversemap_ ∧
      s'.top_ = s.top_ ∧ Frame (idxs P ++ idxs Q) s.nodes_ s'.nodes_ ∧
      rep s.data_ s.reversemap_ s'.nodes_ npos npos (uniteF lt (mergeF P Q)) s'.head_ := by
  obtain ⟨s1, hm, hd1, hr1, ht1, hF1, hh1, hrep1⟩ := merge_spec hlt hP hQ hnd
  have hndM : (idxs (mergeF P Q)).Nodup := (idxs_mergeF P Q).nodup_iff.2 hnd
  have hle1 : s1.nodes_.length ≤ npos := by rw [hF1.1]; omega
  cases hM : mergeF P Q with
  | nil => exact absurd hM hne
  | node i a c t =>
    rw [hM] at hrep1 hh1 hndM
    simp only [start_node] at hh1
    rw [hh1] at hrep1
    have hrep0 := hrep1
    rw [rep_node] at hrep1
    obtain ⟨-, ni, hni, -, -, -, -, -, ht⟩ := hrep1
    have hts : ni.right_sibling = start npos t := rep_start ht
    cases t with
    | nil =>
      simp only [start_nil] at hts
      refine ⟨s1, ?_, hd1, hr1, ht1, hF1, ?_⟩
      · unfold unite
        simp only [hm, ok_bind, hh1, at_ok hni, hts, if_true, pure, Except.pure]
      · rw [uniteF_single, hh1]; exact hrep0
    | node j b c' t' =>
      have hj : ni.right_sibling ≠ npos := by
        rw [hts]
        simp only [start_node]
        rw [rep_node] at ht
        obtain ⟨-, nj, hnj, _⟩ := ht
        exact ne_npos_of_get hle1 hnj
      have hlen := len_le_of_rep hrep0 hndM
      obtain ⟨ns', head', hrun, hFr, hrep, hq1, -⟩ := unite_loop_spec lt s.data_ s.reversemap_
        (len (node i a c (node j b c' t'))) i a c (node j b c' t') (s1.nodes_.length + 1)
        s1.nodes_ i npos (le_refl _) (by omega) hle1 hrep0 hndM
        (fun h => by
          have := rep_lt hrep0 npos h
          omega)
        (fun _ => rfl) (fun h => absurd rfl h)
      refine ⟨{ s1 with nodes_ := ns', head_ := head' }, ?_, hd1, hr1, ht1, ?_, ?_⟩
      · unfold unite
        have hj' : ¬ start npos (node j b c' t') = npos := by rw [← hts]; exact hj
        simp only [hm, ok_bind, hh1, at_ok hni, hd1, hts, if_neg hj', hrun, pure, Except.pure]
      · refine Frame.trans hF1 (hFr.drop_npos hle1) (fun _ h => h) ?_
        intro k hk
        rw [← hM] at hk
        exact (idxs_mergeF P Q).subset hk
      · show rep s.data_ s.reversemap_ ns' npos npos _ head'
        rw [hq1 rfl]
        exact hrep

namespace Forest

theorem idxs_rev (c : Forest α) : ∀ acc : Forest α,
    (idxs (rev acc c)).Perm (idxs c ++ idxs acc) := by
  induction c with
  | nil => intro acc; simp [rev]
  | node i a cc s _ ihs =>
    intro acc
    simp only [rev, idxs_node]
    refine (ihs _).trans ?_
    simp only [idxs_node, List.cons_append, List.append_assoc]
    refine (List.perm_middle).trans (List.Perm.cons i ?_)
    rw [← List.append_assoc, ← List.append_assoc]
    exact List.Perm.append_right _ List.perm_append_comm

theorem vals_rev (c : Forest α) : ∀ acc : Forest α,
    (vals (rev acc c)).Perm (vals c ++ vals acc) := by
  induction c with
  | nil => intro acc; simp [rev]
  | node i a cc s _ ihs =>
    intro acc
    simp only [rev, vals_node]
    refine (ihs _).trans ?_
    simp only [vals_node, List.cons_append, List.append_assoc]
    refine (List.perm_middle).trans (List.Perm.cons a ?_)
    rw [← List.append_assoc, ← List.append_assoc]
    exact List.Perm.append_right _ List.perm_append_comm

theorem ranks_rev (c : Forest α) : ∀ acc : Forest α,
    ranks (rev acc c) = (ranks c).reverse ++ ranks acc := by
  induction c with
  | nil => intro acc; simp [rev]
  | node i a cc s _ ihs =>
    intro acc
    simp only [rev, ranks_node, ihs, List.reverse_cons, List.append_assoc, List.singleton_append]

theorem roots_rev (c : Forest α) : ∀ acc : Forest α,
    roots (rev acc c) = (roots c).reverse ++ roots acc := by
  induction c with
  | nil => intro acc; simp [rev]
  | node i a cc s _ ihs =>
    intro acc
    simp only [rev, roots_node, ihs, List.reverse_cons, List.append_assoc, List.singleton_append]

theorem bin_rev (c : Forest α) : ∀ acc : Forest α, bin (rev acc c) ↔ bin c ∧ bin acc := by
  induction c with
  | nil => intro acc; simp [rev]
  | node i a cc s _ ihs =>
    intro acc
    simp only [rev, ihs, bin_node]
    tauto

theorem hord_rev (lt : α → α → Bool) (c : Forest α) : ∀ acc : Forest α,
    hord lt (rev acc c) ↔ hord lt c ∧ hord lt acc := by
  induction c with
  | nil => intro acc; simp [rev]
  | node i a cc s _ ihs =>
    intro acc
    simp only [rev, ihs, hord_node]
    tauto

theorem bin_of_desc : ∀ (k : Nat) (c : Forest α), desc k c → bin c
  | 0, nil, _ => by simp
  | 0, node _ _ _ _, h => by simp at h
  | k + 1, nil, h => by simp at h
  | k + 1, node _ _ cc s, h => by
    simp only [desc_succ_node] at h
    simp only [bin_node]
    refine ⟨?_, bin_of_desc k s h.2⟩
    rw [desc_len k cc h.1]
    exact h.1

/-- The children of a binomial tree have the ranks `k-1, ..., 0`. -/
theorem ranks_of_desc : ∀ (k : Nat) (c : Forest α), desc k c →
    (ranks c).Sorted (· > ·) ∧ ∀ r ∈ ranks c, r < k
  | 0, nil, _ => by simp
  | 0, node _ _ _ _, h => by simp at h
  | k + 1, nil, h => by simp at h
  | k + 1, node _ _ cc s, h => by
    simp only [desc_succ_node] at h
    obtain ⟨h1, h2⟩ := ranks_of_desc k s h.2
    simp only [ranks_node, List.sorted_cons, List.mem_cons, forall_eq_or_imp]
    rw [desc_len k cc h.1]
    refine ⟨⟨fun r hr => h2 r hr, h1⟩, by omega, fun r hr => ?_⟩
    have := h2 r hr
    omega

end Forest

/-- The loop of `pop` that reverses a child list. -/
theorem reverse_loop_spec (d : List α) (rm : List Nat) : ∀ (c acc : Forest α) (fuel : Nat)
    (ns : List binomial_heap_node) (p x y : Nat),
    len c < fuel → ns.length ≤ npos → rep d rm ns p npos c x → rep d rm ns npos npos acc y →
    (idxs c ++ idxs acc).Nodup →
    ∃ ns', reverse_loop fuel ns y x = .ok (ns', start npos (rev acc c)) ∧
      Frame (idxs c) ns ns' ∧
      rep d rm ns' npos npos (rev acc c) (start npos (rev acc c)) := by
  intro c
  induction c with
  | nil =>
    intro acc fuel ns p x y hfuel hle hc hacc hnd
    obtain ⟨fuel, rfl⟩ : ∃ k, fuel = k + 1 := ⟨fuel - 1, by omega⟩
    simp only [rep_nil] at hc
    subst hc
    have hy := rep_start hacc
    refine ⟨ns, ?_, Frame.refl _ _, ?_⟩
    · simp [reverse_loop, rev, hy]
    · simp only [rev]; rw [← hy]; exact hacc
  | node i a cc s _ ihs =>
    intro acc fuel ns p x y hfuel hle hc hacc hnd
    obtain ⟨fuel, rfl⟩ : ∃ k, fuel = k + 1 := ⟨fuel - 1, by omega⟩
    rw [rep_node] at hc
    obtain ⟨hx, n, hn, hp, hdeg, hv, hr, hcc, hs⟩ := hc
    subst hx
    have hxne : x ≠ npos := ne_npos_of_get hle hn
    simp only [idxs_node, List.cons_append, List.nodup_cons, List.mem_append, not_or,
      List.append_assoc, List.nodup_append, List.disjoint_left] at hnd
    obtain ⟨⟨hicc, his, hia⟩, hccn, ⟨hsn, han, hsa⟩, hccx⟩ := hnd
    set ns1 := ns.set x { n with parent := npos } with h1
    have hn1 : ns1[x]? = some { n with parent := npos } := get_set_self _ hn
    set ns2 := ns1.set x { n with parent := npos, right_sibling := y } with h2
    have hn2 : ns2[x]? = some { n with parent := npos, right_sibling := y } :=
      get_set_self _ hn1
    have f1 : Frame [x] ns ns1 := @Frame.set _ _ _ { n with parent := npos } hn rfl
    have f12 : Frame [x] ns1 ns2 :=
      @Frame.set _ _ _ { n with parent := npos, right_sibling := y } hn1 rfl
    have f2 : Frame [x] ns ns2 := Frame.trans f1 f12 (fun _ h => h) (fun _ h => h)
    have hfr : ∀ {F : Forest α} {p e z : Nat}, rep d rm ns p e F z → x ∉ idxs F →
        rep d rm ns2 p e F z := by
      intro F p e z h h'
      refine rep_of_Frame h f2 ?_
      intro k hk
      simp only [List.mem_singleton]
      rintro rfl
      exact h' hk
    have hacc2 : rep d rm ns2 npos npos (node x a cc acc) x := by
      rw [rep_node]
      exact ⟨rfl, _, hn2, rfl, hdeg, hv, hr, hfr hcc hicc, hfr hacc hia⟩
    obtain ⟨ns', hrun, hFr, hrep⟩ := ihs (node x a cc acc) fuel ns2 p n.right_sibling x
      (by simp only [len_node] at hfuel; omega) (by rw [f2.1]; exact hle) (hfr hs his) hacc2
      (by
        simp only [idxs_node, List.nodup_append, List.nodup_cons, List.mem_append, not_or,
          List.disjoint_left, List.mem_cons]
        refine ⟨hsn, ⟨⟨hicc, hia⟩, hccn, han, fun k hk => (hccx hk).2⟩, ?_⟩
        intro k hk
        exact ⟨fun e => his (e ▸ hk), fun h => (hccx h).1 hk, hsa hk⟩)
    refine ⟨ns', ?_, ?_, ?_⟩
    · rw [reverse_loop]
      simp only [if_neg hxne, at_ok hn, ok_bind, upd_ok _ hn, ← h1, upd_ok _ hn1, ← h2]
      exact hrun
    · refine Frame.trans f2 hFr ?_ ?_
      · intro k hk; simp only [List.mem_singleton] at hk; simp [hk]
      · intro k hk; simp [hk]
    · exact hrep

end origin

namespace origin

variable {α : Type}

open Forest binomial_heap

namespace Forest

@[simp]
theorem heads_nil : heads (nil : Forest α) = [] := rfl
@[simp]
theorem heads_node (i : Nat) (a : α) (c s : Forest α) :
    heads (node i a c s) = i :: heads s := rfl

theorem heads_eq (F : Forest α) : heads F = (roots F).map Prod.fst := by
  induction F with
  | nil => rfl
  | node i a c s _ ihs => simp [ihs]

theorem heads_sub (F : Forest α) : ∀ i ∈ heads F, i ∈ idxs F := by
  induction F with
  | nil => simp
  | node i a c s _ ihs =>
    intro k hk
    simp only [heads_node, List.mem_cons] at hk
    rcases hk with rfl | hk
    · simp
    · simp [ihs k hk]

theorem remove_eq (t : Nat) (F : Forest α) :
    removeRoot t F = app (before t F) (after t F) := by
  induction F with
  | nil => rfl
  | node i a c s _ ihs =>
    simp only [removeRoot, before, after]
    by_cases h : i = t
    · simp [h]
    · simp [h, ihs]

/-- A forest is the part in front of a root, the tree of the root, and the part behind. -/
theorem split_root (t : Nat) (F : Forest α) (hnd : (idxs F).Nodup) (ht : t ∈ heads F) :
    ∃ a, valueOf t F = some a ∧
      F = app (before t F) (node t a (childrenOf t F) (after t F)) := by
  induction F with
  | nil => simp at ht
  | node i a c s _ ihs =>
    simp only [heads_node, List.mem_cons] at ht
    by_cases h : i = t
    · subst h
      exact ⟨a, by simp [valueOf], by simp [before, after, childrenOf]⟩
    · have hts : t ∈ heads s := by
        rcases ht with e | e
        · exact absurd e.symm h
        · exact e
      simp only [idxs_node, List.nodup_cons, List.mem_append, not_or, List.nodup_append,
        List.disjoint_left] at hnd
      obtain ⟨⟨hic, his⟩, hcn, hsn, hcs⟩ := hnd
      have htc : t ∉ idxs c := fun h' => hcs h' (heads_sub s t hts)
      obtain ⟨a', hv, he⟩ := ihs hsn hts
      refine ⟨a', by simp [valueOf, h, htc, hv], ?_⟩
      simp only [before, after, childrenOf, if_neg h, if_neg htc, app_node]
      rw [← he]

theorem before_ne_nil {t : Nat} {F : Forest α} (ht : t ∈ heads F) (h : start npos F ≠ t) :
    before t F ≠ nil := by
  cases F with
  | nil => simp at ht
  | node i a c s =>
    simp only [start_node] at h
    simp [before, h]

theorem idxs_app (F G : Forest α) : idxs (app F G) = idxs F ++ idxs G := by
  induction F with
  | nil => simp
  | node i a c s _ ihs => simp [ihs]

theorem vals_app (F G : Forest α) : vals (app F G) = vals F ++ vals G := by
  induction F with
  | nil => simp
  | node i a c s _ ihs => simp [ihs]

theorem roots_app (F G : Forest α) : roots (app F G) = roots F ++ roots G := by
  induction F with
  | nil => simp
  | node i a c s _ ihs => simp [ihs]

theorem ranks_app (F G : Forest α) : ranks (app F G) = ranks F ++ ranks G := by
  induction F with
  | nil => simp
  | node i a c s _ ihs => simp [ihs]

theorem bin_app (F G : Forest α) : bin (app F G) ↔ bin F ∧ bin G := by
  induction F with
  | nil => simp
  | node i a c s _ ihs => simp [ihs, and_assoc]

theorem hord_app (lt : α → α → Bool) (F G : Forest α) :
    hord lt (app F G) ↔ hord lt F ∧ hord lt G := by
  induction F with
  | nil => simp
  | node i a c s _ ihs => simp [ihs, and_assoc]

end Forest

/-- The loop of `pop` that looks for the root in front of `t`, on the part of the root list in
front of `t`: it finds the last node of this part, and the assignment to the link of this node
makes the part end at `e'`. -/
theorem find_prev_spec {d : List α} {rm : List Nat} (t e' : Nat) : ∀ (F : Forest α) (fuel : Nat)
    (ns : List binomial_heap_node) (p x : Nat),
    len F ≤ fuel → F ≠ nil → rep d rm ns p t F x → (idxs F).Nodup → t ∉ idxs F →
    ∃ tmp ntmp, find_prev_loop ns t fuel x = .ok tmp ∧ ns[tmp]? = some ntmp ∧ tmp ∈ idxs F ∧
      rep d rm (ns.set tmp { ntmp with right_sibling := e' }) p e' F x := by
  intro F
  induction F with
  | nil => intro fuel ns p x _ h; exact absurd rfl h
  | node i a c s _ ihs =>
    intro fuel ns p x hfuel _ hF hnd ht
    obtain ⟨fuel, rfl⟩ : ∃ k, fuel = k + 1 := ⟨fuel - 1, by simp only [len_node] at hfuel; omega⟩
    rw [rep_node] at hF
    obtain ⟨hx, n, hn, hp, hdeg, hv, hr, hc, hs⟩ := hF
    subst hx
    simp only [idxs_node, List.nodup_cons, List.mem_append, not_or, List.nodup_append,
      List.disjoint_left, List.mem_cons] at hnd ht
    obtain ⟨⟨hic, his⟩, hcn, hsn, hcs⟩ := hnd
    obtain ⟨htx, htc, hts⟩ := ht
    cases s with
    | nil =>
      simp only [rep_nil] at hs
      refine ⟨x, n, ?_, hn, by simp, ?_⟩
      · rw [find_prev_loop]
        simp only [at_ok hn, ok_bind, hs, ne_eq, not_true_eq_false, if_false, pure, Except.pure]
      · rw [rep_node]
        refine ⟨rfl, _, get_set_self _ hn, hp, hdeg, hv, hr, ?_, by simp⟩
        refine rep_frame hc (fun k hk => get_set_other _ ?_)
        rintro rfl
        exact hic hk
    | node j b c' s' =>
      have hrj : n.right_sibling = j := by rw [rep_node] at hs; exact hs.1
      rw [hrj] at hs
      have hjt : j ≠ t := by
        rintro rfl
        exact hts (by simp)
      obtain ⟨tmp, ntmp, hrun, hntmp, hmem, hrep⟩ := ihs fuel ns p j
        (by simp only [len_node] at hfuel ⊢; omega) (by simp) hs hsn hts
      have htmpx : tmp ≠ x := by
        rintro rfl
        exact his hmem
      refine ⟨tmp, ntmp, ?_, hntmp, by
        simp only [idxs_node, List.mem_cons, List.mem_append] at hmem ⊢
        tauto, ?_⟩
      · rw [find_prev_loop]
        simp only [at_ok hn, ok_bind, hrj, ne_eq, hjt, not_false_eq_true, if_true]
        exact hrun
      · rw [rep_node]
        refine ⟨rfl, n, ?_, hp, hdeg, hv, hr, ?_, ?_⟩
        · rw [get_set_other _ htmpx]; exact hn
        · refine rep_frame hc (fun k hk => get_set_other _ ?_)
          rintro rfl
          exact hcs hk hmem
        · rw [hrj]; exact hrep

/-- The loop of `pop` that looks for the root in front of `t` does not finish in a result
when `t` is not on the root list. -/
theorem find_prev_fail {d : List α} {rm : List Nat} (t : Nat) : ∀ (F : Forest α) (fuel : Nat)
    (ns ns1 : List binomial_heap_node) (p x : Nat),
    rep d rm ns p npos F x → (∀ r ∈ heads F, ns1[r]? = ns[r]?) → ns1.length ≤ npos →
    t ∉ heads F → t ≠ npos → ∃ e, find_prev_loop ns1 t fuel x = .error e := by
  intro F
  induction F with
  | nil =>
    intro fuel ns ns1 p x hF _ hle _ _
    simp only [rep_nil] at hF
    subst hF
    cases fuel with
    | zero => exact ⟨_, rfl⟩
    | succ fuel =>
      refine ⟨.outOfBounds, ?_⟩
      rw [find_prev_loop, at_none (List.getElem?_eq_none hle)]
      rfl
  | node i a c s _ ihs =>
    intro fuel ns ns1 p x hF hag hle ht htn
    cases fuel with
    | zero => exact ⟨_, rfl⟩
    | succ fuel =>
      rw [rep_node] at hF
      obtain ⟨hx, n, hn, -, -, -, -, -, hs⟩ := hF
      subst hx
      simp only [heads_node, List.mem_cons, not_or] at ht
      have hn1 : ns1[x]? = some n := by rw [hag x (by simp)]; exact hn
      have hne : n.right_sibling ≠ t := by
        have := rep_start hs
        rw [this]
        cases s with
        | nil => simpa using Ne.symm htn
        | node j b c' s' =>
          simp only [start_node]
          intro e
          exact ht.2 (by simp [e])
      obtain ⟨e, he⟩ := ihs fuel ns ns1 p n.right_sibling hs
        (fun r hr => hag r (by simp [hr])) hle ht.2 htn
      refine ⟨e, ?_⟩
      rw [find_prev_loop]
      simp only [at_ok hn1, ok_bind, ne_eq, hne, not_false_eq_true, if_true]
      exact he

end origin

namespace origin

variable {α : Type}

open Forest binomial_heap

/-- The loop of `get_new_top` over the rest of the root list. -/
theorem get_new_top_loop_spec (lt : α → α → Bool) {d : List α} {rm : List Nat}
    {ns : List binomial_heap_node} (hle : ns.length ≤ npos) : ∀ (F : Forest α) (fuel : Nat)
    (p x bi : Nat) (ba : α), len F < fuel → rep d rm ns p npos F x →
    (∃ nb, ns[bi]? = some nb ∧ d[nb.index]? = some ba) →
    get_new_top_loop lt d ns fuel bi x = .ok (topL lt (bi, ba) (roots F)).1 := by
  intro F
  induction F with
  | nil =>
    intro fuel p x bi ba hfuel hF _
    obtain ⟨fuel, rfl⟩ : ∃ k, fuel = k + 1 := ⟨fuel - 1, by omega⟩
    simp only [rep_nil] at hF
    simp [get_new_top_loop, hF, topL]
  | node i a c s _ ihs =>
    intro fuel p x bi ba hfuel hF hb
    obtain ⟨fuel, rfl⟩ : ∃ k, fuel = k + 1 := ⟨fuel - 1, by omega⟩
    rw [rep_node] at hF
    obtain ⟨hx, n, hn, -, -, hv, -, -, hs⟩ := hF
    subst hx
    obtain ⟨nb, hnb, hvb⟩ := hb
    have hxne : x ≠ npos := ne_npos_of_get hle hn
    rw [get_new_top_loop]
    simp only [if_neg hxne, at_ok hn, at_ok hv, at_ok hnb, at_ok hvb, ok_bind, roots_node, topL]
    by_cases hc : lt a ba = true
    · simp only [hc, Bool.not_true, Bool.false_eq_true, if_false]
      exact ihs fuel p _ bi ba (by simp only [len_node] at hfuel; omega) hs ⟨nb, hnb, hvb⟩
    · have hc' : lt a ba = false := by simpa using hc
      simp only [hc', Bool.not_false, if_true]
      exact ihs fuel p _ x a (by simp only [len_node] at hfuel; omega) hs ⟨n, hn, hv⟩

/-- The member `get_new_top` on a state that holds the forest `F`. -/
theorem get_new_top_spec (lt : α → α → Bool) {s : binomial_heap α} {F : Forest α}
    (hle : s.nodes_.length ≤ npos)
    (hF : rep s.data_ s.reversemap_ s.nodes_ npos npos F s.head_) (hnd : (idxs F).Nodup) :
    get_new_top lt s = .ok (topF lt F) := by
  cases F with
  | nil =>
    simp only [rep_nil] at hF
    simp [get_new_top, hF, topF]
  | node i a c t =>
    have hlen := len_le_of_rep hF hnd
    rw [rep_node] at hF
    obtain ⟨hx, n, hn, -, -, hv, -, -, hs⟩ := hF
    have hne : s.head_ ≠ npos := by rw [hx]; exact ne_npos_of_get hle hn
    unfold get_new_top
    rw [if_neg hne, hx]
    simp only [at_ok hn, ok_bind, topF]
    exact get_new_top_loop_spec lt hle t _ npos _ i a
      (by simp only [len_node] at hlen; omega) hs ⟨n, hn, hv⟩

namespace Forest

theorem childrenOf_sublist (t : Nat) (F : Forest α) :
    (idxs (childrenOf t F)).Sublist (idxs F) := by
  induction F with
  | nil => simp [childrenOf]
  | node i a c s ihc ihs =>
    simp only [childrenOf, idxs_node]
    by_cases h : i = t
    · simp only [h, if_true]
      exact (List.sublist_append_left _ _).trans (List.sublist_cons_self _ _)
    · simp only [h, if_false]
      by_cases h' : t ∈ idxs c
      · simp only [h', if_true]
        exact (ihc.trans (List.sublist_append_left _ _)).trans (List.sublist_cons_self _ _)
      · simp only [h', if_false]
        exact (ihs.trans (List.sublist_append_right _ _)).trans (List.sublist_cons_self _ _)

theorem not_mem_childrenOf (t : Nat) (F : Forest α) (hnd : (idxs F).Nodup) :
    t ∉ idxs (childrenOf t F) := by
  induction F with
  | nil => simp [childrenOf]
  | node i a c s ihc ihs =>
    simp only [idxs_node, List.nodup_cons, List.mem_append, not_or, List.nodup_append,
      List.disjoint_left] at hnd
    obtain ⟨⟨hic, his⟩, hcn, hsn, hcs⟩ := hnd
    simp only [childrenOf]
    by_cases h : i = t
    · simp only [h, if_true]
      exact h ▸ hic
    · simp only [h, if_false]
      by_cases h' : t ∈ idxs c
      · simp only [h', if_true]
        exact ihc hcn
      · simp only [h', if_false]
        exact ihs hsn

theorem desc_childrenOf (t : Nat) : ∀ (F : Forest α) (k : Nat), desc k F → t ∈ idxs F →
    desc (len (childrenOf t F)) (childrenOf t F) := by
  intro F
  induction F with
  | nil => intro k _ h; simp at h
  | node i a c s ihc ihs =>
    intro k hk ht
    cases k with
    | zero => simp at hk
    | succ k =>
      simp only [desc_succ_node] at hk
      simp only [childrenOf]
      by_cases h : i = t
      · simp only [h, if_true]
        rw [desc_len k c hk.1]
        exact hk.1
      · simp only [h, if_false]
        simp only [idxs_node, List.mem_cons, List.mem_append] at ht
        by_cases h' : t ∈ idxs c
        · simp only [h', if_true]
          exact ihc k hk.1 h'
        · simp only [h', if_false]
          rcases ht with e | e | e
          · exact absurd e.symm h
          · exact absurd e h'
          · exact ihs k hk.2 e

theorem bin_childrenOf (t : Nat) : ∀ (F : Forest α), bin F → t ∈ idxs F →
    desc (len (childrenOf t F)) (childrenOf t F) := by
  intro F
  induction F with
  | nil => intro _ h; simp at h
  | node i a c s _ ihs =>
    intro hb ht
    simp only [bin_node] at hb
    simp only [childrenOf]
    by_cases h : i = t
    · simp only [h, if_true]
      exact hb.1
    · simp only [h, if_false]
      simp only [idxs_node, List.mem_cons, List.mem_append] at ht
      by_cases h' : t ∈ idxs c
      · simp only [h', if_true]
        exact desc_childrenOf t c _ hb.1 h'
      · simp only [h', if_false]
        rcases ht with e | e | e
        · exact absurd e.symm h
        · exact absurd e h'
        · exact ihs hb.2 e

end Forest

/-- The node of every index of the forest, with its value and its child list. -/
theorem rep_sub {d : List α} {rm : List Nat} {ns : List binomial_heap_node} (t : Nat) :
    ∀ (F : Forest α) (p e x : Nat), rep d rm ns p e F x → t ∈ idxs F →
    ∃ n a, ns[t]? = some n ∧ valueOf t F = some a ∧ d[n.index]? = some a ∧
      rm[n.index]? = some t ∧ n.degree = len (childrenOf t F) ∧
      rep d rm ns t npos (childrenOf t F) n.child := by
  intro F
  induction F with
  | nil => intro p e x _ h; simp at h
  | node i a c s ihc ihs =>
    intro p e x hF ht
    rw [rep_node] at hF
    obtain ⟨-, n, hn, -, hdeg, hv, hr, hc, hs⟩ := hF
    simp only [childrenOf, valueOf]
    by_cases h : i = t
    · subst h
      simp only [if_true]
      exact ⟨n, a, hn, rfl, hv, hr, hdeg, hc⟩
    · simp only [h, if_false]
      simp only [idxs_node, List.mem_cons, List.mem_append] at ht
      by_cases h' : t ∈ idxs c
      · simp only [h', if_true]
        exact ihc _ _ _ hc h'
      · simp only [h', if_false]
        rcases ht with e | e | e
        · exact absurd e.symm h
        · exact absurd e h'
        · exact ihs _ _ _ hs e

theorem perm_last {β : Type} : ∀ (d : List β) (l : β), d[d.length - 1]? = some l →
    d.Perm (l :: d.dropLast) := by
  intro d
  induction d with
  | nil => intro l h; simp at h
  | cons y t ih =>
    intro l hl
    cases t with
    | nil =>
      simp only [List.length_singleton, Nat.sub_self, List.getElem?_cons_zero,
        Option.some.injEq] at hl
      subst hl
      simp
    | cons z t' =>
      have hl' : (z :: t')[(z :: t').length - 1]? = some l := by
        simpa using hl
      simp only [List.dropLast_cons₂]
      exact (List.Perm.cons y (ih l hl')).trans (List.Perm.swap _ _ _)

/-- A vector is its element at `k` and what the swap with the last element keeps. -/
theorem perm_compact {β : Type} : ∀ (d : List β) (k : Nat) (x l : β), d[k]? = some x →
    d[d.length - 1]? = some l → d.Perm (x :: (d.set k l).dropLast) := by
  intro d
  induction d with
  | nil => intro k x l h; simp at h
  | cons y t ih =>
    intro k x l hx hl
    cases t with
    | nil =>
      cases k with
      | zero =>
        simp only [List.getElem?_cons_zero, Option.some.injEq] at hx
        subst hx
        simp
      | succ k => simp at hx
    | cons z t' =>
      have hl' : (z :: t')[(z :: t').length - 1]? = some l := by
        simpa using hl
      cases k with
      | zero =>
        simp only [List.getElem?_cons_zero, Option.some.injEq] at hx
        subst hx
        simp only [List.set_cons_zero, List.dropLast_cons₂]
        refine List.Perm.cons _ ?_
        exact perm_last _ l hl'
      | succ k =>
        simp only [List.getElem?_cons_succ] at hx
        have := ih k x l hx hl'
        simp only [List.set_cons_succ]
        have hne : (z :: t').set k l ≠ [] := by
          intro h
          have := congrArg List.length h
          simp at this
        rw [List.dropLast_cons_of_ne_nil hne]
        exact (List.Perm.cons y this).trans (List.Perm.swap _ _ _)

end origin

namespace origin

variable {α : Type}

open Forest binomial_heap

namespace Forest

theorem idxs_uniteF (lt : α → α → Bool) (F : Forest α) :
    (idxs (uniteF lt F)).Perm (idxs F) := by
  induction F using uniteF.induct lt with
  | case1 i a c j b c' s' h ih =>
    rw [uniteF_skip _ _ _ _ _ _ _ _ h]
    simp only [idxs_node] at ih ⊢
    exact List.Perm.cons _ (List.Perm.append_left _ ih)
  | case2 i a c j b c' s' h hc ih =>
    rw [uniteF_linkA _ _ _ _ _ _ _ _ h (by simpa using hc)]
    exact ih.trans (perm_linkA i j (idxs c) (idxs c') (idxs s'))
  | case3 i a c j b c' s' h hc ih =>
    rw [uniteF_linkB _ _ _ _ _ _ _ _ h (by simpa using hc)]
    exact ih.trans (perm_linkB i j (idxs c) (idxs c') (idxs s'))
  | case4 i a c => rw [uniteF_single]
  | case5 => rw [uniteF]

theorem vals_uniteF (lt : α → α → Bool) (F : Forest α) :
    (vals (uniteF lt F)).Perm (vals F) := by
  induction F using uniteF.induct lt with
  | case1 i a c j b c' s' h ih =>
    rw [uniteF_skip _ _ _ _ _ _ _ _ h]
    simp only [vals_node] at ih ⊢
    exact List.Perm.cons _ (List.Perm.append_left _ ih)
  | case2 i a c j b c' s' h hc ih =>
    rw [uniteF_linkA _ _ _ _ _ _ _ _ h (by simpa using hc)]
    exact ih.trans (perm_linkA a b (vals c) (vals c') (vals s'))
  | case3 i a c j b c' s' h hc ih =>
    rw [uniteF_linkB _ _ _ _ _ _ _ _ h (by simpa using hc)]
    exact ih.trans (perm_linkB a b (vals c) (vals c') (vals s'))
  | case4 i a c => rw [uniteF_single]
  | case5 => rw [uniteF]

theorem bin_uniteF (lt : α → α → Bool) (F : Forest α) (hb : bin F) : bin (uniteF lt F) := by
  induction F using uniteF.induct lt with
  | case1 i a c j b c' s' h ih =>
    rw [uniteF_skip _ _ _ _ _ _ _ _ h]
    simp only [bin_node] at hb ih ⊢
    exact ⟨hb.1, ih hb.2⟩
  | case2 i a c j b c' s' h hc ih =>
    rw [uniteF_linkA _ _ _ _ _ _ _ _ h (by simpa using hc)]
    simp only [not_or, not_not] at h
    simp only [bin_node] at hb
    refine ih ?_
    simp only [bin_node, len_node, desc_succ_node]
    refine ⟨⟨?_, hb.1⟩, hb.2.2⟩
    rw [h.1]; exact hb.2.1
  | case3 i a c j b c' s' h hc ih =>
    rw [uniteF_linkB _ _ _ _ _ _ _ _ h (by simpa using hc)]
    simp only [not_or, not_not] at h
    simp only [bin_node] at hb
    refine ih ?_
    simp only [bin_node, len_node, desc_succ_node]
    refine ⟨⟨?_, hb.2.1⟩, hb.2.2⟩
    rw [← h.1]; exact hb.1
  | case4 i a c => rw [uniteF_single]; exact hb
  | case5 => rw [uniteF]; exact hb

theorem hord_uniteF (lt : α → α → Bool)
    (hnt : ∀ x y z, lt x y = false → lt y z = false → lt x z = false)
    (hasym : ∀ x y, lt x y = true → lt y x = false)
    (F : Forest α) (hb : hord lt F) : hord lt (uniteF lt F) := by
  induction F using uniteF.induct lt with
  | case1 i a c j b c' s' h ih =>
    rw [uniteF_skip _ _ _ _ _ _ _ _ h]
    simp only [hord_node] at hb ih ⊢
    exact ⟨hb.1, hb.2.1, ih hb.2.2⟩
  | case2 i a c j b c' s' h hc ih =>
    have hc' : lt a b = false := by simpa using hc
    rw [uniteF_linkA _ _ _ _ _ _ _ _ h hc']
    simp only [hord_node] at hb
    obtain ⟨h1, h2, h3, h4, h5⟩ := hb
    refine ih ?_
    simp only [hord_node, vals_node, List.mem_cons, List.mem_append]
    refine ⟨?_, ⟨h3, h4, h2⟩, h5⟩
    rintro v (rfl | hv | hv)
    · exact hc'
    · exact hnt _ _ _ hc' (h3 v hv)
    · exact h1 v hv
  | case3 i a c j b c' s' h hc ih =>
    have hc' : lt a b = true := by simpa using hc
    rw [uniteF_linkB _ _ _ _ _ _ _ _ h hc']
    simp only [hord_node] at hb
    obtain ⟨h1, h2, h3, h4, h5⟩ := hb
    refine ih ?_
    simp only [hord_node, vals_node, List.mem_cons, List.mem_append]
    refine ⟨?_, ⟨h1, h2, h4⟩, h5⟩
    rintro v (rfl | hv | hv)
    · exact hasym _ _ hc'
    · exact hnt _ _ _ (hasym _ _ hc') (h1 v hv)
    · exact h3 v hv
  | case4 i a c => rw [uniteF_single]; exact hb
  | case5 => rw [uniteF]; exact hb

theorem roots_uniteF (lt : α → α → Bool) (F : Forest α) :
    ∀ r ∈ roots (uniteF lt F), r ∈ roots F := by
  induction F using uniteF.induct lt with
  | case1 i a c j b c' s' h ih =>
    rw [uniteF_skip _ _ _ _ _ _ _ _ h]
    intro r hr
    simp only [roots_node, List.mem_cons] at hr ih ⊢
    rcases hr with e | hr
    · exact Or.inl e
    · exact Or.inr (ih r hr)
  | case2 i a c j b c' s' h hc ih =>
    rw [uniteF_linkA _ _ _ _ _ _ _ _ h (by simpa using hc)]
    intro r hr
    have := ih r hr
    simp only [roots_node, List.mem_cons] at this ⊢
    tauto
  | case3 i a c j b c' s' h hc ih =>
    rw [uniteF_linkB _ _ _ _ _ _ _ _ h (by simpa using hc)]
    intro r hr
    have := ih r hr
    simp only [roots_node, List.mem_cons] at this ⊢
    tauto
  | case4 i a c => rw [uniteF_single]; exact fun r h => h
  | case5 => rw [uniteF]; exact fun r h => h

/-- A root that holds a value greater than the value of every other root is still a root after
`unite`. -/
theorem max_root_uniteF (lt : α → α → Bool) (hasym : ∀ x y, lt x y = true → lt y x = false)
    (F : Forest α) (hnd : (heads F).Nodup) (r : Nat × α) (hr : r ∈ roots F)
    (hmax : ∀ r' ∈ roots F, r'.1 ≠ r.1 → lt r'.2 r.2 = true) : r ∈ roots (uniteF lt F) := by
  induction F using uniteF.induct lt with
  | case1 i a c j b c' s' h ih =>
    rw [uniteF_skip _ _ _ _ _ _ _ _ h]
    simp only [heads_node, List.nodup_cons] at hnd
    simp only [roots_node, List.mem_cons] at hr ⊢
    rcases hr with e | hr
    · exact Or.inl e
    · refine Or.inr (ih ?_ (by simpa using hr) ?_)
      · simp only [heads_node, List.nodup_cons]; exact hnd.2
      · intro r' hr'
        exact hmax r' (by simp only [roots_node, List.mem_cons] at hr' ⊢; tauto)
  | case2 i a c j b c' s' h hc ih =>
    have hc' : lt a b = false := by simpa using hc
    rw [uniteF_linkA _ _ _ _ _ _ _ _ h hc']
    simp only [heads_node, List.nodup_cons, List.mem_cons, not_or] at hnd
    refine ih ?_ ?_ ?_
    · simp only [heads_node, List.nodup_cons]; exact ⟨hnd.1.2, hnd.2.2⟩
    · simp only [roots_node, List.mem_cons] at hr ⊢
      rcases hr with e | e | e
      · exact Or.inl e
      · subst e
        have := hmax (i, a) (by simp) hnd.1.1
        simp only at this
        rw [hc'] at this
        cases this
      · exact Or.inr e
    · intro r' hr'
      exact hmax r' (by simp only [roots_node, List.mem_cons] at hr' ⊢; tauto)
  | case3 i a c j b c' s' h hc ih =>
    have hc' : lt a b = true := by simpa using hc
    rw [uniteF_linkB _ _ _ _ _ _ _ _ h hc']
    simp only [heads_node, List.nodup_cons, List.mem_cons, not_or] at hnd
    refine ih ?_ ?_ ?_
    · simp only [heads_node, List.nodup_cons]; exact hnd.2
    · simp only [roots_node, List.mem_cons] at hr ⊢
      rcases hr with e | e | e
      · subst e
        have := hmax (j, b) (by simp) (Ne.symm hnd.1.1)
        simp only at this
        rw [hasym _ _ hc'] at this
        cases this
      · exact Or.inl e
      · exact Or.inr e
    · intro r' hr'
      exact hmax r' (by simp only [roots_node, List.mem_cons] at hr' ⊢; tauto)
  | case4 i a c => rw [uniteF_single]; exact hr
  | case5 => rw [uniteF]; exact hr

theorem third_same_iff (k : Nat) (s : Forest α) :
    third_same k s = true ↔ (ranks s).head? = some k := by
  cases s <;> simp [third_same]

theorem gt_of_head_ne {k : Nat} {L : List Nat} (hs : L.Sorted (· ≤ ·)) (hge : ∀ r ∈ L, k ≤ r)
    (hh : L.head? ≠ some k) : ∀ r ∈ L, k < r := by
  cases L with
  | nil => simp
  | cons x t =>
    simp only [List.head?_cons, ne_eq, Option.some.injEq] at hh
    simp only [List.sorted_cons] at hs
    have hx := hge x (by simp)
    intro r hr
    simp only [List.mem_cons] at hr
    rcases hr with rfl | hr
    · omega
    · have := hs.1 r hr
      omega

/-- The ranks of the roots after the loop of `unite`: strictly increasing when, among the
roots behind the first one, the ranks do not decrease and no rank is there three times. -/
theorem sorted_uniteF (lt : α → α → Bool) (F : Forest α) : ∀ (k : Nat) (L : List Nat),
    ranks F = k :: L → L.Sorted (· ≤ ·) → (∀ r ∈ L, k ≤ r) → (∀ v, L.count v ≤ 2) →
    (ranks (uniteF lt F)).Sorted (· < ·) ∧ (∀ r ∈ ranks (uniteF lt F), k ≤ r) ∧
      ((∃ L', L = k :: L' ∧ ∀ r ∈ L', k < r) → ∀ r ∈ ranks (uniteF lt F), k < r) := by
  induction F using uniteF.induct lt with
  | case1 i a c j b c' s' h ih =>
    intro k L hr hs hge hcnt
    simp only [ranks_node, List.cons.injEq] at hr
    obtain ⟨rfl, rfl⟩ := hr
    rw [uniteF_skip _ _ _ _ _ _ _ _ h]
    simp only [List.sorted_cons] at hs
    have hcc : len c ≤ len c' := hge _ (by simp)
    obtain ⟨S', G', P'⟩ := ih (len c') (ranks s') rfl hs.2 hs.1 (fun v => by
      have := hcnt v
      rw [List.count_cons] at this
      omega)
    have key : ∀ r ∈ ranks (uniteF lt (node j b c' s')), len c < r := by
      by_cases hne : len c = len c'
      · have h3 : third_same (len c) s' = true := by
          rcases h with h | h
          · exact absurd hne h
          · exact h
        rw [third_same_iff] at h3
        cases hrs : ranks s' with
        | nil => rw [hrs] at h3; simp at h3
        | cons x tl =>
          rw [hrs] at h3
          simp only [List.head?_cons, Option.some.injEq] at h3
          subst h3
          rw [hne]
          refine P' ⟨tl, by rw [hrs, hne], ?_⟩
          intro r hr
          have h1 : len c' ≤ r := hs.1 r (by rw [hrs]; simp [hr])
          have h2 := hcnt (len c')
          rw [hrs, ← hne, List.count_cons_self, List.count_cons_self] at h2
          have h3 : List.count (len c) tl = 0 := by omega
          rw [List.count_eq_zero] at h3
          have : r ≠ len c := fun e => h3 (e ▸ hr)
          omega
      · intro r hr
        have := G' r hr
        omega
    refine ⟨?_, ?_, ?_⟩
    · simp only [ranks_node, List.sorted_cons]
      exact ⟨key, S'⟩
    · intro r hr
      simp only [ranks_node, List.mem_cons] at hr
      rcases hr with rfl | hr
      · exact le_refl _
      · exact le_of_lt (key r hr)
    · rintro ⟨L', hL, hL'⟩
      exfalso
      simp only [List.cons.injEq] at hL
      obtain ⟨e1, e2⟩ := hL
      rcases h with h | h
      · exact h e1.symm
      · rw [third_same_iff, e2] at h
        cases L' with
        | nil => simp at h
        | cons x tl =>
          simp only [List.head?_cons, Option.some.injEq] at h
          have := hL' x (by simp)
          omega
  | case2 i a c j b c' s' h hc ih =>
    intro k L hr hs hge hcnt
    simp only [ranks_node, List.cons.injEq] at hr
    obtain ⟨rfl, rfl⟩ := hr
    rw [uniteF_linkA _ _ _ _ _ _ _ _ h (by simpa using hc)]
    simp only [not_or, not_not, Bool.not_eq_true] at h
    simp only [List.sorted_cons] at hs
    have hgt : ∀ r ∈ ranks s', len c < r := by
      refine gt_of_head_ne hs.2 (fun r hr => by rw [h.1]; exact hs.1 r hr) ?_
      intro e
      have := (third_same_iff (len c) s').2 e
      rw [h.2] at this
      cases this
    obtain ⟨S', G', -⟩ := ih (len c + 1) (ranks s') (by simp) hs.2 (fun r hr => hgt r hr)
      (fun v => by
        have := hcnt v
        rw [List.count_cons] at this
        omega)
    exact ⟨S', fun r hr => by have := G' r hr; omega, fun _ r hr => by have := G' r hr; omega⟩
  | case3 i a c j b c' s' h hc ih =>
    intro k L hr hs hge hcnt
    simp only [ranks_node, List.cons.injEq] at hr
    obtain ⟨rfl, rfl⟩ := hr
    rw [uniteF_linkB _ _ _ _ _ _ _ _ h (by simpa using hc)]
    simp only [not_or, not_not, Bool.not_eq_true] at h
    simp only [List.sorted_cons] at hs
    have hgt : ∀ r ∈ ranks s', len c < r := by
      refine gt_of_head_ne hs.2 (fun r hr => by rw [h.1]; exact hs.1 r hr) ?_
      intro e
      have := (third_same_iff (len c) s').2 e
      rw [h.2] at this
      cases this
    obtain ⟨S', G', -⟩ := ih (len c' + 1) (ranks s') (by simp) hs.2
      (fun r hr => by have := hgt r hr; omega)
      (fun v => by
        have := hcnt v
        rw [List.count_cons] at this
        omega)
    exact ⟨S', fun r hr => by have := G' r hr; omega, fun _ r hr => by have := G' r hr; omega⟩
  | case4 i a c =>
    intro k L hr hs hge hcnt
    simp only [ranks_node, ranks_nil, List.cons.injEq] at hr
    obtain ⟨rfl, rfl⟩ := hr
    rw [uniteF_single]
    simp
  | case5 =>
    intro k L hr
    simp at hr

/-- The root list after `unite` of two lists with strictly increasing ranks. -/
theorem sorted_unite_merge (lt : α → α → Bool) (P Q : Forest α)
    (hP : (ranks P).Sorted (· < ·)) (hQ : (ranks Q).Sorted (· < ·)) :
    (ranks (uniteF lt (mergeF P Q))).Sorted (· < ·) := by
  have hle : ∀ {l : List Nat}, l.Sorted (· < ·) → l.Sorted (· ≤ ·) :=
    fun h => h.imp (fun h => le_of_lt h)
  have hs := sorted_mergeF P Q (hle hP) (hle hQ)
  have hc : ∀ v, (ranks (mergeF P Q)).count v ≤ 2 := by
    intro v
    rw [(ranks_mergeF P Q).count_eq, List.count_append]
    have h1 := List.nodup_iff_count_le_one.1 hP.nodup v
    have h2 := List.nodup_iff_count_le_one.1 hQ.nodup v
    omega
  cases hM : mergeF P Q with
  | nil => rw [uniteF]; simp
  | node i a c s =>
    rw [hM] at hs hc
    simp only [ranks_node, List.sorted_cons] at hs
    exact (sorted_uniteF lt (node i a c s) (len c) (ranks s) rfl hs.2 hs.1 (fun v => by
      have := hc v
      simp only [ranks_node] at this
      rw [List.count_cons] at this
      omega)).1

end Forest

end origin

namespace origin

variable {α : Type}

open Forest binomial_heap

namespace Forest

theorem heads_not_children (t : Nat) (F : Forest α) (hnd : (idxs F).Nodup) :
    ∀ r ∈ heads F, r ∉ idxs (childrenOf t F) := by
  induction F with
  | nil => simp
  | node i a c s _ ihs =>
    simp only [idxs_node, List.nodup_cons, List.mem_append, not_or, List.nodup_append,
      List.disjoint_left] at hnd
    obtain ⟨⟨hic, his⟩, hcn, hsn, hcs⟩ := hnd
    intro r hr
    simp only [heads_node, List.mem_cons] at hr
    simp only [childrenOf]
    by_cases h : i = t
    · simp only [h, if_true]
      rcases hr with rfl | hr
      · exact hic
      · exact fun h' => hcs h' (heads_sub s r hr)
    · simp only [h, if_false]
      by_cases h' : t ∈ idxs c
      · simp only [h', if_true]
        intro hm
        have hm' := (childrenOf_sublist t c).subset hm
        rcases hr with rfl | hr
        · exact hic hm'
        · exact hcs hm' (heads_sub s r hr)
      · simp only [h', if_false]
        rcases hr with rfl | hr
        · exact fun hm => his ((childrenOf_sublist t s).subset hm)
        · exact ihs hsn r hr

theorem mergeF_eq_nil {P Q : Forest α} (h : mergeF P Q = nil) : P = nil ∧ Q = nil := by
  cases P with
  | nil => simp only [mergeF_nil_left] at h; exact ⟨rfl, h⟩
  | node i a c s =>
    cases Q with
    | nil => simp at h
    | node j b c' s' =>
      rw [mergeF_node_node] at h
      split at h <;> cases h

theorem app_eq_nil {F G : Forest α} (h : app F G = nil) : F = nil ∧ G = nil := by
  cases F with
  | nil => simp only [app_nil_left] at h; exact ⟨rfl, h⟩
  | node i a c s => simp at h

end Forest

/-- The first block of `pop` on a state that holds `F`, for a cached top anywhere in `F`. -/
theorem pop_reverse_spec {s : binomial_heap α} {F : Forest α} {p e : Nat}
    (hle : s.nodes_.length ≤ npos)
    (hF : rep s.data_ s.reversemap_ s.nodes_ p e F s.head_) (hnd : (idxs F).Nodup)
    (ht : s.top_ ∈ idxs F) :
    ∃ ns1, pop_reverse s = .ok (ns1, start npos (rev nil (childrenOf s.top_ F))) ∧
      Frame (idxs (childrenOf s.top_ F)) s.nodes_ ns1 ∧
      rep s.data_ s.reversemap_ ns1 npos npos (rev nil (childrenOf s.top_ F))
        (start npos (rev nil (childrenOf s.top_ F))) := by
  obtain ⟨nt, a, hnt, -, -, -, -, hc⟩ := rep_sub s.top_ F p e s.head_ hF ht
  have hcn : (idxs (childrenOf s.top_ F)).Nodup := hnd.sublist (childrenOf_sublist _ _)
  have hlen := len_le_of_rep hc hcn
  cases hch : childrenOf s.top_ F with
  | nil =>
    rw [hch] at hc
    simp only [rep_nil] at hc
    refine ⟨s.nodes_, ?_, Frame.refl _ _, by simp [rev]⟩
    unfold pop_reverse
    simp [at_ok hnt, ok_bind, hc, rev, pure, Except.pure]
  | node j b c' s' =>
    rw [hch] at hc hcn hlen
    have hj : nt.child ≠ npos := by
      have := hc
      rw [rep_node] at this
      obtain ⟨e1, nj, hnj, _⟩ := this
      rw [e1]
      exact ne_npos_of_get hle hnj
    obtain ⟨ns1, hrun, hFr, hrep⟩ := reverse_loop_spec s.data_ s.reversemap_ (node j b c' s')
      nil (s.nodes_.length + 1) s.nodes_ s.top_ nt.child npos (by omega) hle hc (by simp)
      (by simpa using hcn)
    refine ⟨ns1, ?_, hFr, hrep⟩
    unfold pop_reverse
    simp only [at_ok hnt, ok_bind, ne_eq, hj, not_false_eq_true, if_true]
    exact hrun

/-- The third block of `pop`, on vectors that hold the forest `F` without the node `temp`. -/
theorem pop_compact_spec {s : binomial_heap α} {F : Forest α} {temp : Nat}
    {nt : binomial_heap_node} {tv : α}
    (hlen : s.reversemap_.length = s.data_.length)
    (hslots : ∀ k, k < s.data_.length →
      ∃ i n, s.reversemap_[k]? = some i ∧ s.nodes_[i]? = some n ∧ n.index = k)
    (hrep : rep s.data_ s.reversemap_ s.nodes_ npos npos F s.head_)
    (hnt : s.nodes_[temp]? = some nt) (htv : s.data_[nt.index]? = some tv)
    (hrt : s.reversemap_[nt.index]? = some temp) (htF : temp ∉ idxs F) :
    ∃ s', pop_compact s temp = .ok s' ∧ s'.head_ = s.head_ ∧ s'.top_ = s.top_ ∧
      s'.nodes_.length = s.nodes_.length ∧
      s'.reversemap_.length = s'.data_.length ∧
      s'.data_.length + 1 = s.data_.length ∧
      (∀ k, k < s'.data_.length →
        ∃ i n, s'.reversemap_[k]? = some i ∧ s'.nodes_[i]? = some n ∧ n.index = k) ∧
      rep s'.data_ s'.reversemap_ s'.nodes_ npos npos F s'.head_ ∧
      s.data_.Perm (tv :: s'.data_) := by
  have hk : nt.index < s.data_.length := lt_of_get htv
  have hpos : 0 < s.data_.length := by omega
  obtain ⟨index, nidx, hri, hni, hil⟩ := hslots (s.data_.length - 1) (by omega)
  have hlast : ∃ last, s.data_[s.data_.length - 1]? = some last :=
    ⟨_, List.getElem?_eq_getElem (by omega)⟩
  obtain ⟨last, hl⟩ := hlast
  set dead : binomial_heap_node :=
    { index := npos, parent := npos, child := npos, right_sibling := npos, degree := 0 }
    with hdead
  set ns1 := s.nodes_.set index { nidx with index := nt.index } with h1
  have hlen1 : ns1.length = s.nodes_.length := List.length_set _ _ _
  have ht1 : ∃ n1, ns1[temp]? = some n1 := by
    refine ⟨_, List.getElem?_eq_getElem ?_⟩
    rw [hlen1]; exact lt_of_get hnt
  obtain ⟨n1, hn1⟩ := ht1
  set ns2 := ns1.set temp dead with h2
  set d' := (s.data_.set nt.index last).dropLast with hd'
  set rm' := (s.reversemap_.set nt.index index).dropLast with hrm'
  have hd'len : d'.length = s.data_.length - 1 := by simp [hd']
  have hrm'len : rm'.length = s.data_.length - 1 := by simp [hrm', hlen]
  -- lookups in the new vectors
  have hdk : ∀ k, k < s.data_.length - 1 → d'[k]? =
      if k = nt.index then some last else s.data_[k]? := by
    intro k hk'
    rw [hd', List.getElem?_dropLast, List.length_set, if_pos hk', List.getElem?_set]
    by_cases e : nt.index = k
    · rw [if_pos e, if_pos hk, if_pos e.symm]
    · rw [if_neg e, if_neg (Ne.symm e)]
  have hrk : ∀ k, k < s.data_.length - 1 → rm'[k]? =
      if k = nt.index then some index else s.reversemap_[k]? := by
    intro k hk'
    rw [hrm', List.getElem?_dropLast, List.length_set, hlen, if_pos hk', List.getElem?_set]
    by_cases e : nt.index = k
    · rw [if_pos e, if_pos (by rw [hlen]; exact hk), if_pos e.symm]
    · rw [if_neg e, if_neg (Ne.symm e)]
  have hn2 : ∀ i, i ≠ temp → ns2[i]? =
      if i = index then some { nidx with index := nt.index } else s.nodes_[i]? := by
    intro i hi
    rw [h2, get_set_other _ (Ne.symm hi), h1]
    by_cases e : i = index
    · rw [if_pos e, e]; exact get_set_self _ hni
    · rw [if_neg e, get_set_other _ (Ne.symm e)]
  refine ⟨{ s with data_ := d', reversemap_ := rm', nodes_ := ns2 }, ?_, rfl, rfl, ?_, ?_, ?_,
    ?_, ?_, ?_⟩
  · unfold pop_compact
    rw [hlen]
    simp only [at_ok hri, at_ok hnt, at_ok hl, ok_bind, put_ok _ hk,
      put_ok _ (show nt.index < s.reversemap_.length by rw [hlen]; exact hk),
      upd_ok _ hni, ← h1, upd_ok _ hn1, pure, Except.pure]
  · show ns2.length = s.nodes_.length
    rw [h2, List.length_set, hlen1]
  · show rm'.length = d'.length
    rw [hd'len, hrm'len]
  · show d'.length + 1 = s.data_.length
    rw [hd'len]; omega
  · show ∀ k, k < d'.length → ∃ i n, rm'[k]? = some i ∧ ns2[i]? = some n ∧ n.index = k
    intro k hk'
    rw [hd'len] at hk'
    by_cases e : k = nt.index
    · have hit : index ≠ temp := by
        rintro rfl
        have := Option.some.inj (hnt.symm.trans hni)
        rw [← this] at hil
        omega
      refine ⟨index, { nidx with index := nt.index }, ?_, ?_, e.symm⟩
      · rw [hrk k hk', if_pos e]
      · rw [hn2 index hit, if_pos rfl]
    · obtain ⟨i, n, h1', h2', h3'⟩ := hslots k (by omega)
      have hit : i ≠ temp := by
        rintro rfl
        have := Option.some.inj (hnt.symm.trans h2')
        rw [← this] at h3'
        exact e h3'.symm
      have hii : i ≠ index := by
        rintro rfl
        have := Option.some.inj (hni.symm.trans h2')
        rw [← this] at h3'
        omega
      refine ⟨i, n, ?_, ?_, h3'⟩
      · rw [hrk k hk', if_neg e]; exact h1'
      · rw [hn2 i hit, if_neg hii]; exact h2'
  · show rep d' rm' ns2 npos npos F s.head_
    refine rep_congr F hrep ?_
    intro i hi n hn
    have hit : i ≠ temp := fun e => htF (e ▸ hi)
    by_cases e : i = index
    · subst e
      have hnn : nidx = n := Option.some.inj (hni.symm.trans hn)
      subst hnn
      have hne : nt.index ≠ s.data_.length - 1 := by
        intro e'
        rw [e', hri] at hrt
        exact hit (Option.some.inj hrt)
      refine ⟨{ nidx with index := nt.index }, ?_, rfl, rfl, rfl, rfl, ?_⟩
      · rw [hn2 i hit, if_pos rfl]
      · intro a ha hr
        have hlt : nt.index < s.data_.length - 1 := by omega
        refine ⟨?_, ?_⟩
        · show d'[nt.index]? = some a
          rw [hdk _ hlt, if_pos rfl, ← hl, ← hil]
          exact ha
        · show rm'[nt.index]? = some i
          rw [hrk _ hlt, if_pos rfl]
    · refine ⟨n, ?_, rfl, rfl, rfl, rfl, ?_⟩
      · rw [hn2 i hit, if_neg e]; exact hn
      · intro a ha hr
        have hne1 : n.index ≠ s.data_.length - 1 := by
          intro e'
          rw [e', hri] at hr
          exact e (Option.some.inj hr).symm
        have hne2 : n.index ≠ nt.index := by
          intro e'
          rw [e', hrt] at hr
          exact hit (Option.some.inj hr).symm
        have hlt : n.index < s.data_.length - 1 := by
          have := lt_of_get ha
          omega
        refine ⟨?_, ?_⟩
        · rw [hdk _ hlt, if_neg hne2]; exact ha
        · rw [hrk _ hlt, if_neg hne2]; exact hr
  · exact perm_compact _ _ _ _ htv hl

end origin

namespace origin

variable {α : Type}

open Forest binomial_heap

namespace Forest

theorem popF_single (lt : α → α → Bool) (t i : Nat) (a : α) (c : Forest α) :
    popF lt t (node i a c nil) = rev nil (childrenOf t (node i a c nil)) := rfl

theorem popF_many (lt : α → α → Bool) (t i : Nat) (a : α) (c : Forest α) (j : Nat) (b : α)
    (c' s' : Forest α) :
    popF lt t (node i a c (node j b c' s')) =
      uniteF lt (mergeF (removeRoot t (node i a c (node j b c' s')))
        (rev nil (childrenOf t (node i a c (node j b c' s'))))) := rfl

theorem pushF_nil (lt : α → α → Bool) (i : Nat) (d : α) :
    pushF lt i d nil = node i d nil nil := rfl

theorem pushF_node (lt : α → α → Bool) (i : Nat) (d : α) (j : Nat) (b : α) (c s : Forest α) :
    pushF lt i d (node j b c s) = uniteF lt (mergeF (node j b c s) (node i d nil nil)) := rfl

/-- The indices of a forest: a root, the rest of the root list and the children of the
root. -/
theorem idxs_split (t : Nat) (F : Forest α) (hnd : (idxs F).Nodup) (ht : t ∈ heads F) :
    (idxs F).Perm (t :: (idxs (removeRoot t F) ++ idxs (childrenOf t F))) := by
  obtain ⟨a, -, he⟩ := split_root t F hnd ht
  rw [remove_eq, idxs_app]
  conv_lhs => rw [he]
  rw [idxs_app]
  simp only [idxs_node]
  refine (List.perm_middle).trans (List.Perm.cons t ?_)
  rw [List.append_assoc]
  exact List.Perm.append_left _ List.perm_append_comm

theorem vals_split (t : Nat) (F : Forest α) (hnd : (idxs F).Nodup) (ht : t ∈ heads F) :
    ∃ a, valueOf t F = some a ∧
      (vals F).Perm (a :: (vals (removeRoot t F) ++ vals (childrenOf t F))) := by
  obtain ⟨a, hv, he⟩ := split_root t F hnd ht
  refine ⟨a, hv, ?_⟩
  rw [remove_eq, vals_app]
  conv_lhs => rw [he]
  rw [vals_app]
  simp only [vals_node]
  refine (List.perm_middle).trans (List.Perm.cons a ?_)
  rw [List.append_assoc]
  exact List.Perm.append_left _ List.perm_append_comm

theorem ranks_remove_sublist (t : Nat) (F : Forest α) :
    (ranks (removeRoot t F)).Sublist (ranks F) := by
  induction F with
  | nil => simp [removeRoot]
  | node i a c s _ ihs =>
    simp only [removeRoot]
    by_cases h : i = t
    · simp only [h, if_true, ranks_node]
      exact List.sublist_cons_self _ _
    · simp only [h, if_false, ranks_node]
      exact ihs.cons₂ _

theorem roots_remove_sublist (t : Nat) (F : Forest α) :
    (roots (removeRoot t F)).Sublist (roots F) := by
  induction F with
  | nil => simp [removeRoot]
  | node i a c s _ ihs =>
    simp only [removeRoot]
    by_cases h : i = t
    · simp only [h, if_true, roots_node]
      exact List.sublist_cons_self _ _
    · simp only [h, if_false, roots_node]
      exact ihs.cons₂ _

theorem bin_remove (t : Nat) (F : Forest α) (hb : bin F) : bin (removeRoot t F) := by
  induction F with
  | nil => simp [removeRoot]
  | node i a c s _ ihs =>
    simp only [bin_node] at hb
    simp only [removeRoot]
    by_cases h : i = t
    · simp only [h, if_true]; exact hb.2
    · simp only [h, if_false, bin_node]; exact ⟨hb.1, ihs hb.2⟩

theorem hord_remove (lt : α → α → Bool) (t : Nat) (F : Forest α) (hb : hord lt F) :
    hord lt (removeRoot t F) := by
  induction F with
  | nil => simp [removeRoot]
  | node i a c s _ ihs =>
    simp only [hord_node] at hb
    simp only [removeRoot]
    by_cases h : i = t
    · simp only [h, if_true]; exact hb.2.2
    · simp only [h, if_false, hord_node]; exact ⟨hb.1, hb.2.1, ihs hb.2.2⟩

theorem hord_children (lt : α → α → Bool) (t : Nat) (F : Forest α) (hb : hord lt F) :
    hord lt (childrenOf t F) := by
  induction F with
  | nil => simp [childrenOf]
  | node i a c s ihc ihs =>
    simp only [hord_node] at hb
    simp only [childrenOf]
    by_cases h : i = t
    · simp only [h, if_true]; exact hb.2.1
    · simp only [h, if_false]
      by_cases h' : t ∈ idxs c
      · simp only [h', if_true]; exact ihc hb.2.1
      · simp only [h', if_false]; exact ihs hb.2.2

theorem sorted_rev_children (t : Nat) (F : Forest α) (hb : bin F) (ht : t ∈ idxs F) :
    (ranks (rev nil (childrenOf t F))).Sorted (· < ·) := by
  have h := (ranks_of_desc _ _ (bin_childrenOf t F hb ht)).1
  rw [ranks_rev]
  simp only [ranks_nil, List.append_nil]
  exact List.pairwise_reverse.2 h

theorem bin_rev_children (t : Nat) (F : Forest α) (hb : bin F) (ht : t ∈ idxs F) :
    bin (rev nil (childrenOf t F)) := by
  rw [bin_rev]
  exact ⟨bin_of_desc _ _ (bin_childrenOf t F hb ht), by simp⟩

/-- The forest after `pop` is a binomial forest again, with the ranks of the roots strictly
increasing. -/
theorem popF_shape (lt : α → α → Bool) (t : Nat) (F : Forest α) (hb : bin F)
    (hs : (ranks F).Sorted (· < ·)) (ht : t ∈ idxs F) :
    bin (popF lt t F) ∧ (ranks (popF lt t F)).Sorted (· < ·) := by
  cases F with
  | nil => simp at ht
  | node i a c s =>
    cases s with
    | nil =>
      rw [popF_single]
      exact ⟨bin_rev_children t _ hb ht, sorted_rev_children t _ hb ht⟩
    | node j b c' s' =>
      rw [popF_many]
      refine ⟨bin_uniteF lt _ ((bin_mergeF _ _).2
        ⟨bin_remove t _ hb, bin_rev_children t _ hb ht⟩), ?_⟩
      exact sorted_unite_merge lt _ _ (hs.sublist (ranks_remove_sublist t _))
        (sorted_rev_children t _ hb ht)

/-- The forest after `push` is a binomial forest again, with the ranks of the roots strictly
increasing. -/
theorem pushF_shape (lt : α → α → Bool) (i : Nat) (d : α) (F : Forest α) (hb : bin F)
    (hs : (ranks F).Sorted (· < ·)) :
    bin (pushF lt i d F) ∧ (ranks (pushF lt i d F)).Sorted (· < ·) := by
  cases F with
  | nil => simp [pushF_nil]
  | node j b c s =>
    rw [pushF_node]
    refine ⟨bin_uniteF lt _ ((bin_mergeF _ _).2 ⟨hb, by simp⟩), ?_⟩
    exact sorted_unite_merge lt _ _ hs (by simp)

theorem idxs_pushF (lt : α → α → Bool) (i : Nat) (d : α) (F : Forest α) :
    (idxs (pushF lt i d F)).Perm (i :: idxs F) := by
  cases F with
  | nil => simp [pushF_nil]
  | node j b c s =>
    rw [pushF_node]
    refine (idxs_uniteF lt _).trans ((idxs_mergeF _ _).trans ?_)
    simp only [idxs_node, idxs_nil, List.append_nil]
    exact (List.perm_append_comm).trans (by simp)

theorem vals_pushF (lt : α → α → Bool) (i : Nat) (d : α) (F : Forest α) :
    (vals (pushF lt i d F)).Perm (d :: vals F) := by
  cases F with
  | nil => simp [pushF_nil]
  | node j b c s =>
    rw [pushF_node]
    refine (vals_uniteF lt _).trans ((vals_mergeF _ _).trans ?_)
    simp only [vals_node, vals_nil, List.append_nil]
    exact (List.perm_append_comm).trans (by simp)

/-- The indices after `pop`, for a cached top on the root list. -/
theorem idxs_popF (lt : α → α → Bool) (t : Nat) (F : Forest α) (hnd : (idxs F).Nodup)
    (ht : t ∈ heads F) : (idxs F).Perm (t :: idxs (popF lt t F)) := by
  refine (idxs_split t F hnd ht).trans (List.Perm.cons t ?_)
  cases F with
  | nil => simp at ht
  | node i a c s =>
    cases s with
    | nil =>
      rw [popF_single]
      simp only [heads_node, heads_nil, List.mem_singleton] at ht
      subst ht
      simp only [removeRoot, childrenOf, if_true, idxs_nil, List.nil_append]
      exact ((idxs_rev c nil).trans (by simp)).symm
    | node j b c' s' =>
      rw [popF_many]
      refine ((idxs_uniteF lt _).trans ((idxs_mergeF _ _).trans ?_)).symm
      exact List.Perm.append_left _ ((idxs_rev _ nil).trans (by simp))

theorem vals_popF (lt : α → α → Bool) (t : Nat) (F : Forest α) (hnd : (idxs F).Nodup)
    (ht : t ∈ heads F) :
    ∃ a, valueOf t F = some a ∧ (vals F).Perm (a :: vals (popF lt t F)) := by
  obtain ⟨a, hv, hp⟩ := vals_split t F hnd ht
  refine ⟨a, hv, hp.trans (List.Perm.cons a ?_)⟩
  cases F with
  | nil => simp at ht
  | node i b c s =>
    cases s with
    | nil =>
      rw [popF_single]
      simp only [heads_node, heads_nil, List.mem_singleton] at ht
      subst ht
      simp only [removeRoot, childrenOf, if_true, vals_nil, List.nil_append]
      exact ((vals_rev c nil).trans (by simp)).symm
    | node j b' c' s' =>
      rw [popF_many]
      refine ((vals_uniteF lt _).trans ((vals_mergeF _ _).trans ?_)).symm
      exact List.Perm.append_left _ ((vals_rev _ nil).trans (by simp))

/-- The indices after `pop` when the root list has one root, for a cached top anywhere. -/
theorem idxs_popF_single (lt : α → α → Bool) (t i : Nat) (a : α) (c : Forest α)
    (hnd : (idxs (node i a c nil)).Nodup) :
    (idxs (popF lt t (node i a c nil))).Nodup ∧ t ∉ idxs (popF lt t (node i a c nil)) ∧
      ∀ k ∈ idxs (popF lt t (node i a c nil)), k ∈ idxs (node i a c nil) := by
  rw [popF_single]
  have hp : (idxs (rev nil (childrenOf t (node i a c nil)))).Perm
      (idxs (childrenOf t (node i a c nil))) := (idxs_rev _ nil).trans (by simp)
  refine ⟨hp.nodup_iff.2 (hnd.sublist (childrenOf_sublist _ _)), ?_, ?_⟩
  · intro h
    exact not_mem_childrenOf t _ hnd (hp.subset h)
  · intro k hk
    exact (childrenOf_sublist t _).subset (hp.subset hk)

end Forest

end origin

namespace origin

variable {α : Type}

open Forest binomial_heap

set_option maxHeartbeats 1000000 in
/-- The second block of `pop`, after the first block has turned the node array into `ns1`:
with the cached top on the root list, or with one root only, the state holds `popF`; otherwise
the search for the root in front of the cached top leaves the root list. -/
theorem pop_unlink_spec (lt : α → α → Bool) {s : binomial_heap α} {F : Forest α}
    {ns1 : List binomial_heap_node} (hlt : s.nodes_.length < npos)
    (hF : rep s.data_ s.reversemap_ s.nodes_ npos npos F s.head_) (hnd : (idxs F).Nodup)
    (ht : s.top_ ∈ idxs F)
    (hFr : Frame (idxs (childrenOf s.top_ F)) s.nodes_ ns1)
    (hQ : rep s.data_ s.reversemap_ ns1 npos npos (rev nil (childrenOf s.top_ F))
      (start npos (rev nil (childrenOf s.top_ F)))) :
    (s.top_ ∈ heads F ∨ len F = 1 →
      ∃ s2, pop_unlink lt { s with nodes_ := ns1 }
          (start npos (rev nil (childrenOf s.top_ F))) = .ok s2 ∧
        s2.data_ = s.data_ ∧ s2.reversemap_ = s.reversemap_ ∧ s2.top_ = s.top_ ∧
        Frame (idxs F) s.nodes_ s2.nodes_ ∧
        rep s.data_ s.reversemap_ s2.nodes_ npos npos (popF lt s.top_ F) s2.head_) ∧
    (¬ (s.top_ ∈ heads F ∨ len F = 1) →
      ∃ e, pop_unlink lt { s with nodes_ := ns1 }
          (start npos (rev nil (childrenOf s.top_ F))) = .error e) := by
  have hsubc : ∀ k ∈ idxs (childrenOf s.top_ F), k ∈ idxs F :=
    fun k hk => (childrenOf_sublist _ _).subset hk
  have hle1 : ns1.length ≤ npos := by rw [hFr.1]; omega
  have hprevQ : (idxs (rev nil (childrenOf s.top_ F))).Perm (idxs (childrenOf s.top_ F)) :=
    (idxs_rev _ nil).trans (by simp)
  cases F with
  | nil => simp at ht
  | node i a c0 s0 =>
    have hF0 := hF
    rw [rep_node] at hF
    obtain ⟨hhead, n0, hn0, hp0, hd0, hv0, hr0, hc0, hs0⟩ := hF
    rw [hhead] at hF0
    have hi1 : ns1[i]? = some n0 := by
      rw [hFr.2.1 i (heads_not_children _ _ hnd i (by simp))]
      exact hn0
    cases s0 with
    | nil =>
      simp only [rep_nil] at hs0
      constructor
      · intro _
        refine ⟨{ s with
            nodes_ := ns1
            head_ := start npos (rev nil (childrenOf s.top_ (node i a c0 nil))) },
          ?_, rfl, rfl, rfl, hFr.mono hsubc, ?_⟩
        · unfold pop_unlink
          simp only [hhead, at_ok hi1, ok_bind, hs0, if_true, pure, Except.pure]
        · rw [popF_single]
          exact hQ
      · intro h
        exact absurd (Or.inr (by simp)) h
    | node j b c' s' =>
      have hrj : n0.right_sibling = j := by rw [rep_node] at hs0; exact hs0.1
      have hjne : n0.right_sibling ≠ npos := by
        rw [rep_node] at hs0
        obtain ⟨e1, nj, hnj, _⟩ := hs0
        rw [e1]
        exact ne_npos_of_get (le_of_lt hlt) hnj
      have hlen2 : ¬ len (node i a c0 (node j b c' s')) = 1 := by simp
      -- the common end: `unite` of what is left with the reversed child list
      have fin : s.top_ ∈ heads (node i a c0 (node j b c' s')) →
          ∀ (ns2 : List binomial_heap_node) (head2 : Nat), Frame (idxs (node i a c0 (node j b c' s')))
            s.nodes_ ns2 →
          rep s.data_ s.reversemap_ ns2 npos npos
            (removeRoot s.top_ (node i a c0 (node j b c' s'))) head2 →
          rep s.data_ s.reversemap_ ns2 npos npos
            (rev nil (childrenOf s.top_ (node i a c0 (node j b c' s'))))
            (start npos (rev nil (childrenOf s.top_ (node i a c0 (node j b c' s'))))) →
          removeRoot s.top_ (node i a c0 (node j b c' s')) ≠ nil →
          ∃ s2, unite lt { s with nodes_ := ns2, head_ := head2 }
              (start npos (rev nil (childrenOf s.top_ (node i a c0 (node j b c' s'))))) = .ok s2 ∧
            s2.data_ = s.data_ ∧ s2.reversemap_ = s.reversemap_ ∧ s2.top_ = s.top_ ∧
            Frame (idxs (node i a c0 (node j b c' s'))) s.nodes_ s2.nodes_ ∧
            rep s.data_ s.reversemap_ s2.nodes_ npos npos
              (popF lt s.top_ (node i a c0 (node j b c' s'))) s2.head_ := by
        intro hth ns2 head2 hFr2 hP hQ2 hne
        have hsp := idxs_split s.top_ _ hnd hth
        have hndPQ : (idxs (removeRoot s.top_ (node i a c0 (node j b c' s'))) ++
            idxs (rev nil (childrenOf s.top_ (node i a c0 (node j b c' s'))))).Nodup := by
          have h1 := (hsp.nodup_iff.1 hnd)
          rw [List.nodup_cons] at h1
          exact ((List.Perm.append_left _ hprevQ).nodup_iff).2 h1.2
        obtain ⟨s2, hrun, e1, e2, e3, hFr3, hrep3⟩ := unite_spec lt
          (s := { s with nodes_ := ns2, head_ := head2 })
          (by show ns2.length < npos; rw [hFr2.1]; exact hlt) hP hQ2 hndPQ
          (fun h => hne (mergeF_eq_nil h).1)
        refine ⟨s2, hrun, e1, e2, e3, ?_, ?_⟩
        · refine Frame.trans hFr2 hFr3 (fun _ h => h) ?_
          intro k hk
          have : k ∈ s.top_ :: (idxs (removeRoot s.top_ (node i a c0 (node j b c' s'))) ++
              idxs (childrenOf s.top_ (node i a c0 (node j b c' s')))) := by
            rw [List.mem_cons]
            right
            rw [List.mem_append] at hk ⊢
            rcases hk with h | h
            · exact Or.inl h
            · exact Or.inr (hprevQ.subset h)
          exact hsp.symm.subset this
        · rw [popF_many]
          exact hrep3
      by_cases hit : i = s.top_
      · constructor
        · intro _
          have hth : s.top_ ∈ heads (node i a c0 (node j b c' s')) := by simp [hit]
          have hrem : removeRoot s.top_ (node i a c0 (node j b c' s')) = node j b c' s' := by
            simp [removeRoot, hit]
          have hch : childrenOf s.top_ (node i a c0 (node j b c' s')) = c0 := by
            simp [childrenOf, hit]
          have hP : rep s.data_ s.reversemap_ ns1 npos npos (node j b c' s') n0.right_sibling := by
            refine rep_of_Frame hs0 hFr ?_
            intro k hk
            rw [hch]
            simp only [idxs_node, List.nodup_cons, List.mem_append, not_or, List.nodup_append,
              List.disjoint_left] at hnd
            exact fun h => hnd.2.2.2 h hk
          obtain ⟨s2, hrun, rest⟩ := fin hth ns1 n0.right_sibling (hFr.mono hsubc)
            (by rw [hrem]; exact hP) hQ (by rw [hrem]; simp)
          refine ⟨s2, ?_, rest⟩
          unfold pop_unlink
          simp only [hhead, at_ok hi1, ok_bind, if_neg hjne, if_pos hit]
          exact hrun
        · intro h
          exact absurd (Or.inl (by simp [hit])) h
      · by_cases hth : s.top_ ∈ heads (node i a c0 (node j b c' s'))
        · constructor
          · intro _
            obtain ⟨at_v, -, he⟩ := split_root s.top_ _ hnd hth
            have hprene := before_ne_nil hth (by simpa using hit)
            generalize hpre : before s.top_ (node i a c0 (node j b c' s')) = pre at he hprene
            generalize hpost : after s.top_ (node i a c0 (node j b c' s')) = post at he
            generalize hcc : childrenOf s.top_ (node i a c0 (node j b c' s')) = c at *
            have hFs := hF0
            rw [he, rep_app] at hFs
            simp only [start_node] at hFs
            obtain ⟨hFpre, hFt⟩ := hFs
            rw [rep_node] at hFt
            obtain ⟨-, nt, hnt, -, -, -, -, -, hFpost⟩ := hFt
            have hnd' := hnd
            rw [he, idxs_app] at hnd'
            simp only [idxs_node, List.nodup_append, List.nodup_cons, List.mem_append, not_or,
              List.disjoint_left, List.mem_cons] at hnd'
            obtain ⟨hpren, ⟨⟨htc, htpost⟩, hcn, hpostn, hcpost⟩, hprex⟩ := hnd'
            have hpre1 : rep s.data_ s.reversemap_ ns1 npos s.top_ pre i :=
              rep_of_Frame hFpre hFr (fun k hk h => (hprex hk).2.1 h)
            have hpost1 : rep s.data_ s.reversemap_ ns1 npos npos post nt.right_sibling :=
              rep_of_Frame hFpost hFr (fun k hk h => hcpost h hk)
            have hnt1 : ns1[s.top_]? = some nt := by
              rw [hFr.2.1 _ htc]; exact hnt
            obtain ⟨tmp, ntmp, hfind, hntmp, htmp, hpre2⟩ := find_prev_spec s.top_
              nt.right_sibling pre (ns1.length + 1) ns1 npos i
              (by have := len_le_of_rep hpre1 hpren; omega) hprene hpre1 hpren
              (fun h => (hprex h).1 rfl)
            set ns2 := ns1.set tmp { ntmp with right_sibling := nt.right_sibling } with hns2
            have hF2 : Frame [tmp] ns1 ns2 := Frame.set hntmp rfl
            have hpost2 : rep s.data_ s.reversemap_ ns2 npos npos post nt.right_sibling :=
              rep_of_Frame hpost1 hF2 (by
                intro k hk
                simp only [List.mem_singleton]
                rintro rfl
                exact (hprex htmp).2.2 hk)
            have hQ2 : rep s.data_ s.reversemap_ ns2 npos npos (rev nil c)
                (start npos (rev nil c)) :=
              rep_of_Frame hQ hF2 (by
                intro k hk
                simp only [List.mem_singleton]
                rintro rfl
                exact (hprex htmp).2.1 (hprevQ.subset hk))
            have hR : rep s.data_ s.reversemap_ ns2 npos npos
                (removeRoot s.top_ (node i a c0 (node j b c' s'))) i := by
              rw [remove_eq, hpre, hpost, rep_app]
              have e := rep_start hpost2
              rw [← e]
              exact ⟨hpre2, hpost2⟩
            have hsubpre : tmp ∈ idxs (node i a c0 (node j b c' s')) := by
              rw [he, idxs_app]
              exact List.mem_append_left _ htmp
            obtain ⟨s2, hrun, rest⟩ := fin hth ns2 i
              (Frame.trans (hFr.mono hsubc) hF2 (fun _ h => h) (by
                intro k hk
                simp only [List.mem_singleton] at hk
                rw [hk]; exact hsubpre))
              hR hQ2 (by
                rw [remove_eq, hpre, hpost]
                intro h
                exact hprene (app_eq_nil h).1)
            refine ⟨s2, ?_, rest⟩
            unfold pop_unlink
            simp only [hhead, at_ok hi1, ok_bind, if_neg hjne, if_neg hit, hfind, at_ok hnt1,
              upd_ok _ hntmp, ← hns2]
            exact hrun
          · intro h
            exact absurd (Or.inl hth) h
        · constructor
          · intro h
            rcases h with h | h
            · exact absurd h hth
            · exact absurd h hlen2
          · intro _
            obtain ⟨e, he⟩ := find_prev_fail s.top_ (node i a c0 (node j b c' s'))
              (ns1.length + 1) s.nodes_ ns1 npos i hF0
              (fun r hr => hFr.2.1 r (heads_not_children _ _ hnd r hr)) hle1 hth
              (by
                obtain ⟨n, hn, _⟩ := rep_get _ hF0 s.top_ ht
                exact ne_npos_of_get (le_of_lt hlt) hn)
            refine ⟨e, ?_⟩
            unfold pop_unlink
            simp only [hhead, at_ok hi1, ok_bind, if_neg hjne, if_neg hit, he]
            rfl

end origin

namespace origin

variable {α : Type}

open Forest binomial_heap

namespace Forest

theorem popF_idxs (lt : α → α → Bool) (t : Nat) (F : Forest α) (hnd : (idxs F).Nodup)
    (h : t ∈ heads F ∨ len F = 1) :
    (idxs (popF lt t F)).Nodup ∧ t ∉ idxs (popF lt t F) ∧
      ∀ k ∈ idxs (popF lt t F), k ∈ idxs F := by
  by_cases h1 : len F = 1
  · cases F with
    | nil => simp at h1
    | node i a c s =>
      cases s with
      | nil => exact idxs_popF_single lt t i a c hnd
      | node j b c' s' => simp at h1
  · have ht : t ∈ heads F := by
      rcases h with h | h
      · exact h
      · exact absurd h h1
    have hp := idxs_popF lt t F hnd ht
    have hn := hp.nodup_iff.1 hnd
    rw [List.nodup_cons] at hn
    exact ⟨hn.2, hn.1, fun k hk => hp.symm.subset (List.mem_cons_of_mem _ hk)⟩

end Forest

theorem valueOf_mem (t : Nat) : ∀ (F : Forest α) (a : α), valueOf t F = some a → a ∈ vals F := by
  intro F
  induction F with
  | nil => intro a h; simp [valueOf] at h
  | node i b c sb ihc ihs =>
    intro a hv
    simp only [valueOf] at hv
    simp only [vals_node, List.mem_cons, List.mem_append]
    by_cases h : i = t
    · simp only [h, if_true, Option.some.injEq] at hv
      exact Or.inl hv.symm
    · simp only [h, if_false] at hv
      by_cases h' : t ∈ idxs c
      · simp only [h', if_true] at hv
        exact Or.inr (Or.inl (ihc a hv))
      · simp only [h', if_false] at hv
        exact Or.inr (Or.inr (ihs a hv))

theorem slots_of_Frame {d : List α} {rm : List Nat} {ns ns' : List binomial_heap_node}
    {S : List Nat} (hF : Frame S ns ns')
    (h : ∀ k, k < d.length → ∃ i n, rm[k]? = some i ∧ ns[i]? = some n ∧ n.index = k) :
    ∀ k, k < d.length → ∃ i n, rm[k]? = some i ∧ ns'[i]? = some n ∧ n.index = k := by
  intro k hk
  obtain ⟨i, n, h1, h2, h3⟩ := h k hk
  obtain ⟨n', h2', h3'⟩ := hF.2.2 i n h2
  exact ⟨i, n', h1, h2', h3'.trans h3⟩

/-- The member `top` on a state that holds `F`, for a cached top anywhere in `F`. -/
theorem top_spec {s : binomial_heap α} {F : Forest α} (hR : Rep s F) (ht : s.top_ ∈ idxs F) :
    ∃ tv, s.top = .ok tv ∧ valueOf s.top_ F = some tv ∧ tv ∈ vals F := by
  obtain ⟨nt, a, hnt, hv, hd, -, -, -⟩ := rep_sub s.top_ F npos npos s.head_ hR.forest ht
  refine ⟨a, ?_, hv, ?_⟩
  · unfold top
    simp only [at_ok hnt, ok_bind, at_ok hd]
  · exact valueOf_mem _ _ _ hv

/-- The member `pop` on a state that holds the forest `F`. -/
theorem pop_spec (lt : α → α → Bool) {s : binomial_heap α} {F : Forest α} (hR : Rep s F)
    (ht : s.top_ ∈ idxs F) :
    (s.top_ ∈ heads F ∨ len F = 1 →
      ∃ s' tv, pop lt s = .ok s' ∧ Rep s' (popF lt s.top_ F) ∧
        s'.top_ = topF lt (popF lt s.top_ F) ∧ s.top = .ok tv ∧
        valueOf s.top_ F = some tv ∧ s.data_.Perm (tv :: s'.data_) ∧
        s'.nodes_.length = s.nodes_.length) ∧
    (¬ (s.top_ ∈ heads F ∨ len F = 1) → ∃ e, pop lt s = .error e) := by
  have hle : s.nodes_.length ≤ npos := le_of_lt hR.nodes_lt
  have hhead : s.head_ ≠ npos := by
    cases F with
    | nil => simp at ht
    | node i a c t =>
      have := hR.forest
      rw [rep_node] at this
      obtain ⟨e1, n, hn, _⟩ := this
      rw [e1]
      exact ne_npos_of_get hle hn
  obtain ⟨ns1, hrev, hFr1, hQ⟩ := pop_reverse_spec hle hR.forest hR.nodup ht
  obtain ⟨hok, hfail⟩ := pop_unlink_spec lt hR.nodes_lt hR.forest hR.nodup ht hFr1 hQ
  constructor
  · intro hcase
    obtain ⟨s2, hun, hd2, hr2, ht2, hFr2, hrep2⟩ := hok hcase
    obtain ⟨hnd3, htn3, hsub3⟩ := popF_idxs lt s.top_ F hR.nodup hcase
    obtain ⟨nt, tv, hnt, hv, hd, hrm, -, -⟩ := rep_sub s.top_ F npos npos s.head_ hR.forest ht
    obtain ⟨nt2, hnt2, hi2⟩ := hFr2.2.2 s.top_ nt hnt
    obtain ⟨s3, hcomp, hh3, ht3, hl3, hrl3, hdl3, hsl3, hrep3, hperm⟩ :=
      @pop_compact_spec α s2 (popF lt s.top_ F) s.top_ nt2 tv
        (by rw [hd2, hr2]; exact hR.rm_len)
        (by rw [hd2, hr2]; exact slots_of_Frame hFr2 hR.slots)
        (by rw [hd2, hr2]; exact hrep2) hnt2
        (by rw [hd2, hi2]; exact hd) (by rw [hr2, hi2]; exact hrm) htn3
    have hl3' : s3.nodes_.length = s.nodes_.length := by rw [hl3, hFr2.1]
    have hgt := get_new_top_spec lt (s := s3) (by rw [hl3']; exact hle) hrep3 hnd3
    obtain ⟨hb, hs⟩ := popF_shape lt s.top_ F hR.bin hR.sorted ht
    refine ⟨{ s3 with top_ := topF lt (popF lt s.top_ F) }, tv, ?_, ?_, rfl, ?_, hv, ?_, hl3'⟩
    · unfold pop
      rw [if_neg hhead]
      simp only [hrev, ok_bind, hun, hcomp, hgt, pure, Except.pure]
    · exact ⟨by show s3.nodes_.length < npos; rw [hl3']; exact hR.nodes_lt, hrl3, hsl3, hrep3,
        hnd3, hb, hs⟩
    · unfold top
      simp only [at_ok hnt, ok_bind, at_ok hd]
    · rw [hd2] at hperm
      exact hperm
  · intro hcase
    obtain ⟨e, he⟩ := hfail hcase
    refine ⟨e, ?_⟩
    unfold pop
    rw [if_neg hhead]
    simp only [hrev, ok_bind, he]
    rfl

/-- The member `pop` on a state with an empty root list. -/
theorem pop_empty (lt : α → α → Bool) {s : binomial_heap α} (h : s.head_ = npos) :
    pop lt s = .ok s := by
  unfold pop
  rw [if_pos h]
  rfl

/-- The member `push` on a state that holds the forest `F`. -/
theorem push_spec (lt : α → α → Bool) {s : binomial_heap α} {F : Forest α} (hR : Rep s F)
    (hlt : s.nodes_.length + 1 < npos) (ht : F ≠ nil → s.top_ ∈ idxs F) (d : α) :
    ∃ s', push lt s d = .ok s' ∧ Rep s' (pushF lt s.nodes_.length d F) ∧
      s'.data_ = s.data_ ++ [d] ∧ s'.nodes_.length = s.nodes_.length + 1 ∧
      (F = nil → s'.top_ = s.nodes_.length) ∧
      (F ≠ nil → ∃ tv, s.top = .ok tv ∧ valueOf s.top_ F = some tv ∧
        s'.top_ = if lt d tv = false then s.nodes_.length else s.top_) := by
  set N := s.nodes_.length with hN
  set obj : binomial_heap_node :=
    { index := (s.data_ ++ [d]).length - 1, parent := npos, right_sibling := npos,
      child := npos, degree := 0 } with hobj
  have hoi : obj.index = s.data_.length := by simp [hobj]
  have hrmN : (s.nodes_ ++ [obj]).length - 1 = N := by simp [hN]
  set s1 : binomial_heap α :=
    { s with data_ := s.data_ ++ [d], nodes_ := s.nodes_ ++ [obj],
             reversemap_ := s.reversemap_ ++ [N] } with hs1
  have hinF : ∀ i ∈ idxs F, i < N := rep_lt hR.forest
  have hF1 : rep s1.data_ s1.reversemap_ s1.nodes_ npos npos F s.head_ := by
    refine rep_congr F hR.forest ?_
    intro i hi n hn
    refine ⟨n, ?_, rfl, rfl, rfl, rfl, ?_⟩
    · show (s.nodes_ ++ [obj])[i]? = some n
      rw [List.getElem?_append_left (lt_of_get hn)]; exact hn
    · intro a ha hr
      refine ⟨?_, ?_⟩
      · show (s.data_ ++ [d])[n.index]? = some a
        rw [List.getElem?_append_left (lt_of_get ha)]; exact ha
      · show (s.reversemap_ ++ [_])[n.index]? = some i
        rw [List.getElem?_append_left (lt_of_get hr)]; exact hr
  have hN1 : s1.nodes_[N]? = some obj := by
    show (s.nodes_ ++ [obj])[N]? = some obj
    simp [hN]
  have hdN : s1.data_[s.data_.length]? = some d := by
    show (s.data_ ++ [d])[s.data_.length]? = some d
    simp
  have hrN : s1.reversemap_[s.data_.length]? = some N := by
    show (s.reversemap_ ++ [_])[s.data_.length]? = some N
    rw [← hR.rm_len]
    simp
  have hQ1 : rep s1.data_ s1.reversemap_ s1.nodes_ npos npos (node N d nil nil) N := by
    rw [rep_node]
    refine ⟨rfl, obj, hN1, rfl, rfl, ?_, ?_, rfl, rfl⟩
    · rw [hoi]; exact hdN
    · rw [hoi]; exact hrN
  have hslots1 : ∀ k, k < s1.data_.length →
      ∃ i n, s1.reversemap_[k]? = some i ∧ s1.nodes_[i]? = some n ∧ n.index = k := by
    intro k hk
    have hk' : k < s.data_.length + 1 := by simpa [hs1] using hk
    by_cases e : k = s.data_.length
    · subst e
      exact ⟨N, obj, hrN, hN1, hoi⟩
    · obtain ⟨i, n, h1, h2, h3⟩ := hR.slots k (by omega)
      refine ⟨i, n, ?_, ?_, h3⟩
      · show (s.reversemap_ ++ [_])[k]? = some i
        rw [List.getElem?_append_left (lt_of_get h1)]; exact h1
      · show (s.nodes_ ++ [obj])[i]? = some n
        rw [List.getElem?_append_left (lt_of_get h2)]; exact h2
  have hrl1 : s1.reversemap_.length = s1.data_.length := by
    simp [hs1, hR.rm_len]
  have hnl1 : s1.nodes_.length = N + 1 := by simp [hs1, hN]
  obtain ⟨hb, hso⟩ := pushF_shape lt N d F hR.bin hR.sorted
  have hndp : (idxs (pushF lt N d F)).Nodup := by
    rw [(idxs_pushF lt N d F).nodup_iff, List.nodup_cons]
    exact ⟨fun h => Nat.lt_irrefl _ (hinF N h), hR.nodup⟩
  cases F with
  | nil =>
    have hh : s.head_ = npos := by simpa using hR.forest
    refine ⟨{ s1 with head_ := N, top_ := N }, ?_, ?_, rfl, hnl1, fun _ => rfl,
      fun h => absurd rfl h⟩
    · unfold push
      simp only [← hobj, hrmN, ← hs1]
      rw [if_pos hh]
      rfl
    · exact ⟨by show s1.nodes_.length < npos; rw [hnl1]; exact hlt, hrl1, hslots1,
        by rw [pushF_nil]; exact hQ1, hndp, hb, hso⟩
  | node j b c t =>
    have ht' := ht (by simp)
    have hh : s.head_ ≠ npos := by
      have := hR.forest
      rw [rep_node] at this
      obtain ⟨e1, n, hn, _⟩ := this
      rw [e1]
      exact ne_npos_of_get (by omega) hn
    obtain ⟨s2, hun, hd2, hr2, ht2, hFr2, hrep2⟩ := unite_spec lt (s := s1) (q := N)
      (by rw [hnl1]; exact hlt) hF1 hQ1
      (by
        simp only [idxs_node, idxs_nil, List.append_nil]
        rw [List.nodup_append]
        refine ⟨hR.nodup, by simp, ?_⟩
        intro k hk hk'
        simp only [List.mem_singleton] at hk'
        subst hk'
        exact Nat.lt_irrefl _ (hinF _ hk))
      (by
        intro h
        have := (mergeF_eq_nil h).1
        cases this)
    obtain ⟨tv, htop, hv, -⟩ := top_spec hR ht'
    obtain ⟨nt, hnt, hdt⟩ : ∃ nt, s.nodes_[s.top_]? = some nt ∧ s.data_[nt.index]? = some tv := by
      obtain ⟨nt, a, hnt, hv', hd, -⟩ := rep_sub s.top_ _ npos npos s.head_ hR.forest ht'
      rw [hv] at hv'
      cases hv'
      exact ⟨nt, hnt, hd⟩
    obtain ⟨nN2, hnN2, hiN2⟩ := hFr2.2.2 N obj hN1
    obtain ⟨nt2, hnt2, hit2⟩ := hFr2.2.2 s.top_ nt (by
      show (s.nodes_ ++ [obj])[s.top_]? = some nt
      rw [List.getElem?_append_left (lt_of_get hnt)]; exact hnt)
    have hda : s2.data_[nN2.index]? = some d := by
      rw [hd2, hiN2, hoi]; exact hdN
    have hdb : s2.data_[nt2.index]? = some tv := by
      rw [hd2, hit2]
      show (s.data_ ++ [d])[nt.index]? = some tv
      rw [List.getElem?_append_left (lt_of_get hdt)]; exact hdt
    have hR2 : ∀ tp, Rep { s2 with top_ := tp } (pushF lt N d (node j b c t)) := by
      intro tp
      refine ⟨?_, ?_, ?_, ?_, hndp, hb, hso⟩
      · show s2.nodes_.length < npos
        rw [hFr2.1, hnl1]; exact hlt
      · show s2.reversemap_.length = s2.data_.length
        rw [hd2, hr2]; exact hrl1
      · show ∀ k, k < s2.data_.length →
          ∃ i n, s2.reversemap_[k]? = some i ∧ s2.nodes_[i]? = some n ∧ n.index = k
        rw [hd2, hr2]
        exact slots_of_Frame hFr2 hslots1
      · show rep s2.data_ s2.reversemap_ s2.nodes_ npos npos _ s2.head_
        rw [hd2, hr2, pushF_node]
        exact hrep2
    have hrun : push lt s d = (if (!lt d tv) = true then
        (pure { s2 with top_ := N } : Except Fault (binomial_heap α)) else pure s2) := by
      unfold push
      simp only [← hobj, hrmN, ← hs1]
      rw [if_neg hh]
      simp only [hun, ok_bind, at_ok hnN2, at_ok hda, ht2, at_ok hnt2, at_ok hdb]
    by_cases hc : lt d tv = false
    · refine ⟨{ s2 with top_ := N }, ?_, hR2 N, hd2, by rw [hFr2.1, hnl1], fun h => Forest.noConfusion h,
        fun _ => ⟨tv, htop, hv, by simp [hc]⟩⟩
      rw [hrun]
      simp [hc, pure, Except.pure]
    · have hc' : lt d tv = true := by simpa using hc
      refine ⟨s2, ?_, ?_, hd2, by rw [hFr2.1, hnl1], fun h => Forest.noConfusion h,
        fun _ => ⟨tv, htop, hv, by simp [hc', ht2]⟩⟩
      · rw [hrun]
        simp [hc', pure, Except.pure]
      · have := hR2 s2.top_
        exact this

end origin

namespace origin

variable {α : Type}

open Forest binomial_heap

namespace Forest

theorem vals_eq_items (F : Forest α) : vals F = (items F).map Prod.snd := by
  induction F with
  | nil => rfl
  | node i a c s ihc ihs => simp [items, ihc, ihs]

theorem idxs_eq_items (F : Forest α) : idxs F = (items F).map Prod.fst := by
  induction F with
  | nil => rfl
  | node i a c s ihc ihs => simp [items, ihc, ihs]

theorem roots_sub_items (F : Forest α) : ∀ r ∈ roots F, r ∈ items F := by
  induction F with
  | nil => simp
  | node i a c s _ ihs =>
    intro r hr
    simp only [roots_node, List.mem_cons] at hr
    simp only [items, List.mem_cons, List.mem_append]
    rcases hr with e | hr
    · exact Or.inl e
    · exact Or.inr (Or.inr (ihs r hr))

theorem roots_vals (F : Forest α) : ∀ r ∈ roots F, r.2 ∈ vals F := by
  intro r hr
  rw [vals_eq_items]
  exact List.mem_map_of_mem _ (roots_sub_items F r hr)

theorem roots_heads (F : Forest α) : ∀ r ∈ roots F, r.1 ∈ heads F := by
  intro r hr
  rw [heads_eq]
  exact List.mem_map_of_mem _ hr

/-- Two roots with different indices hold values of which one is less than the other, when
this is so for any two values of the forest. -/
theorem roots_distinct (lt : α → α → Bool) (F : Forest α)
    (hd : (vals F).Pairwise (fun a b => lt a b = true ∨ lt b a = true))
    (r r' : Nat × α) (hr : r ∈ roots F) (hr' : r' ∈ roots F) (hne : r.1 ≠ r'.1) :
    lt r.2 r'.2 = true ∨ lt r'.2 r.2 = true := by
  rw [vals_eq_items, List.pairwise_map] at hd
  exact hd.forall (fun x y h => h.symm) (roots_sub_items F r hr) (roots_sub_items F r' hr')
    (fun e => hne (by rw [e]))

/-- With heap order, a value that no root value exceeds is exceeded by no value at all. -/
theorem max_of_roots (lt : α → α → Bool)
    (hnt : ∀ x y z, lt x y = false → lt y z = false → lt x z = false) (tv : α) :
    ∀ (F : Forest α), hord lt F → (∀ r ∈ roots F, lt tv r.2 = false) →
    ∀ b ∈ vals F, lt tv b = false := by
  intro F
  induction F with
  | nil => simp
  | node i a c s _ ihs =>
    intro hh hr b hb
    simp only [hord_node] at hh
    simp only [vals_node, List.mem_cons, List.mem_append] at hb
    have ha : lt tv a = false := hr (i, a) (by simp)
    rcases hb with rfl | hb | hb
    · exact ha
    · exact hnt _ _ _ ha (hh.1 b hb)
    · exact ihs hh.2.2 (fun r hr' => hr r (by simp [hr'])) b hb

theorem topL_mem (lt : α → α → Bool) : ∀ (rs : List (Nat × α)) (best : Nat × α),
    topL lt best rs = best ∨ topL lt best rs ∈ rs := by
  intro rs
  induction rs with
  | nil => intro best; simp [topL]
  | cons r rs ih =>
    intro best
    simp only [topL]
    rcases ih (if (!lt r.2 best.2) = true then r else best) with h | h
    · rw [h]
      split
      · exact Or.inr (by simp)
      · exact Or.inl rfl
    · exact Or.inr (List.mem_cons_of_mem _ h)

/-- The scan of `get_new_top` ends at a root that no scanned root exceeds. -/
theorem topL_max (lt : α → α → Bool)
    (hnt : ∀ x y z, lt x y = false → lt y z = false → lt x z = false)
    (hasym : ∀ x y, lt x y = true → lt y x = false) (hirr : ∀ x, lt x x = false) :
    ∀ (rs : List (Nat × α)) (best : Nat × α),
    lt (topL lt best rs).2 best.2 = false ∧ ∀ r ∈ rs, lt (topL lt best rs).2 r.2 = false := by
  intro rs
  induction rs with
  | nil => intro best; simp [topL, hirr]
  | cons r rs ih =>
    intro best
    simp only [topL]
    obtain ⟨h1, h2⟩ := ih (if (!lt r.2 best.2) = true then r else best)
    by_cases hc : lt r.2 best.2 = true
    · simp only [hc, Bool.not_true, Bool.false_eq_true, if_false] at h1 h2 ⊢
      refine ⟨h1, ?_⟩
      intro x hx
      simp only [List.mem_cons] at hx
      rcases hx with rfl | hx
      · exact hnt _ _ _ h1 (hasym _ _ hc)
      · exact h2 x hx
    · have hc' : lt r.2 best.2 = false := by simpa using hc
      simp only [hc', Bool.not_false, if_true] at h1 h2 ⊢
      refine ⟨hnt _ _ _ h1 hc', ?_⟩
      intro x hx
      simp only [List.mem_cons] at hx
      rcases hx with rfl | hx
      · exact h1
      · exact h2 x hx

/-- The index `get_new_top` returns is the index of a root, and no root exceeds its value. -/
theorem topF_spec (lt : α → α → Bool)
    (hnt : ∀ x y z, lt x y = false → lt y z = false → lt x z = false)
    (hasym : ∀ x y, lt x y = true → lt y x = false) (hirr : ∀ x, lt x x = false)
    (F : Forest α) (hF : F ≠ nil) :
    ∃ tv, (topF lt F, tv) ∈ roots F ∧ ∀ r ∈ roots F, lt tv r.2 = false := by
  cases F with
  | nil => exact absurd rfl hF
  | node i a c s =>
    simp only [topF, roots_node]
    obtain ⟨h1, h2⟩ := topL_max lt hnt hasym hirr (roots s) (i, a)
    refine ⟨(topL lt (i, a) (roots s)).2, ?_, ?_⟩
    · rcases topL_mem lt (roots s) (i, a) with h | h
      · rw [h]; simp
      · exact List.mem_cons_of_mem _ h
    · intro r hr
      simp only [List.mem_cons] at hr
      rcases hr with rfl | hr
      · exact h1
      · exact h2 r hr

theorem topF_mem (lt : α → α → Bool) (F : Forest α) (hF : F ≠ nil) : topF lt F ∈ heads F := by
  cases F with
  | nil => exact absurd rfl hF
  | node i a c s =>
    simp only [topF, heads_node, List.mem_cons]
    rcases topL_mem lt (roots s) (i, a) with h | h
    · rw [h]; exact Or.inl rfl
    · exact Or.inr (roots_heads s _ h)

theorem hord_pushF (lt : α → α → Bool)
    (hnt : ∀ x y z, lt x y = false → lt y z = false → lt x z = false)
    (hasym : ∀ x y, lt x y = true → lt y x = false) (i : Nat) (d : α) (F : Forest α)
    (h : hord lt F) : hord lt (pushF lt i d F) := by
  cases F with
  | nil => simp [pushF_nil]
  | node j b c s =>
    rw [pushF_node]
    exact hord_uniteF lt hnt hasym _ ((hord_mergeF lt _ _).2 ⟨h, by simp⟩)

theorem hord_popF (lt : α → α → Bool)
    (hnt : ∀ x y z, lt x y = false → lt y z = false → lt x z = false)
    (hasym : ∀ x y, lt x y = true → lt y x = false) (t : Nat) (F : Forest α)
    (h : hord lt F) : hord lt (popF lt t F) := by
  have hc : hord lt (rev nil (childrenOf t F)) :=
    (hord_rev lt _ nil).2 ⟨hord_children lt t F h, by simp⟩
  cases F with
  | nil => simp [popF]
  | node i a c s =>
    cases s with
    | nil => rw [popF_single]; exact hc
    | node j b c' s' =>
      rw [popF_many]
      exact hord_uniteF lt hnt hasym _ ((hord_mergeF lt _ _).2 ⟨hord_remove lt t _ h, hc⟩)

/-- The roots after `push` are roots of the old forest or the new node. -/
theorem roots_pushF (lt : α → α → Bool) (i : Nat) (d : α) (F : Forest α) :
    ∀ r ∈ roots (pushF lt i d F), r = (i, d) ∨ r ∈ roots F := by
  cases F with
  | nil => simp [pushF_nil]
  | node j b c s =>
    rw [pushF_node]
    intro r hr
    have := (roots_mergeF _ _).subset (roots_uniteF lt _ r hr)
    simp only [roots_node, roots_nil, List.mem_append, List.mem_cons, List.mem_singleton,
      List.not_mem_nil, or_false] at this ⊢
    tauto

end Forest

theorem StrictWeak.asymm {lt : α → α → Bool} (h : StrictWeak lt) :
    ∀ x y, lt x y = true → lt y x = false := by
  intro x y hxy
  by_contra hc
  have hyx : lt y x = true := by simpa using hc
  have := h.trans x y x hxy hyx
  rw [h.irrefl x] at this
  cases this

theorem StrictWeak.negtrans {lt : α → α → Bool} (h : StrictWeak lt) :
    ∀ x y z, lt x y = false → lt y z = false → lt x z = false := by
  intro x y z hxy hyz
  by_contra hc
  have hxz : lt x z = true := by simpa using hc
  have hyx : lt y x = false := by
    by_contra hc'
    have : lt y x = true := by simpa using hc'
    have := h.trans y x z this hxz
    rw [hyz] at this
    cases this
  have hzy : lt z y = false := by
    by_contra hc'
    have : lt z y = true := by simpa using hc'
    have := h.trans x z y hxz this
    rw [hxy] at this
    cases this
  have := (h.incomp x y z hxy hyx hyz hzy).1
  rw [hxz] at this
  cases this

end origin

namespace origin

variable {α : Type}

open Forest binomial_heap

namespace Forest

theorem heads_sublist (F : Forest α) : (heads F).Sublist (idxs F) := by
  induction F with
  | nil => simp
  | node i a c s _ ihs =>
    simp only [heads_node, idxs_node]
    exact (ihs.trans (List.sublist_append_right _ _)).cons₂ _

theorem valueOf_of_mem_items (t : Nat) (a : α) : ∀ (F : Forest α), (idxs F).Nodup →
    (t, a) ∈ items F → valueOf t F = some a := by
  intro F
  induction F with
  | nil => intro _ h; simp [items] at h
  | node i b c s ihc ihs =>
    intro hnd h
    simp only [idxs_node, List.nodup_cons, List.mem_append, not_or, List.nodup_append,
      List.disjoint_left] at hnd
    obtain ⟨⟨hic, his⟩, hcn, hsn, hcs⟩ := hnd
    simp only [items, List.mem_cons, List.mem_append, Prod.mk.injEq] at h
    simp only [valueOf]
    rcases h with ⟨rfl, rfl⟩ | h | h
    · simp
    · have htc : t ∈ idxs c := by
        rw [idxs_eq_items]
        exact List.mem_map_of_mem Prod.fst h
      have hne : i ≠ t := fun e => hic (e ▸ htc)
      simp only [hne, if_false, htc, if_true]
      exact ihc hcn h
    · have hts : t ∈ idxs s := by
        rw [idxs_eq_items]
        exact List.mem_map_of_mem Prod.fst h
      have hne : i ≠ t := fun e => his (e ▸ hts)
      have htc : t ∉ idxs c := fun h' => hcs h' hts
      simp only [hne, if_false, htc]
      exact ihs hsn h

theorem ne_nil_of_vals {F : Forest α} (h : vals F ≠ []) : F ≠ nil := by
  rintro rfl
  exact h rfl

end Forest

/-- A state holds at least as many values as its forest has nodes. -/
theorem Rep.card_le {s : binomial_heap α} {F : Forest α} (hR : Rep s F) :
    (idxs F).length ≤ s.data_.length := by
  let f : Nat → Nat := fun i =>
    match s.nodes_[i]? with
    | some n => n.index
    | none => 0
  have hf : ∀ i ∈ idxs F, f i < s.data_.length ∧ s.reversemap_[f i]? = some i := by
    intro i hi
    obtain ⟨n, hn, h1, h2⟩ := rep_get F hR.forest i hi
    have : f i = n.index := by simp only [f, hn]
    rw [this]
    exact ⟨h1, h2⟩
  have hinj : ∀ x ∈ idxs F, ∀ y ∈ idxs F, f x = f y → x = y := by
    intro x hx y hy e
    have h1 := (hf x hx).2
    have h2 := (hf y hy).2
    rw [e, h2] at h1
    exact (Option.some.inj h1).symm
  have hnd : ((idxs F).map f).Nodup := List.Nodup.map_on hinj hR.nodup
  have := nodup_bound hnd (n := s.data_.length) (by
    intro k hk
    obtain ⟨i, hi, rfl⟩ := List.mem_map.1 hk
    exact (hf i hi).1)
  simpa using this

theorem Rep.nil_of_empty {s : binomial_heap α} {F : Forest α} (hR : Rep s F)
    (he : s.data_ = []) : F = nil := by
  have := hR.card_le
  rw [he] at this
  cases F with
  | nil => rfl
  | node i a c t => simp at this

theorem Rep.head_nil {s : binomial_heap α} (hR : Rep s (nil : Forest α)) : s.head_ = npos := by
  simpa using hR.forest

theorem Rep.rep_new : Rep (binomial_heap.new : binomial_heap α) nil :=
  ⟨by simp [binomial_heap.new, npos], rfl, fun k hk => by simp [binomial_heap.new] at hk,
    by simp [binomial_heap.new], by simp, by simp, by simp⟩

/-! ## The invariant of every comparator -/

theorem Inv.inv_new : Inv (binomial_heap.new : binomial_heap α) :=
  ⟨nil, Rep.rep_new, fun h => absurd rfl h, fun _ => rfl⟩

theorem Inv.inv_push (lt : α → α → Bool) {s : binomial_heap α} (h : Inv s)
    (hlt : s.nodes_.length + 1 < npos) (d : α) :
    ∃ s', push lt s d = .ok s' ∧ Inv s' ∧ s'.data_ = s.data_ ++ [d] ∧
      s'.nodes_.length = s.nodes_.length + 1 := by
  obtain ⟨F, hR, ht, -⟩ := h
  obtain ⟨s', hrun, hR', hd, hl, ht1, ht2⟩ := push_spec lt hR hlt ht d
  refine ⟨s', hrun, ⟨_, hR', ?_, ?_⟩, hd, hl⟩
  · intro _
    have hp := idxs_pushF lt s.nodes_.length d F
    by_cases hF : F = nil
    · rw [ht1 hF]
      exact hp.symm.subset (by simp)
    · obtain ⟨tv, -, -, e⟩ := ht2 hF
      rw [e]
      split
      · exact hp.symm.subset (by simp)
      · exact hp.symm.subset (List.mem_cons_of_mem _ (ht hF))
  · intro h0
    have hp := idxs_pushF lt s.nodes_.length d F
    rw [h0] at hp
    simp at hp

theorem Inv.inv_pop (lt : α → α → Bool) {s s' : binomial_heap α} (h : Inv s)
    (hp : pop lt s = .ok s') : Inv s' ∧ s'.nodes_.length = s.nodes_.length := by
  obtain ⟨F, hR, ht, hn⟩ := h
  by_cases hF : F = nil
  · subst hF
    rw [pop_empty lt hR.head_nil] at hp
    cases hp
    exact ⟨⟨nil, hR, ht, hn⟩, rfl⟩
  · obtain ⟨hok, hfail⟩ := pop_spec lt hR (ht hF)
    by_cases hc : s.top_ ∈ heads F ∨ len F = 1
    · obtain ⟨s2, tv, hrun, hR2, ht2, -, -, -, hl⟩ := hok hc
      rw [hrun] at hp
      cases hp
      refine ⟨⟨_, hR2, ?_, ?_⟩, hl⟩
      · intro hne
        rw [ht2]
        exact heads_sub _ _ (topF_mem lt _ hne)
      · intro he
        rw [ht2, he]
        rfl
    · obtain ⟨e, he⟩ := hfail hc
      rw [he] at hp
      cases hp

theorem runFrom_cons (lt : α → α → Bool) (s : binomial_heap α) (o : Op α) (os : List (Op α)) :
    runFrom lt s (o :: os) = (step lt s o >>= fun s1 => runFrom lt s1 os) := rfl

theorem runFrom_cons_ok {lt : α → α → Bool} {s s' : binomial_heap α} {o : Op α}
    {os : List (Op α)} (h : runFrom lt s (o :: os) = .ok s') :
    ∃ s1, step lt s o = .ok s1 ∧ runFrom lt s1 os = .ok s' := by
  rw [runFrom_cons] at h
  cases hs : step lt s o with
  | error e => rw [hs] at h; cases h
  | ok s1 => rw [hs] at h; exact ⟨s1, rfl, h⟩

/-- Every state reached from a state with the invariant has the invariant. -/
theorem Inv.inv_runFrom (lt : α → α → Bool) : ∀ (ops : List (Op α)) (s s' : binomial_heap α),
    Inv s → s.nodes_.length + ops.length < npos → runFrom lt s ops = .ok s' → Inv s' := by
  intro ops
  induction ops with
  | nil =>
    intro s s' h _ hr
    cases hr
    exact h
  | cons o os ih =>
    intro s s' h hb hr
    obtain ⟨s1, hs, hr1⟩ := runFrom_cons_ok hr
    simp only [List.length_cons] at hb
    cases o with
    | push d =>
      obtain ⟨s2, hp, hi, -, hl⟩ := Inv.inv_push lt h (by omega) d
      have : s1 = s2 := by
        have := hs.symm.trans hp
        cases this
        rfl
      subst this
      exact ih s1 s' hi (by omega) hr1
    | pop =>
      obtain ⟨hi, hl⟩ := Inv.inv_pop lt h hs
      exact ih s1 s' hi (by omega) hr1

/-- Every state reached from the empty heap has the invariant. -/
theorem Inv.inv_run (lt : α → α → Bool) (ops : List (Op α)) (s : binomial_heap α)
    (hb : ops.length < npos) (hr : run lt ops = .ok s) : Inv s :=
  Inv.inv_runFrom lt ops _ s Inv.inv_new (by simpa [binomial_heap.new] using hb) hr

end origin

namespace origin

variable {α : Type}

open Forest binomial_heap

/-! ## The invariant of a strict weak order on values that are not equivalent -/

theorem VInv.vinv_new (lt : α → α → Bool) : VInv lt (binomial_heap.new : binomial_heap α) :=
  ⟨nil, Rep.rep_new, by simp, by simp [binomial_heap.new], fun _ => rfl, fun h => absurd rfl h⟩

theorem VInv.inv {lt : α → α → Bool} {s : binomial_heap α} (h : VInv lt s) : Inv s := by
  obtain ⟨F, hR, -, -, h1, h2⟩ := h
  refine ⟨F, hR, fun hne => ?_, h1⟩
  obtain ⟨tv, hr, -⟩ := h2 hne
  exact roots_idxs F _ hr

/-- With the invariant, `top` returns a value of the heap that no value of the heap
exceeds. -/
theorem VInv.top {lt : α → α → Bool} {s : binomial_heap α} (h : VInv lt s)
    (hne : s.data_ ≠ []) :
    ∃ tv, s.top = .ok tv ∧ tv ∈ s.data_ ∧ ∀ b ∈ s.data_, lt tv b = false := by
  obtain ⟨F, hR, -, hp, -, h2⟩ := h
  have hF : F ≠ nil := by
    rintro rfl
    simp only [vals_nil] at hp
    exact hne (List.nil_perm.1 hp)
  obtain ⟨tv, hr, hmax⟩ := h2 hF
  obtain ⟨tv', htop, hv, -⟩ := top_spec hR (roots_idxs F _ hr)
  have := valueOf_of_mem_items s.top_ tv F hR.nodup (roots_sub_items F _ hr)
  rw [this] at hv
  cases hv
  exact ⟨tv, htop, hp.subset (roots_vals F _ hr), fun b hb => hmax b (hp.symm.subset hb)⟩

theorem VInv.vinv_push (lt : α → α → Bool) (hsw : StrictWeak lt) {s : binomial_heap α}
    (h : VInv lt s) (hlt : s.nodes_.length + 1 < npos) (d : α)
    (hdist : ∀ b ∈ s.data_, lt d b = true ∨ lt b d = true)
    (hpd : s.data_.Pairwise (fun a b => lt a b = true ∨ lt b a = true)) :
    ∃ s', push lt s d = .ok s' ∧ VInv lt s' ∧ s'.data_ = s.data_ ++ [d] ∧
      s'.nodes_.length = s.nodes_.length + 1 := by
  have hinv := h.inv
  obtain ⟨F, hR, hh, hp, h1, h2⟩ := h
  have htin : F ≠ nil → s.top_ ∈ idxs F := by
    intro hne
    obtain ⟨tv, hr, -⟩ := h2 hne
    exact roots_idxs F _ hr
  obtain ⟨s', hrun, hR', hd, hl, ht1, ht2⟩ := push_spec lt hR hlt htin d
  have hvals : (vals (pushF lt s.nodes_.length d F)).Perm s'.data_ := by
    rw [hd]
    refine (vals_pushF lt _ d F).trans ?_
    exact ((List.Perm.cons d hp).trans (List.perm_append_singleton d s.data_).symm)
  have hne' : pushF lt s.nodes_.length d F ≠ nil := by
    intro h0
    have := idxs_pushF lt s.nodes_.length d F
    rw [h0] at this
    simp at this
  refine ⟨s', hrun, ⟨_, hR', hord_pushF lt hsw.negtrans hsw.asymm _ d F hh, hvals,
    fun h0 => absurd h0 hne', fun _ => ?_⟩, hd, hl⟩
  have hvmem : ∀ b ∈ vals (pushF lt s.nodes_.length d F), b = d ∨ b ∈ vals F := by
    intro b hb
    have := (vals_pushF lt _ d F).subset hb
    simpa using this
  cases F with
  | nil =>
    rw [ht1 rfl, pushF_nil]
    refine ⟨d, by simp, ?_⟩
    intro b hb
    simp only [vals_node, vals_nil, List.append_nil, List.mem_singleton] at hb
    rw [hb]
    exact hsw.irrefl d
  | node j b0 c t =>
    obtain ⟨tv, hr, hmax⟩ := h2 (by simp)
    obtain ⟨tv', -, hv, htop⟩ := ht2 (by simp)
    have := valueOf_of_mem_items s.top_ tv _ hR.nodup (roots_sub_items _ _ hr)
    rw [this] at hv
    cases hv
    have hN : s.nodes_.length ∉ idxs (node j b0 c t) :=
      fun hm => Nat.lt_irrefl _ (rep_lt hR.forest _ hm)
    have hndM : (heads (mergeF (node j b0 c t) (node s.nodes_.length d nil nil))).Nodup := by
      refine List.Nodup.sublist (heads_sublist _) ?_
      rw [(idxs_mergeF _ _).nodup_iff]
      simp only [idxs_node, idxs_nil, List.append_nil]
      rw [List.nodup_append]
      refine ⟨hR.nodup, by simp, ?_⟩
      intro k hk hk'
      simp only [List.mem_singleton] at hk'
      subst hk'
      exact hN hk
    have hrM : ∀ r ∈ roots (mergeF (node j b0 c t) (node s.nodes_.length d nil nil)),
        r ∈ roots (node j b0 c t) ∨ r = (s.nodes_.length, d) := by
      intro r hr'
      have := (roots_mergeF _ _).subset hr'
      simpa [or_assoc] using this
    have hMr : ∀ r, (r ∈ roots (node j b0 c t) ∨ r = (s.nodes_.length, d)) →
        r ∈ roots (mergeF (node j b0 c t) (node s.nodes_.length d nil nil)) := by
      intro r hr'
      refine (roots_mergeF _ _).symm.subset ?_
      simpa [or_assoc] using hr'
    have hpF : (vals (node j b0 c t)).Pairwise (fun a b => lt a b = true ∨ lt b a = true) :=
      (hp.pairwise_iff (fun h => h.symm)).2 hpd
    rw [htop, pushF_node]
    by_cases hc : lt d tv = false
    · rw [if_pos hc]
      refine ⟨d, ?_, ?_⟩
      · refine max_root_uniteF lt hsw.asymm _ hndM (s.nodes_.length, d) (hMr _ (Or.inr rfl)) ?_
        intro r' hr' hne
        rcases hrM r' hr' with h' | h'
        · have hb : r'.2 ∈ s.data_ := hp.subset (roots_vals _ _ h')
          rcases hdist _ hb with h3 | h3
          · have := hsw.negtrans _ _ _ hc (hmax _ (roots_vals _ _ h'))
            rw [this] at h3
            cases h3
          · exact h3
        · rw [h'] at hne
          exact absurd rfl hne
      · intro b hb
        rw [← pushF_node] at hb
        rcases hvmem b hb with rfl | hb'
        · exact hsw.irrefl _
        · exact hsw.negtrans _ _ _ hc (hmax b hb')
    · have hc' : lt d tv = true := by simpa using hc
      rw [if_neg hc]
      refine ⟨tv, ?_, ?_⟩
      · refine max_root_uniteF lt hsw.asymm _ hndM (s.top_, tv) (hMr _ (Or.inl hr)) ?_
        intro r' hr' hne
        rcases hrM r' hr' with h' | h'
        · rcases roots_distinct lt _ hpF r' (s.top_, tv) h' hr hne with h3 | h3
          · exact h3
          · have := hmax _ (roots_vals _ _ h')
            rw [this] at h3
            cases h3
        · rw [h']
          exact hc'
      · intro b hb
        rw [← pushF_node] at hb
        rcases hvmem b hb with rfl | hb'
        · exact hsw.asymm _ _ hc'
        · exact hmax b hb'

theorem VInv.vinv_pop (lt : α → α → Bool) (hsw : StrictWeak lt) {s : binomial_heap α}
    (h : VInv lt s) :
    ∃ s', pop lt s = .ok s' ∧ VInv lt s' ∧ s'.nodes_.length = s.nodes_.length ∧
      ((s.data_ = [] ∧ s' = s) ∨
        ∃ tv, s.top = .ok tv ∧ s.data_.Perm (tv :: s'.data_) ∧
          ∀ b ∈ s.data_, lt tv b = false) := by
  have h0 := h
  obtain ⟨F, hR, hh, hp, h1, h2⟩ := h
  by_cases hF : F = nil
  · subst hF
    refine ⟨s, pop_empty lt hR.head_nil, h0, rfl, Or.inl ⟨?_, rfl⟩⟩
    simp only [vals_nil] at hp
    exact List.nil_perm.1 hp
  · obtain ⟨tv, hr, hmax⟩ := h2 hF
    have hth : s.top_ ∈ heads F := roots_heads F _ hr
    obtain ⟨hok, -⟩ := pop_spec lt hR (roots_idxs F _ hr)
    obtain ⟨s', tv', hrun, hR', ht', htop, hv, hperm, hl⟩ := hok (Or.inl hth)
    have := valueOf_of_mem_items s.top_ tv F hR.nodup (roots_sub_items F _ hr)
    rw [this] at hv
    cases hv
    obtain ⟨a, hva, hvp⟩ := vals_popF lt s.top_ F hR.nodup hth
    rw [this] at hva
    cases hva
    have hvals : (vals (popF lt s.top_ F)).Perm s'.data_ :=
      List.Perm.cons_inv ((hvp.symm.trans hp).trans hperm)
    refine ⟨s', hrun, ⟨_, hR', hord_popF lt hsw.negtrans hsw.asymm _ F hh, hvals, ?_, ?_⟩, hl,
      Or.inr ⟨tv, htop, hperm, fun b hb => hmax b (hp.symm.subset hb)⟩⟩
    · intro he
      rw [ht', he]
      rfl
    · intro hne
      obtain ⟨tv2, hr2, hm2⟩ := topF_spec lt hsw.negtrans hsw.asymm hsw.irrefl _ hne
      rw [ht']
      exact ⟨tv2, hr2, max_of_roots lt hsw.negtrans tv2 _
        (hord_popF lt hsw.negtrans hsw.asymm _ F hh) hm2⟩

/-- Every state reached from a state with the invariant, by operations that push values of
which no two are equivalent (among themselves and with the values held), has the invariant;
no operation on the way fails. -/
theorem VInv.vinv_runFrom (lt : α → α → Bool) (hsw : StrictWeak lt) : ∀ (ops : List (Op α))
    (s : binomial_heap α), VInv lt s → s.nodes_.length + ops.length < npos →
    (s.data_ ++ pushed ops).Pairwise (fun a b => lt a b = true ∨ lt b a = true) →
    ∃ s', runFrom lt s ops = .ok s' ∧ VInv lt s' ∧
      s'.data_.Pairwise (fun a b => lt a b = true ∨ lt b a = true) := by
  intro ops
  induction ops with
  | nil =>
    intro s h _ hp
    exact ⟨s, rfl, h, by simpa [pushed] using hp⟩
  | cons o os ih =>
    intro s h hb hp
    simp only [List.length_cons] at hb
    cases o with
    | push d =>
      simp only [pushed] at hp
      have hp' := List.pairwise_append.1 hp
      obtain ⟨s1, hrun, hv1, hd1, hl1⟩ := VInv.vinv_push lt hsw h (by omega) d
        (fun b hb' => (hp'.2.2 b hb' d (by simp)).symm) hp'.1
      obtain ⟨s', hr', hv', hp2⟩ := ih s1 hv1 (by omega) (by
        rw [hd1, List.append_assoc]
        exact hp)
      refine ⟨s', ?_, hv', hp2⟩
      rw [runFrom_cons]
      show (binomial_heap.push lt s d >>= fun s1 => origin.runFrom lt s1 os) = _
      rw [hrun]
      exact hr'
    | pop =>
      simp only [pushed] at hp
      obtain ⟨s1, hrun, hv1, hl1, hcase⟩ := VInv.vinv_pop lt hsw h
      have hp1 : (s1.data_ ++ pushed os).Pairwise (fun a b => lt a b = true ∨ lt b a = true) := by
        rcases hcase with ⟨-, e⟩ | ⟨tv, -, hperm, -⟩
        · rw [e]; exact hp
        · have := ((List.Perm.append_right (pushed os) hperm).pairwise_iff
            (fun h => h.symm)).1 hp
          simp only [List.cons_append, List.pairwise_cons] at this
          exact this.2
      obtain ⟨s', hr', hv', hp2⟩ := ih s1 hv1 (by omega) hp1
      refine ⟨s', ?_, hv', hp2⟩
      rw [runFrom_cons]
      show (binomial_heap.pop lt s >>= fun s1 => origin.runFrom lt s1 os) = _
      rw [hrun]
      exact hr'

/-- The same from the empty heap. -/
theorem VInv.vinv_run (lt : α → α → Bool) (hsw : StrictWeak lt) (ops : List (Op α))
    (hb : ops.length < npos)
    (hp : (pushed ops).Pairwise (fun a b => lt a b = true ∨ lt b a = true)) :
    ∃ s, run lt ops = .ok s ∧ VInv lt s ∧
      s.data_.Pairwise (fun a b => lt a b = true ∨ lt b a = true) :=
  VInv.vinv_runFrom lt hsw ops _ (VInv.vinv_new lt) (by simpa [binomial_heap.new] using hb)
    (by simpa [binomial_heap.new] using hp)

end origin

namespace origin

variable {α κ : Type} [DecidableEq κ]

open Forest

/-! ## The index map and `update` of the mutable heap -/

theorem id_find_assign_self (m : List (κ × Nat)) (k : κ) (v : Nat) :
    id_find (id_assign m k v) k = some v := by
  induction m with
  | nil => simp [id_assign, id_find]
  | cons x m ih =>
    obtain ⟨k', v'⟩ := x
    simp only [id_assign]
    by_cases h : k' = k
    · simp [h, id_find]
    · simp [h, id_find, ih]

theorem id_index_of_find {m : List (κ × Nat)} {k : κ} {v : Nat} (h : id_find m k = some v) :
    id_index m k = (v, m) := by
  simp [id_index, h]

theorem id_index_of_none {m : List (κ × Nat)} {k : κ} (h : id_find m k = none) :
    id_index m k = (0, id_assign m k 0) := by
  simp [id_index, h]

theorem mem_of_get {β : Type} {l : List β} {i : Nat} {x : β} (h : l[i]? = some x) : x ∈ l := by
  rcases List.getElem?_eq_some.1 h with ⟨h', rfl⟩
  exact List.getElem_mem _

theorem mem_set {β : Type} {l : List β} {i : Nat} {x y : β} (h : y ∈ l.set i x) :
    y = x ∨ y ∈ l := by
  rcases List.mem_or_eq_of_mem_set h with h | h
  · exact Or.inr h
  · exact Or.inl h

namespace mutable_binomial_heap

@[simp]
theorem read_ref_outside (data : List α) (d : α) :
    read_ref data (.outside d) = .ok d := rfl

theorem read_ref_stored (data : List α) (k : Nat) :
    read_ref data (.stored k) = at_ data k := rfl

/-- The loop of `update` for a parameter that refers to an object outside of `data_`: every
read of the parameter gives the same value. -/
theorem update_loop_outside (lt : α → α → Bool) (key : α → κ) (ns : List binomial_heap_node)
    (d : α) (fuel : Nat) (data : List α) (id_ : List (κ × Nat)) (index parent : Nat) :
    update_loop lt key ns (.outside d) (fuel + 1) data id_ index parent =
      (if parent = npos then .ok (data, id_, index)
      else do
        let np ← at_ ns parent
        let pv ← at_ data np.index
        if !lt d pv then do
          let ni ← at_ ns index
          let data ← put_ data ni.index pv
          let data ← put_ data np.index d
          let moved ← at_ data ni.index
          let id_ := id_assign id_ (key moved) index
          update_loop lt key ns (.outside d) fuel data id_ parent np.parent
        else .ok (data, id_, index)) := by
  rw [update_loop]
  rfl

/-- The member `update` for a parameter that refers to an object outside of `data_`. -/
theorem update_outside (lt : α → α → Bool) (key : α → κ) (s : mutable_binomial_heap α κ)
    (d : α) :
    update lt key s (.outside d) = (do
      let (index, id_) := id_index s.id_ (key d)
      let ni ← at_ s.nodes_ index
      let parent := ni.parent
      let data_ ← put_ s.data_ ni.index d
      let (data_, id_, index) ←
        update_loop lt key s.nodes_ (.outside d) (s.nodes_.length + 1) data_ id_ index parent
      let id_ := id_assign id_ (key d) index
      let nt ← at_ s.nodes_ s.top_
      let tv ← at_ data_ nt.index
      if !lt d tv then pure { s with data_ := data_, id_ := id_, top_ := index }
      else pure { s with data_ := data_, id_ := id_ }) :=
  rfl

/-- The loop of `update` for a value `d` that compares less than no value of the heap: from a
node of the forest it climbs to a node of the root list, and `d` is the value of this node. -/
theorem update_loop_climb (lt : α → α → Bool) (key : α → κ) {d0 : List α} {rm : List Nat}
    {ns : List binomial_heap_node} (d : α) (hle : ns.length ≤ npos) (hirr : lt d d = false) :
    ∀ (F : Forest α) (p e x : Nat), rep d0 rm ns p e F x → ∀ i ∈ idxs F,
    ∀ (data : List α) (id_ : List (κ × Nat)) (ni : binomial_heap_node),
    data.length = d0.length → (∀ b ∈ data, lt d b = false) → ns[i]? = some ni →
    data[ni.index]? = some d →
    ∃ (k : Nat) (data' : List α) (id' : List (κ × Nat)) (j : Nat) (nj : binomial_heap_node),
      k ≤ (idxs F).length ∧ j ∈ heads F ∧ ns[j]? = some nj ∧ data'[nj.index]? = some d ∧
      data'.length = d0.length ∧ (∀ b ∈ data', lt d b = false) ∧
      ∀ fuel, update_loop lt key ns (.outside d) (fuel + k) data id_ i ni.parent =
        update_loop lt key ns (.outside d) fuel data' id' j p := by
  intro F
  induction F with
  | nil => intro p e x _ i hi; simp at hi
  | node r a c s ihc ihs =>
    intro p e x hF i hi data id_ ni hlen hQ hni hdi
    rw [rep_node] at hF
    obtain ⟨-, nr, hnr, hrp, -, hrv, -, hc, hs⟩ := hF
    simp only [idxs_node, List.mem_cons, List.mem_append] at hi
    by_cases hir : i = r
    · subst hir
      rw [hni] at hnr
      cases hnr
      refine ⟨0, data, id_, i, ni, by simp, by simp, hni, hdi, hlen, hQ, ?_⟩
      intro fuel
      rw [hrp]
      rfl
    · rcases hi with h | h | h
      · exact absurd h hir
      · obtain ⟨k, data', id', j, nj, hk, hj, hnj, hdj, hlen', hQ', hrun⟩ :=
          ihc r npos _ hc i h data id_ ni hlen hQ hni hdi
        have hrne : r ≠ npos := ne_npos_of_get hle hnr
        have hri : nr.index < data'.length := by rw [hlen']; exact lt_of_get hrv
        have hji : nj.index < data'.length := lt_of_get hdj
        obtain ⟨pv, hpv⟩ : ∃ pv, data'[nr.index]? = some pv :=
          ⟨_, List.getElem?_eq_getElem hri⟩
        have hpvQ : lt d pv = false := hQ' pv (mem_of_get hpv)
        set data1 := data'.set nj.index pv with h1
        set data2 := data1.set nr.index d with h2
        have hl1 : data1.length = data'.length := List.length_set _ _ _
        have hl2 : data2.length = data'.length := by rw [h2, List.length_set, hl1]
        obtain ⟨moved, hmoved⟩ : ∃ m, data2[nj.index]? = some m :=
          ⟨_, List.getElem?_eq_getElem (by rw [hl2]; exact hji)⟩
        refine ⟨k + 1, data2, id_assign id' (key moved) j, r, nr, ?_, by simp, hnr, ?_,
          by rw [hl2, hlen'], ?_, ?_⟩
        · simp only [idxs_node, List.length_cons, List.length_append]
          omega
        · rw [h2]
          exact List.getElem?_set_self (by rw [hl1]; exact hri)
        · intro b hb
          rcases mem_set hb with rfl | hb
          · exact hirr
          · rcases mem_set hb with rfl | hb
            · exact hpvQ
            · exact hQ' b hb
        · intro fuel
          have := hrun (fuel + 1)
          rw [show fuel + (k + 1) = fuel + 1 + k by omega, this, update_loop_outside]
          simp only [if_neg hrne, at_ok hnr, ok_bind, at_ok hpv, hpvQ, Bool.not_false, if_true,
            at_ok hnj, put_ok _ hji, ← h1, put_ok _ (show nr.index < data1.length by
              rw [hl1]; exact hri), ← h2, at_ok hmoved, hrp]
      · obtain ⟨k, data', id', j, nj, hk, hj, hnj, hdj, hlen', hQ', hrun⟩ :=
          ihs p e _ hs i h data id_ ni hlen hQ hni hdi
        refine ⟨k, data', id', j, nj, ?_, by simp [hj], hnj, hdj, hlen', hQ', hrun⟩
        simp only [idxs_node, List.length_cons, List.length_append]
        omega

/-- The member `update` for a value that compares less than no value of the heap, on a state
that holds a forest: the value is the value of `top()` afterwards, and the index map has the
node of the top for its identity. -/
theorem update_greatest (lt : α → α → Bool) (key : α → κ) {s : mutable_binomial_heap α κ}
    {rm : List Nat} {F : Forest α} (d : α) {i0 : Nat}
    (hrep : rep s.data_ rm s.nodes_ npos npos F s.head_) (hnd : (idxs F).Nodup)
    (hle : s.nodes_.length ≤ npos) (hid : id_find s.id_ (key d) = some i0)
    (hi0 : i0 ∈ idxs F) (htop : s.top_ ∈ idxs F)
    (hmax : ∀ b ∈ s.data_, lt d b = false) (hirr : lt d d = false) :
    ∃ s', update lt key s (.outside d) = .ok s' ∧ s'.top = .ok d ∧
      id_find s'.id_ (key d) = some s'.top_ ∧ s'.top_ ∈ heads F ∧
      s'.nodes_ = s.nodes_ ∧ s'.head_ = s.head_ ∧ s'.data_.length = s.data_.length := by
  obtain ⟨ni, hni, hnii, -⟩ := rep_get F hrep i0 hi0
  set data1 := s.data_.set ni.index d with h1
  have hl1 : data1.length = s.data_.length := List.length_set _ _ _
  have hQ1 : ∀ b ∈ data1, lt d b = false := by
    intro b hb
    rcases mem_set hb with rfl | hb
    · exact hirr
    · exact hmax b hb
  have hd1 : data1[ni.index]? = some d := List.getElem?_set_self hnii
  obtain ⟨k, data', id', j, nj, hk, hj, hnj, hdj, hlen', hQ', hrun⟩ :=
    update_loop_climb lt key d hle hirr F npos npos _ hrep i0 hi0 data1 s.id_ ni hl1 hQ1 hni hd1
  have hkb : k ≤ s.nodes_.length := le_trans hk (nodup_bound hnd (rep_lt hrep))
  obtain ⟨f, hf⟩ : ∃ f, s.nodes_.length + 1 = (f + 1) + k := ⟨s.nodes_.length - k, by omega⟩
  have hloop : update_loop lt key s.nodes_ (.outside d) (s.nodes_.length + 1) data1 s.id_ i0
      ni.parent =
      .ok (data', id', j) := by
    rw [hf, hrun (f + 1), update_loop_outside]
    simp
  obtain ⟨nt, hnt, hnti, -⟩ := rep_get F hrep s.top_ htop
  obtain ⟨tv, htv⟩ : ∃ tv, data'[nt.index]? = some tv :=
    ⟨_, List.getElem?_eq_getElem (by rw [hlen']; exact hnti)⟩
  have htvQ : lt d tv = false := hQ' tv (mem_of_get htv)
  refine ⟨{ s with data_ := data', id_ := id_assign id' (key d) j, top_ := j }, ?_, ?_,
    id_find_assign_self _ _ _, hj, rfl, rfl, hlen'⟩
  · rw [update_outside, id_index_of_find hid]
    simp only [at_ok hni, ok_bind, put_ok _ hnii, ← h1, hloop, at_ok hnt, at_ok htv, htvQ,
      Bool.not_false, if_true, pure, Except.pure]
  · unfold top
    simp only [at_ok hnj, ok_bind, at_ok hdj]

/-- The checked errors come from no access to a vector. -/
theorem at_unchecked {β : Type} (v : List β) (i : Nat) :
    at_ v i ≠ .error .UnknownIdentity := by
  unfold at_
  split <;> simp

theorem put_unchecked {β : Type} (v : List β) (i : Nat) (x : β) :
    put_ v i x ≠ .error .UnknownIdentity := by
  unfold put_
  split <;> simp

theorem bind_unchecked {β γ : Type} {x : Except Fault β} {f : β → Except Fault γ}
    (hx : x ≠ .error .UnknownIdentity) (hf : ∀ a, f a ≠ .error .UnknownIdentity) :
    (x >>= f) ≠ .error .UnknownIdentity := by
  cases x with
  | error e =>
    intro h
    exact hx (by simpa [bind, Except.bind] using h)
  | ok a => exact hf a

theorem read_ref_unchecked (data : List α) (r : ValueRef α) :
    read_ref data r ≠ .error .UnknownIdentity := by
  cases r with
  | outside v => simp
  | stored k => exact at_unchecked _ _

theorem update_loop_unchecked (lt : α → α → Bool) (key : α → κ)
    (ns : List binomial_heap_node) (r : ValueRef α) : ∀ (fuel : Nat) (data : List α)
    (id_ : List (κ × Nat)) (index parent : Nat),
    update_loop lt key ns r fuel data id_ index parent ≠ .error .UnknownIdentity := by
  intro fuel
  induction fuel with
  | zero => intro data id_ index parent; simp [update_loop]
  | succ fuel ih =>
    intro data id_ index parent
    rw [update_loop]
    split
    · simp
    · refine bind_unchecked (read_ref_unchecked _ _) (fun dv => ?_)
      refine bind_unchecked (at_unchecked _ _) (fun np => ?_)
      refine bind_unchecked (at_unchecked _ _) (fun pv => ?_)
      split
      · refine bind_unchecked (at_unchecked _ _) (fun ni => ?_)
        refine bind_unchecked (put_unchecked _ _ _) (fun d1 => ?_)
        refine bind_unchecked (read_ref_unchecked _ _) (fun dv2 => ?_)
        refine bind_unchecked (put_unchecked _ _ _) (fun d2 => ?_)
        refine bind_unchecked (at_unchecked _ _) (fun m => ?_)
        exact ih _ _ _ _
      · simp

/-- The member `update` raises no `UnknownIdentity`, whatever its parameter refers to. -/
theorem update_unchecked (lt : α → α → Bool) (key : α → κ) (s : mutable_binomial_heap α κ)
    (r : ValueRef α) : update lt key s r ≠ .error .UnknownIdentity := by
  unfold update
  refine bind_unchecked (read_ref_unchecked _ _) (fun dv => ?_)
  refine bind_unchecked (at_unchecked _ _) (fun ni => ?_)
  refine bind_unchecked (put_unchecked _ _ _) (fun d1 => ?_)
  refine bind_unchecked (update_loop_unchecked lt key _ r _ _ _ _ _) (fun x => ?_)
  refine bind_unchecked (read_ref_unchecked _ _) (fun dv2 => ?_)
  refine bind_unchecked (at_unchecked _ _) (fun nt => ?_)
  refine bind_unchecked (at_unchecked _ _) (fun tv => ?_)
  split <;> simp [pure, Except.pure]

theorem id_find_assign_keep (m : List (κ × Nat)) (k k' : κ) (v : Nat)
    (h : ∃ j, id_find m k = some j) : ∃ j, id_find (id_assign m k' v) k = some j := by
  induction m with
  | nil => simp [id_find] at h
  | cons x m ih =>
    obtain ⟨k0, v0⟩ := x
    simp only [id_assign]
    by_cases h0 : k0 = k'
    · by_cases h1 : k' = k
      · exact ⟨v, by simp [h0, h1, id_find]⟩
      · have h2 : k0 ≠ k := by rw [h0]; exact h1
        simpa [h0, h1, h2, id_find] using h
    · by_cases h2 : k0 = k
      · exact ⟨v0, by rw [if_neg h0]; simp [h2, id_find]⟩
      · simp only [if_neg h0, id_find, if_neg h2]
        simp only [id_find, if_neg h2] at h
        exact ih h

/-- The loop of `update` takes no key out of the index map. -/
theorem update_loop_keys (lt : α → α → Bool) (key : α → κ) (ns : List binomial_heap_node)
    (r : ValueRef α) (k : κ) : ∀ (fuel : Nat) (data : List α) (id_ : List (κ × Nat))
    (index parent : Nat) (data' : List α) (id' : List (κ × Nat)) (index' : Nat),
    update_loop lt key ns r fuel data id_ index parent = .ok (data', id', index') →
    (∃ j, id_find id_ k = some j) → ∃ j, id_find id' k = some j := by
  intro fuel
  induction fuel with
  | zero =>
    intro data id_ index parent data' id' index' h
    simp [update_loop] at h
  | succ fuel ih =>
    intro data id_ index parent data' id' index' h hk
    rw [update_loop] at h
    split at h
    · cases h
      exact hk
    · cases hr : read_ref data r with
      | error e => rw [hr] at h; cases h
      | ok dv =>
        rw [hr, ok_bind] at h
        cases hnp : at_ ns parent with
        | error e => rw [hnp] at h; cases h
        | ok np =>
          rw [hnp, ok_bind] at h
          cases hpv : at_ data np.index with
          | error e => rw [hpv] at h; cases h
          | ok pv =>
            rw [hpv, ok_bind] at h
            split at h
            · cases hni : at_ ns index with
              | error e => rw [hni] at h; cases h
              | ok ni =>
                rw [hni, ok_bind] at h
                cases hd1 : put_ data ni.index pv with
                | error e => rw [hd1] at h; cases h
                | ok data1 =>
                  rw [hd1, ok_bind] at h
                  cases hr2 : read_ref data1 r with
                  | error e => rw [hr2] at h; cases h
                  | ok dv2 =>
                    rw [hr2, ok_bind] at h
                    cases hd2 : put_ data1 np.index dv2 with
                    | error e => rw [hd2] at h; cases h
                    | ok data2 =>
                      rw [hd2, ok_bind] at h
                      cases hm : at_ data2 ni.index with
                      | error e => rw [hm] at h; cases h
                      | ok moved =>
                        rw [hm, ok_bind] at h
                        exact ih _ _ _ _ _ _ _ h (id_find_assign_keep _ _ _ _ hk)
            · cases h
              exact hk

/-- Whatever the member `update` returns has the identity of the value in the index map: the
identity that the first read of the parameter gives. -/
theorem update_id (lt : α → α → Bool) (key : α → κ) (s s' : mutable_binomial_heap α κ)
    (r : ValueRef α) (d : α) (hd : read_ref s.data_ r = .ok d)
    (h : update lt key s r = .ok s') : ∃ j, id_find s'.id_ (key d) = some j := by
  have h0 : ∃ j, id_find (id_index s.id_ (key d)).2 (key d) = some j := by
    cases hf : id_find s.id_ (key d) with
    | some v => rw [id_index_of_find hf]; exact ⟨v, hf⟩
    | none => rw [id_index_of_none hf]; exact ⟨0, id_find_assign_self _ _ _⟩
  unfold update at h
  rw [hd, ok_bind] at h
  dsimp only at h
  cases hni : at_ s.nodes_ (id_index s.id_ (key d)).1 with
  | error e => rw [hni] at h; cases h
  | ok ni =>
    rw [hni, ok_bind] at h
    cases hd1 : put_ s.data_ ni.index d with
    | error e => rw [hd1] at h; cases h
    | ok data1 =>
      rw [hd1, ok_bind] at h
      cases hl : update_loop lt key s.nodes_ r (s.nodes_.length + 1) data1
          (id_index s.id_ (key d)).2 (id_index s.id_ (key d)).1 ni.parent with
      | error e => rw [hl] at h; cases h
      | ok x =>
        obtain ⟨data', id', index'⟩ := x
        rw [hl, ok_bind] at h
        dsimp only at h
        have hk := update_loop_keys lt key s.nodes_ r (key d) _ _ _ _ _ _ _ _ hl h0
        cases hr2 : read_ref data' r with
        | error e => rw [hr2] at h; cases h
        | ok dv2 =>
          rw [hr2, ok_bind] at h
          cases hnt : at_ s.nodes_ s.top_ with
          | error e => rw [hnt] at h; cases h
          | ok nt =>
            rw [hnt, ok_bind] at h
            cases htv : at_ data' nt.index with
            | error e => rw [htv] at h; cases h
            | ok tv =>
              rw [htv, ok_bind] at h
              split at h <;> (cases h; exact id_find_assign_keep _ _ _ _ hk)

end mutable_binomial_heap

end origin

namespace origin

variable {α : Type}

open Forest binomial_heap

/-! ## Auxiliary facts for the statements about the interface -/

theorem less_strictWeak : StrictWeak less := by
  refine ⟨fun a => by simp [less], fun a b c => ?_, fun a b c => ?_⟩
  · simp only [less, decide_eq_true_eq]
    omega
  · simp only [less, decide_eq_false_iff_not]
    omega

theorem less_priority_strictWeak : StrictWeak less_priority := by
  refine ⟨fun a => by simp [less_priority], fun a b c => ?_, fun a b c => ?_⟩
  · simp only [less_priority, decide_eq_true_eq]
    omega
  · simp only [less_priority, decide_eq_false_iff_not]
    omega

theorem run_eq (lt : α → α → Bool) (ops : List (Op α)) :
    run lt ops = runFrom lt binomial_heap.new ops := rfl

/-- The root list of a state that holds a forest. -/
theorem root_chain_of_rep {d : List α} {rm : List Nat} {ns : List binomial_heap_node} :
    ∀ (F : Forest α) (x : Nat), rep d rm ns npos npos F x →
    ∃ l, root_chain ns x l ∧ (∀ n ∈ l, n.parent = npos) ∧ l.map (·.degree) = ranks F := by
  intro F
  induction F with
  | nil =>
    intro x h
    exact ⟨[], by simpa [root_chain] using h, by simp, rfl⟩
  | node i a c s _ ihs =>
    intro x h
    rw [rep_node] at h
    obtain ⟨hx, n, hn, hp, hdeg, -, -, -, hs⟩ := h
    obtain ⟨l, hl, hpar, hdegs⟩ := ihs _ hs
    refine ⟨n :: l, ⟨by rw [hx]; exact hn, hl⟩, ?_, by simp [hdeg, hdegs]⟩
    intro m hm
    simp only [List.mem_cons] at hm
    rcases hm with rfl | hm
    · exact hp
    · exact hpar m hm

/-- A reachable state without values: the vectors of values are empty and both `head_` and
`top_` are the none sentinel. -/
theorem empty_state (lt : α → α → Bool) (ops : List (Op α)) (s : binomial_heap α)
    (hb : ops.length < npos) (hr : run lt ops = .ok s) (h0 : s.size = 0) :
    Rep s (nil : Forest α) ∧ s.data_ = [] ∧ s.reversemap_ = [] ∧ s.head_ = npos ∧
      s.top_ = npos := by
  obtain ⟨F, hR, -, ht⟩ := Inv.inv_run lt ops s hb hr
  have hd : s.data_ = [] := List.length_eq_zero.1 h0
  have hF := hR.nil_of_empty hd
  subst hF
  refine ⟨hR, hd, ?_, hR.head_nil, ht rfl⟩
  have := hR.rm_len
  rw [hd] at this
  exact List.length_eq_zero.1 this

/-- The number of nodes after a list of operations is at most the number of operations. -/
theorem nodes_le_runFrom (lt : α → α → Bool) : ∀ (ops : List (Op α)) (s s' : binomial_heap α),
    Inv s → s.nodes_.length + ops.length < npos → runFrom lt s ops = .ok s' →
    s'.nodes_.length ≤ s.nodes_.length + ops.length := by
  intro ops
  induction ops with
  | nil =>
    intro s s' _ _ hr
    cases hr
    simp
  | cons o os ih =>
    intro s s' h hb hr
    obtain ⟨s1, hs, hr1⟩ := runFrom_cons_ok hr
    simp only [List.length_cons] at hb ⊢
    cases o with
    | push d =>
      obtain ⟨s2, hp, hi, -, hl⟩ := Inv.inv_push lt h (by omega) d
      have : s1 = s2 := by
        have := hs.symm.trans hp
        cases this
        rfl
      subst this
      have := ih s1 s' hi (by omega) hr1
      omega
    | pop =>
      obtain ⟨hi, hl⟩ := Inv.inv_pop lt h hs
      have := ih s1 s' hi (by omega) hr1
      omega

theorem nodes_le_run (lt : α → α → Bool) (ops : List (Op α)) (s : binomial_heap α)
    (hb : ops.length < npos) (hr : run lt ops = .ok s) : s.nodes_.length ≤ ops.length := by
  have := nodes_le_runFrom lt ops _ s Inv.inv_new (by simpa [binomial_heap.new] using hb) hr
  simpa [binomial_heap.new] using this

/-- The round trip of a value through a state without values. -/
theorem round_trip (lt : α → α → Bool) {s : binomial_heap α} (hR : Rep s (nil : Forest α))
    (hlt : s.nodes_.length + 1 < npos) (v : α) :
    ∃ s1 s2, s.push lt v = .ok s1 ∧ s1.top = .ok v ∧ s1.size = s.size + 1 ∧
      s1.pop lt = .ok s2 ∧ s2.size = s.size ∧ s2.head_ = npos ∧ s2.top_ = npos := by
  obtain ⟨s1, hpush, hR1, hd1, -, ht1, -⟩ := push_spec lt hR hlt (fun h => absurd rfl h) v
  have ht1' := ht1 rfl
  rw [pushF_nil] at hR1
  have hmem : s1.top_ ∈ idxs (node s.nodes_.length v nil nil) := by rw [ht1']; simp
  obtain ⟨tv, htop, hv, -⟩ := top_spec hR1 hmem
  have htv : tv = v := by
    rw [ht1'] at hv
    simpa [valueOf] using hv.symm
  subst htv
  obtain ⟨hok, -⟩ := pop_spec lt hR1 hmem
  obtain ⟨s2, tv', hpop, hR2, ht2, -, -, hperm, -⟩ := hok (Or.inr (by simp))
  have hF2 : popF lt s1.top_ (node s.nodes_.length tv nil nil) = nil := by
    rw [popF_single, ht1']
    simp [childrenOf, rev]
  rw [hF2] at hR2 ht2
  refine ⟨s1, s2, hpush, htop, by simp [binomial_heap.size, hd1], hpop, ?_, hR2.head_nil, ht2⟩
  have hlen := hperm.length_eq
  rw [hd1] at hlen
  simp only [List.length_append, List.length_singleton, List.length_cons,
    List.length_nil] at hlen
  show s2.data_.length = s.data_.length
  omega

end origin

namespace origin

variable {α κ : Type} [DecidableEq κ]

open Forest binomial_heap

/-- Successive calls of `pop` on a state with the invariant of a strict weak order: no call
fails, and no value removed is exceeded by a value removed later. -/
theorem extracted_spec (lt : α → α → Bool) (hsw : StrictWeak lt) : ∀ (k : Nat)
    (s : binomial_heap α), VInv lt s → k ≤ s.size →
    ∃ l, extracted lt k s = .ok l ∧ l.length = k ∧ (∀ x ∈ l, x ∈ s.data_) ∧
      l.Pairwise (fun a b => lt a b = false) := by
  intro k
  induction k with
  | zero =>
    intro s _ _
    exact ⟨[], rfl, rfl, by simp, by simp⟩
  | succ k ih =>
    intro s hv hk
    obtain ⟨s1, hpop, hv1, -, hcase⟩ := VInv.vinv_pop lt hsw hv
    rcases hcase with ⟨he, -⟩ | ⟨tv, htop, hperm, hmax⟩
    · simp only [binomial_heap.size, he, List.length_nil] at hk
      omega
    · have hlen := hperm.length_eq
      simp only [List.length_cons] at hlen
      obtain ⟨l, hl, hlk, hmem, hpw⟩ := ih s1 hv1 (by
        simp only [binomial_heap.size] at hk ⊢
        omega)
      have hsub : ∀ x ∈ l, x ∈ s.data_ :=
        fun x hx => hperm.symm.subset (List.mem_cons_of_mem _ (hmem x hx))
      refine ⟨tv :: l, ?_, by simp [hlk], ?_, ?_⟩
      · rw [extracted]
        simp only [htop, ok_bind, hpop, hl, pure, Except.pure]
      · intro x hx
        simp only [List.mem_cons] at hx
        rcases hx with rfl | hx
        · exact hperm.symm.subset (by simp)
        · exact hsub x hx
      · rw [List.pairwise_cons]
        exact ⟨fun x hx => hmax x (hsub x hx), hpw⟩

/-! ## The statements about the interface -/

/-- C1, as stated, fails: after the pushes of 5, 3, 8 and 1 with `std::less`, the heap holds
the value 1 and `top()` is 8, a value that is greater than 1 (and not the 1 the statement
names). -/
theorem top_after_5_3_8_1_is_8 :
    ∃ s, run less [.push 5, .push 3, .push 8, .push 1] = .ok s ∧ s.top = .ok 8 ∧
      1 ∈ s.data_ ∧ less 1 8 = true :=
  ⟨_, rfl, rfl, by decide, rfl⟩

/-- C1, amended: for a comparator that is a strict weak order and pushed values of which no two
are equivalent, every sequence of fewer than `2 ^ 64 - 1` calls of `push` and `pop` on the
empty heap runs without a fault, and when the heap holds a value afterwards `top()` returns a
held value that is not less than any held value (the greatest one). With `std::less` on
integers: after the pushes of 5, 3, 8, 1 `top()` is 8; after one `pop` it is 5; after the push
of 0 it is 5; after two more calls of `pop` it is 1. -/
theorem top_is_greatest (compare_ : α → α → Bool) (hsw : StrictWeak compare_)
    (ops : List (Op α)) (hb : ops.length < npos)
    (hd : (pushed ops).Pairwise (fun a b => compare_ a b = true ∨ compare_ b a = true)) :
    (∃ s, run compare_ ops = .ok s ∧
      (s.size ≠ 0 → ∃ t, s.top = .ok t ∧ t ∈ s.data_ ∧ ∀ v ∈ s.data_, compare_ t v = false)) ∧
    top_after less [.push 5, .push 3, .push 8, .push 1] = .ok 8 ∧
    top_after less [.push 5, .push 3, .push 8, .push 1, .pop] = .ok 5 ∧
    top_after less [.push 5, .push 3, .push 8, .push 1, .pop, .push 0] = .ok 5 ∧
    top_after less [.push 5, .push 3, .push 8, .push 1, .pop, .push 0, .pop, .pop] = .ok 1 := by
  refine ⟨?_, rfl, rfl, rfl, rfl⟩
  obtain ⟨s, hr, hv, -⟩ := VInv.vinv_run compare_ hsw ops hb hd
  refine ⟨s, hr, fun hne => hv.top ?_⟩
  intro he
  exact hne (by simp [binomial_heap.size, he])

/-- Instance: the operations of the scenario, with `std::less` on integers, meet the
hypotheses, and the heap they build has the greatest held value at the top. -/
theorem top_is_greatest_witness :
    StrictWeak less ∧
    (pushed [Op.push 5, .push 3, .push 8, .push 1, .pop, .push 0, .pop, .pop]).Pairwise
      (fun a b => less a b = true ∨ less b a = true) ∧
    ∃ s, run less [.push 5, .push 3, .push 8, .push 1, .pop, .push 0, .pop, .pop] = .ok s ∧
      (s.size ≠ 0 → ∃ t, s.top = .ok t ∧ t ∈ s.data_ ∧ ∀ v ∈ s.data_, less t v = false) :=
  ⟨less_strictWeak, by decide,
    (top_is_greatest less less_strictWeak
      [.push 5, .push 3, .push 8, .push 1, .pop, .push 0, .pop, .pop] (by decide)
      (by decide)).1⟩

/-- C2, as stated, fails: after the pushes of 1 and 2 with `std::less`, two calls of `pop` in
a row remove 2 and then 1, and 1 is strictly less than 2. -/
theorem extracted_after_1_2 :
    (run less [.push 1, .push 2] >>= extracted less 2) = .ok [2, 1] ∧ less 1 2 = true :=
  ⟨rfl, rfl⟩

/-- C2, amended: for a comparator that is a strict weak order and pushed values of which no two
are equivalent, after every sequence of fewer than `2 ^ 64 - 1` calls of `push` and `pop` on
the empty heap, any number `k ≤ size()` of calls of `pop` in a row succeed, and the values they
remove form a sequence that does not increase: no removed value is strictly greater than a
value removed before it. -/
theorem extraction_does_not_increase (compare_ : α → α → Bool) (hsw : StrictWeak compare_)
    (ops : List (Op α)) (hb : ops.length < npos)
    (hd : (pushed ops).Pairwise (fun a b => compare_ a b = true ∨ compare_ b a = true)) :
    ∃ s, run compare_ ops = .ok s ∧ ∀ k, k ≤ s.size →
      ∃ l, extracted compare_ k s = .ok l ∧ l.length = k ∧
        l.Pairwise (fun a b => compare_ a b = false) := by
  obtain ⟨s, hr, hv, -⟩ := VInv.vinv_run compare_ hsw ops hb hd
  refine ⟨s, hr, fun k hk => ?_⟩
  obtain ⟨l, h1, h2, -, h3⟩ := extracted_spec compare_ hsw k s hv hk
  exact ⟨l, h1, h2, h3⟩

/-- Instance: after the pushes of 4, 9, 2 and a `pop`, with `std::less` on integers, the
values that calls of `pop` remove do not increase. -/
theorem extraction_does_not_increase_witness :
    StrictWeak less ∧
    (pushed [Op.push 4, .push 9, .push 2, .pop]).Pairwise
      (fun a b => less a b = true ∨ less b a = true) ∧
    ∃ s, run less [.push 4, .push 9, .push 2, .pop] = .ok s ∧ ∀ k, k ≤ s.size →
      ∃ l, extracted less k s = .ok l ∧ l.length = k ∧
        l.Pairwise (fun a b => less a b = false) :=
  ⟨less_strictWeak, by decide,
    extraction_does_not_increase less less_strictWeak [.push 4, .push 9, .push 2, .pop]
      (by decide) (by decide)⟩

/-- C3 fails on the code: with `std::less`, after the five pushes and four calls of `pop` of
`push 0, push 1, push 1, push 1, pop, push 0, pop, pop, pop`, each `pop` issued while `size()`
is positive (4, 4, 3 and 2), `size()` is 2 and not 5 - 4 = 1. -/
theorem size_after_equal_values :
    size_after less [.push 0, .push 1, .push 1, .push 1] = .ok 4 ∧
    size_after less [.push 0, .push 1, .push 1, .push 1, .pop, .push 0] = .ok 4 ∧
    size_after less [.push 0, .push 1, .push 1, .push 1, .pop, .push 0, .pop] = .ok 3 ∧
    size_after less [.push 0, .push 1, .push 1, .push 1, .pop, .push 0, .pop, .pop] = .ok 2 ∧
    size_after less [.push 0, .push 1, .push 1, .push 1, .pop, .push 0, .pop, .pop, .pop]
      = .ok 2 :=
  ⟨rfl, rfl, rfl, rfl, rfl⟩

/-- C4 fails on the code: with `std::less`, the state after
`push 0, push 1, push 1, push 1, pop, push 0, pop, pop` holds the two values 1 and 0, its
`head_` is the none sentinel, `top()` is an access outside `nodes_`, and `pop` returns the
state as it is: no value is removed. -/
theorem pop_after_equal_values :
    ∃ s, run less [.push 0, .push 1, .push 1, .push 1, .pop, .push 0, .pop, .pop] = .ok s ∧
      s.data_ = [1, 0] ∧ s.head_ = npos ∧ s.top = .error .outOfBounds ∧ s.pop less = .ok s :=
  ⟨_, rfl, rfl, rfl, rfl, rfl⟩

/-- C5, as stated, fails: on the state of the mutable heap that holds `(1, 10)`, `(2, 20)` and
`(3, 30)`, `update` with `(1, 5)` replaces the priority 10 by 5, which is less than 10 and not
greater than 20 or 30, and `top()` still returns `(3, 30)`. -/
theorem update_to_smaller_value :
    less_priority (1, 5) (1, 10) = true ∧ less_priority (1, 5) (2, 20) = true ∧
    less_priority (1, 5) (3, 30) = true ∧
    ∃ s, held3.update less_priority Prod.fst (.outside (1, 5)) = .ok s ∧
      s.data_ = [(1, 5), (2, 20), (3, 30)] ∧ s.top = .ok (3, 30) :=
  ⟨rfl, rfl, rfl, _, rfl, rfl, rfl⟩

/-- C5, amended: on a state of the mutable heap that holds a forest (linked from `head_`, every
node with its value at its slot, no node twice, at most `2 ^ 64 - 1` nodes) and whose cached
`top_` is a node of this forest, `update(d)` with a parameter that refers to an object outside
of the heap, for a value `d` whose identity the index maps to a node of the forest and that
compares less than no held value and not less than itself, succeeds; afterwards `top()`
returns `d`, the index maps the identity of `d` to the node `top_` that stores it, and the node
array is as before. On the state that holds `(1, 10)`, `(2, 20)`, `(3, 30)`: after `update`
with `(1, 35)`, `top()` is `(1, 35)`; it is `(3, 30)` after one `pop` and `(2, 20)` after
two. -/
theorem update_to_greatest_value (compare_ : α → α → Bool) (key : α → κ)
    (s : mutable_binomial_heap α κ) (rm : List Nat) (F : Forest α) (d : α) (i0 : Nat)
    (hrep : rep s.data_ rm s.nodes_ npos npos F s.head_) (hnd : (idxs F).Nodup)
    (hle : s.nodes_.length ≤ npos) (hid : id_find s.id_ (key d) = some i0)
    (hi0 : i0 ∈ idxs F) (htop : s.top_ ∈ idxs F)
    (hmax : ∀ b ∈ s.data_, compare_ d b = false) (hirr : compare_ d d = false) :
    (∃ s', s.update compare_ key (.outside d) = .ok s' ∧ s'.top = .ok d ∧
      id_find s'.id_ (key d) = some s'.top_ ∧ s'.nodes_ = s.nodes_) ∧
    mtop_after less_priority Prod.fst held3 [.update (.outside (1, 35))] = .ok (1, 35) ∧
    mtop_after less_priority Prod.fst held3 [.update (.outside (1, 35)), .pop] = .ok (3, 30) ∧
    mtop_after less_priority Prod.fst held3 [.update (.outside (1, 35)), .pop, .pop] =
      .ok (2, 20) := by
  refine ⟨?_, rfl, rfl, rfl⟩
  obtain ⟨s', h1, h2, h3, -, h5, -⟩ :=
    mutable_binomial_heap.update_greatest compare_ key d hrep hnd hle hid hi0 htop hmax hirr
  exact ⟨s', h1, h2, h3, h5⟩

/-- Instance: the state that holds `(1, 10)`, `(2, 20)` and `(3, 30)` and the value `(1, 35)`
meet the hypotheses, and `top()` after the call of `update` is `(1, 35)`. -/
theorem update_to_greatest_value_witness :
    rep held3.data_ [0, 1, 2] held3.nodes_ npos npos held3_forest held3.head_ ∧
    id_find held3.id_ (Prod.fst ((1, 35) : Nat × Nat)) = some 0 ∧
    (∀ b ∈ held3.data_, less_priority (1, 35) b = false) ∧
    held3.top_ ∈ held3_forest.idxs ∧
    ∃ s', held3.update less_priority Prod.fst (.outside (1, 35)) = .ok s' ∧
      s'.top = .ok (1, 35) ∧
      id_find s'.id_ (Prod.fst ((1, 35) : Nat × Nat)) = some s'.top_ ∧
      s'.nodes_ = held3.nodes_ :=
  have hrep : rep held3.data_ [0, 1, 2] held3.nodes_ npos npos held3_forest held3.head_ :=
    ⟨rfl, _, rfl, rfl, rfl, rfl, rfl, rfl,
      ⟨rfl, _, rfl, rfl, rfl, rfl, rfl, ⟨rfl, _, rfl, rfl, rfl, rfl, rfl, rfl, rfl⟩, rfl⟩⟩
  have hmax : ∀ b ∈ held3.data_, less_priority (1, 35) b = false := by decide
  ⟨hrep, rfl, hmax, by decide,
    (update_to_greatest_value less_priority Prod.fst held3 [0, 1, 2] held3_forest (1, 35) 0
      hrep (by decide) (by decide) rfl (by decide) (by decide) hmax rfl).1⟩

/-- C6, as stated, fails: on the state that holds `(1, 10)`, `(2, 20)` and `(3, 30)`, `update`
with `(7, 5)`, whose identity 7 the index does not have, returns a state: the value of node 0
is overwritten and the index has the new entry `(7, 0)`. -/
theorem unknown_identity_update_on_held3 :
    held3.update less_priority Prod.fst (.outside (7, 5)) =
      .ok { held3 with data_ := [(7, 5), (2, 20), (3, 30)],
                       id_ := [(1, 0), (2, 1), (3, 2), (7, 0)] } :=
  rfl

/-- C6, amended: `update(d)` for a value whose identity the index does not have raises no
`UnknownIdentity`: the lookup `id_[d]` adds the identity with the node index 0, and `update`
goes on as it does on the state whose index maps the identity to node 0 (on a heap with nodes
it overwrites the value of node 0 by `d`; without nodes it is an access outside `nodes_`); a
state it returns has the identity in the index. This holds whatever the parameter refers to,
an object outside of the heap or an element of `data_`; `d` is the value it has at the call. -/
theorem update_unknown_identity (compare_ : α → α → Bool) (key : α → κ)
    (s : mutable_binomial_heap α κ) (r : ValueRef α) (d : α)
    (hd : mutable_binomial_heap.read_ref s.data_ r = .ok d)
    (hid : id_find s.id_ (key d) = none) :
    s.update compare_ key r ≠ .error .UnknownIdentity ∧
    s.update compare_ key r =
      ({ s with id_ := id_assign s.id_ (key d) 0 }).update compare_ key r ∧
    ∀ s', s.update compare_ key r = .ok s' → ∃ j, id_find s'.id_ (key d) = some j := by
  refine ⟨mutable_binomial_heap.update_unchecked compare_ key s r, ?_,
    fun s' h => mutable_binomial_heap.update_id compare_ key s s' r d hd h⟩
  unfold mutable_binomial_heap.update
  dsimp only
  rw [hd]
  simp only [ok_bind]
  rw [id_index_of_none hid, id_index_of_find (id_find_assign_self _ _ _)]

/-- Instance: the index of the state that holds `(1, 10)`, `(2, 20)` and `(3, 30)` does not
have the identity 7, and `update` with `(7, 5)` raises no error of an unknown identity. -/
theorem update_unknown_identity_witness :
    id_find held3.id_ (Prod.fst ((7, 5) : Nat × Nat)) = none ∧
    held3.update less_priority Prod.fst (.outside (7, 5)) ≠ .error .UnknownIdentity ∧
    held3.update less_priority Prod.fst (.outside (7, 5)) =
      ({ held3 with id_ := id_assign held3.id_ (Prod.fst ((7, 5) : Nat × Nat)) 0 }).update
        less_priority Prod.fst (.outside (7, 5)) ∧
    ∀ s', held3.update less_priority Prod.fst (.outside (7, 5)) = .ok s' →
      ∃ j, id_find s'.id_ (Prod.fst ((7, 5) : Nat × Nat)) = some j :=
  ⟨rfl, update_unknown_identity less_priority Prod.fst held3 (.outside (7, 5)) (7, 5) rfl rfl⟩

/-- C7, as stated, fails: `top()` on the heap of the default constructor raises no `EmptyHeap`;
it is the access `nodes_[size_type(-1)]` outside the vector. -/
theorem top_of_new_heap :
    (binomial_heap.new : binomial_heap Nat).top = .error .outOfBounds ∧
    (binomial_heap.new : binomial_heap Nat).top ≠ .error .EmptyHeap :=
  ⟨rfl, fun h => Fault.noConfusion (Except.error.inj (Eq.trans (Eq.symm (rfl : (binomial_heap.new : binomial_heap Nat).top = .error .outOfBounds)) h))⟩

/-- C7, amended: `top()` on a heap without values (as constructed, or emptied by calls of
`pop`) does not return a value and raises no `EmptyHeap`: it has no test and reads
`nodes_[size_type(-1)]`, outside the vector. -/
theorem top_of_empty_heap (compare_ : α → α → Bool) (ops : List (Op α)) (s : binomial_heap α)
    (hb : ops.length < npos) (hr : run compare_ ops = .ok s) (h0 : s.size = 0) :
    s.top = .error .outOfBounds := by
  obtain ⟨hR, -, -, -, ht⟩ := empty_state compare_ ops s hb hr h0
  unfold binomial_heap.top
  rw [ht, at_none (List.getElem?_eq_none (le_of_lt hR.nodes_lt))]
  rfl

/-- Instance: on the state after a push and a `pop`, which holds no value, `top()` is an
access outside `nodes_`. -/
theorem top_of_empty_heap_witness :
    run less [.push 3, .pop] = .ok
      { data_ := [], reversemap_ := [], top_ := npos, head_ := npos,
        nodes_ := [{ index := npos, parent := npos, child := npos, right_sibling := npos,
                     degree := 0 }] } ∧
    (binomial_heap.top
      { data_ := ([] : List Nat), reversemap_ := [], top_ := npos, head_ := npos,
        nodes_ := [{ index := npos, parent := npos, child := npos, right_sibling := npos,
                     degree := 0 }] }) = .error .outOfBounds :=
  ⟨rfl, top_of_empty_heap less [.push 3, .pop] _ (by decide) rfl rfl⟩

/-- C8: `pop` on a heap without values, as constructed (no operation) or emptied by calls of
`pop`, returns the state as it is: `data_`, `nodes_`, `reversemap_`, `head_` and `top_` are
unchanged, and `size()` stays 0. -/
theorem pop_of_empty_heap (compare_ : α → α → Bool) (ops : List (Op α)) (s : binomial_heap α)
    (hb : ops.length < npos) (hr : run compare_ ops = .ok s) (h0 : s.size = 0) :
    s.pop compare_ = .ok s := by
  obtain ⟨-, -, -, hh, -⟩ := empty_state compare_ ops s hb hr h0
  exact pop_empty compare_ hh

/-- Instance: on the state after two pushes and two calls of `pop`, which holds no value,
`pop` returns the state as it is. -/
theorem pop_of_empty_heap_witness :
    ∃ s, run less [.push 3, .push 4, .pop, .pop] = .ok s ∧ s.size = 0 ∧ s.pop less = .ok s :=
  ⟨_, rfl, rfl, pop_of_empty_heap less [.push 3, .push 4, .pop, .pop] _ (by decide) rfl rfl⟩

/-- C9: on a heap without values (as constructed, or emptied by calls of `pop`), `push(v)`
makes `top()` return `v` with `size()` 1, and the `pop` that follows removes it: `size()` is 0,
`empty()` is true, `head_` and `top_` are the none sentinel. -/
theorem push_pop_round_trip (compare_ : α → α → Bool) (ops : List (Op α))
    (s : binomial_heap α) (v : α) (hb : ops.length + 1 < npos)
    (hr : run compare_ ops = .ok s) (h0 : s.size = 0) :
    ∃ s1 s2, s.push compare_ v = .ok s1 ∧ s1.top = .ok v ∧ s1.size = 1 ∧
      s1.pop compare_ = .ok s2 ∧ s2.size = 0 ∧ s2.empty = true ∧ s2.head_ = npos ∧
      s2.top_ = npos := by
  obtain ⟨hR, -, -, -, -⟩ := empty_state compare_ ops s (by omega) hr h0
  have hn := nodes_le_run compare_ ops s (by omega) hr
  obtain ⟨s1, s2, h1, h2, h3, h4, h5, h6, h7⟩ := round_trip compare_ hR (by omega) v
  rw [h0] at h3 h5
  refine ⟨s1, s2, h1, h2, h3, h4, h5, ?_, h6, h7⟩
  simp only [binomial_heap.size] at h5
  simp [binomial_heap.empty, h5]

/-- Instance: the push of 7 on the heap of the default constructor and the `pop` after it. -/
theorem push_pop_round_trip_witness :
    ∃ s1 s2, (binomial_heap.new : binomial_heap Nat).push less 7 = .ok s1 ∧ s1.top = .ok 7 ∧
      s1.size = 1 ∧ s1.pop less = .ok s2 ∧ s2.size = 0 ∧ s2.empty = true ∧
      s2.head_ = npos ∧ s2.top_ = npos :=
  push_pop_round_trip less [] binomial_heap.new 7 (by decide) rfl rfl

/-- C10: in every state that calls of `push` and `pop` reach from the empty heap, the list
that starts at `head_` and is linked by `right_sibling` ends at the none sentinel, its nodes
have no parent, and their degrees increase strictly, so no two roots have the same degree. -/
theorem root_list_degrees_increase (compare_ : α → α → Bool) (ops : List (Op α))
    (s : binomial_heap α) (hb : ops.length < npos) (hr : run compare_ ops = .ok s) :
    ∃ l, root_chain s.nodes_ s.head_ l ∧ (∀ n ∈ l, n.parent = npos) ∧
      (l.map (·.degree)).Sorted (· < ·) ∧ (l.map (·.degree)).Nodup := by
  obtain ⟨F, hR, -, -⟩ := Inv.inv_run compare_ ops s hb hr
  obtain ⟨l, h1, h2, h3⟩ := root_chain_of_rep F s.head_ hR.forest
  have hs : (l.map (·.degree)).Sorted (· < ·) := by rw [h3]; exact hR.sorted
  exact ⟨l, h1, h2, hs, hs.nodup⟩

/-- Instance: the root list after the pushes of 5, 3 and 8. -/
theorem root_list_degrees_increase_witness :
    ∃ s, run less [.push 5, .push 3, .push 8] = .ok s ∧
      ∃ l, root_chain s.nodes_ s.head_ l ∧ (∀ n ∈ l, n.parent = npos) ∧
        (l.map (·.degree)).Sorted (· < ·) ∧ (l.map (·.degree)).Nodup :=
  ⟨_, rfl, root_list_degrees_increase less [.push 5, .push 3, .push 8] _ (by decide) rfl⟩

end origin

namespace origin

variable {α : Type}

open Forest binomial_heap

/-! ## What the loops leave alone, whatever the links are -/

theorem bind_ok {β γ : Type} {x : Except Fault β} {f : β → Except Fault γ} {c : γ}
    (h : (x >>= f) = .ok c) : ∃ a, x = .ok a ∧ f a = .ok c := by
  cases x with
  | error e => simp [bind, Except.bind] at h
  | ok a => exact ⟨a, rfl, h⟩

theorem upd_inv {v v' : List binomial_heap_node} {i : Nat}
    {f : binomial_heap_node → binomial_heap_node} (h : upd_ v i f = .ok v') :
    ∃ x, v[i]? = some x ∧ v' = v.set i (f x) := by
  unfold upd_ at h
  cases hx : v[i]? with
  | none => rw [hx] at h; simp at h
  | some x => rw [hx] at h; exact ⟨x, rfl, (Except.ok.inj h).symm⟩

theorem put_inv {β : Type} {v v' : List β} {i : Nat} {x : β} (h : put_ v i x = .ok v') :
    i < v.length ∧ v' = v.set i x := by
  unfold put_ at h
  by_cases hi : i < v.length
  · rw [if_pos hi] at h
    exact ⟨hi, (Except.ok.inj h).symm⟩
  · rw [if_neg hi] at h
    simp at h

theorem OnlySiblings.sib_refl (ns : List binomial_heap_node) : OnlySiblings ns ns :=
  ⟨rfl, fun _ n h => ⟨n, h, rfl, rfl, rfl, rfl⟩⟩

theorem OnlySiblings.sib_trans {a b c : List binomial_heap_node} (h1 : OnlySiblings a b)
    (h2 : OnlySiblings b c) : OnlySiblings a c := by
  refine ⟨h2.1.trans h1.1, fun j n hn => ?_⟩
  obtain ⟨n', hn', e1, e2, e3, e4⟩ := h1.2 j n hn
  obtain ⟨n'', hn'', f1, f2, f3, f4⟩ := h2.2 j n' hn'
  exact ⟨n'', hn'', f1.trans e1, f2.trans e2, f3.trans e3, f4.trans e4⟩

theorem OnlySiblings.same {a b : List binomial_heap_node} (h : OnlySiblings a b) :
    SameSlots a b :=
  ⟨h.1, fun j n hn => by
    obtain ⟨n', hn', e, -⟩ := h.2 j n hn
    exact ⟨n', hn', e⟩⟩

theorem OnlySiblings.sib_upd {ns ns' : List binomial_heap_node} {i r : Nat}
    (h : upd_ ns i (fun x => { x with right_sibling := r }) = .ok ns') :
    OnlySiblings ns ns' := by
  obtain ⟨x, hx, rfl⟩ := upd_inv h
  refine ⟨List.length_set _ _ _, fun j m hm => ?_⟩
  by_cases e : i = j
  · subst e
    rw [hx] at hm
    cases hm
    exact ⟨_, get_set_self _ hx, rfl, rfl, rfl, rfl⟩
  · exact ⟨m, by rw [get_set_other _ e]; exact hm, rfl, rfl, rfl, rfl⟩

theorem SameSlots.same_refl (ns : List binomial_heap_node) : SameSlots ns ns :=
  ⟨rfl, fun _ n h => ⟨n, h, rfl⟩⟩

theorem SameSlots.same_trans {a b c : List binomial_heap_node} (h1 : SameSlots a b)
    (h2 : SameSlots b c) : SameSlots a c := by
  refine ⟨h2.1.trans h1.1, fun j n hn => ?_⟩
  obtain ⟨n', hn', e1⟩ := h1.2 j n hn
  obtain ⟨n'', hn'', f1⟩ := h2.2 j n' hn'
  exact ⟨n'', hn'', f1.trans e1⟩

/-- The nodes of the first array have the `index` field of the nodes of the second one,
too. -/
theorem SameSlots.symm_get {a b : List binomial_heap_node} (h : SameSlots a b) {j : Nat}
    {n' : binomial_heap_node} (hn' : b[j]? = some n') :
    ∃ n, a[j]? = some n ∧ n'.index = n.index := by
  have hj : j < a.length := by rw [← h.1]; exact lt_of_get hn'
  obtain ⟨m, hm, e⟩ := h.2 j _ (List.getElem?_eq_getElem hj)
  rw [hn'] at hm
  cases hm
  exact ⟨_, List.getElem?_eq_getElem hj, e⟩

theorem SameSlots.same_upd {ns ns' : List binomial_heap_node} {i : Nat}
    {f : binomial_heap_node → binomial_heap_node} (h : upd_ ns i f = .ok ns')
    (hf : ∀ x, (f x).index = x.index) : SameSlots ns ns' := by
  obtain ⟨x, hx, rfl⟩ := upd_inv h
  refine ⟨List.length_set _ _ _, fun j m hm => ?_⟩
  by_cases e : i = j
  · subst e
    rw [hx] at hm
    cases hm
    exact ⟨_, get_set_self _ hx, hf _⟩
  · exact ⟨m, by rw [get_set_other _ e]; exact hm, rfl⟩

/-- The loop of `merge` writes to `right_sibling` fields only. -/
theorem merge_loop_siblings : ∀ (fuel : Nat) (ns : List binomial_heap_node) (cur p q : Nat)
    (ns' : List binomial_heap_node), merge_loop fuel ns cur p q = .ok ns' →
    OnlySiblings ns ns' := by
  intro fuel
  induction fuel with
  | zero =>
    intro ns cur p q ns' h
    simp [merge_loop] at h
  | succ fuel ih =>
    intro ns cur p q ns' h
    rw [merge_loop] at h
    split at h
    · cases h
      exact OnlySiblings.sib_refl _
    · have hjp : ∀ tp : Bool, (if tp = true then do
            let nodes_ ← upd_ ns cur (fun x => { x with right_sibling := p })
            let np ← at_ nodes_ p
            merge_loop fuel nodes_ p np.right_sibling q
          else do
            let nodes_ ← upd_ ns cur (fun x => { x with right_sibling := q })
            let nq ← at_ nodes_ q
            merge_loop fuel nodes_ q p nq.right_sibling) = .ok ns' → OnlySiblings ns ns' := by
        intro tp h
        cases tp
        · simp only [Bool.false_eq_true, if_false] at h
          obtain ⟨ns1, h1, h⟩ := bind_ok h
          obtain ⟨nq, -, h⟩ := bind_ok h
          exact (OnlySiblings.sib_upd h1).sib_trans (ih _ _ _ _ _ h)
        · simp only [if_true] at h
          obtain ⟨ns1, h1, h⟩ := bind_ok h
          obtain ⟨np, -, h⟩ := bind_ok h
          exact (OnlySiblings.sib_upd h1).sib_trans (ih _ _ _ _ _ h)
      dsimp only at h
      split at h
      · exact hjp true h
      · split at h
        · exact hjp false h
        · obtain ⟨np, -, h⟩ := bind_ok h
          obtain ⟨nq, -, h⟩ := bind_ok h
          obtain ⟨tp, -, h⟩ := bind_ok h
          exact hjp tp h

/-- The member `merge` writes to `right_sibling` fields and to `head_` only, and reads no
value. -/
theorem merge_siblings {s s' : binomial_heap α} {q : Nat} (h : merge s q = .ok s') :
    OnlySiblings s.nodes_ s'.nodes_ ∧ s'.data_ = s.data_ ∧
      s'.reversemap_ = s.reversemap_ ∧ s'.top_ = s.top_ := by
  unfold merge at h
  obtain ⟨ns1, h1, h⟩ := bind_ok h
  obtain ⟨back, -, h⟩ := bind_ok h
  cases h
  refine ⟨?_, rfl, rfl, rfl⟩
  have hs := merge_loop_siblings _ _ _ _ _ _ h1
  have hl : ns1.length = s.nodes_.length + 1 := by simpa using hs.1
  refine ⟨by simp [hl], fun j n hn => ?_⟩
  have hj : j < s.nodes_.length := lt_of_get hn
  obtain ⟨n', hn', e⟩ := hs.2 j n (by rw [List.getElem?_append_left hj]; exact hn)
  refine ⟨n', ?_, e⟩
  rw [List.getElem?_dropLast, if_pos (by omega)]
  exact hn'

theorem binomial_link_slots {ns ns' : List binomial_heap_node} {m n : Nat}
    (h : binomial_link ns m n = .ok ns') : SameSlots ns ns' := by
  unfold binomial_link at h
  obtain ⟨ns1, h1, h⟩ := bind_ok h
  obtain ⟨y, -, h⟩ := bind_ok h
  obtain ⟨ns2, h2, h⟩ := bind_ok h
  obtain ⟨ns3, h3, h⟩ := bind_ok h
  exact (((SameSlots.same_upd h1 (fun _ => rfl)).same_trans (SameSlots.same_upd h2 (fun _ => rfl))).same_trans
    (SameSlots.same_upd h3 (fun _ => rfl))).same_trans (SameSlots.same_upd h (fun _ => rfl))

theorem unite_loop_slots (lt : α → α → Bool) (d : List α) : ∀ (fuel : Nat)
    (ns : List binomial_heap_node) (head prev x next : Nat) (ns' : List binomial_heap_node)
    (head' : Nat), unite_loop lt d fuel ns head prev x next = .ok (ns', head') →
    SameSlots ns ns' := by
  intro fuel
  induction fuel with
  | zero =>
    intro ns head prev x next ns' head' h
    simp [unite_loop] at h
  | succ fuel ih =>
    intro ns head prev x next ns' head' h
    rw [unite_loop] at h
    split at h
    · cases h
      exact SameSlots.same_refl _
    · obtain ⟨sk, -, h⟩ := bind_ok h
      cases sk
      · simp only [Bool.false_eq_true, if_false] at h
        obtain ⟨nx, -, h⟩ := bind_ok h
        obtain ⟨nn, -, h⟩ := bind_ok h
        obtain ⟨a, -, h⟩ := bind_ok h
        obtain ⟨b, -, h⟩ := bind_ok h
        split at h
        · obtain ⟨ns1, h1, h⟩ := bind_ok h
          obtain ⟨ns2, h2, h⟩ := bind_ok h
          obtain ⟨nx', -, h⟩ := bind_ok h
          exact ((SameSlots.same_upd h1 (fun _ => rfl)).same_trans (binomial_link_slots h2)).same_trans
            (ih _ _ _ _ _ _ _ h)
        · split at h
          · obtain ⟨y, hy, h⟩ := bind_ok h
            cases hy
            obtain ⟨ns2, h2, h⟩ := bind_ok h
            obtain ⟨nx', -, h⟩ := bind_ok h
            exact (binomial_link_slots h2).same_trans (ih _ _ _ _ _ _ _ h)
          · obtain ⟨ns0, h0, h⟩ := bind_ok h
            obtain ⟨y, hy, h⟩ := bind_ok h
            cases hy
            obtain ⟨ns2, h2, h⟩ := bind_ok h
            obtain ⟨nx', -, h⟩ := bind_ok h
            exact ((SameSlots.same_upd h0 (fun _ => rfl)).same_trans (binomial_link_slots h2)).same_trans
              (ih _ _ _ _ _ _ _ h)
      · simp only [if_true] at h
        obtain ⟨nn, -, h⟩ := bind_ok h
        exact ih _ _ _ _ _ _ _ h

theorem unite_slots (lt : α → α → Bool) {s s' : binomial_heap α} {q : Nat}
    (h : unite lt s q = .ok s') :
    SameSlots s.nodes_ s'.nodes_ ∧ s'.data_ = s.data_ ∧ s'.reversemap_ = s.reversemap_ ∧
      s'.top_ = s.top_ := by
  unfold unite at h
  obtain ⟨s1, h1, h⟩ := bind_ok h
  obtain ⟨nh, -, h⟩ := bind_ok h
  obtain ⟨hs, hd, hr, ht⟩ := merge_siblings h1
  split at h
  · cases h
    exact ⟨hs.same, hd, hr, ht⟩
  · obtain ⟨⟨ns2, hd2⟩, h2, h⟩ := bind_ok h
    cases h
    exact ⟨hs.same.same_trans (unite_loop_slots lt _ _ _ _ _ _ _ _ _ h2), hd, hr, ht⟩

theorem reverse_loop_slots : ∀ (fuel : Nat) (ns : List binomial_heap_node) (nh th : Nat)
    (ns' : List binomial_heap_node) (nh' : Nat),
    reverse_loop fuel ns nh th = .ok (ns', nh') → SameSlots ns ns' := by
  intro fuel
  induction fuel with
  | zero =>
    intro ns nh th ns' nh' h
    simp [reverse_loop] at h
  | succ fuel ih =>
    intro ns nh th ns' nh' h
    rw [reverse_loop] at h
    split at h
    · cases h
      exact SameSlots.same_refl _
    · obtain ⟨nt, -, h⟩ := bind_ok h
      obtain ⟨ns1, h1, h⟩ := bind_ok h
      obtain ⟨ns2, h2, h⟩ := bind_ok h
      exact ((SameSlots.same_upd h1 (fun _ => rfl)).same_trans (SameSlots.same_upd h2 (fun _ => rfl))).same_trans
        (ih _ _ _ _ _ h)

theorem pop_reverse_slots {s : binomial_heap α} {ns' : List binomial_heap_node} {nh : Nat}
    (h : pop_reverse s = .ok (ns', nh)) : SameSlots s.nodes_ ns' := by
  unfold pop_reverse at h
  obtain ⟨nt, -, h⟩ := bind_ok h
  split at h
  · exact reverse_loop_slots _ _ _ _ _ _ h
  · cases h
    exact SameSlots.same_refl _

theorem pop_unlink_slots (lt : α → α → Bool) {s s' : binomial_heap α} {nh : Nat}
    (h : pop_unlink lt s nh = .ok s') :
    SameSlots s.nodes_ s'.nodes_ ∧ s'.data_ = s.data_ ∧ s'.reversemap_ = s.reversemap_ ∧
      s'.top_ = s.top_ := by
  unfold pop_unlink at h
  obtain ⟨n0, -, h⟩ := bind_ok h
  split at h
  · cases h
    exact ⟨SameSlots.same_refl _, rfl, rfl, rfl⟩
  · split at h
    · have := unite_slots lt h
      exact this
    · obtain ⟨tmp, -, h⟩ := bind_ok h
      obtain ⟨nt, -, h⟩ := bind_ok h
      obtain ⟨ns1, h1, h⟩ := bind_ok h
      obtain ⟨hs, hd, hr, ht⟩ := unite_slots lt h
      exact ⟨(SameSlots.same_upd h1 (fun _ => rfl)).same_trans hs, hd, hr, ht⟩

end origin

namespace origin

variable {α : Type}

open Forest binomial_heap

/-! ## The slots of the flat heap -/

theorem Slots.slots_new : Slots (binomial_heap.new : binomial_heap α) :=
  ⟨rfl, Nat.le_refl _, fun i n h => by simp [binomial_heap.new] at h,
    fun k hk => by simp [binomial_heap.new] at hk,
    fun i n h => by simp [binomial_heap.new] at h⟩

/-- The slots stay what they are when the `index` fields, the values and the reverse map
do. -/
theorem Slots.slots_same {s s' : binomial_heap α} (h : Slots s)
    (hs : SameSlots s.nodes_ s'.nodes_) (hd : s'.data_ = s.data_)
    (hr : s'.reversemap_ = s.reversemap_) : Slots s' := by
  refine ⟨by rw [hd, hr]; exact h.rm_len, by rw [hd, hs.1]; exact h.le_nodes, ?_, ?_, ?_⟩
  · intro i n' hn'
    obtain ⟨n, hn, e⟩ := hs.symm_get hn'
    rw [hd, e]
    exact h.valid i n hn
  · intro k hk
    rw [hd] at hk
    obtain ⟨i, n, h1, h2, h3⟩ := h.owner k hk
    obtain ⟨n', hn', e⟩ := hs.2 i n h2
    exact ⟨i, n', by rw [hr]; exact h1, hn', e.trans h3⟩
  · intro i n' hn' hlt
    obtain ⟨n, hn, e⟩ := hs.symm_get hn'
    rw [hd, e] at hlt
    rw [hr, e]
    exact h.back i n hn hlt

/-- The first assignments of `push`: a new value, its node and its entry of the reverse
map. -/
theorem Slots.slots_append {s : binomial_heap α} (h : Slots s) (hlt : s.nodes_.length < npos)
    (d : α) (obj : binomial_heap_node) (ho : obj.index = s.data_.length) (top head : Nat) :
    Slots { data_ := s.data_ ++ [d], nodes_ := s.nodes_ ++ [obj],
            reversemap_ := s.reversemap_ ++ [s.nodes_.length], top_ := top, head_ := head } := by
  have hle := h.le_nodes
  have hrm := h.rm_len
  refine ⟨by simp [hrm], by simp; omega, ?_, ?_, ?_⟩
  · intro i n hn
    dsimp only at hn ⊢
    by_cases hi : i < s.nodes_.length
    · rw [List.getElem?_append_left hi] at hn
      rcases h.valid i n hn with e | e
      · exact Or.inl e
      · exact Or.inr (by simp; omega)
    · have hi' : i = s.nodes_.length := by
        have := lt_of_get hn
        simp at this
        omega
      subst hi'
      simp at hn
      subst hn
      exact Or.inr (by simp [ho])
  · intro k hk
    dsimp only at hk ⊢
    simp only [List.length_append, List.length_singleton] at hk
    by_cases hk' : k < s.data_.length
    · obtain ⟨i, n, h1, h2, h3⟩ := h.owner k hk'
      refine ⟨i, n, ?_, ?_, h3⟩
      · rw [List.getElem?_append_left (by omega)]; exact h1
      · rw [List.getElem?_append_left (lt_of_get h2)]; exact h2
    · have hk2 : k = s.data_.length := by omega
      subst hk2
      refine ⟨s.nodes_.length, obj, ?_, ?_, ho⟩
      · rw [← hrm]; simp
      · simp
  · intro i n hn hlt'
    dsimp only at hn hlt' ⊢
    simp only [List.length_append, List.length_singleton] at hlt'
    by_cases hi : i < s.nodes_.length
    · rw [List.getElem?_append_left hi] at hn
      have hv : n.index < s.data_.length := by
        rcases h.valid i n hn with e | e
        · rw [e] at hlt'; omega
        · exact e
      rw [List.getElem?_append_left (by omega)]
      exact h.back i n hn hv
    · have hi' : i = s.nodes_.length := by
        have := lt_of_get hn
        simp at this
        omega
      subst hi'
      simp at hn
      subst hn
      rw [ho, ← hrm]
      simp

/-- The member `push` keeps the slots. -/
theorem Slots.slots_push (lt : α → α → Bool) {s s' : binomial_heap α} (h : Slots s)
    (hlt : s.nodes_.length < npos) {d : α} (hp : push lt s d = .ok s') :
    Slots s' ∧ s'.nodes_.length = s.nodes_.length + 1 := by
  have h0 := Slots.slots_append h hlt d
    { index := s.data_.length, parent := npos, right_sibling := npos, child := npos, degree := 0 }
    rfl
  unfold push at hp
  simp only [List.length_append, List.length_singleton, Nat.add_sub_cancel] at hp
  split at hp
  · cases hp
    exact ⟨h0 _ _, by simp⟩
  · obtain ⟨s1, h1, hp⟩ := bind_ok hp
    obtain ⟨ni, -, hp⟩ := bind_ok hp
    obtain ⟨a, -, hp⟩ := bind_ok hp
    obtain ⟨nt, -, hp⟩ := bind_ok hp
    obtain ⟨b, -, hp⟩ := bind_ok hp
    obtain ⟨hs, hd, hr, -⟩ := unite_slots lt h1
    have hS1 : Slots s1 := Slots.slots_same (h0 s.top_ s.head_) hs hd hr
    have hl1 : s1.nodes_.length = s.nodes_.length + 1 := by rw [hs.1]; simp
    split at hp
    · cases hp
      exact ⟨Slots.slots_same hS1 (SameSlots.same_refl _) rfl rfl, hl1⟩
    · cases hp
      exact ⟨hS1, hl1⟩

/-- The third block of `pop` keeps the slots: the node `temp` is not live afterwards, and the
node of the last position has the slot of `temp`. -/
theorem Slots.slots_compact {s s' : binomial_heap α} (h : Slots s)
    (hlt : s.nodes_.length < npos) {temp : Nat} (hp : pop_compact s temp = .ok s') :
    Slots s' ∧ s'.nodes_.length = s.nodes_.length ∧ s'.head_ = s.head_ := by
  unfold pop_compact at hp
  obtain ⟨index, hidx, hp⟩ := bind_ok hp
  obtain ⟨ntemp, hnt, hp⟩ := bind_ok hp
  obtain ⟨last, hlast, hp⟩ := bind_ok hp
  obtain ⟨data1, hd1, hp⟩ := bind_ok hp
  obtain ⟨rm1, hr1, hp⟩ := bind_ok hp
  obtain ⟨ns1, hn1, hp⟩ := bind_ok hp
  obtain ⟨ns2, hn2, hp⟩ := bind_ok hp
  cases hp
  rw [at_ok_iff] at hidx hnt hlast
  obtain ⟨ht, rfl⟩ := put_inv hd1
  obtain ⟨-, rfl⟩ := put_inv hr1
  obtain ⟨x, hx, rfl⟩ := upd_inv hn1
  obtain ⟨y, hy, rfl⟩ := upd_inv hn2
  have hrm := h.rm_len
  have hle := h.le_nodes
  have hpos : 0 < s.data_.length := by
    have := lt_of_get hlast
    omega
  rw [hrm] at hidx
  -- the node of the last position
  obtain ⟨i, n, h1, h2, h3⟩ := h.owner (s.data_.length - 1) (by omega)
  rw [hidx] at h1
  cases h1
  rw [hx] at h2
  cases h2
  -- the entry of the reverse map for the slot of `temp`
  have hbt := h.back temp ntemp hnt ht
  have hne : ntemp.index ≠ s.data_.length - 1 → index ≠ temp := by
    intro hne e
    subst e
    rw [hx] at hnt
    cases hnt
    exact hne h3
  have hlast_eq : ntemp.index = s.data_.length - 1 → index = temp := by
    intro e
    rw [e, hidx] at hbt
    exact Option.some.inj hbt
  have htemp : ∃ n', ((s.nodes_.set index { x with index := ntemp.index }).set temp
      { y with parent := npos, child := npos, right_sibling := npos, degree := 0,
               index := npos })[temp]? = some n' ∧ n'.index = npos :=
    ⟨_, get_set_self _ hy, rfl⟩
  have hindex : index ≠ temp → ((s.nodes_.set index { x with index := ntemp.index }).set temp
      { y with parent := npos, child := npos, right_sibling := npos, degree := 0,
               index := npos })[index]? = some { x with index := ntemp.index } := by
    intro e
    rw [get_set_other _ (Ne.symm e)]
    exact get_set_self _ hx
  have hother : ∀ j, j ≠ temp → j ≠ index →
      ((s.nodes_.set index { x with index := ntemp.index }).set temp
      { y with parent := npos, child := npos, right_sibling := npos, degree := 0,
               index := npos })[j]? = s.nodes_[j]? := by
    intro j e1 e2
    rw [get_set_other _ (Ne.symm e1), get_set_other _ (Ne.symm e2)]
  refine ⟨⟨?_, ?_, ?_, ?_, ?_⟩, by simp, rfl⟩
  · simp [hrm]
  · simp
    omega
  · intro j n' hn'
    dsimp only at hn' ⊢
    simp only [List.length_dropLast, List.length_set]
    by_cases e1 : j = temp
    · subst e1
      obtain ⟨m, hm, em⟩ := htemp
      rw [hm] at hn'
      cases hn'
      exact Or.inl em
    · by_cases e2 : j = index
      · subst e2
        rw [hindex e1] at hn'
        cases hn'
        refine Or.inr ?_
        have : ntemp.index ≠ s.data_.length - 1 := fun e => e1 (hlast_eq e)
        show ntemp.index < s.data_.length - 1
        omega
      · rw [hother j e1 e2] at hn'
        rcases h.valid j n' hn' with e | e
        · exact Or.inl e
        · refine Or.inr ?_
          have : n'.index ≠ s.data_.length - 1 := by
            intro e'
            have := h.back j n' hn' e
            rw [e', hidx] at this
            exact e2 (Option.some.inj this).symm
          omega
  · intro k hk
    dsimp only at hk ⊢
    simp only [List.length_dropLast, List.length_set] at hk
    by_cases ek : k = ntemp.index
    · subst ek
      have hit : index ≠ temp := hne (by omega)
      refine ⟨index, _, ?_, hindex hit, rfl⟩
      rw [List.getElem?_dropLast, if_pos (by simp [hrm]; omega)]
      exact List.getElem?_set_self (by rw [hrm]; exact ht)
    · obtain ⟨j, n, h1, h2, h3⟩ := h.owner k (by omega)
      have e1 : j ≠ temp := by
        intro e
        subst e
        rw [hnt] at h2
        cases h2
        exact ek h3.symm
      have e2 : j ≠ index := by
        intro e
        subst e
        rw [hx] at h2
        cases h2
        omega
      refine ⟨j, n, ?_, by rw [hother j e1 e2]; exact h2, h3⟩
      rw [List.getElem?_dropLast, if_pos (by simp [hrm]; omega),
        get_set_other _ (Ne.symm ek)]
      exact h1
  · intro j n' hn' hl
    dsimp only at hn' hl ⊢
    simp only [List.length_dropLast, List.length_set] at hl
    by_cases e1 : j = temp
    · subst e1
      obtain ⟨m, hm, em⟩ := htemp
      rw [hm] at hn'
      cases hn'
      rw [em] at hl
      omega
    · by_cases e2 : j = index
      · subst e2
        rw [hindex e1] at hn'
        cases hn'
        show ((s.reversemap_.set ntemp.index j).dropLast)[ntemp.index]? = some j
        rw [List.getElem?_dropLast, if_pos (by simp [hrm]; exact hl)]
        exact List.getElem?_set_self (by rw [hrm]; exact ht)
      · rw [hother j e1 e2] at hn'
        have hb := h.back j n' hn' (by omega)
        have ek : n'.index ≠ ntemp.index := by
          intro e
          rw [e, hbt] at hb
          exact e1 (Option.some.inj hb).symm
        rw [List.getElem?_dropLast, if_pos (by simp [hrm]; exact hl),
          get_set_other _ (Ne.symm ek)]
        exact hb

/-- The member `get_new_top` is a read. -/
theorem Slots.with_top {s : binomial_heap α} (h : Slots s) (t : Nat) :
    Slots { s with top_ := t } :=
  Slots.slots_same h (SameSlots.same_refl _) rfl rfl

/-- The member `pop` keeps the slots. -/
theorem Slots.slots_pop (lt : α → α → Bool) {s s' : binomial_heap α} (h : Slots s)
    (hlt : s.nodes_.length < npos) (hp : pop lt s = .ok s') :
    Slots s' ∧ s'.nodes_.length = s.nodes_.length := by
  unfold pop at hp
  split at hp
  · cases hp
    exact ⟨h, rfl⟩
  · obtain ⟨⟨ns1, nh⟩, h1, hp⟩ := bind_ok hp
    obtain ⟨s2, h2, hp⟩ := bind_ok hp
    obtain ⟨s3, h3, hp⟩ := bind_ok hp
    obtain ⟨t, -, hp⟩ := bind_ok hp
    cases hp
    have hs1 := pop_reverse_slots h1
    obtain ⟨hs2, hd2, hr2, -⟩ := pop_unlink_slots lt h2
    have hS2 : Slots s2 := Slots.slots_same h (hs1.same_trans hs2) hd2 hr2
    have hl2 : s2.nodes_.length = s.nodes_.length := (hs1.same_trans hs2).1
    obtain ⟨hS3, hl3, -⟩ := Slots.slots_compact hS2 (by rw [hl2]; exact hlt) h3
    exact ⟨hS3.with_top t, by rw [← hl2, ← hl3]⟩

/-- Every state that the operations of a list reach has the slots. -/
theorem Slots.slots_runFrom (lt : α → α → Bool) : ∀ (ops : List (Op α))
    (s s' : binomial_heap α), Slots s → s.nodes_.length + ops.length < npos →
    runFrom lt s ops = .ok s' →
    Slots s' ∧ s'.nodes_.length ≤ s.nodes_.length + ops.length := by
  intro ops
  induction ops with
  | nil =>
    intro s s' h _ hr
    cases hr
    exact ⟨h, by simp⟩
  | cons o os ih =>
    intro s s' h hb hr
    obtain ⟨s1, hs, hr1⟩ := runFrom_cons_ok hr
    simp only [List.length_cons] at hb ⊢
    have h1 : Slots s1 ∧ s1.nodes_.length ≤ s.nodes_.length + 1 := by
      cases o with
      | push d =>
        obtain ⟨a, b⟩ := Slots.slots_push lt h (by omega) hs
        exact ⟨a, by omega⟩
      | pop =>
        obtain ⟨a, b⟩ := Slots.slots_pop lt h (by omega) hs
        exact ⟨a, by omega⟩
    obtain ⟨a, b⟩ := ih s1 s' h1.1 (by omega) hr1
    exact ⟨a, by omega⟩

end origin

namespace origin

variable {α κ : Type} [DecidableEq κ]

open Forest

/-! ## The index map of the mutable heap -/

theorem id_find_assign_other (m : List (κ × Nat)) {k k' : κ} (v : Nat) (h : k ≠ k') :
    id_find (id_assign m k v) k' = id_find m k' := by
  induction m with
  | nil => simp [id_assign, id_find, h]
  | cons x m ih =>
    obtain ⟨k0, v0⟩ := x
    simp only [id_assign]
    by_cases h0 : k0 = k
    · subst h0
      simp [id_find, h]
    · simp only [if_neg h0, id_find, ih]

open mutable_binomial_heap

theorem Ids.ids_new (key : α → κ) : Ids key (new : mutable_binomial_heap α κ) :=
  ⟨Nat.le_refl _, fun i n h => by simp [new] at h, fun k hk => by simp [new] at hk,
    fun k1 k2 v1 v2 h => by simp [new] at h, fun i n v h => by simp [new] at h⟩

/-- Two live nodes do not have the same slot. -/
theorem Ids.ids_inj {key : α → κ} {s : mutable_binomial_heap α κ} (h : Ids key s) {i j : Nat}
    {n m : binomial_heap_node} (hn : s.nodes_[i]? = some n) (hm : s.nodes_[j]? = some m)
    (e : n.index = m.index) (hl : n.index < s.data_.length) : i = j := by
  obtain ⟨v, hv⟩ : ∃ v, s.data_[n.index]? = some v := ⟨_, List.getElem?_eq_getElem hl⟩
  have h1 := h.ident i n v hn hv
  rw [e] at hv
  have h2 := h.ident j m v hm hv
  rw [h1] at h2
  exact Option.some.inj h2

/-- The index map stays right when the `index` fields, the values and the map do. -/
theorem Ids.ids_same {key : α → κ} {s s' : mutable_binomial_heap α κ} (h : Ids key s)
    (hs : SameSlots s.nodes_ s'.nodes_) (hd : s'.data_ = s.data_) (hi : s'.id_ = s.id_) :
    Ids key s' := by
  refine ⟨by rw [hd, hs.1]; exact h.le_nodes, ?_, ?_, by rw [hd]; exact h.keys, ?_⟩
  · intro i n' hn'
    obtain ⟨n, hn, e⟩ := hs.symm_get hn'
    rw [hd, e]
    exact h.valid i n hn
  · intro k hk
    rw [hd] at hk
    obtain ⟨i, n, h2, h3⟩ := h.owner k hk
    obtain ⟨n', hn', e⟩ := hs.2 i n h2
    exact ⟨i, n', hn', e.trans h3⟩
  · intro i n' v hn' hv
    obtain ⟨n, hn, e⟩ := hs.symm_get hn'
    rw [hd, e] at hv
    rw [hi]
    exact h.ident i n v hn hv

/-- The index map stays right when the links of the nodes, `head_` and `top_` change. -/
theorem Ids.ids_nodes {key : α → κ} {s : mutable_binomial_heap α κ} (h : Ids key s)
    {ns' : List binomial_heap_node} (hs : SameSlots s.nodes_ ns') (top head : Nat) :
    Ids key { data_ := s.data_, nodes_ := ns', id_ := s.id_, top_ := top, head_ := head } :=
  Ids.ids_same h hs rfl rfl

/-- The first assignments of `push`: a new value, its node and its entry of the map. -/
theorem Ids.ids_append {key : α → κ} {s : mutable_binomial_heap α κ} (h : Ids key s)
    (hlt : s.nodes_.length < npos) (d : α) (hf : ∀ v ∈ s.data_, key v ≠ key d)
    (obj : binomial_heap_node) (ho : obj.index = s.data_.length) (top head : Nat) :
    Ids key { data_ := s.data_ ++ [d], nodes_ := s.nodes_ ++ [obj],
              id_ := id_assign s.id_ (key d) s.nodes_.length, top_ := top, head_ := head } := by
  have hle := h.le_nodes
  have hget : ∀ (k : Nat) (v : α), (s.data_ ++ [d])[k]? = some v →
      (k < s.data_.length ∧ s.data_[k]? = some v) ∨ (k = s.data_.length ∧ v = d) := by
    intro k v hk
    by_cases hk' : k < s.data_.length
    · rw [List.getElem?_append_left hk'] at hk
      exact Or.inl ⟨hk', hk⟩
    · have : k = s.data_.length := by
        have := lt_of_get hk
        simp at this
        omega
      subst this
      simp at hk
      exact Or.inr ⟨rfl, hk.symm⟩
  have hnode : ∀ (i : Nat) (n : binomial_heap_node), (s.nodes_ ++ [obj])[i]? = some n →
      (i < s.nodes_.length ∧ s.nodes_[i]? = some n) ∨ (i = s.nodes_.length ∧ n = obj) := by
    intro i n hn
    by_cases hi : i < s.nodes_.length
    · rw [List.getElem?_append_left hi] at hn
      exact Or.inl ⟨hi, hn⟩
    · have : i = s.nodes_.length := by
        have := lt_of_get hn
        simp at this
        omega
      subst this
      simp at hn
      exact Or.inr ⟨rfl, hn.symm⟩
  refine ⟨by simp; omega, ?_, ?_, ?_, ?_⟩
  · intro i n hn
    dsimp only at hn ⊢
    rcases hnode i n hn with ⟨-, gn⟩ | ⟨-, en⟩
    · rcases h.valid i n gn with e | e
      · exact Or.inl e
      · exact Or.inr (by simp; omega)
    · exact Or.inr (by simp [en, ho])
  · intro k hk
    dsimp only at hk ⊢
    simp only [List.length_append, List.length_singleton] at hk
    by_cases hk' : k < s.data_.length
    · obtain ⟨i, n, h2, h3⟩ := h.owner k hk'
      exact ⟨i, n, by rw [List.getElem?_append_left (lt_of_get h2)]; exact h2, h3⟩
    · exact ⟨s.nodes_.length, obj, by simp, by omega⟩
  · intro k1 k2 v1 v2 h1 h2 e
    dsimp only at h1 h2
    rcases hget k1 v1 h1 with ⟨-, g1⟩ | ⟨e1, f1⟩
    · rcases hget k2 v2 h2 with ⟨-, g2⟩ | ⟨e2, f2⟩
      · exact h.keys k1 k2 v1 v2 g1 g2 e
      · rw [f2] at e
        exact absurd e (hf v1 (mem_of_get g1))
    · rcases hget k2 v2 h2 with ⟨-, g2⟩ | ⟨e2, -⟩
      · rw [f1] at e
        exact absurd e.symm (hf v2 (mem_of_get g2))
      · rw [e1, e2]
  · intro i n v hn hv
    dsimp only at hn hv ⊢
    rcases hnode i n hn with ⟨-, gn⟩ | ⟨ei, en⟩
    · have hlt' : n.index < s.data_.length := by
        rcases h.valid i n gn with e | e
        · have := lt_of_get hv
          simp [e] at this
          omega
        · exact e
      rcases hget _ v hv with ⟨-, gv⟩ | ⟨e, -⟩
      · rw [id_find_assign_other _ _ (Ne.symm (hf v (mem_of_get gv)))]
        exact h.ident i n v gn gv
      · omega
    · rw [en, ho] at hv
      simp at hv
      rw [ei, ← hv]
      exact id_find_assign_self _ _ _

/-- The member `push` of a value with a new key keeps the index map right. -/
theorem Ids.ids_push (lt : α → α → Bool) {key : α → κ} {s s' : mutable_binomial_heap α κ}
    (h : Ids key s) (hlt : s.nodes_.length < npos) {d : α}
    (hf : ∀ v ∈ s.data_, key v ≠ key d) (hp : push lt key s d = .ok s') :
    Ids key s' ∧ s'.nodes_.length = s.nodes_.length + 1 := by
  have h0 := Ids.ids_append h hlt d hf
    { index := s.data_.length, parent := npos, right_sibling := npos, child := npos, degree := 0 }
    rfl
  unfold push at hp
  simp only [List.length_append, List.length_singleton, Nat.add_sub_cancel] at hp
  split at hp
  · cases hp
    exact ⟨h0 _ _, by simp⟩
  · obtain ⟨s1, h1, hp⟩ := bind_ok hp
    obtain ⟨ni, -, hp⟩ := bind_ok hp
    obtain ⟨a, -, hp⟩ := bind_ok hp
    obtain ⟨nt, -, hp⟩ := bind_ok hp
    obtain ⟨b, -, hp⟩ := bind_ok hp
    unfold mutable_binomial_heap_union at h1
    obtain ⟨f, hu, h1⟩ := bind_ok h1
    cases h1
    obtain ⟨hs, -, -, -⟩ := unite_slots lt hu
    have hl1 : f.nodes_.length = s.nodes_.length + 1 := by rw [hs.1]; simp [flat]
    split at hp
    · cases hp
      exact ⟨Ids.ids_nodes (h0 s.top_ s.head_) hs _ _, hl1⟩
    · cases hp
      exact ⟨Ids.ids_nodes (h0 s.top_ s.head_) hs _ _, hl1⟩

end origin

namespace origin

variable {α κ : Type} [DecidableEq κ]

open Forest

open mutable_binomial_heap

/-- The third block of `pop` keeps the index map right: the node of the last value is the
one the map gives, it gets the slot of the node `temp`, and `temp` is not live afterwards. -/
theorem Ids.ids_compact {key : α → κ} {s s' : mutable_binomial_heap α κ} (h : Ids key s)
    (hlt : s.nodes_.length < npos) {temp : Nat} (hp : pop_compact key s temp = .ok s') :
    Ids key s' ∧ s'.nodes_.length = s.nodes_.length := by
  unfold pop_compact at hp
  obtain ⟨last, hlast, hp⟩ := bind_ok hp
  rw [at_ok_iff] at hlast
  have hle := h.le_nodes
  have hpos : 0 < s.data_.length := by
    have := lt_of_get hlast
    omega
  obtain ⟨index, x, hx, h3⟩ := h.owner (s.data_.length - 1) (by omega)
  have hfind := h.ident index x last hx (by rw [h3]; exact hlast)
  rw [id_index_of_find hfind] at hp
  dsimp only at hp
  obtain ⟨ntemp, hnt, hp⟩ := bind_ok hp
  obtain ⟨data1, hd1, hp⟩ := bind_ok hp
  obtain ⟨ns1, hn1, hp⟩ := bind_ok hp
  obtain ⟨ns2, hn2, hp⟩ := bind_ok hp
  cases hp
  rw [at_ok_iff] at hnt
  obtain ⟨ht, rfl⟩ := put_inv hd1
  obtain ⟨x', hx', rfl⟩ := upd_inv hn1
  rw [hx] at hx'
  cases hx'
  obtain ⟨y, hy, rfl⟩ := upd_inv hn2
  have hne : ntemp.index ≠ s.data_.length - 1 → index ≠ temp := by
    intro hne e
    subst e
    rw [hx] at hnt
    cases hnt
    exact hne h3
  have hlast_eq : ntemp.index = s.data_.length - 1 → index = temp := by
    intro e
    exact (h.ids_inj hnt hx (e.trans h3.symm) ht).symm
  have htemp : ∃ n', ((s.nodes_.set index { x with index := ntemp.index }).set temp
      { y with parent := npos, child := npos, right_sibling := npos, degree := 0,
               index := npos })[temp]? = some n' ∧ n'.index = npos :=
    ⟨_, get_set_self _ hy, rfl⟩
  have hindex : index ≠ temp → ((s.nodes_.set index { x with index := ntemp.index }).set temp
      { y with parent := npos, child := npos, right_sibling := npos, degree := 0,
               index := npos })[index]? = some { x with index := ntemp.index } := by
    intro e
    rw [get_set_other _ (Ne.symm e)]
    exact get_set_self _ hx
  have hother : ∀ j, j ≠ temp → j ≠ index →
      ((s.nodes_.set index { x with index := ntemp.index }).set temp
      { y with parent := npos, child := npos, right_sibling := npos, degree := 0,
               index := npos })[j]? = s.nodes_[j]? := by
    intro j e1 e2
    rw [get_set_other _ (Ne.symm e1), get_set_other _ (Ne.symm e2)]
  have hdata : ∀ (k : Nat) (v : α), ((s.data_.set ntemp.index last).dropLast)[k]? = some v →
      k < s.data_.length - 1 ∧
        ((k = ntemp.index ∧ v = last) ∨ (k ≠ ntemp.index ∧ s.data_[k]? = some v)) := by
    intro k v hk
    have hkl : k < s.data_.length - 1 := by
      have := lt_of_get hk
      simpa using this
    rw [List.getElem?_dropLast, if_pos (by simpa using hkl)] at hk
    refine ⟨hkl, ?_⟩
    by_cases ek : k = ntemp.index
    · subst ek
      rw [List.getElem?_set_self ht] at hk
      exact Or.inl ⟨rfl, (Option.some.inj hk).symm⟩
    · rw [get_set_other _ (Ne.symm ek)] at hk
      exact Or.inr ⟨ek, hk⟩
  refine ⟨⟨?_, ?_, ?_, ?_, ?_⟩, by simp⟩
  · simp
    omega
  · intro j n' hn'
    dsimp only at hn' ⊢
    simp only [List.length_dropLast, List.length_set]
    by_cases e1 : j = temp
    · subst e1
      obtain ⟨m, hm, em⟩ := htemp
      rw [hm] at hn'
      cases hn'
      exact Or.inl em
    · by_cases e2 : j = index
      · subst e2
        rw [hindex e1] at hn'
        cases hn'
        refine Or.inr ?_
        have : ntemp.index ≠ s.data_.length - 1 := fun e => e1 (hlast_eq e)
        show ntemp.index < s.data_.length - 1
        omega
      · rw [hother j e1 e2] at hn'
        rcases h.valid j n' hn' with e | e
        · exact Or.inl e
        · refine Or.inr ?_
          have : n'.index ≠ s.data_.length - 1 := by
            intro e'
            exact e2 (h.ids_inj hn' hx (e'.trans h3.symm) e)
          omega
  · intro k hk
    dsimp only at hk ⊢
    simp only [List.length_dropLast, List.length_set] at hk
    by_cases ek : k = ntemp.index
    · subst ek
      have hit : index ≠ temp := hne (by omega)
      exact ⟨index, _, hindex hit, rfl⟩
    · obtain ⟨j, n, h2, h3'⟩ := h.owner k (by omega)
      have e1 : j ≠ temp := by
        intro e
        subst e
        rw [hnt] at h2
        cases h2
        exact ek h3'.symm
      have e2 : j ≠ index := by
        intro e
        subst e
        rw [hx] at h2
        cases h2
        omega
      exact ⟨j, n, by rw [hother j e1 e2]; exact h2, h3'⟩
  · intro k1 k2 v1 v2 h1 h2 e
    dsimp only at h1 h2
    obtain ⟨l1, c1⟩ := hdata k1 v1 h1
    obtain ⟨l2, c2⟩ := hdata k2 v2 h2
    rcases c1 with ⟨a1, b1⟩ | ⟨a1, b1⟩
    · rcases c2 with ⟨a2, b2⟩ | ⟨a2, b2⟩
      · rw [a1, a2]
      · rw [b1] at e
        have := h.keys _ _ _ _ hlast b2 e
        omega
    · rcases c2 with ⟨a2, b2⟩ | ⟨a2, b2⟩
      · rw [b2] at e
        have := h.keys _ _ _ _ b1 hlast e
        omega
      · exact h.keys _ _ _ _ b1 b2 e
  · intro j n' v hn' hv
    dsimp only at hn' hv ⊢
    obtain ⟨l1, c1⟩ := hdata _ v hv
    by_cases e1 : j = temp
    · subst e1
      obtain ⟨m, hm, em⟩ := htemp
      rw [hm] at hn'
      cases hn'
      rw [em] at l1
      omega
    · by_cases e2 : j = index
      · subst e2
        rw [hindex e1] at hn'
        cases hn'
        rcases c1 with ⟨-, b1⟩ | ⟨a1, -⟩
        · rw [b1]
          exact hfind
        · exact absurd rfl a1
      · rw [hother j e1 e2] at hn'
        rcases c1 with ⟨a1, -⟩ | ⟨-, b1⟩
        · exact absurd (h.ids_inj hn' hnt a1 (by omega)) e1
        · exact h.ident j n' v hn' b1

/-- The member `pop` keeps the index map right. -/
theorem Ids.ids_pop (lt : α → α → Bool) {key : α → κ} {s s' : mutable_binomial_heap α κ}
    (h : Ids key s) (hlt : s.nodes_.length < npos) (hp : pop lt key s = .ok s') :
    Ids key s' ∧ s'.nodes_.length = s.nodes_.length := by
  unfold pop at hp
  split at hp
  · cases hp
    exact ⟨h, rfl⟩
  · obtain ⟨⟨ns1, nh⟩, h1, hp⟩ := bind_ok hp
    obtain ⟨f, h2, hp⟩ := bind_ok hp
    obtain ⟨s3, h3, hp⟩ := bind_ok hp
    obtain ⟨t, -, hp⟩ := bind_ok hp
    cases hp
    have hs1 : SameSlots s.nodes_ ns1 := pop_reverse_slots h1
    obtain ⟨hs2, -, -, -⟩ := pop_unlink_slots lt h2
    have hs12 : SameSlots s.nodes_ f.nodes_ := hs1.same_trans hs2
    have hS2 := Ids.ids_nodes h hs12 s.top_ f.head_
    obtain ⟨hS3, hl3⟩ := Ids.ids_compact hS2 (by rw [hs12.1]; exact hlt) h3
    exact ⟨Ids.ids_nodes hS3 (SameSlots.same_refl _) _ _, by rw [← hs12.1]; exact hl3⟩

end origin

namespace origin

variable {α κ : Type} [DecidableEq κ]

open Forest
open mutable_binomial_heap

/-- The loop of `update` keeps the index map right for every node but the one that holds the
new value `d`: a swap moves the value of the parent down, and the map gets the node it moved
to. -/
theorem update_loop_ids (lt : α → α → Bool) (key : α → κ) {ns : List binomial_heap_node}
    (d : α) (L : Nat)
    (hinj : ∀ (i j : Nat) (n m : binomial_heap_node), ns[i]? = some n → ns[j]? = some m →
      n.index = m.index → n.index < L → i = j) :
    ∀ (fuel : Nat) (data : List α) (id_ : List (κ × Nat)) (index parent : Nat)
      (data' : List α) (id' : List (κ × Nat)) (index' : Nat),
    data.length = L →
    (∃ ni, ns[index]? = some ni ∧ data[ni.index]? = some d) →
    (∀ (k1 k2 : Nat) (v1 v2 : α), data[k1]? = some v1 → data[k2]? = some v2 →
      key v1 = key v2 → k1 = k2) →
    (∀ (j : Nat) (n : binomial_heap_node) (v : α), ns[j]? = some n → j ≠ index →
      data[n.index]? = some v → id_find id_ (key v) = some j) →
    update_loop lt key ns (.outside d) fuel data id_ index parent = .ok (data', id', index') →
    data'.length = L ∧ (∃ ni, ns[index']? = some ni ∧ data'[ni.index]? = some d) ∧
    (∀ (k1 k2 : Nat) (v1 v2 : α), data'[k1]? = some v1 → data'[k2]? = some v2 →
      key v1 = key v2 → k1 = k2) ∧
    (∀ (j : Nat) (n : binomial_heap_node) (v : α), ns[j]? = some n → j ≠ index' →
      data'[n.index]? = some v → id_find id' (key v) = some j) := by
  intro fuel
  induction fuel with
  | zero =>
    intro data id_ index parent data' id' index' _ _ _ _ h
    simp [update_loop] at h
  | succ fuel ih =>
    intro data id_ index parent data' id' index' hlen hd hkeys hident h
    rw [update_loop_outside] at h
    split at h
    · cases h
      exact ⟨hlen, hd, hkeys, hident⟩
    · obtain ⟨np, hnp, h⟩ := bind_ok h
      obtain ⟨pv, hpv, h⟩ := bind_ok h
      rw [at_ok_iff] at hnp hpv
      split at h
      · obtain ⟨ni, hni, h⟩ := bind_ok h
        obtain ⟨data1, hd1, h⟩ := bind_ok h
        obtain ⟨data2, hd2, h⟩ := bind_ok h
        obtain ⟨moved, hmoved, h⟩ := bind_ok h
        rw [at_ok_iff] at hni hmoved
        obtain ⟨ha, rfl⟩ := put_inv hd1
        obtain ⟨hb, rfl⟩ := put_inv hd2
        obtain ⟨ni', hni', hda⟩ := hd
        rw [hni] at hni'
        cases hni'
        have hb' : np.index < data.length := by simpa using hb
        have hget : ∀ (k : Nat) (v : α),
            ((data.set ni.index pv).set np.index d)[k]? = some v →
            (k = np.index ∧ v = d) ∨ (k ≠ np.index ∧ k = ni.index ∧ v = pv) ∨
              (k ≠ np.index ∧ k ≠ ni.index ∧ data[k]? = some v) := by
          intro k v hk
          by_cases e1 : k = np.index
          · subst e1
            rw [List.getElem?_set_self hb] at hk
            exact Or.inl ⟨rfl, (Option.some.inj hk).symm⟩
          · rw [get_set_other _ (Ne.symm e1)] at hk
            by_cases e2 : k = ni.index
            · subst e2
              rw [List.getElem?_set_self ha] at hk
              exact Or.inr (Or.inl ⟨e1, rfl, (Option.some.inj hk).symm⟩)
            · rw [get_set_other _ (Ne.symm e2)] at hk
              exact Or.inr (Or.inr ⟨e1, e2, hk⟩)
        have hswap : ∀ (k : Nat) (v : α),
            ((data.set ni.index pv).set np.index d)[k]? = some v →
            data[if k = np.index then ni.index else if k = ni.index then np.index else k]? =
              some v := by
          intro k v hk
          rcases hget k v hk with ⟨e1, e2⟩ | ⟨e1, e2, e3⟩ | ⟨e1, e2, e3⟩
          · rw [if_pos e1, e2]; exact hda
          · rw [if_neg e1, if_pos e2, e3]; exact hpv
          · rw [if_neg e1, if_neg e2]; exact e3
        have hkeys2 : ∀ (k1 k2 : Nat) (v1 v2 : α),
            ((data.set ni.index pv).set np.index d)[k1]? = some v1 →
            ((data.set ni.index pv).set np.index d)[k2]? = some v2 →
            key v1 = key v2 → k1 = k2 := by
          intro k1 k2 v1 v2 h1 h2 e
          have := hkeys _ _ _ _ (hswap k1 v1 h1) (hswap k2 v2 h2) e
          split_ifs at this <;> omega
        have hl2 : ((data.set ni.index pv).set np.index d).length = L := by
          simp [hlen]
        refine ih _ _ _ _ _ _ _ hl2 ⟨np, hnp, List.getElem?_set_self hb⟩ hkeys2 ?_ h
        intro j n v hn hj hv
        have hc : n.index < L := by rw [← hl2]; exact lt_of_get hv
        by_cases e1 : j = index
        · subst e1
          rw [hni] at hn
          cases hn
          rw [hmoved] at hv
          cases hv
          exact id_find_assign_self _ _ _
        · have ca : n.index ≠ ni.index := fun e => e1 (hinj _ _ _ _ hn hni e hc)
          have cb : n.index ≠ np.index := fun e => hj (hinj _ _ _ _ hn hnp e hc)
          rcases hget _ v hv with ⟨e2, -⟩ | ⟨-, e2, -⟩ | ⟨-, -, e3⟩
          · exact absurd e2 cb
          · exact absurd e2 ca
          · have hne : key moved ≠ key v := fun e => ca (hkeys2 _ _ _ _ hmoved hv e).symm
            rw [id_find_assign_other _ _ hne]
            exact hident j n v hn e1 e3
      · cases h
        exact ⟨hlen, hd, hkeys, hident⟩

/-- The member `update` keeps the index map right. -/
theorem Ids.ids_update (lt : α → α → Bool) {key : α → κ} {s s' : mutable_binomial_heap α κ}
    (h : Ids key s) {d : α} (hp : update lt key s (.outside d) = .ok s') :
    Ids key s' ∧ s'.nodes_ = s.nodes_ := by
  obtain ⟨i0, id0, hidx, hid0, hi0⟩ : ∃ (i0 : Nat) (id0 : List (κ × Nat)),
      id_index s.id_ (key d) = (i0, id0) ∧
      (∀ (k : κ) (j : Nat), id_find s.id_ k = some j → id_find id0 k = some j) ∧
      (∀ j, id_find s.id_ (key d) = some j → j = i0) := by
    cases hf : id_find s.id_ (key d) with
    | some i0 =>
      exact ⟨i0, s.id_, id_index_of_find hf, fun _ _ h => h, fun j hj => (Option.some.inj hj).symm⟩
    | none =>
      refine ⟨0, _, id_index_of_none hf, fun k j hk => ?_, fun j hj => by simp at hj⟩
      have : key d ≠ k := by
        intro e
        rw [e, hk] at hf
        simp at hf
      rw [id_find_assign_other _ _ this]
      exact hk
  rw [update_outside, hidx] at hp
  dsimp only at hp
  obtain ⟨ni, hni, hp1⟩ := bind_ok hp
  obtain ⟨data1, hd1, hp2⟩ := bind_ok hp1
  obtain ⟨⟨data', id', index'⟩, hloop, hp3⟩ := bind_ok hp2
  obtain ⟨nt, -, hp4⟩ := bind_ok hp3
  obtain ⟨tv, -, hp5⟩ := bind_ok hp4
  clear hp hp1 hp2 hp3 hp4
  rw [at_ok_iff] at hni
  obtain ⟨ha, rfl⟩ := put_inv hd1
  have hinj : ∀ (i j : Nat) (n m : binomial_heap_node), s.nodes_[i]? = some n →
      s.nodes_[j]? = some m → n.index = m.index → n.index < s.data_.length → i = j :=
    fun i j n m hn hm e hl => h.ids_inj hn hm e hl
  have hget : ∀ (k : Nat) (v : α), (s.data_.set ni.index d)[k]? = some v →
      (k = ni.index ∧ v = d) ∨ (k ≠ ni.index ∧ s.data_[k]? = some v) := by
    intro k v hk
    by_cases e1 : k = ni.index
    · subst e1
      rw [List.getElem?_set_self ha] at hk
      exact Or.inl ⟨rfl, (Option.some.inj hk).symm⟩
    · rw [get_set_other _ (Ne.symm e1)] at hk
      exact Or.inr ⟨e1, hk⟩
  have hold : ∀ (k : Nat) (v : α), s.data_[k]? = some v → key v = key d → k = ni.index := by
    intro k v hk e
    obtain ⟨j, nj, hnj, hji⟩ := h.owner k (lt_of_get hk)
    have := h.ident j nj v hnj (by rw [hji]; exact hk)
    rw [e] at this
    have := hi0 j this
    subst this
    rw [hni] at hnj
    cases hnj
    exact hji.symm
  have hkeys1 : ∀ (k1 k2 : Nat) (v1 v2 : α), (s.data_.set ni.index d)[k1]? = some v1 →
      (s.data_.set ni.index d)[k2]? = some v2 → key v1 = key v2 → k1 = k2 := by
    intro k1 k2 v1 v2 h1 h2 e
    rcases hget k1 v1 h1 with ⟨a1, b1⟩ | ⟨a1, b1⟩
    · rcases hget k2 v2 h2 with ⟨a2, b2⟩ | ⟨a2, b2⟩
      · rw [a1, a2]
      · rw [b1] at e
        rw [a1]
        exact (hold k2 v2 b2 e.symm).symm
    · rcases hget k2 v2 h2 with ⟨a2, b2⟩ | ⟨a2, b2⟩
      · rw [b2] at e
        rw [a2]
        exact hold k1 v1 b1 e
      · exact h.keys _ _ _ _ b1 b2 e
  have hident1 : ∀ (j : Nat) (n : binomial_heap_node) (v : α), s.nodes_[j]? = some n →
      j ≠ i0 → (s.data_.set ni.index d)[n.index]? = some v → id_find id0 (key v) = some j := by
    intro j n v hn hj hv
    have hc : n.index < s.data_.length := by
      have := lt_of_get hv
      simpa using this
    rcases hget _ v hv with ⟨a1, -⟩ | ⟨-, b1⟩
    · exact absurd (hinj _ _ _ _ hn hni a1 hc) hj
    · exact hid0 _ _ (h.ident j n v hn b1)
  obtain ⟨hl', ⟨ni', hni', hd'⟩, hkeys', hident'⟩ :=
    update_loop_ids lt key d s.data_.length hinj _ _ _ _ _ _ _ _ (by simp)
      ⟨ni, hni, List.getElem?_set_self ha⟩ hkeys1 hident1 hloop
  have hres : ∀ t : Nat, Ids key
      { data_ := data', nodes_ := s.nodes_, id_ := id_assign id' (key d) index', top_ := t,
        head_ := s.head_ } := by
    intro t
    refine ⟨by rw [hl']; exact h.le_nodes, ?_, ?_, hkeys', ?_⟩
    · intro i n hn
      rw [hl']
      exact h.valid i n hn
    · intro k hk
      rw [hl'] at hk
      exact h.owner k hk
    · intro j n v hn hv
      dsimp only at hn hv ⊢
      by_cases e1 : j = index'
      · subst e1
        rw [hni'] at hn
        cases hn
        rw [hd'] at hv
        cases hv
        exact id_find_assign_self _ _ _
      · have hc : n.index < s.data_.length := by rw [← hl']; exact lt_of_get hv
        have hne : key d ≠ key v := by
          intro e
          have := hkeys' _ _ _ _ hd' hv e
          exact e1 (hinj _ _ _ _ hn hni' this.symm hc)
        rw [id_find_assign_other _ _ hne]
        exact hident' j n v hn e1 hv
  dsimp only at hp5
  split at hp5
  · cases hp5
    exact ⟨hres _, rfl⟩
  · cases hp5
    exact ⟨hres _, rfl⟩

theorem mrunFrom_cons_ok {lt : α → α → Bool} {key : α → κ} {s s' : mutable_binomial_heap α κ}
    {o : MOp α} {os : List (MOp α)} (h : mrunFrom lt key s (o :: os) = .ok s') :
    ∃ s1, mstep lt key s o = .ok s1 ∧ mrunFrom lt key s1 os = .ok s' := by
  rw [mrunFrom] at h
  exact bind_ok h

/-- Every state that operations with new keys in the pushes reach from a state with a right
index map has a right index map. -/
theorem Ids.ids_runFrom (lt : α → α → Bool) (key : α → κ) : ∀ (ops : List (MOp α))
    (s s' : mutable_binomial_heap α κ), Ids key s → s.nodes_.length + ops.length < npos →
    (∀ k : Nat, MOp.update (ValueRef.stored k) ∉ ops) →
    fresh_keys lt key s ops = true → mrunFrom lt key s ops = .ok s' →
    Ids key s' ∧ s'.nodes_.length ≤ s.nodes_.length + ops.length := by
  intro ops
  induction ops with
  | nil =>
    intro s s' h _ _ _ hr
    cases hr
    exact ⟨h, by simp⟩
  | cons o os ih =>
    intro s s' h hb hno hf hr
    have hno1 : ∀ k : Nat, MOp.update (ValueRef.stored k) ∉ os :=
      fun k hk => hno k (List.mem_cons_of_mem _ hk)
    obtain ⟨s1, hs, hr1⟩ := mrunFrom_cons_ok hr
    simp only [List.length_cons] at hb ⊢
    rw [fresh_keys, hs, Bool.and_eq_true] at hf
    obtain ⟨hf0, hf1⟩ := hf
    have h1 : Ids key s1 ∧ s1.nodes_.length ≤ s.nodes_.length + 1 := by
      cases o with
      | push d =>
        have hfd : ∀ v ∈ s.data_, key v ≠ key d := by
          simpa [fresh_key] using hf0
        obtain ⟨a, b⟩ := Ids.ids_push lt h (by omega) hfd hs
        exact ⟨a, by omega⟩
      | pop =>
        obtain ⟨a, b⟩ := Ids.ids_pop lt h (by omega) hs
        exact ⟨a, by omega⟩
      | update r =>
        cases r with
        | stored k => exact absurd (List.mem_cons_self _ _) (hno k)
        | outside d =>
          obtain ⟨a, b⟩ := Ids.ids_update lt h hs
          exact ⟨a, by rw [b]; omega⟩
    obtain ⟨a, b⟩ := ih s1 s' h1.1 (by omega) hno1 hf1 hr1
    exact ⟨a, by omega⟩

end origin

namespace origin

variable {α κ : Type} [DecidableEq κ]

open Forest
open mutable_binomial_heap

/-! ## Where the loop of `update` stops -/

end origin

namespace origin

variable {α : Type}

open Forest binomial_heap

/-! ## One link of the scan of the union, and the order of `merge` -/

/-- The step of the loop of `unite` on two neighbours of the same degree that no third root
of this degree follows: when the value of the first is not less than the value of the second,
the second becomes the first child of the first; otherwise the first becomes the first child
of the second, and the link in front of the pair goes to the second. -/
theorem unite_link_step (lt : α → α → Bool) (d : List α) (rm : List Nat)
    {ns : List binomial_heap_node} {i j : Nat} {a b : α} {c c' s' : Forest α}
    (fuel head prev : Nat) (hle : ns.length ≤ npos)
    (hF : rep d rm ns npos npos (node i a c (node j b c' s')) i)
    (hnd : (idxs (node i a c (node j b c' s'))).Nodup)
    (hprev : prev ∉ idxs (node i a c (node j b c' s')))
    (hpn : prev ≠ npos → ∃ np, ns[prev]? = some np)
    (hdeg : len c = len c') (h3 : third_same (len c) s' = false) :
    (lt a b = false → ∃ ns',
      unite_loop lt d (fuel + 1) ns head prev i j =
        unite_loop lt d fuel ns' head prev i (start npos s') ∧
      Frame [i, j] ns ns' ∧ rep d rm ns' npos npos (node i a (node j b c' c) s') i) ∧
    (lt a b = true → ∃ ns',
      unite_loop lt d (fuel + 1) ns head prev i j =
        unite_loop lt d fuel ns' (if prev = npos then j else head) prev j (start npos s') ∧
      Frame [prev, i, j] ns ns' ∧ rep d rm ns' npos npos (node j b (node i a c c') s') j ∧
      (prev ≠ npos → ∀ np, ns[prev]? = some np →
        ns'[prev]? = some { np with right_sibling := j })) := by
  have hskip : ¬ (len c ≠ len c' ∨ third_same (len c) s' = true) := by
    rw [not_or, h3]
    exact ⟨fun h => h hdeg, by simp⟩
  have hF0 := hF
  rw [rep_node] at hF
  obtain ⟨-, nx, hnx, hxp, hxd, hxv, hxr, hc, hs⟩ := hF
  have hrj : nx.right_sibling = j := by rw [rep_node] at hs; exact hs.1
  rw [hrj, rep_node] at hs
  obtain ⟨-, nn, hnn, hnp', hnd', hnv, hnr, hc', hs'⟩ := hs
  have hjne : j ≠ npos := ne_npos_of_get hle hnn
  have hnd0 := hnd
  simp only [idxs_node, List.nodup_cons, List.mem_append, List.mem_cons, not_or,
    List.nodup_append, List.disjoint_left] at hnd hprev
  obtain ⟨⟨hic, hij, hic', his'⟩, hcn, ⟨⟨hjc', hjs'⟩, hc'n, hs'n, hc's'⟩, hcx⟩ := hnd
  obtain ⟨hpi, hpc, hpj, hpc', hps'⟩ := hprev
  have hsk := unite_skips_spec (c := c) hle hnx hnn hxd hnd' hs'
  constructor
  · intro hcmp'
    obtain ⟨ns1, ns5, hu, hl, f5, hrep5, ni, hni, hnir⟩ := linkA_step hF0 hnd0 hnn
    refine ⟨ns5, ?_, f5, hrep5⟩
    rw [unite_loop]
    simp only [if_neg hjne, bind, Except.bind, hsk, decide_eq_false hskip,
      at_ok hnx, at_ok hnn, at_ok hxv, at_ok hnv, hcmp']
    simp only [Bool.not_false, if_true, Bool.false_eq_true, if_false]
    simp only [hu, hl, at_ok hni, hnir]
  · intro hcmp
    by_cases hp : prev = npos
    · obtain ⟨ns5, hl, f5, hrep5, nj, hnj, hnjr⟩ := linkB_step hF0 hnd0
      refine ⟨ns5, ?_, ?_, hrep5, fun h => absurd hp h⟩
      · rw [unite_loop]
        simp only [if_neg hjne, hsk, ok_bind, decide_eq_false hskip,
          at_ok hnx, at_ok hnn, at_ok hxv, at_ok hnv, hcmp, Bool.not_true,
          Bool.false_eq_true, if_false, if_pos hp, pure, Except.pure, hl, at_ok hnj, hnjr]
      · exact f5.mono (fun k hk => List.mem_cons_of_mem _ hk)
    · obtain ⟨np, hnp⟩ := hpn hp
      have f1 : Frame [prev] ns (ns.set prev { np with right_sibling := j }) :=
        Frame.set hnp rfl
      have hF1 : rep d rm (ns.set prev { np with right_sibling := j }) npos npos
          (node i a c (node j b c' s')) i := by
        refine rep_of_Frame hF0 f1 ?_
        intro k hk
        simp only [List.mem_singleton]
        rintro rfl
        simp only [idxs_node, List.mem_cons, List.mem_append] at hk
        rcases hk with h | h | h | h | h
        · exact hpi h
        · exact hpc h
        · exact hpj h
        · exact hpc' h
        · exact hps' h
      obtain ⟨ns5, hl, f5, hrep5, nj, hnj, hnjr⟩ := linkB_step hF1 hnd0
      refine ⟨ns5, ?_, ?_, hrep5, fun _ np' hnp' => ?_⟩
      · rw [unite_loop]
        simp only [if_neg hjne, hsk, ok_bind, decide_eq_false hskip,
          at_ok hnx, at_ok hnn, at_ok hxv, at_ok hnv, hcmp, Bool.not_true,
          Bool.false_eq_true, if_false, if_neg hp, pure, Except.pure, upd_ok _ hnp, hl,
          at_ok hnj, hnjr]
      · exact Frame.trans f1 f5 (by simp) (by
          intro k hk
          exact List.mem_cons_of_mem _ hk)
      · rw [hnp] at hnp'
        cases hnp'
        rw [f5.2.1 prev (by
          simp only [List.mem_cons, List.mem_singleton, List.not_mem_nil, or_false, not_or]
          exact ⟨hpi, hpj⟩)]
        exact get_set_self _ hnp

namespace Forest

@[simp]
theorem hranks_nil : hranks (nil : Forest α) = [] := rfl
@[simp]
theorem hranks_node (i : Nat) (a : α) (c s : Forest α) :
    hranks (node i a c s) = (i, len c) :: hranks s := rfl

theorem hranks_heads (F : Forest α) : ∀ r ∈ hranks F, r.1 ∈ heads F := by
  induction F with
  | nil => simp
  | node i a c s _ ihs =>
    intro r hr
    simp only [hranks_node, List.mem_cons] at hr
    rcases hr with rfl | hr
    · simp
    · simp [ihs r hr]

theorem hranks_ranks (F : Forest α) : ∀ r ∈ hranks F, r.2 ∈ ranks F := by
  induction F with
  | nil => simp
  | node i a c s _ ihs =>
    intro r hr
    simp only [hranks_node, List.mem_cons] at hr
    rcases hr with rfl | hr
    · simp
    · simp [ihs r hr]

theorem heads_mergeF (P Q : Forest α) : (heads (mergeF P Q)).Perm (heads P ++ heads Q) := by
  rw [heads_eq, heads_eq, heads_eq, ← List.map_append]
  exact (roots_mergeF P Q).map _

/-- The roots of the first list keep their order in the result of `merge`. -/
theorem heads_mergeF_left (P Q : Forest α) : (heads P).Sublist (heads (mergeF P Q)) := by
  induction P, Q using mergeF.induct with
  | case1 Q => simp
  | case2 i a c s => simp
  | case3 i a c s j b c' s' h ih =>
    rw [mergeF_node_node, if_pos h]
    simp only [heads_node]
    exact ih.cons₂ _
  | case4 i a c s j b c' s' h ih =>
    rw [mergeF_node_node, if_neg h]
    simp only [heads_node] at ih ⊢
    exact ih.cons _

/-- The roots of the second list keep their order in the result of `merge`. -/
theorem heads_mergeF_right (P Q : Forest α) : (heads Q).Sublist (heads (mergeF P Q)) := by
  induction P, Q using mergeF.induct with
  | case1 Q => simp
  | case2 i a c s => simp
  | case3 i a c s j b c' s' h ih =>
    rw [mergeF_node_node, if_pos h]
    simp only [heads_node] at ih ⊢
    exact ih.cons _
  | case4 i a c s j b c' s' h ih =>
    rw [mergeF_node_node, if_neg h]
    simp only [heads_node]
    exact ih.cons₂ _

/-- Of two roots of the same degree, the root of the second list goes first. -/
theorem mergeF_ties (P Q : Forest α) (hQ : (ranks Q).Sorted (· ≤ ·)) :
    ∀ (i j k : Nat), (i, k) ∈ hranks P → (j, k) ∈ hranks Q →
      [j, i].Sublist (heads (mergeF P Q)) := by
  induction P, Q using mergeF.induct with
  | case1 Q => intro i j k hi; simp at hi
  | case2 i a c s => intro i j k _ hj; simp at hj
  | case3 i0 a c s j0 b c' s' h ih =>
    intro i j k hi hj
    rw [mergeF_node_node, if_pos h]
    simp only [heads_node]
    simp only [hranks_node, List.mem_cons] at hi
    rcases hi with hi | hi
    · have hk : k = len c := (Prod.mk.inj hi).2
      have hmem := hranks_ranks _ _ hj
      simp only [ranks_node, List.mem_cons] at hmem
      have hle : len c' ≤ k := by
        rcases hmem with e | e
        · omega
        · simp only [ranks_node, List.Sorted, List.pairwise_cons] at hQ
          exact hQ.1 _ e
      omega
    · exact (ih hQ i j k hi hj).cons _
  | case4 i0 a c s j0 b c' s' h ih =>
    intro i j k hi hj
    rw [mergeF_node_node, if_neg h]
    simp only [heads_node]
    have hQ' : (ranks s').Sorted (· ≤ ·) := by
      simp only [ranks_node, List.Sorted, List.pairwise_cons] at hQ
      exact hQ.2
    rw [hranks_node, List.mem_cons] at hj
    rcases hj with hj | hj
    · have hj0 : j = j0 := (Prod.mk.inj hj).1
      subst hj0
      refine List.Sublist.cons₂ _ ?_
      rw [List.singleton_sublist]
      exact (heads_mergeF_left _ _).subset (hranks_heads _ _ hi)
    · exact (ih hQ' i j k hi hj).cons _

end Forest

/-- The member `merge` reads no value: on other values it does the same to the nodes. -/
theorem merge_data {s s' : binomial_heap α} {q : Nat} (h : merge s q = .ok s') (d' : List α) :
    merge { s with data_ := d' } q = .ok { s' with data_ := d' } := by
  unfold merge at h ⊢
  obtain ⟨ns1, h1, h⟩ := bind_ok h
  obtain ⟨back, h2, h⟩ := bind_ok h
  cases h
  dsimp only at h1 h2 ⊢
  simp only [h1, ok_bind, h2, pure, Except.pure]

end origin

namespace origin

variable {α κ : Type} [DecidableEq κ]

open Forest binomial_heap

/-! ## The statements about the structure of the states -/

/-- The state `held3` has a right index map. -/
theorem held3_ids : Ids Prod.fst held3 := by
  refine ⟨by decide, ?_, ?_, ?_, ?_⟩
  · intro i n h
    rcases i with _ | _ | _ | i <;> simp [held3] at h <;> subst h <;>
      exact Or.inr (by decide)
  · intro k hk
    rcases k with _ | _ | _ | k
    · exact ⟨0, _, rfl, rfl⟩
    · exact ⟨1, _, rfl, rfl⟩
    · exact ⟨2, _, rfl, rfl⟩
    · simp only [held3, List.length_cons, List.length_nil] at hk
      omega
  · intro k1 k2 v1 v2 h1 h2 e
    rcases k1 with _ | _ | _ | k1 <;> simp [held3] at h1 <;>
      rcases k2 with _ | _ | _ | k2 <;> simp [held3] at h2 <;> subst h1 <;> subst h2 <;>
      simp at e ⊢
  · intro i n v h1 h2
    rcases i with _ | _ | _ | i <;> simp [held3] at h1 <;> subst h1 <;>
      simp [held3] at h2 <;> subst h2 <;> rfl

/-- C11 fails on the code: with `std::less`, after
`push 0, push 1, push 1, push 1, pop, push 0, pop` the heap holds three values, the root list
is one node of degree 0 (the sum of `2 ^ degree` over it is 1, not 3), and the live node 2 has
the degree 2 while its child list is one node that is not live. -/
theorem degrees_after_equal_values :
    ∃ s, run less (tied_ops ++ [.pop]) = .ok s ∧ s.size = 3 ∧
      (∃ l, root_chain s.nodes_ s.head_ l ∧ (l.map (fun n => 2 ^ n.degree)).sum = 1) ∧
      ∃ n, s.nodes_[2]? = some n ∧ n.index < s.size ∧ n.degree = 2 ∧
        ∃ l, root_chain s.nodes_ n.child l ∧
          (l.filter (fun m => decide (m.index < s.size))).length = 0 :=
  ⟨_, rfl, rfl, ⟨[_], ⟨rfl, rfl⟩, rfl⟩, _, rfl, by decide, rfl, [_], ⟨rfl, rfl⟩, rfl⟩

/-- C12: in every state that calls of `push` and `pop` reach from the empty heap, the reverse
map has an entry for every position of `data_`, the entry of a position is a node whose
`index` field is this position, the entry for the `index` field of a live node (a node whose
`index` field is a position of `data_`) is this node, and no two live nodes have the same
`index` field. -/
theorem slots_are_a_bijection (compare_ : α → α → Bool) (ops : List (Op α))
    (s : binomial_heap α) (hb : ops.length < npos) (hr : run compare_ ops = .ok s) :
    s.reversemap_.length = s.size ∧
    (∀ k, k < s.size → ∃ i n, s.reversemap_[k]? = some i ∧ s.nodes_[i]? = some n ∧
      n.index = k) ∧
    (∀ (i : Nat) (n : binomial_heap_node), s.nodes_[i]? = some n → n.index < s.size →
      s.reversemap_[n.index]? = some i) ∧
    (∀ (i j : Nat) (n m : binomial_heap_node), s.nodes_[i]? = some n → s.nodes_[j]? = some m →
      n.index < s.size → n.index = m.index → i = j) := by
  obtain ⟨h, -⟩ := Slots.slots_runFrom compare_ ops binomial_heap.new s Slots.slots_new
    (by simpa [binomial_heap.new] using hb) hr
  refine ⟨h.rm_len, h.owner, h.back, fun i j n m hn hm hl e => ?_⟩
  have h1 := h.back i n hn hl
  have h2 := h.back j m hm (by rw [← e]; exact hl)
  rw [e, h2] at h1
  exact (Option.some.inj h1).symm

/-- Instance: the slots after three pushes and a `pop` that moves the last value. -/
theorem slots_are_a_bijection_witness :
    ∃ s, run less [.push 3, .push 5, .push 4, .pop] = .ok s ∧
      s.reversemap_.length = s.size ∧
      (∀ k, k < s.size → ∃ i n, s.reversemap_[k]? = some i ∧ s.nodes_[i]? = some n ∧
        n.index = k) ∧
      (∀ (i : Nat) (n : binomial_heap_node), s.nodes_[i]? = some n → n.index < s.size →
        s.reversemap_[n.index]? = some i) ∧
      (∀ (i j : Nat) (n m : binomial_heap_node), s.nodes_[i]? = some n →
        s.nodes_[j]? = some m → n.index < s.size → n.index = m.index → i = j) :=
  ⟨_, rfl, slots_are_a_bijection less [.push 3, .push 5, .push 4, .pop] _ (by decide) rfl⟩

/-- The state `held2` has a right index map. -/
theorem held2_ids : Ids Prod.fst held2 := by
  refine ⟨by decide, ?_, ?_, ?_, ?_⟩
  · intro i n h
    rcases i with _ | _ | i <;> simp [held2] at h <;> subst h <;>
      exact Or.inr (by decide)
  · intro k hk
    rcases k with _ | _ | k
    · exact ⟨0, _, rfl, rfl⟩
    · exact ⟨1, _, rfl, rfl⟩
    · simp only [held2, List.length_cons, List.length_nil] at hk
      omega
  · intro k1 k2 v1 v2 h1 h2 e
    rcases k1 with _ | _ | k1 <;> simp [held2] at h1 <;>
      rcases k2 with _ | _ | k2 <;> simp [held2] at h2 <;> subst h1 <;> subst h2 <;>
      simp at e ⊢
  · intro i n v h1 h2
    rcases i with _ | _ | i <;> simp [held2] at h1 <;> subst h1 <;>
      simp [held2] at h2 <;> subst h2 <;> rfl

/-- C13, as stated, fails: the state `held2`, with the vectors that the pushes of `(1, 20)`
and `(2, 20)` build in the flat heap, has a right index map; `update` with a reference to the
stored element `data_[0]`, which holds `(1, 20)` in the slot of the node 0 below the node 1,
copies the value of the parent into this element in the first assignment of the swap, and the
second assignment reads the parameter from it: both slots hold `(2, 20)` afterwards, the value
`(1, 20)` is lost, and the index maps the identity 2 of the value in the slot of the node 0 to
the node 1. -/
theorem update_of_stored_element :
    Ids Prod.fst held2 ∧
    (∃ f, run less_priority [.push (1, 20), .push (2, 20)] = .ok f ∧ f.data_ = held2.data_ ∧
      f.nodes_ = held2.nodes_ ∧ f.head_ = held2.head_ ∧ f.top_ = held2.top_) ∧
    ∃ s, held2.update less_priority Prod.fst (.stored 0) = .ok s ∧
      s.data_ = [(2, 20), (2, 20)] ∧ s.id_ = [(1, 0), (2, 1)] ∧ s.nodes_ = held2.nodes_ ∧
      ∃ n, s.nodes_[0]? = some n ∧ s.data_[n.index]? = some (2, 20) ∧
        id_find s.id_ (Prod.fst ((2, 20) : Nat × Nat)) = some 1 :=
  ⟨held2_ids, ⟨_, rfl, rfl, rfl, rfl, rfl⟩, _, rfl, rfl, rfl, rfl, _, rfl, rfl, rfl⟩

/-- C13, amended: the empty mutable heap has a right index map, and from every state with a
right index map (the values held have different keys, every position of `data_` is the slot
of a node, and the map gives for the value in the slot of a live node this node), fewer than
`2 ^ 64 - 1` nodes counted with the calls, calls of `push`, `pop` and `update` in which no
`push` brings a key that a held value has and no `update` has a parameter that refers to an
element of `data_` reach only states in which the index map gives, for the value in the slot
of every live node, this node. -/
theorem index_map_tracks_nodes (compare_ : α → α → Bool) (key : α → κ)
    (s0 s : mutable_binomial_heap α κ) (ops : List (MOp α)) (h0 : Ids key s0)
    (hb : s0.nodes_.length + ops.length < npos)
    (hno : ∀ k : Nat, MOp.update (ValueRef.stored k) ∉ ops)
    (hf : fresh_keys compare_ key s0 ops = true)
    (hr : mrunFrom compare_ key s0 ops = .ok s) :
    Ids key (mutable_binomial_heap.new : mutable_binomial_heap α κ) ∧
    ∀ (i : Nat) (n : binomial_heap_node) (v : α), s.nodes_[i]? = some n →
      s.data_[n.index]? = some v → id_find s.id_ (key v) = some i :=
  ⟨Ids.ids_new key, (Ids.ids_runFrom compare_ key ops s0 s h0 hb hno hf hr).1.ident⟩

/-- Instance: from the state that holds `(1, 10)`, `(2, 20)` and `(3, 30)`, an `update` with
a value outside of the heap, a `push` and a `pop`. -/
theorem index_map_tracks_nodes_witness :
    Ids Prod.fst held3 ∧
    fresh_keys less_priority Prod.fst held3
      [.update (.outside (1, 35)), .push (4, 40), .pop] = true ∧
    ∃ s, mrunFrom less_priority Prod.fst held3
        [.update (.outside (1, 35)), .push (4, 40), .pop] = .ok s ∧
      ∀ (i : Nat) (n : binomial_heap_node) (v : Nat × Nat), s.nodes_[i]? = some n →
        s.data_[n.index]? = some v → id_find s.id_ (Prod.fst v) = some i :=
  ⟨held3_ids, rfl, _, rfl,
    (index_map_tracks_nodes less_priority Prod.fst held3 _
      [.update (.outside (1, 35)), .push (4, 40), .pop] held3_ids (by decide)
      (fun k h => by simp at h) rfl rfl).2⟩

/-- C14 fails on the code: `empty()` is true exactly for `head_ == 2 ^ 32 - 1`, the value of
`-1u` after the conversion to `std::size_t`; on the heap of the default constructor, where
`head_` is `2 ^ 64 - 1`, it is false although the heap holds no value, and the first `push`
takes the other branch and reads `nodes_[top_]` outside the vector. -/
theorem empty_of_new_mutable_heap :
    (∀ s : mutable_binomial_heap Nat Nat, s.empty = true ↔ s.head_ = 4294967295) ∧
    (mutable_binomial_heap.new : mutable_binomial_heap Nat Nat).head_ = 18446744073709551615 ∧
    (mutable_binomial_heap.new : mutable_binomial_heap Nat Nat).size = 0 ∧
    (mutable_binomial_heap.new : mutable_binomial_heap Nat Nat).empty = false ∧
    (mutable_binomial_heap.new : mutable_binomial_heap Nat Nat).push less id 10 =
      .error .outOfBounds :=
  ⟨fun s => by simp [mutable_binomial_heap.empty], rfl, rfl, rfl, rfl⟩

/-- C15: for a comparator that is a strict weak order and pushed values of which no two are
equivalent, every sequence of fewer than `2 ^ 64 - 1` calls of `push` and `pop` on the empty
heap runs without a fault; when the heap holds a value afterwards, `top()` returns a held
value `t` with `compare_(t, v)` false for every held value `v`, every other held value
compares less than `t`, and `pop` returns and removes one occurrence of `t` and nothing
else. -/
theorem top_and_pop_of_distinct_values (compare_ : α → α → Bool) (hsw : StrictWeak compare_)
    (ops : List (Op α)) (hb : ops.length < npos)
    (hd : (pushed ops).Pairwise (fun a b => compare_ a b = true ∨ compare_ b a = true)) :
    ∃ s, run compare_ ops = .ok s ∧
      (s.size ≠ 0 → ∃ t s', s.top = .ok t ∧ t ∈ s.data_ ∧
        (∀ v ∈ s.data_, compare_ t v = false) ∧
        (∀ v ∈ s.data_, v ≠ t → compare_ v t = true) ∧
        s.pop compare_ = .ok s' ∧ s.data_.Perm (t :: s'.data_)) := by
  obtain ⟨s, hr, hv, hpw⟩ := VInv.vinv_run compare_ hsw ops hb hd
  refine ⟨s, hr, fun hne => ?_⟩
  have hne' : s.data_ ≠ [] := by
    intro he
    exact hne (by simp [binomial_heap.size, he])
  obtain ⟨t, ht, htm, hmax⟩ := hv.top hne'
  obtain ⟨s', hpop, -, -, hcase⟩ := VInv.vinv_pop compare_ hsw hv
  rcases hcase with ⟨he, -⟩ | ⟨t', ht', hperm, -⟩
  · exact absurd he hne'
  · rw [ht] at ht'
    cases ht'
    refine ⟨t, s', ht, htm, hmax, fun v hvm hvt => ?_, hpop, hperm⟩
    have hsym : Symmetric (fun a b => compare_ a b = true ∨ compare_ b a = true) :=
      fun a b h => h.symm
    rcases hpw.forall hsym hvm htm hvt with h | h
    · exact h
    · rw [hmax v hvm] at h
      cases h

/-- Instance: with `std::less` on integers, after the pushes of 5, 3 and 8. -/
theorem top_and_pop_of_distinct_values_witness :
    StrictWeak less ∧
    (pushed [Op.push 5, .push 3, .push 8]).Pairwise
      (fun a b => less a b = true ∨ less b a = true) ∧
    ∃ s, run less [.push 5, .push 3, .push 8] = .ok s ∧
      (s.size ≠ 0 → ∃ t s', s.top = .ok t ∧ t ∈ s.data_ ∧
        (∀ v ∈ s.data_, less t v = false) ∧
        (∀ v ∈ s.data_, v ≠ t → less v t = true) ∧
        s.pop less = .ok s' ∧ s.data_.Perm (t :: s'.data_)) :=
  ⟨less_strictWeak, by decide,
    top_and_pop_of_distinct_values less less_strictWeak [.push 5, .push 3, .push 8]
      (by decide) (by decide)⟩

/-- C16 fails on the code: with `std::less`, after
`push 0, push 1, push 1, push 1, pop, push 0` the heap holds four values and its root list is
the node 2 alone, but the cached `top_` is the node 1, whose parent is the node 2; and after
two more calls of `pop` the heap holds two values while `top_` is the none sentinel. -/
theorem cached_top_after_equal_values :
    (∃ s, run less tied_ops = .ok s ∧ s.size = 4 ∧ s.head_ = 2 ∧ s.top_ = 1 ∧
      (∃ n, s.nodes_[2]? = some n ∧ n.right_sibling = npos ∧ n.parent = npos) ∧
      ∃ n, s.nodes_[1]? = some n ∧ n.parent = 2) ∧
    ∃ s, run less (tied_ops ++ [.pop, .pop]) = .ok s ∧ s.size = 2 ∧ s.top_ = npos :=
  ⟨⟨_, rfl, rfl, rfl, rfl, ⟨_, rfl, rfl, rfl⟩, _, rfl, rfl⟩, _, rfl, rfl, rfl⟩

/-- C17, as stated, fails: with `std::less`, the push of 3 on the heap that holds 5 links
the two roots of degree 0; the root with the value 5, which is not less than 3, stays a root
and gets the degree 1, and the root with the value 3 becomes its child. -/
theorem link_after_5_3 :
    ∃ s, run less [.push 5, .push 3] = .ok s ∧ s.data_ = [5, 3] ∧ less 5 3 = false ∧
      (∃ n, s.nodes_[0]? = some n ∧ n.index = 0 ∧ n.parent = npos ∧ n.child = 1 ∧
        n.degree = 1) ∧
      ∃ n, s.nodes_[1]? = some n ∧ n.index = 1 ∧ n.parent = 0 :=
  ⟨_, rfl, rfl, rfl, ⟨_, rfl, rfl, rfl, rfl, rfl⟩, _, rfl, rfl, rfl⟩

/-- C17, amended: in the scan of the union, on two neighbours `x` and `next_x` of the root
list that have the same degree, with no third root of this degree after them: when the value
of `x` does not compare less than the value of `next_x`, `next_x` gets `x` as parent and
becomes the first node of the child list of `x`, and the degree of `x` grows by one; when the
value of `x` compares less than the value of `next_x`, it is `x` that becomes the first child
of `next_x`, and the link in front of the pair (`head_`, or the `right_sibling` of `prev_x`)
goes to `next_x`. So the root whose value is less becomes the child, and of two roots with
equivalent values the second one. The scan goes on with the survivor and the root after the
pair. -/
theorem unite_links_lesser_below (compare_ : α → α → Bool) (d : List α) (rm : List Nat)
    (ns : List binomial_heap_node) (i j : Nat) (a b : α) (c c' s' : Forest α)
    (fuel head prev : Nat) (hle : ns.length ≤ npos)
    (hF : rep d rm ns npos npos (node i a c (node j b c' s')) i)
    (hnd : (idxs (node i a c (node j b c' s'))).Nodup)
    (hprev : prev ∉ idxs (node i a c (node j b c' s')))
    (hpn : prev ≠ npos → ∃ np, ns[prev]? = some np)
    (hdeg : len c = len c') (h3 : third_same (len c) s' = false) :
    (compare_ a b = false → ∃ ns',
      unite_loop compare_ d (fuel + 1) ns head prev i j =
        unite_loop compare_ d fuel ns' head prev i (start npos s') ∧
      Frame [i, j] ns ns' ∧ rep d rm ns' npos npos (node i a (node j b c' c) s') i) ∧
    (compare_ a b = true → ∃ ns',
      unite_loop compare_ d (fuel + 1) ns head prev i j =
        unite_loop compare_ d fuel ns' (if prev = npos then j else head) prev j
          (start npos s') ∧
      Frame [prev, i, j] ns ns' ∧ rep d rm ns' npos npos (node j b (node i a c c') s') j ∧
      (prev ≠ npos → ∀ np, ns[prev]? = some np →
        ns'[prev]? = some { np with right_sibling := j })) :=
  unite_link_step compare_ d rm fuel head prev hle hF hnd hprev hpn hdeg h3

/-- Instance: the two roots of `two_roots_merged`, with the values 3 and 5. -/
theorem unite_links_lesser_below_witness :
    rep [5, 3] [0, 1] two_roots_merged npos npos (node 1 3 nil (node 0 5 nil nil)) 1 ∧
    less 3 5 = true ∧
    ∃ ns', unite_loop less [5, 3] (3 + 1) two_roots_merged 1 npos 1 0 =
        unite_loop less [5, 3] 3 ns' (if npos = npos then 0 else 1) npos 0
          (start npos (nil : Forest Nat)) ∧
      Frame [npos, 1, 0] two_roots_merged ns' ∧
      rep [5, 3] [0, 1] ns' npos npos (node 0 5 (node 1 3 nil nil) nil) 0 ∧
      (npos ≠ npos → ∀ np, two_roots_merged[npos]? = some np →
        ns'[npos]? = some { np with right_sibling := 0 }) :=
  have hrep : rep [5, 3] [0, 1] two_roots_merged npos npos
      (node 1 3 nil (node 0 5 nil nil)) 1 :=
    ⟨rfl, _, rfl, rfl, rfl, rfl, rfl, rfl, ⟨rfl, _, rfl, rfl, rfl, rfl, rfl, rfl, rfl⟩⟩
  ⟨hrep, rfl,
    (unite_links_lesser_below less [5, 3] [0, 1] two_roots_merged 1 0 3 5 nil nil nil 3 1 npos
      (by decide) hrep (by decide) (by decide) (fun h => absurd rfl h) rfl rfl).2 rfl⟩

end origin

namespace origin

variable {α κ : Type} [DecidableEq κ]

open Forest binomial_heap

/-- C19 fails on the code: with `std::less`, after `push 0, push 1, push 1, push 1, pop` the
root list is the node 2 and then the node 1, both with the value 1; `get_new_top` returns the
node 1, the later of the two, and this is the `top_` that `pop` has stored, while the scan in
which the first root met stays unless it is strictly exceeded gives the node 2. -/
theorem get_new_top_after_equal_values :
    ∃ s, run less [.push 0, .push 1, .push 1, .push 1, .pop] = .ok s ∧ s.head_ = 2 ∧
      (∃ n, s.nodes_[2]? = some n ∧ n.right_sibling = 1 ∧ s.data_[n.index]? = some 1) ∧
      (∃ n, s.nodes_[1]? = some n ∧ n.right_sibling = npos ∧ s.data_[n.index]? = some 1) ∧
      get_new_top less s = .ok 1 ∧ s.top_ = 1 ∧ (first_best less (2, 1) [(1, 1)]).1 = 2 :=
  ⟨_, rfl, rfl, ⟨_, rfl, rfl, rfl⟩, ⟨_, rfl, rfl, rfl⟩, rfl, rfl, rfl⟩

/-- C20: on a state whose root list at `head_` is `P` and that has a second list `Q` at
`index`, both with degrees that increase (and with nodes that all differ), `merge(index)`
returns, and `head_` is then the start of one list that ends at the none sentinel, of nodes
without parent. The list has the nodes of `P` and of `Q` and no others; its degrees do not
decrease; the nodes of `P` are in it in their order, and so are the nodes of `Q`; of a node
of `P` and a node of `Q` with the same degree, the node of `Q` comes first. The node array
has the length it had, and its nodes differ in `right_sibling` at most; values, reverse map
and `top_` are what they were, and the call does the same on any other values. -/
theorem merge_is_stable (s : binomial_heap α) (P Q : Forest α) (index : Nat)
    (hlt : s.nodes_.length < npos)
    (hP : rep s.data_ s.reversemap_ s.nodes_ npos npos P s.head_)
    (hQ : rep s.data_ s.reversemap_ s.nodes_ npos npos Q index)
    (hnd : (idxs P ++ idxs Q).Nodup)
    (hPs : (ranks P).Sorted (· < ·)) (hQs : (ranks Q).Sorted (· < ·)) :
    ∃ s', s.merge index = .ok s' ∧
      rep s.data_ s.reversemap_ s'.nodes_ npos npos (mergeF P Q) s'.head_ ∧
      (∃ l, root_chain s'.nodes_ s'.head_ l ∧ (∀ n ∈ l, n.parent = npos) ∧
        l.map (·.degree) = ranks (mergeF P Q)) ∧
      (heads (mergeF P Q)).Perm (heads P ++ heads Q) ∧
      (ranks (mergeF P Q)).Sorted (· ≤ ·) ∧
      (heads P).Sublist (heads (mergeF P Q)) ∧ (heads Q).Sublist (heads (mergeF P Q)) ∧
      (∀ (i j k : Nat), (i, k) ∈ hranks P → (j, k) ∈ hranks Q →
        [j, i].Sublist (heads (mergeF P Q))) ∧
      OnlySiblings s.nodes_ s'.nodes_ ∧ s'.data_ = s.data_ ∧
      s'.reversemap_ = s.reversemap_ ∧ s'.top_ = s.top_ ∧
      ∀ d' : List α, merge { s with data_ := d' } index = .ok { s' with data_ := d' } := by
  obtain ⟨s', hm, hd, hr, ht, -, -, hrep⟩ := merge_spec hlt hP hQ hnd
  obtain ⟨hs, -, -, -⟩ := merge_siblings hm
  have hQle : (ranks Q).Sorted (· ≤ ·) := hQs.imp (fun h => Nat.le_of_lt h)
  have hPle : (ranks P).Sorted (· ≤ ·) := hPs.imp (fun h => Nat.le_of_lt h)
  exact ⟨s', hm, hrep, root_chain_of_rep _ _ hrep, heads_mergeF P Q,
    sorted_mergeF P Q hPle hQle, heads_mergeF_left P Q, heads_mergeF_right P Q,
    mergeF_ties P Q hQle, hs, hd, hr, ht, merge_data hm⟩

/-- Instance: the two roots of degree 0 of `two_roots`; the root at `index` comes first. -/
theorem merge_is_stable_witness :
    rep two_roots.data_ two_roots.reversemap_ two_roots.nodes_ npos npos
      (node 0 5 nil nil) two_roots.head_ ∧
    rep two_roots.data_ two_roots.reversemap_ two_roots.nodes_ npos npos
      (node 1 3 nil nil) 1 ∧
    heads (mergeF (node 0 5 nil nil) (node 1 3 nil nil)) = [1, 0] ∧
    ∃ s', two_roots.merge 1 = .ok s' ∧
      rep two_roots.data_ two_roots.reversemap_ s'.nodes_ npos npos
        (mergeF (node 0 5 nil nil) (node 1 3 nil nil)) s'.head_ ∧
      (∃ l, root_chain s'.nodes_ s'.head_ l ∧ (∀ n ∈ l, n.parent = npos) ∧
        l.map (·.degree) = ranks (mergeF (node 0 5 nil nil) (node 1 3 nil nil))) ∧
      (heads (mergeF (node 0 5 nil nil) (node 1 3 nil nil))).Perm
        (heads (node 0 5 nil nil) ++ heads (node 1 3 nil nil)) ∧
      (ranks (mergeF (node 0 5 nil nil) (node 1 3 nil nil))).Sorted (· ≤ ·) ∧
      (heads (node 0 5 nil nil)).Sublist
        (heads (mergeF (node 0 5 nil nil) (node 1 3 nil nil))) ∧
      (heads (node 1 3 nil nil)).Sublist
        (heads (mergeF (node 0 5 nil nil) (node 1 3 nil nil))) ∧
      (∀ (i j k : Nat), (i, k) ∈ hranks (node 0 5 nil nil) →
        (j, k) ∈ hranks (node 1 3 nil nil) →
        [j, i].Sublist (heads (mergeF (node 0 5 nil nil) (node 1 3 nil nil)))) ∧
      OnlySiblings two_roots.nodes_ s'.nodes_ ∧ s'.data_ = two_roots.data_ ∧
      s'.reversemap_ = two_roots.reversemap_ ∧ s'.top_ = two_roots.top_ ∧
      ∀ d' : List Nat, merge { two_roots with data_ := d' } 1 = .ok { s' with data_ := d' } :=
  have hP : rep two_roots.data_ two_roots.reversemap_ two_roots.nodes_ npos npos
      (node 0 5 nil nil) two_roots.head_ := ⟨rfl, _, rfl, rfl, rfl, rfl, rfl, rfl, rfl⟩
  have hQ : rep two_roots.data_ two_roots.reversemap_ two_roots.nodes_ npos npos
      (node 1 3 nil nil) 1 := ⟨rfl, _, rfl, rfl, rfl, rfl, rfl, rfl, rfl⟩
  ⟨hP, hQ, by simp [mergeF_node_node, mergeF_nil_left],
    merge_is_stable two_roots (node 0 5 nil nil) (node 1 3 nil nil) 1 (by decide) hP hQ
      (by decide) (by simp) (by simp)⟩

end origin

namespace origin

open csv_row

/-! ## The searches of the field reader -/

theorem indexOf_here (c : Char) : ∀ l : List Char, l.indexOf c < l.length →
    l[l.indexOf c]? = some c := by
  intro l
  induction l with
  | nil => intro h; simp at h
  | cons x xs ih =>
    intro h
    rw [List.indexOf_cons] at h ⊢
    by_cases e : x = c
    · simp [e]
    · have e' : (x == c) = false := by simpa using e
      rw [e'] at h ⊢
      simp only [cond_false, List.length_cons, Nat.add_lt_add_iff_right] at h ⊢
      rw [List.getElem?_cons_succ]
      exact ih h

theorem indexOf_before (c : Char) : ∀ (l : List Char) (i : Nat), i < l.indexOf c →
    l[i]? ≠ some c := by
  intro l
  induction l with
  | nil => intro i _; simp
  | cons x xs ih =>
    intro i h
    rw [List.indexOf_cons] at h
    by_cases e : x = c
    · simp [e] at h
    · have e' : (x == c) = false := by simpa using e
      rw [e'] at h
      simp only [cond_false] at h
      cases i with
      | zero => simpa using e
      | succ i =>
        rw [List.getElem?_cons_succ]
        exact ih i (by omega)

/-- A search that finds a position: it is the first one from `pos` on with the character. -/
theorem find_some {ln : List Char} {c : Char} {pos p : Nat} :
    find_first_of ln c pos = some p ↔
      pos ≤ p ∧ ln[p]? = some c ∧ ∀ i, pos ≤ i → i < p → ln[i]? ≠ some c := by
  unfold find_first_of
  dsimp only
  constructor
  · intro h
    split at h
    · rename_i hlt
      cases h
      refine ⟨Nat.le_add_right _ _, ?_, fun i h1 h2 => ?_⟩
      · have := indexOf_here c _ hlt
        rwa [List.getElem?_drop] at this
      · have := indexOf_before c (ln.drop pos) (i - pos) (by omega)
        rwa [List.getElem?_drop, Nat.add_sub_cancel' h1] at this
    · cases h
  · rintro ⟨h1, h2, h3⟩
    have hp : p < ln.length := lt_of_get h2
    have hle : (ln.drop pos).indexOf c ≤ p - pos := by
      by_contra hlt
      have := indexOf_before c (ln.drop pos) (p - pos) (by omega)
      rw [List.getElem?_drop, Nat.add_sub_cancel' h1] at this
      exact this h2
    have hlt : (ln.drop pos).indexOf c < (ln.drop pos).length := by
      rw [List.length_drop]
      omega
    rw [if_pos hlt]
    have hge : ¬ (pos + (ln.drop pos).indexOf c < p) := by
      intro hh
      have := indexOf_here c _ hlt
      rw [List.getElem?_drop] at this
      exact h3 _ (Nat.le_add_right _ _) hh this
    congr 1
    omega

/-- A search without success: no position from `pos` on has the character. -/
theorem find_none {ln : List Char} {c : Char} {pos : Nat} :
    find_first_of ln c pos = none ↔ ∀ i, pos ≤ i → ln[i]? ≠ some c := by
  constructor
  · intro h i hi hc
    have hex : ∃ p, pos ≤ p ∧ ln[p]? = some c := ⟨i, hi, hc⟩
    classical
    obtain ⟨h1, h2⟩ := Nat.find_spec hex
    have := (@find_some ln c pos (Nat.find hex)).2
      ⟨h1, h2, fun j hj hlt hjc => Nat.find_min hex hlt ⟨hj, hjc⟩⟩
    rw [h] at this
    cases this
  · intro h
    cases hf : find_first_of ln c pos with
    | none => rfl
    | some p =>
      obtain ⟨h1, h2, -⟩ := find_some.1 hf
      exact absurd h2 (h p h1)

end origin

namespace origin

open csv_row

/-- The field reader at a position whose character is neither a quotation mark nor the
separator does what the specification says: the search from `n + 1` finds what the search
from `n` finds. -/
theorem read_field_off_separator (r : csv_row) (ln : List Char) (n : Nat) (sep c : Char)
    (hc : ln[n]? = some c) (hq : c ≠ quote) (hs : c ≠ sep) :
    r.read_field ln n sep = .ok (read_field_spec r ln n sep) := by
  have hn : n < ln.length := lt_of_get hc
  have hfind : find_first_of ln sep (n + 1) = find_first_of ln sep n := by
    cases h : find_first_of ln sep n with
    | none =>
      rw [find_none] at h ⊢
      exact fun i hi => h i (by omega)
    | some p =>
      rw [find_some] at h ⊢
      obtain ⟨h1, h2, h3⟩ := h
      have hne : p ≠ n := by
        rintro rfl
        rw [hc] at h2
        exact hs (Option.some.inj h2)
      exact ⟨by omega, h2, fun i hi hlt => h3 i (by omega) hlt⟩
  unfold read_field read_field_spec
  rw [hc]
  simp only [if_neg hq, hfind, substr, if_pos (Nat.le_of_lt hn), ok_bind, pure, Except.pure]

/-- C23 fails on the code: on the line `a,,b` with the comma as separator, the field reader
at the position 2, where the empty field between the two commas starts, appends the text
`,b` and moves `n` to 5, while the specification gives the empty text and `n = 3`; the member
`read` reads the line as the two fields `a` and `,b`, not as `a`, the empty text and `b`. -/
theorem empty_field_is_not_read :
    (⟨[], 0⟩ : csv_row).read_field "a,,b".toList 2 comma =
      .ok (⟨[",b".toList], 0⟩, 5) ∧
    read_field_spec ⟨[], 0⟩ "a,,b".toList 2 comma = (⟨["".toList], 0⟩, 3) ∧
    (⟨[], 0⟩ : csv_row).read "a,,b".toList comma = .ok ⟨["a".toList, ",b".toList], 1⟩ ∧
    split_fields comma [] "a,,b".toList = ["a".toList, "".toList, "b".toList] :=
  ⟨rfl, rfl, rfl, rfl⟩

/-- C24: the field reader at a position `n` of the line raises no other exception than
`csv_error(row, n, "unmatched quotation mark")`; it raises it when and only when the
character at `n` is a quotation mark and no position behind `n` has a quotation mark, and
then no field is appended (the call gives no row); when `p` is the first position behind `n`
with a quotation mark, the call appends the trimmed text of the positions between `n` and `p`
and moves `n` to `q + 1`, where `q` is the first position behind `p` with the separator, or the
length of the line when there is none. -/
theorem quoted_field (r : csv_row) (ln : List Char) (n : Nat) (sep : Char)
    (hn : n < ln.length) :
    (∀ e, r.read_field ln n sep = .error e →
      e = .csv_error r.row n "unmatched quotation mark") ∧
    (r.read_field ln n sep = .error (.csv_error r.row n "unmatched quotation mark") ↔
      ln[n]? = some quote ∧ ∀ i, n < i → ln[i]? ≠ some quote) ∧
    ∀ p, ln[n]? = some quote → n < p → ln[p]? = some quote →
      (∀ i, n < i → i < p → ln[i]? ≠ some quote) →
      ∃ q, r.read_field ln n sep =
          .ok ({ r with data := r.data ++ [trim ((ln.drop (n + 1)).take (p - n - 1))] },
            q + 1) ∧
        ((q = ln.length ∧ ∀ i, p < i → ln[i]? ≠ some sep) ∨
          (p < q ∧ ln[q]? = some sep ∧ ∀ i, p < i → i < q → ln[i]? ≠ some sep)) := by
  obtain ⟨c, hc⟩ : ∃ c, ln[n]? = some c := ⟨_, List.getElem?_eq_getElem hn⟩
  have hsub : ∀ len, substr ln (n + 1) len = .ok ((ln.drop (n + 1)).take len) := by
    intro len
    simp [substr, Nat.succ_le_of_lt hn]
  have hsub' : ∀ len, substr ln n len = .ok ((ln.drop n).take len) := by
    intro len
    simp [substr, Nat.le_of_lt hn]
  by_cases hq : c = quote
  · subst hq
    cases hf : find_first_of ln quote (n + 1) with
    | none =>
      have hrun : r.read_field ln n sep =
          .error (.csv_error r.row n "unmatched quotation mark") := by
        unfold read_field
        simp only [hc, if_true, hf]
      have hno := find_none.1 hf
      refine ⟨fun e he => ?_, ?_, fun p _ hp hpq _ => ?_⟩
      · rw [hrun] at he
        exact (Except.error.inj he).symm
      · exact ⟨fun _ => ⟨hc, fun i hi => hno i hi⟩, fun _ => hrun⟩
      · exact absurd hpq (hno p hp)
    | some p0 =>
      have hp0 := find_some.1 hf
      have hrun : ∃ q, r.read_field ln n sep =
          .ok ({ r with data := r.data ++ [trim ((ln.drop (n + 1)).take (p0 - n - 1))] },
            q + 1) ∧
          ((q = ln.length ∧ ∀ i, p0 < i → ln[i]? ≠ some sep) ∨
            (p0 < q ∧ ln[q]? = some sep ∧ ∀ i, p0 < i → i < q → ln[i]? ≠ some sep)) := by
        cases hg : find_first_of ln sep (p0 + 1) with
        | none =>
          refine ⟨ln.length, ?_, Or.inl ⟨rfl, fun i hi => find_none.1 hg i hi⟩⟩
          unfold read_field
          simp only [hc, if_true, hf, hsub, ok_bind, hg, pure, Except.pure]
        | some q =>
          obtain ⟨h1, h2, h3⟩ := find_some.1 hg
          refine ⟨q, ?_, Or.inr ⟨h1, h2, fun i hi => h3 i hi⟩⟩
          unfold read_field
          simp only [hc, if_true, hf, hsub, ok_bind, hg, pure, Except.pure]
      refine ⟨fun e he => ?_, ?_, fun p _ hp hpq hmin => ?_⟩
      · obtain ⟨q, hq, -⟩ := hrun
        rw [hq] at he
        cases he
      · constructor
        · intro he
          obtain ⟨q, hq, -⟩ := hrun
          rw [hq] at he
          cases he
        · rintro ⟨-, hno⟩
          exact absurd hp0.2.1 (hno p0 hp0.1)
      · have hpp : p = p0 := by
          rcases Nat.lt_trichotomy p p0 with h | h | h
          · exact absurd hpq (hp0.2.2 p hp h)
          · exact h
          · exact absurd hp0.2.1 (hmin p0 hp0.1 h)
        subst hpp
        exact hrun
  · have hrun : ∃ x, r.read_field ln n sep = .ok x := by
      unfold read_field
      simp only [hc, if_neg hq, hsub', ok_bind, pure, Except.pure]
      exact ⟨_, rfl⟩
    obtain ⟨x, hx⟩ := hrun
    have hnq : ln[n]? ≠ some quote := by
      rw [hc]
      exact fun h => hq (Option.some.inj h)
    refine ⟨fun e he => ?_, ?_, fun p hnq' => absurd hnq' hnq⟩
    · rw [hx] at he
      cases he
    · constructor
      · intro he
        rw [hx] at he
        cases he
      · rintro ⟨h, -⟩
        exact absurd h hnq

/-- Instance: a line that starts with a quotation mark and has no second one. -/
theorem quoted_field_witness :
    0 < [quote, comma].length ∧
    ((⟨[], 7⟩ : csv_row).read_field [quote, comma] 0 comma =
        .error (.csv_error 7 0 "unmatched quotation mark") ↔
      [quote, comma][0]? = some quote ∧ ∀ i, 0 < i → [quote, comma][i]? ≠ some quote) :=
  ⟨by decide, (quoted_field ⟨[], 7⟩ [quote, comma] 0 comma (by decide)).2.1⟩

/-- C25 fails on the code: `empty()` returns `data.size()` converted to `bool`, which is true
when and only when the row has a field; on the row without fields it is false, and on a row
with one field it is true. -/
theorem empty_of_csv_row :
    (∀ r : csv_row, r.empty = true ↔ r.size ≠ 0) ∧
    (⟨[], 0⟩ : csv_row).size = 0 ∧ (⟨[], 0⟩ : csv_row).empty = false ∧
    (⟨["a".toList], 0⟩ : csv_row).size = 1 ∧ (⟨["a".toList], 0⟩ : csv_row).empty = true :=
  ⟨fun r => by simp [csv_row.empty, csv_row.size], rfl, rfl, rfl, rfl⟩

end origin

namespace origin

variable {α : Type}

open Forest binomial_heap

/-! ## Parents in a forest -/

namespace Forest

theorem childrenOf_not_mem (t : Nat) : ∀ (F : Forest α), t ∉ idxs F → childrenOf t F = nil := by
  intro F
  induction F with
  | nil => intro _; rfl
  | node i a c s _ ihs =>
    intro h
    simp only [idxs_node, List.mem_cons, List.mem_append, not_or] at h
    obtain ⟨h1, h2, h3⟩ := h
    simp only [childrenOf, if_neg (Ne.symm h1), if_neg h2]
    exact ihs h3

end Forest

/-- In a forest in heap order every node with a parent has a value that the value of the
parent does not compare less than. -/
theorem rep_order (lt : α → α → Bool) {d : List α} {rm : List Nat}
    {ns : List binomial_heap_node} : ∀ (F : Forest α) (p e x : Nat),
    rep d rm ns p e F x → hord lt F →
    (p ≠ npos → ∃ (np : binomial_heap_node) (vp : α), ns[p]? = some np ∧
      d[np.index]? = some vp ∧ ∀ b ∈ vals F, lt vp b = false) →
    ∀ c ∈ idxs F, ∀ nc : binomial_heap_node, ns[c]? = some nc → nc.parent ≠ npos →
    ∃ (np : binomial_heap_node) (vp vc : α), ns[nc.parent]? = some np ∧
      d[np.index]? = some vp ∧ d[nc.index]? = some vc ∧ lt vp vc = false := by
  intro F
  induction F with
  | nil => intro p e x _ _ _ c hc; simp at hc
  | node i a cc s ihc ihs =>
    intro p e x hF hh hp c hc nc hnc hpar
    rw [rep_node] at hF
    obtain ⟨-, n, hn, hnp, -, hv, -, hcc, hs⟩ := hF
    simp only [hord_node] at hh
    obtain ⟨ha, hhc, hhs⟩ := hh
    simp only [idxs_node, List.mem_cons, List.mem_append] at hc
    rcases hc with rfl | hc | hc
    · rw [hn] at hnc
      cases hnc
      rw [hnp] at hpar ⊢
      obtain ⟨np, vp, h1, h2, h3⟩ := hp hpar
      exact ⟨np, vp, a, h1, h2, hv, h3 a (by simp)⟩
    · exact ihc i npos _ hcc hhc (fun _ => ⟨n, a, hn, hv, ha⟩) c hc nc hnc hpar
    · refine ihs p e _ hs hhs (fun h => ?_) c hc nc hnc hpar
      obtain ⟨np, vp, h1, h2, h3⟩ := hp h
      exact ⟨np, vp, h1, h2, fun b hb => h3 b (by simp [hb])⟩

/-- A node of a forest that is neither the node `t` nor below it is a root, or its parent is
a node of the forest that is neither `t` nor below it. -/
theorem rep_parent_outside {d : List α} {rm : List Nat} {ns : List binomial_heap_node}
    (t : Nat) : ∀ (F : Forest α) (p e x : Nat), rep d rm ns p e F x → (idxs F).Nodup →
    ∀ c ∈ idxs F, c ≠ t → c ∉ idxs (childrenOf t F) →
    ∀ nc : binomial_heap_node, ns[c]? = some nc →
    nc.parent = p ∨
      (nc.parent ∈ idxs F ∧ nc.parent ≠ t ∧ nc.parent ∉ idxs (childrenOf t F)) := by
  intro F
  induction F with
  | nil => intro p e x _ _ c hc; simp at hc
  | node i a cc s ihc ihs =>
    intro p e x hF hnd c hc hct hcn nc hnc
    rw [rep_node] at hF
    obtain ⟨-, n, hn, hnp, -, -, -, hcc, hs⟩ := hF
    simp only [idxs_node, List.nodup_cons, List.mem_append, not_or, List.nodup_append,
      List.disjoint_left] at hnd
    obtain ⟨⟨hic, his⟩, hcnd, hsnd, hcs⟩ := hnd
    have hsubc := (childrenOf_sublist t cc).subset
    have hsubs := (childrenOf_sublist t s).subset
    simp only [idxs_node, List.mem_cons, List.mem_append] at hc
    rcases hc with rfl | hc | hc
    · rw [hn] at hnc
      cases hnc
      exact Or.inl hnp
    · -- a node below `i`
      right
      by_cases hit : i = t
      · subst hit
        simp only [childrenOf, if_true] at hcn
        exact absurd hc hcn
      · by_cases htc : t ∈ idxs cc
        · simp only [childrenOf, if_neg hit, if_pos htc] at hcn ⊢
          rcases ihc i npos _ hcc hcnd c hc hct hcn nc hnc with h | ⟨h1, h2, h3⟩
          · rw [h]
            exact ⟨by simp, hit, fun h' => hic (hsubc h')⟩
          · exact ⟨by simp [h1], h2, h3⟩
        · simp only [childrenOf, if_neg hit, if_neg htc] at hcn ⊢
          have hnil : childrenOf t cc = nil := childrenOf_not_mem t cc htc
          rcases ihc i npos _ hcc hcnd c hc hct (by rw [hnil]; simp) nc hnc with
            h | ⟨h1, h2, -⟩
          · rw [h]
            exact ⟨by simp, hit, fun h' => his (hsubs h')⟩
          · exact ⟨by simp [h1], h2, fun h' => hcs h1 (hsubs h')⟩
    · -- a node behind `i` on the list
      have hcn' : c ∉ idxs (childrenOf t s) := by
        by_cases hit : i = t
        · subst hit
          rw [childrenOf_not_mem i s his]
          simp
        · by_cases htc : t ∈ idxs cc
          · rw [childrenOf_not_mem t s (fun h => hcs htc h)]
            simp
          · simpa only [childrenOf, if_neg hit, if_neg htc] using hcn
      rcases ihs p e _ hs hsnd c hc hct hcn' nc hnc with h | ⟨h1, h2, h3⟩
      · exact Or.inl h
      · refine Or.inr ⟨by simp [h1], h2, ?_⟩
        by_cases hit : i = t
        · subst hit
          simp only [childrenOf, if_true]
          exact fun h' => hcs h' h1
        · by_cases htc : t ∈ idxs cc
          · simp only [childrenOf, if_neg hit, if_pos htc]
            exact fun h' => hcs (hsubc h') h1
          · simp only [childrenOf, if_neg hit, if_neg htc]
            exact h3

end origin

namespace origin

variable {α : Type}

open Forest binomial_heap

/-! ## The nodes over the steps of `push` and `pop` -/

/-- The third block of `pop` on the nodes: every live node but `temp` stays live, with its
parent and its value; the node `temp` is not live afterwards. -/
theorem compact_nodes {s s' : binomial_heap α} (h : Slots s) (hlt : s.nodes_.length < npos)
    {temp : Nat} (hp : pop_compact s temp = .ok s') :
    (∀ (c : Nat) (n : binomial_heap_node), c ≠ temp → s.nodes_[c]? = some n →
      n.index < s.data_.length →
      ∃ n' : binomial_heap_node, s'.nodes_[c]? = some n' ∧ n'.parent = n.parent ∧
        n'.index < s'.data_.length ∧ s'.data_[n'.index]? = s.data_[n.index]?) ∧
    (∀ (c : Nat) (n' : binomial_heap_node), s'.nodes_[c]? = some n' →
      n'.index < s'.data_.length →
      c ≠ temp ∧ ∃ n : binomial_heap_node, s.nodes_[c]? = some n ∧
        n.index < s.data_.length) := by
  unfold pop_compact at hp
  obtain ⟨index, hidx, hp⟩ := bind_ok hp
  obtain ⟨ntemp, hnt, hp⟩ := bind_ok hp
  obtain ⟨last, hlast, hp⟩ := bind_ok hp
  obtain ⟨data1, hd1, hp⟩ := bind_ok hp
  obtain ⟨rm1, hr1, hp⟩ := bind_ok hp
  obtain ⟨ns1, hn1, hp⟩ := bind_ok hp
  obtain ⟨ns2, hn2, hp⟩ := bind_ok hp
  cases hp
  rw [at_ok_iff] at hidx hnt hlast
  obtain ⟨ht, rfl⟩ := put_inv hd1
  obtain ⟨-, rfl⟩ := put_inv hr1
  obtain ⟨x, hx, rfl⟩ := upd_inv hn1
  obtain ⟨y, hy, rfl⟩ := upd_inv hn2
  have hrm := h.rm_len
  have hle := h.le_nodes
  have hpos : 0 < s.data_.length := by
    have := lt_of_get hlast
    omega
  rw [hrm] at hidx
  obtain ⟨i, n, h1, h2, h3⟩ := h.owner (s.data_.length - 1) (by omega)
  rw [hidx] at h1
  cases h1
  rw [hx] at h2
  cases h2
  have hbt := h.back temp ntemp hnt ht
  have hlen' : ((s.data_.set ntemp.index last).dropLast).length = s.data_.length - 1 := by
    simp
  have hfwd : ∀ (c : Nat) (n : binomial_heap_node), c ≠ temp → s.nodes_[c]? = some n →
      n.index < s.data_.length →
      ∃ n' : binomial_heap_node,
        ((s.nodes_.set index { x with index := ntemp.index }).set temp
          { y with parent := npos, child := npos, right_sibling := npos, degree := 0,
                   index := npos })[c]? = some n' ∧ n'.parent = n.parent ∧
        n'.index < ((s.data_.set ntemp.index last).dropLast).length ∧
        ((s.data_.set ntemp.index last).dropLast)[n'.index]? = s.data_[n.index]? := by
    intro c n hct hn hlive
    have hb := h.back c n hn hlive
    have hne_t : n.index ≠ ntemp.index := by
      intro e
      rw [e, hbt] at hb
      exact hct (Option.some.inj hb).symm
    rw [hlen', get_set_other _ (Ne.symm hct)]
    by_cases hci : c = index
    · subst hci
      rw [hx] at hn
      cases hn
      have hlt' : ntemp.index < s.data_.length - 1 := by omega
      refine ⟨{ x with index := ntemp.index }, get_set_self _ hx, rfl, hlt', ?_⟩
      show ((s.data_.set ntemp.index last).dropLast)[ntemp.index]? = s.data_[x.index]?
      rw [List.getElem?_dropLast, if_pos (by simpa using hlt'), h3, hlast]
      exact get_set_self _ (List.getElem?_eq_getElem ht)
    · have hnl : n.index ≠ s.data_.length - 1 := by
        intro e
        rw [e, hidx] at hb
        exact hci (Option.some.inj hb).symm
      have hlt' : n.index < s.data_.length - 1 := by omega
      refine ⟨n, by rw [get_set_other _ (Ne.symm hci)]; exact hn, rfl, hlt', ?_⟩
      rw [List.getElem?_dropLast, if_pos (by simpa using hlt')]
      exact get_set_other _ (Ne.symm hne_t)
  refine ⟨hfwd, ?_⟩
  intro c n' hn' hlive
  have hct : c ≠ temp := by
    intro e
    subst e
    rw [get_set_self _ hy] at hn'
    cases hn'
    rw [hlen'] at hlive
    change npos < _ at hlive
    omega
  refine ⟨hct, ?_⟩
  have hc : c < s.nodes_.length := by
    have := lt_of_get hn'
    simpa using this
  obtain ⟨n, hn⟩ : ∃ n, s.nodes_[c]? = some n := ⟨_, List.getElem?_eq_getElem hc⟩
  refine ⟨n, hn, ?_⟩
  rcases h.valid c n hn with e | e
  · exfalso
    rw [get_set_other _ (Ne.symm hct)] at hn'
    by_cases hci : c = index
    · subst hci
      rw [hx] at hn
      cases hn
      rw [e] at h3
      have : s.data_.length ≤ npos := by omega
      omega
    · rw [get_set_other _ (Ne.symm hci), hn] at hn'
      cases hn'
      rw [e, hlen'] at hlive
      omega
  · exact e

end origin

namespace origin

variable {α : Type}

open Forest binomial_heap

/-- The member `push` on the nodes: the nodes outside of the forest are left alone. -/
theorem push_nodes (lt : α → α → Bool) {s s' : binomial_heap α} {F : Forest α} (hR : Rep s F)
    (hlt : s.nodes_.length + 1 < npos) {d : α} (hp : push lt s d = .ok s') :
    s'.data_ = s.data_ ++ [d] ∧
      ∀ j : Nat, j ∉ idxs F → j ≠ s.nodes_.length → s'.nodes_[j]? = s.nodes_[j]? := by
  set N := s.nodes_.length with hN
  set obj : binomial_heap_node :=
    { index := (s.data_ ++ [d]).length - 1, parent := npos, right_sibling := npos,
      child := npos, degree := 0 } with hobj
  have hoi : obj.index = s.data_.length := by simp [hobj]
  have hrmN : (s.nodes_ ++ [obj]).length - 1 = N := by simp [hN]
  set s1 : binomial_heap α :=
    { s with data_ := s.data_ ++ [d], nodes_ := s.nodes_ ++ [obj],
             reversemap_ := s.reversemap_ ++ [N] } with hs1
  have hinF : ∀ i ∈ idxs F, i < N := rep_lt hR.forest
  have happ : ∀ j : Nat, j ≠ N → (s.nodes_ ++ [obj])[j]? = s.nodes_[j]? := by
    intro j hj
    by_cases hjl : j < N
    · exact List.getElem?_append_left hjl
    · rw [List.getElem?_eq_none (by simp; omega), List.getElem?_eq_none (by omega)]
  have hF1 : rep s1.data_ s1.reversemap_ s1.nodes_ npos npos F s.head_ := by
    refine rep_congr F hR.forest ?_
    intro i hi n hn
    refine ⟨n, ?_, rfl, rfl, rfl, rfl, ?_⟩
    · show (s.nodes_ ++ [obj])[i]? = some n
      rw [List.getElem?_append_left (lt_of_get hn)]; exact hn
    · intro a ha hr
      refine ⟨?_, ?_⟩
      · show (s.data_ ++ [d])[n.index]? = some a
        rw [List.getElem?_append_left (lt_of_get ha)]; exact ha
      · show (s.reversemap_ ++ [_])[n.index]? = some i
        rw [List.getElem?_append_left (lt_of_get hr)]; exact hr
  have hN1 : s1.nodes_[N]? = some obj := by
    show (s.nodes_ ++ [obj])[N]? = some obj
    simp [hN]
  have hdN : s1.data_[s.data_.length]? = some d := by
    show (s.data_ ++ [d])[s.data_.length]? = some d
    simp
  have hrN : s1.reversemap_[s.data_.length]? = some N := by
    show (s.reversemap_ ++ [_])[s.data_.length]? = some N
    rw [← hR.rm_len]
    simp
  have hQ1 : rep s1.data_ s1.reversemap_ s1.nodes_ npos npos (node N d nil nil) N := by
    rw [rep_node]
    refine ⟨rfl, obj, hN1, rfl, rfl, ?_, ?_, rfl, rfl⟩
    · rw [hoi]; exact hdN
    · rw [hoi]; exact hrN
  have hnl1 : s1.nodes_.length = N + 1 := by simp [hs1, hN]
  unfold push at hp
  simp only [← hobj, hrmN, ← hs1] at hp
  split at hp
  · cases hp
    exact ⟨rfl, fun j _ hj => happ j hj⟩
  · obtain ⟨s2, h2, hp⟩ := bind_ok hp
    obtain ⟨ni, -, hp⟩ := bind_ok hp
    obtain ⟨a, -, hp⟩ := bind_ok hp
    obtain ⟨nt, -, hp⟩ := bind_ok hp
    obtain ⟨b, -, hp⟩ := bind_ok hp
    obtain ⟨s2', hun, hd2, -, -, hFr2, -⟩ := unite_spec lt (s := s1) (q := N)
      (by rw [hnl1]; exact hlt) hF1 hQ1
      (by
        simp only [idxs_node, idxs_nil, List.append_nil]
        rw [List.nodup_append]
        refine ⟨hR.nodup, by simp, ?_⟩
        intro k hk hk'
        simp only [List.mem_singleton] at hk'
        subst hk'
        exact Nat.lt_irrefl _ (hinF _ hk))
      (by
        intro h
        have := (mergeF_eq_nil h).2
        cases this)
    have e2 : s2 = s2' := by
      have := h2.symm.trans hun
      cases this
      rfl
    subst e2
    have hfr : ∀ j : Nat, j ∉ idxs F → j ≠ N → s2.nodes_[j]? = s.nodes_[j]? := by
      intro j hj hjn
      rw [hFr2.2.1 j (by simp [hj, hjn])]
      exact happ j hjn
    split at hp
    · cases hp
      exact ⟨hd2, hfr⟩
    · cases hp
      exact ⟨hd2, hfr⟩

end origin

namespace origin

variable {α : Type}

open Forest binomial_heap

/-! ## Heap order in every reachable state -/

theorem OInv.oinv_new (lt : α → α → Bool) : OInv lt (binomial_heap.new : binomial_heap α) :=
  ⟨nil, Rep.rep_new, fun h => absurd rfl h, fun _ => rfl, by simp, Slots.slots_new,
    fun c nc hnc => by simp [binomial_heap.new] at hnc⟩

/-- The member `push` keeps heap order. -/
theorem OInv.oinv_push (lt : α → α → Bool) (hsw : StrictWeak lt) {s s' : binomial_heap α}
    (h : OInv lt s) (hlt : s.nodes_.length + 1 < npos) {d : α} (hp : push lt s d = .ok s') :
    OInv lt s' ∧ s'.nodes_.length = s.nodes_.length + 1 := by
  obtain ⟨F, hR, ht, -, hh, hS, hO⟩ := h
  obtain ⟨s2, hrun, hR', -, hl, ht1, ht2⟩ := push_spec lt hR hlt ht d
  have e2 : s' = s2 := by
    have := hp.symm.trans hrun
    cases this
    rfl
  subst e2
  obtain ⟨hd, hfr⟩ := push_nodes lt hR hlt hp
  have hperm := idxs_pushF lt s.nodes_.length d F
  refine ⟨⟨_, hR', ?_, ?_, hord_pushF lt hsw.negtrans hsw.asymm _ d F hh,
    (Slots.slots_push lt hS (by omega) hp).1, ?_⟩, hl⟩
  · intro _
    by_cases hF : F = nil
    · rw [ht1 hF]
      exact hperm.symm.subset (by simp)
    · obtain ⟨tv, -, -, e⟩ := ht2 hF
      rw [e]
      split
      · exact hperm.symm.subset (by simp)
      · exact hperm.symm.subset (List.mem_cons_of_mem _ (ht hF))
  · intro h0
    rw [h0] at hperm
    simp at hperm
  · intro c nc hnc hcF hlive hpar
    have hc2 : c ≠ s.nodes_.length ∧ c ∉ idxs F := by
      constructor
      · intro e
        exact hcF (hperm.symm.subset (by simp [e]))
      · intro e
        exact hcF (hperm.symm.subset (List.mem_cons_of_mem _ e))
    rw [hfr c hc2.2 hc2.1] at hnc
    have hle := hS.le_nodes
    have hlive0 : nc.index < s.data_.length := by
      rcases hS.valid c nc hnc with e | e
      · rw [hd, e] at hlive
        simp at hlive
        omega
      · exact e
    obtain ⟨hpF, np, vp, vc, h1, h2, h3, h4⟩ := hO c nc hnc hc2.2 hlive0 hpar
    have hpN : nc.parent ≠ s.nodes_.length := Nat.ne_of_lt (lt_of_get h1)
    refine ⟨?_, np, vp, vc, ?_, ?_, ?_, h4⟩
    · intro e
      rcases List.mem_cons.1 (hperm.subset e) with e | e
      · exact hpN e
      · exact hpF e
    · rw [hfr _ hpF hpN]
      exact h1
    · rw [hd, List.getElem?_append_left (lt_of_get h2)]
      exact h2
    · rw [hd, List.getElem?_append_left (lt_of_get h3)]
      exact h3

/-- The member `pop` keeps heap order. -/
theorem OInv.oinv_pop (lt : α → α → Bool) (hsw : StrictWeak lt) {s s' : binomial_heap α}
    (h : OInv lt s) (hp : pop lt s = .ok s') :
    OInv lt s' ∧ s'.nodes_.length = s.nodes_.length := by
  obtain ⟨F, hR, ht, hn, hh, hS, hO⟩ := h
  by_cases hF : F = nil
  · subst hF
    rw [pop_empty lt hR.head_nil] at hp
    cases hp
    exact ⟨⟨nil, hR, ht, hn, hh, hS, hO⟩, rfl⟩
  have htF := ht hF
  have hle : s.nodes_.length ≤ npos := le_of_lt hR.nodes_lt
  obtain ⟨hok, hfail⟩ := pop_spec lt hR htF
  by_cases hc : s.top_ ∈ heads F ∨ len F = 1
  swap
  · obtain ⟨e, he⟩ := hfail hc
    rw [he] at hp
    cases hp
  obtain ⟨s4, tv, hrun, hR2, ht2, -, -, -, hl⟩ := hok hc
  have e4 : s' = s4 := by
    have := hp.symm.trans hrun
    cases this
    rfl
  subst e4
  have hS' := (Slots.slots_pop lt hS hR.nodes_lt hp).1
  obtain ⟨hnd3, htn3, hsub3⟩ := popF_idxs lt s.top_ F hR.nodup hc
  refine ⟨⟨_, hR2, ?_, ?_, hord_popF lt hsw.negtrans hsw.asymm _ F hh, hS', ?_⟩, hl⟩
  · intro hne
    rw [ht2]
    exact heads_sub _ _ (topF_mem lt _ hne)
  · intro he
    rw [ht2, he]
    rfl
  -- the nodes outside of the forest
  have hhead : s.head_ ≠ npos := by
    cases F with
    | nil => exact absurd rfl hF
    | node i a c t =>
      have := hR.forest
      rw [rep_node] at this
      obtain ⟨e1, n, hn, _⟩ := this
      rw [e1]
      exact ne_npos_of_get hle hn
  have hp' := hp
  unfold pop at hp'
  rw [if_neg hhead] at hp'
  obtain ⟨⟨ns1, nh⟩, h1, hp1⟩ := bind_ok hp'
  obtain ⟨s2, h2, hp2⟩ := bind_ok hp1
  obtain ⟨s3, h3, hp3⟩ := bind_ok hp2
  obtain ⟨t', -, hp4⟩ := bind_ok hp3
  clear hp' hp1 hp2 hp3
  obtain ⟨ns1', hrev, hFr1, hQ⟩ := pop_reverse_spec hle hR.forest hR.nodup htF
  have e1 : ns1 = ns1' ∧ nh = start npos (rev nil (childrenOf s.top_ F)) := by
    have := h1.symm.trans hrev
    cases this
    exact ⟨rfl, rfl⟩
  obtain ⟨e1a, e1b⟩ := e1
  subst e1a
  subst e1b
  obtain ⟨hok2, -⟩ := pop_unlink_spec lt hR.nodes_lt hR.forest hR.nodup htF hFr1 hQ
  obtain ⟨s2', hun, hd2, hr2, -, hFr2, -⟩ := hok2 hc
  have e2 : s2 = s2' := by
    have := h2.symm.trans hun
    cases this
    rfl
  subst e2
  have hs1 := pop_reverse_slots h1
  obtain ⟨hs2, -, -, -⟩ := pop_unlink_slots lt h2
  have hS2 : Slots s2 := Slots.slots_same hS (hs1.same_trans hs2) hd2 hr2
  have hl2 : s2.nodes_.length = s.nodes_.length := (hs1.same_trans hs2).1
  obtain ⟨hfw, hbw⟩ := compact_nodes hS2 (by rw [hl2]; exact hR.nodes_lt) h3
  -- the nodes outside of the forest before the third block
  have hmid : ∀ (c : Nat) (nc : binomial_heap_node), c ≠ s.top_ → s2.nodes_[c]? = some nc →
      c ∉ idxs (popF lt s.top_ F) → nc.index < s2.data_.length → nc.parent ≠ npos →
      nc.parent ∉ idxs (popF lt s.top_ F) ∧ nc.parent ≠ s.top_ ∧
      ∃ (np : binomial_heap_node) (vp vc : α), s2.nodes_[nc.parent]? = some np ∧
        s2.data_[np.index]? = some vp ∧ s2.data_[nc.index]? = some vc ∧ lt vp vc = false := by
    intro c nc hct hnc hcF hlive hpar
    rw [hd2] at hlive ⊢
    by_cases hA : s.top_ ∈ heads F
    · have hperm := idxs_popF lt s.top_ F hR.nodup hA
      have hcF0 : c ∉ idxs F := by
        intro e
        rcases List.mem_cons.1 (hperm.subset e) with e | e
        · exact hct e
        · exact hcF e
      rw [hFr2.2.1 c hcF0] at hnc
      obtain ⟨hpF, np, vp, vc, g1, g2, g3, g4⟩ := hO c nc hnc hcF0 hlive hpar
      refine ⟨fun e => hpF (hsub3 _ e), fun e => hpF (e ▸ htF), np, vp, vc, ?_, g2, g3, g4⟩
      rw [hFr2.2.1 _ hpF]
      exact g1
    · have hB : len F = 1 := by
        rcases hc with e | e
        · exact absurd e hA
        · exact e
      cases F with
      | nil => exact absurd rfl hF
      | node i a c0 r =>
        cases r with
        | node j b c1 r1 => simp at hB
        | nil =>
          have hrepF := hR.forest
          rw [rep_node] at hrepF
          obtain ⟨ehead, n0, hn0, -, -, -, -, -, hsib⟩ := hrepF
          simp only [rep_nil] at hsib
          have hiC : i ∉ idxs (childrenOf s.top_ (node i a c0 nil)) :=
            heads_not_children s.top_ _ hR.nodup i (by simp)
          have hn0' : ns1[i]? = some n0 := by
            rw [hFr1.2.1 i hiC]
            exact hn0
          have hnodes : s2.nodes_ = ns1 := by
            have hu := h2
            unfold pop_unlink at hu
            simp only [ehead, at_ok hn0', ok_bind, hsib, if_true] at hu
            cases hu
            rfl
          have hpermC : (idxs (popF lt s.top_ (node i a c0 nil))).Perm
              (idxs (childrenOf s.top_ (node i a c0 nil))) := by
            rw [popF_single]
            exact (idxs_rev _ nil).trans (by simp)
          have hcC : c ∉ idxs (childrenOf s.top_ (node i a c0 nil)) :=
            fun e => hcF (hpermC.symm.subset e)
          rw [hnodes, hFr1.2.1 c hcC] at hnc
          rw [hnodes]
          have hsubC := (childrenOf_sublist s.top_ (node i a c0 nil)).subset
          by_cases hcF0 : c ∈ idxs (node i a c0 nil)
          · rcases rep_parent_outside s.top_ _ npos npos s.head_ hR.forest hR.nodup c hcF0 hct
              hcC nc hnc with e | ⟨k1, k2, k3⟩
            · exact absurd e hpar
            · obtain ⟨np, vp, vc, g1, g2, g3, g4⟩ := rep_order lt _ npos npos s.head_
                hR.forest hh (fun e => absurd rfl e) c hcF0 nc hnc hpar
              refine ⟨fun e => k3 (hpermC.subset e), k2, np, vp, vc, ?_, g2, g3, g4⟩
              rw [hFr1.2.1 _ k3]
              exact g1
          · obtain ⟨hpF, np, vp, vc, g1, g2, g3, g4⟩ := hO c nc hnc hcF0 hlive hpar
            have k3 : nc.parent ∉ idxs (childrenOf s.top_ (node i a c0 nil)) :=
              fun e => hpF (hsubC e)
            refine ⟨fun e => k3 (hpermC.subset e), fun e => hpF (e ▸ htF), np, vp, vc, ?_,
              g2, g3, g4⟩
            rw [hFr1.2.1 _ k3]
            exact g1
  cases hp4
  intro c nc hnc hcF hlive hpar
  change s3.nodes_[c]? = some nc at hnc
  change nc.index < s3.data_.length at hlive
  show _ ∧ ∃ (np : binomial_heap_node) (vp vc : α), s3.nodes_[nc.parent]? = some np ∧
      s3.data_[np.index]? = some vp ∧ s3.data_[nc.index]? = some vc ∧ lt vp vc = false
  obtain ⟨hct, n, hn, hnl⟩ := hbw c nc hnc hlive
  obtain ⟨n', k1, k2, k3, k4⟩ := hfw c n hct hn hnl
  rw [hnc] at k1
  cases k1
  rw [k2] at hpar ⊢
  obtain ⟨m1, m2, np, vp, vc, g1, g2, g3, g4⟩ := hmid c n hct hn hcF hnl hpar
  obtain ⟨np', q1, q2, q3, q4⟩ := hfw _ np m2 g1 (lt_of_get g2)
  exact ⟨m1, np', vp, vc, q1, by rw [q4]; exact g2, by rw [k4]; exact g3, g4⟩

/-- Every state reached from a state in heap order is in heap order. -/
theorem OInv.oinv_runFrom (lt : α → α → Bool) (hsw : StrictWeak lt) : ∀ (ops : List (Op α))
    (s s' : binomial_heap α), OInv lt s → s.nodes_.length + ops.length < npos →
    runFrom lt s ops = .ok s' → OInv lt s' := by
  intro ops
  induction ops with
  | nil =>
    intro s s' h _ hr
    cases hr
    exact h
  | cons o os ih =>
    intro s s' h hb hr
    obtain ⟨s1, hs, hr1⟩ := runFrom_cons_ok hr
    simp only [List.length_cons] at hb
    cases o with
    | push d =>
      obtain ⟨hi, hl⟩ := OInv.oinv_push lt hsw h (by omega) hs
      exact ih s1 s' hi (by omega) hr1
    | pop =>
      obtain ⟨hi, hl⟩ := OInv.oinv_pop lt hsw h hs
      exact ih s1 s' hi (by omega) hr1

/-- A state with the invariant is in heap order. -/
theorem OInv.heap_order {lt : α → α → Bool} {s : binomial_heap α} (h : OInv lt s) :
    HeapOrder lt s := by
  obtain ⟨F, hR, -, -, hh, -, hO⟩ := h
  intro c nc hnc hlive hpar
  by_cases hc : c ∈ idxs F
  · exact rep_order lt F npos npos s.head_ hR.forest hh (fun e => absurd rfl e) c hc nc hnc hpar
  · exact (hO c nc hnc hc hlive hpar).2

end origin

namespace origin

variable {α : Type}

open Forest binomial_heap

/-- C21: in every state that fewer than `2 ^ 64 - 1` calls of `push` and `pop` reach from the
empty flat heap with a comparator that is a strict weak order, whatever the values are, every
live node `c` (a node whose `index` field is a position of `data_`) whose `parent` field is a
node has a live parent `p`, and `compare_(value of p, value of c)` is false. -/
theorem heap_order_holds (compare_ : α → α → Bool) (hsw : StrictWeak compare_)
    (ops : List (Op α)) (s : binomial_heap α) (hb : ops.length < npos)
    (hr : run compare_ ops = .ok s) :
    ∀ (c : Nat) (nc : binomial_heap_node), s.nodes_[c]? = some nc → nc.index < s.size →
      nc.parent ≠ npos →
      ∃ (np : binomial_heap_node) (vp vc : α), s.nodes_[nc.parent]? = some np ∧
        np.index < s.size ∧ s.data_[np.index]? = some vp ∧ s.data_[nc.index]? = some vc ∧
        compare_ vp vc = false := by
  have h := (OInv.oinv_runFrom compare_ hsw ops binomial_heap.new s (OInv.oinv_new compare_)
    (by simpa [binomial_heap.new] using hb) hr).heap_order
  intro c nc hnc hlive hpar
  obtain ⟨np, vp, vc, h1, h2, h3, h4⟩ := h c nc hnc hlive hpar
  exact ⟨np, vp, vc, h1, lt_of_get h2, h2, h3, h4⟩

/-- Instance: with `std::less` on integers, after
`push 0, push 1, push 1, push 1, pop, push 0, pop`, where equal values were held and a tree
was cut off the root list, the node 4 is live and has the parent 2, and heap order holds
between every live node and its parent. -/
theorem heap_order_holds_witness :
    StrictWeak less ∧
    ∃ s, run less [.push 0, .push 1, .push 1, .push 1, .pop, .push 0, .pop] = .ok s ∧
      (∃ nc, s.nodes_[4]? = some nc ∧ nc.index < s.size ∧ nc.parent = 2) ∧
      ∀ (c : Nat) (nc : binomial_heap_node), s.nodes_[c]? = some nc → nc.index < s.size →
        nc.parent ≠ npos →
        ∃ (np : binomial_heap_node) (vp vc : Nat), s.nodes_[nc.parent]? = some np ∧
          np.index < s.size ∧ s.data_[np.index]? = some vp ∧ s.data_[nc.index]? = some vc ∧
          less vp vc = false :=
  ⟨less_strictWeak, _, rfl, ⟨_, rfl, by decide, rfl⟩,
    heap_order_holds less less_strictWeak
      [.push 0, .push 1, .push 1, .push 1, .pop, .push 0, .pop] _ (by decide) rfl⟩

/-- C22 fails on the code: from the default constructors, the first `push` returns on the flat
heap, which then holds the pushed value at the top, and faults on the mutable heap, whose
`empty()` compares `head_` with `-1u` and is false, so that `push` reads `nodes_[top_]`
outside the vector. From the state `held3`, where `head_` is a node, the calls `push` and
`pop` leave the same `data_`, `nodes_`, `head_` and `top_` in both classes. -/
theorem lock_step_breaks_at_first_push :
    (∃ s, run less [.push 10] = .ok s ∧ s.size = 1 ∧ s.top = .ok 10) ∧
    mrunFrom less id (mutable_binomial_heap.new : mutable_binomial_heap Nat Nat) [.push 10] =
      .error .outOfBounds ∧
    ∃ (m : mutable_binomial_heap (Nat × Nat) Nat) (f : binomial_heap (Nat × Nat)),
      mrunFrom less_priority Prod.fst held3 [.push (4, 40), .pop] = .ok m ∧
      runFrom less_priority { held3.flat with reversemap_ := [0, 1, 2] }
        [.push (4, 40), .pop] = .ok f ∧
      m.data_ = f.data_ ∧ m.nodes_ = f.nodes_ ∧ m.head_ = f.head_ ∧ m.top_ = f.top_ ∧
      m.top = f.top ∧ m.size = f.size :=
  ⟨⟨_, rfl, rfl, rfl⟩, rfl, _, _, rfl, rfl, rfl, rfl, rfl, rfl, rfl, rfl⟩

end origin
